import Mathlib

/-!
# STWCalc: the calculator engine (`engine.c`) and its arithmetic library (`math_library.c`)

A shallow embedding of the C sources and theorems about it.

Modelling conventions.

* `long double` values are rationals (`ℚ`). Every arithmetic operation of the code rounds its
  exact result to the nearest value of the x87 extended format (64-bit significand, ties to even,
  gradual underflow): `round_ld`. `sscanf("%Lf")` rounds the decimal number it reads in the same
  way. The `double` literals `9.999999999e99` and `1e-8` and the conversion `double num =
  eng->memory` round to the nearest `double` (53-bit significand): `round_double`; a memory
  beyond the largest `double` is converted to an infinity and displayed as `inf`
  (`fmt_double`). `long double` infinities, NaN and the sign of zero are outside the model: a
  result beyond the largest `long double` stays a rational where the code has an infinity, a
  zero has no sign, and a division by zero inside `root` is the rational `0`.
* `char` arrays are lists of characters. `engine_t.input_buffer` and `result_t.to_display` are the
  whole arrays (`BUFFER_SIZE + 1` bytes in C), including the bytes stored after the terminating
  NUL; `cstr` is the C string such an array holds. A read outside the list yields NUL and a write
  outside the list has no effect (both are undefined in C).
* `int` fields (`sel_op`, `status`, the two limits, return codes) are integers; the enumerators
  are the integer constants of `engine.h`.
* `unsigned long` is 64 bits wide and `unsigned int` 32 bits wide; their arithmetic wraps.
  The conversion of a `long double` to `long` is truncation toward zero; for a value outside
  the range of `long` it is undefined in C and the model gives what x86-64 gives, the most
  negative `long` (`to_long`).
* `assert(eng != NULL)` always holds in the embedding. `assert(digit >= '0' && digit <= '9')` is
  a precondition of `caleng_send_digit`; statements that depend on it carry it as a hypothesis.
  The assertion on `sscanf` in `caleng_process_input_buffer` is modelled: a failure is the
  result `Except.error fault.assert_failed`.
* The `while` loop of `root` runs on fuel; running out of it is `fault.out_of_fuel`.
-/

namespace STWCalc

/-! ## C strings -/

/-- The terminator of a C string. -/
def NUL : Char := Char.ofNat 0

/-- Reading `str[i]`. -/
def char_at (str : List Char) (i : Nat) : Char := str.getD i NUL

/-- The C string stored in a character array: the characters before the first NUL. -/
def cstr (str : List Char) : List Char := str.takeWhile (fun c => c != NUL)

/-- C `strlen`. -/
def strlen (str : List Char) : Nat := (cstr str).length

/-- The search of `strchr` over the characters from index `i` on. -/
def strchr_from (c : Char) : List Char → Nat → Option Nat
  | [], _ => none
  | x :: xs, i => if x = c then some i else if x = NUL then none else strchr_from c xs (i + 1)

/-- C `strchr(str + start, c)`, as the index of the character found. -/
def strchr (str : List Char) (start : Nat) (c : Char) : Option Nat :=
  strchr_from c (str.drop start) start

/-- C `strcpy(dst, src)` where `src` holds the text `text`: the text and a terminator are
written at the start of `dst`, the remaining bytes of `dst` are kept. -/
def strcpy (dst : List Char) (text : List Char) : List Char :=
  (text ++ [NUL]) ++ dst.drop (text.length + 1)

/-- The loop of `append_char_in_string`, entered at index `i` with the carried character `tmp`. -/
def append_char_loop : Nat → List Char → Nat → Char → List Char
  | 0, str, _, _ => str
  | k + 1, str, i, tmp =>
    if char_at str i != NUL then
      append_char_loop k (str.set i tmp) (i + 1) (char_at str i)
    else
      (str.set i tmp).set (i + 1) NUL

/-- Embedding of `append_char_in_string`. -/
def append_char_in_string (str : List Char) (c : Char) (index : Nat) : List Char :=
  append_char_loop (str.length + 1) (str.set index c) (index + 1) (char_at str index)

/-- The loop of `remove_char_in_string`. -/
def remove_char_loop : Nat → List Char → Nat → List Char
  | 0, str, _ => str
  | k + 1, str, i =>
    if char_at str i != NUL then
      remove_char_loop k (str.set i (char_at str (i + 1))) (i + 1)
    else
      str

/-- Embedding of `remove_char_in_string`. -/
def remove_char_in_string (str : List Char) (index : Nat) : List Char :=
  remove_char_loop (str.length + 1) str index

/-- Embedding of `caleng_format_display_input`. -/
def caleng_format_display_input (str : List Char) : List Char :=
  if strlen str = 0 then
    strcpy str ['0']
  else
    match strchr str 0 'e' with
    | some pos =>
      if char_at str (pos + 1) = NUL then
        (str.set (pos + 1) '0').set (pos + 2) NUL
      else
        match strchr str pos '-' with
        | some p => if char_at str (p + 1) = NUL then (str.set (p + 1) '0').set (p + 2) NUL else str
        | none => str
    | none =>
      match strchr str 0 '-' with
      | some p => if char_at str (p + 1) = NUL then (str.set (p + 1) '0').set (p + 2) NUL else str
      | none => str

/-! ## Binary floating point -/

/-- The power of two `2 ^ e` for an integer `e`. -/
def pow2 (e : Int) : ℚ := if 0 ≤ e then ((2 ^ e.toNat : Nat) : ℚ) else 1 / ((2 ^ (-e).toNat : Nat) : ℚ)

/-- The loop that counts the binary digits of `n`, by steps of 64, 16, 4 and 1 digits. -/
def ilog2_loop : Nat → Nat → Nat → Nat
  | 0, _, acc => acc
  | f + 1, n, acc =>
    if 2 ^ 64 ≤ n then ilog2_loop f (n / 2 ^ 64) (acc + 64)
    else if 2 ^ 16 ≤ n then ilog2_loop f (n / 2 ^ 16) (acc + 16)
    else if 2 ^ 4 ≤ n then ilog2_loop f (n / 2 ^ 4) (acc + 4)
    else if 2 ≤ n then ilog2_loop f (n / 2) (acc + 1)
    else acc

/-- The number of binary digits of `n`, minus one (`0` for `n < 2`). -/
def ilog2_nat (n : Nat) : Nat := ilog2_loop n n 0

/-- The binary exponent of a positive rational: the `e` with `2 ^ e ≤ a < 2 ^ (e + 1)`. -/
def ilog2 (a : ℚ) : Int :=
  let e0 : Int := (ilog2_nat a.num.natAbs : Int) - (ilog2_nat a.den : Int)
  if pow2 e0 ≤ a then e0 else e0 - 1

/-- Rounding of a non-negative rational to the nearest natural number, ties to even. -/
def round_half_even (a : ℚ) : Nat :=
  let f := a.num.natAbs / a.den
  let r := a - (f : ℚ)
  if r < 1 / 2 then f else if 1 / 2 < r then f + 1 else if f % 2 = 0 then f else f + 1

/-- Rounding to the nearest value of a binary floating-point format with a significand of `p`
bits and the least exponent `emin`, ties to even. Below `2 ^ emin` the values of the format are
the multiples of `2 ^ (emin - (p - 1))`. The format's largest value is not modelled. -/
def round_bin (p : Nat) (emin : Int) (q : ℚ) : ℚ :=
  if q = 0 then 0
  else
    let e := max (ilog2 |q|) emin
    let u := pow2 (e - ((p : Int) - 1))
    let r := (round_half_even (|q| / u) : ℚ) * u
    if q < 0 then -r else r

/-- Rounding to `long double`, the x87 extended format. -/
def round_ld (q : ℚ) : ℚ := round_bin 64 (-16382) q

/-- Rounding to `double`. -/
def round_double (q : ℚ) : ℚ := round_bin 53 (-1022) q

/-! ## The arithmetic library (`math_library.c`) -/

/-- Embedding of `add`. -/
def add (x y : ℚ) : ℚ := round_ld (x + y)

/-- Embedding of `sub`. -/
def sub (x y : ℚ) : ℚ := round_ld (x - y)

/-- Embedding of `mul`. -/
def mul (x y : ℚ) : ℚ := round_ld (x * y)

/-- Embedding of `divide`. -/
def divide (x y : ℚ) : ℚ := round_ld (x / y)

/-- The loop of `factorial`: `k` iterations remain, `i` is the loop variable and `result` the
64-bit accumulator. -/
def factorial_loop : Nat → Nat → Nat → Nat
  | 0, _, result => result
  | k + 1, i, result => factorial_loop k (i + 1) ((result * i) % 2 ^ 64)

/-- Embedding of `factorial`. -/
def factorial (x : Nat) : Nat := factorial_loop x 1 1

/-- The loop of `power`: `k` iterations remain. -/
def power_loop (x : ℚ) : Nat → ℚ → ℚ
  | 0, result => result
  | k + 1, result => power_loop x k (round_ld (result * x))

/-- Embedding of `power`. -/
def power (x : ℚ) (y : Nat) : ℚ := power_loop x y 1

/-- The reasons for which a call produces no result. -/
inductive fault where
  | assert_failed
  | out_of_fuel
  deriving DecidableEq

/-- Equality of outcomes is decidable. -/
instance decEqExcept {ε α : Type} [DecidableEq ε] [DecidableEq α] : DecidableEq (Except ε α) :=
  fun a b =>
    match a, b with
    | Except.ok x, Except.ok y =>
      if h : x = y then isTrue (by rw [h]) else isFalse (fun e => h (by injection e))
    | Except.error x, Except.error y =>
      if h : x = y then isTrue (by rw [h]) else isFalse (fun e => h (by injection e))
    | Except.ok _, Except.error _ => isFalse (fun e => by cases e)
    | Except.error _, Except.ok _ => isFalse (fun e => by cases e)

/-- The `while` loop of `root`, on fuel. -/
def root_loop (x : ℚ) (y : Nat) : Nat → ℚ → ℚ → Except fault ℚ
  | 0, num, var =>
    if var > round_double (1 / 10 ^ 8) then Except.error fault.out_of_fuel else Except.ok num
  | fuel + 1, num, var =>
    if var > round_double (1 / 10 ^ 8) then
      let new_num :=
        round_ld (round_ld (round_ld (round_ld ((y : ℚ) - 1) * num)
          + round_ld (x / power num ((y + 2 ^ 64 - 1) % 2 ^ 64))) / (y : ℚ))
      let var1 := round_ld (num - new_num)
      let var2 := if var1 < 0 then round_ld (var1 * (-1)) else var1
      root_loop x y fuel new_num var2
    else
      Except.ok num

/-- Embedding of `root`. -/
def root (fuel : Nat) (x : ℚ) (y : Nat) : Except fault ℚ :=
  if x = 0 then Except.ok 0 else root_loop x y fuel (round_ld (x / (y : ℚ))) 1

/-- Conversion of an `unsigned long` to `int` (32 bits, two's complement). -/
def to_int (n : Nat) : Int :=
  if n % 2 ^ 32 < 2 ^ 31 then ((n % 2 ^ 32 : Nat) : Int) else ((n % 2 ^ 32 : Nat) : Int) - 2 ^ 32

/-- The inner loop of `comb`: `comb_num[k] += comb_num[k - 1]` for `k` from its start value
down to 1, in 32-bit unsigned arithmetic. -/
def comb_row : Nat → List Nat → List Nat
  | 0, comb_num => comb_num
  | k + 1, comb_num =>
    comb_row k (comb_num.set (k + 1) ((comb_num.getD (k + 1) 0 + comb_num.getD k 0) % 2 ^ 32))

/-- The outer loop of `comb`: `n` iterations remain and `j` is the loop variable. -/
def comb_loop (y : Nat) : Nat → Nat → List Nat → List Nat
  | 0, _, comb_num => comb_num
  | n + 1, j, comb_num =>
    comb_loop y n (j + 1) (comb_row (to_int (if j < y then j else y)).toNat comb_num)

/-- Embedding of `comb`. -/
def comb (x y : Nat) : Nat :=
  (comb_loop y x 1 ((List.replicate (y + 1) 0).set 0 1)).getD y 0

/-! ## The engine (`engine.h`, `engine.c`) -/

/-- Length of a regular buffer for number input. -/
def BUFFER_SIZE : Nat := 100

def DEFAULT_MANTISSA_LENGTH_LIMIT : Int := 9

def DEFAULT_EXPONENT_LENGTH_LIMIT : Int := 2

/-! `enum binary_ops` -/

def NONE : Int := 0

def EVAL : Int := 1

def ADD : Int := 2

def SUB : Int := 3

def MUL : Int := 4

def DIV : Int := 5

def POW : Int := 6

def ROOT : Int := 7

def COMBINATIONAL : Int := 8

/-! `enum unary_ops` -/

def FACT : Int := 0

/-! `enum result_rtn_types` -/

def OK : Int := 0

def OVERFLOW_ERR : Int := 1

def SYNTAX_ERR : Int := 2

def MATH_ERR : Int := 3

/-- Embedding of `struct cal_engine`. -/
structure engine_t where
  memory : ℚ
  input_buffer : List Char
  sel_op : Int
  mantissa_length_limit : Int
  exponent_length_limit : Int
  status : Int
  dp_sep : Char
  deriving DecidableEq

/-- Embedding of `struct action_result`. -/
structure result_t where
  rtn_code : Int
  to_display : List Char
  deriving DecidableEq

/-- The initialiser `{OK, ""}` of a `result_t`: the whole array is zeroed. -/
def result_init : result_t := ⟨OK, List.replicate (BUFFER_SIZE + 1) NUL⟩

/-- The text shown for a result. -/
def result_t.text (r : result_t) : List Char := cstr r.to_display

/-- The text stored in the input buffer. -/
def engine_t.text (eng : engine_t) : List Char := cstr eng.input_buffer

/-! ## The C library: `sscanf("%Lf")` and `sprintf("%g")` -/

/-- A decimal digit character. -/
def is_digit (c : Char) : Bool := decide ('0' ≤ c) && decide (c ≤ '9')

/-- The value of a digit character. -/
def digit_val (c : Char) : Nat := c.toNat - '0'.toNat

/-- The value of a sequence of decimal digits. -/
def digits_val (ds : List Char) : Nat := ds.foldl (fun acc c => 10 * acc + digit_val c) 0

/-- The power of ten `10 ^ e` for an integer `e`. -/
def pow10 (e : Int) : ℚ := if 0 ≤ e then ((10 ^ e.toNat : Nat) : ℚ) else 1 / ((10 ^ (-e).toNat : Nat) : ℚ)

/-- An optional sign: whether the number is negative, and the characters after the sign. -/
def scan_sign (s : List Char) : Bool × List Char :=
  match s with
  | '-' :: r => (true, r)
  | '+' :: r => (false, r)
  | _ => (false, s)

/-- The exponent part of a decimal floating-point numeral: `none` is an `e` that no digit
follows. -/
def scan_exponent (s : List Char) : Option Int :=
  match s with
  | c :: r =>
    if c = 'e' ∨ c = 'E' then
      let sg := scan_sign r
      let ds := sg.2.takeWhile is_digit
      if ds = [] then none
      else some (if sg.1 then -(digits_val ds : Int) else (digits_val ds : Int))
    else some 0
  | [] => some 0

/-- The decimal number that a text starts with: a decimal floating-point numeral (optional
sign, digits with an optional radix character `dp`, optional exponent part), the only form the
engine writes. The result is `none` when the text does not start with a numeral. Text after the
numeral is not read. -/
def scan_decimal (dp : Char) (text : List Char) : Option ℚ :=
  let sg := scan_sign text
  let ip := sg.2.takeWhile is_digit
  let r1 := sg.2.dropWhile is_digit
  let fp := match r1 with
    | c :: r => if c = dp then r.takeWhile is_digit else []
    | [] => []
  let r2 := match r1 with
    | c :: r => if c = dp then r.dropWhile is_digit else r1
    | [] => []
  if ip = [] ∧ fp = [] then none
  else
    match scan_exponent r2 with
    | none => none
    | some e =>
      let m : ℚ := (digits_val (ip ++ fp) : ℚ) * pow10 (e - (fp.length : Int))
      some (if sg.1 then -m else m)

/-- Modelled from the C standard: `sscanf(str, "%Lf", &num)`. The result is the `long double`
nearest to the decimal number read, or `none` when no conversion is made (the call returns
0). -/
def scan_Lf (dp : Char) (text : List Char) : Option ℚ :=
  match scan_decimal dp text with
  | some v => some (round_ld v)
  | none => none

/-- The number of decimal digits of `n`, minus one (`0` for `n < 10`). -/
def ilog10_nat (n : Nat) : Nat := (Nat.toDigits 10 n).length - 1

/-- The decimal exponent of a positive rational: the `e` with `10 ^ e ≤ a < 10 ^ (e + 1)`. -/
def ilog10 (a : ℚ) : Int :=
  let e0 : Int := (ilog10_nat a.num.natAbs : Int) - (ilog10_nat a.den : Int)
  if pow10 e0 ≤ a then e0 else e0 - 1

/-- Removal of the trailing zeros of a fraction part. -/
def strip_zeros (ds : List Char) : List Char := (ds.reverse.dropWhile (fun c => c = '0')).reverse

/-- Modelled from the C standard: the text `sprintf(str, "%g", num)` writes for the value `q`
of a `double` (precision 6, style `e` when the decimal exponent of the rounded value is below -4 or at least 6,
style `f` otherwise, trailing zeros and a trailing radix character removed), with `dp` the radix
character of the locale. -/
def fmt_g (dp : Char) (q : ℚ) : List Char :=
  if q = 0 then ['0']
  else
    let a := |q|
    let x0 := ilog10 a
    let m0 := round_half_even (a / pow10 (x0 - 5))
    let m := if 10 ^ 6 ≤ m0 then m0 / 10 else m0
    let x := if 10 ^ 6 ≤ m0 then x0 + 1 else x0
    let ds := Nat.toDigits 10 m
    let sign := if q < 0 then ['-'] else []
    let body :=
      if x < -4 ∨ 6 ≤ x then
        let frac := strip_zeros (ds.drop 1)
        let ex := Nat.toDigits 10 x.natAbs
        ds.take 1 ++ (if frac = [] then [] else dp :: frac) ++ ['e', if x < 0 then '-' else '+']
          ++ (if ex.length < 2 then '0' :: ex else ex)
      else if 0 ≤ x then
        let frac := strip_zeros (ds.drop (x.toNat + 1))
        ds.take (x.toNat + 1) ++ (if frac = [] then [] else dp :: frac)
      else
        ['0', dp] ++ List.replicate ((-x).toNat - 1) '0' ++ strip_zeros ds
    sign ++ body

/-! ## The engine functions -/

/-- The largest `double`. -/
def DBL_MAX : ℚ := (2 ^ 53 - 1) * 2 ^ 971

/-- The text that `sprintf(str, "%g", num)` writes after the conversion `double num = x` of a
`long double` `x`: when `x` rounded to 53 bits is beyond the largest `double` the conversion
gives an infinity, which is written as `inf` or `-inf`. -/
def fmt_double (dp : Char) (x : ℚ) : List Char :=
  if DBL_MAX < |round_double x| then (if x < 0 then ['-', 'i', 'n', 'f'] else ['i', 'n', 'f'])
  else fmt_g dp (round_double x)

/-- Embedding of `caleng_get_memory_string`: the memory is converted to `double`, and the `%g`
text of that value and its terminator are written at the start of `str_mem`. -/
def caleng_get_memory_string (eng : engine_t) (str_mem : List Char) : List Char :=
  strcpy str_mem (fmt_double eng.dp_sep eng.memory)

/-- Embedding of `caleng_process_input_buffer`: the number read and the engine with its buffer
emptied, or the failure of the assertion on `sscanf`. -/
def caleng_process_input_buffer (eng : engine_t) : Except fault (ℚ × engine_t) :=
  let buf1 := caleng_format_display_input eng.input_buffer
  let buf2 :=
    match strchr buf1 0 eng.dp_sep with
    | some point => if char_at buf1 (point + 1) = NUL then buf1.set point NUL else buf1
    | none => buf1
  match scan_Lf eng.dp_sep (cstr buf2) with
  | some num => Except.ok (num, { eng with input_buffer := buf2.set 0 NUL })
  | none => Except.error fault.assert_failed

/-- The conversion of a `long double` to `long`: truncation toward zero, and the most negative
`long` for a value outside the range (undefined in C, this is the result on x86-64). -/
def to_long (num : ℚ) : Int :=
  if -(2 ^ 63) ≤ Int.tdiv num.num (num.den : Int) ∧ Int.tdiv num.num (num.den : Int) < 2 ^ 63 then
    Int.tdiv num.num (num.den : Int)
  else -(2 ^ 63)

/-- The overflow test that ends `caleng_eval_bi_op`: the bound is the `double` literal
`9.999999999e99`. -/
def overflow_check (eng : engine_t) : Int × engine_t :=
  if eng.memory > round_double (9999999999 * 10 ^ 90)
      ∨ eng.memory < -round_double (9999999999 * 10 ^ 90) then
    (OVERFLOW_ERR, eng)
  else
    (OK, eng)

/-- Embedding of `caleng_eval_bi_op`: the return code and the engine after the call. -/
def caleng_eval_bi_op (fuel : Nat) (eng : engine_t) (num : ℚ) : Except fault (Int × engine_t) :=
  if eng.sel_op = ADD then
    Except.ok (overflow_check { eng with memory := add eng.memory num })
  else if eng.sel_op = SUB then
    Except.ok (overflow_check { eng with memory := sub eng.memory num })
  else if eng.sel_op = MUL then
    Except.ok (overflow_check { eng with memory := mul eng.memory num })
  else if eng.sel_op = DIV then
    if num = 0 then Except.ok (MATH_ERR, eng)
    else Except.ok (overflow_check { eng with memory := divide eng.memory num })
  else if eng.sel_op = POW then
    if to_long num < 0 then Except.ok (MATH_ERR, eng)
    else Except.ok (overflow_check { eng with memory := power eng.memory (to_long num).toNat })
  else if eng.sel_op = ROOT then
    if to_long num ≤ 0 then Except.ok (MATH_ERR, eng)
    else if eng.memory < 0 ∧ (to_long num) % 2 = 0 then Except.ok (MATH_ERR, eng)
    else
      match root fuel eng.memory (to_long num).toNat with
      | Except.ok v => Except.ok (overflow_check { eng with memory := v })
      | Except.error f => Except.error f
  else if eng.sel_op = COMBINATIONAL then
    if to_long eng.memory < 0 ∨ to_long num < 0 then Except.ok (MATH_ERR, eng)
    else
      Except.ok (overflow_check
        { eng with memory := ((comb (to_long eng.memory).toNat (to_long num).toNat : Nat) : ℚ) })
  else
    Except.ok (overflow_check eng)

/-- Embedding of `caleng_init`; `heap` is the content of the allocated block where the buffer
lies (its first byte is then set to NUL) and `dp` the first character of the locale's decimal
point. -/
def caleng_init (heap : List Char) (dp : Char) : engine_t :=
  { memory := 0
    input_buffer := heap.set 0 NUL
    sel_op := NONE
    mantissa_length_limit := DEFAULT_MANTISSA_LENGTH_LIMIT
    exponent_length_limit := DEFAULT_EXPONENT_LENGTH_LIMIT
    status := OK
    dp_sep := dp }

/-- Embedding of `caleng_cancel`. -/
def caleng_cancel (eng : engine_t) : result_t × engine_t :=
  ({ result_init with to_display := strcpy result_init.to_display ['0'] },
   { eng with input_buffer := eng.input_buffer.set 0 NUL, memory := 0, sel_op := NONE, status := OK })

/-- The loop of `caleng_backspace`: `k` iterations remain. -/
def backspace_loop (buf : List Char) : Nat → Nat → List Char
  | 0, _ => buf
  | k + 1, i => if char_at buf i = NUL then buf.set (i - 1) NUL else backspace_loop buf k (i + 1)

/-- The end of every editing function: the buffer is copied to the display and formatted. -/
def display_buffer (r : result_t) (eng : engine_t) : result_t :=
  { r with to_display := caleng_format_display_input (strcpy r.to_display (cstr eng.input_buffer)) }

/-- Embedding of `caleng_backspace`. -/
def caleng_backspace (eng : engine_t) : result_t × engine_t :=
  if eng.status ≠ OK then
    ({ result_init with rtn_code := eng.status }, eng)
  else if char_at eng.input_buffer 0 = NUL then
    ({ result_init with to_display := strcpy result_init.to_display ['0'] }, eng)
  else
    let eng1 := { eng with input_buffer := backspace_loop eng.input_buffer BUFFER_SIZE 0 }
    if char_at eng1.input_buffer 0 = NUL then
      ({ result_init with to_display := strcpy result_init.to_display ['0'] }, eng1)
    else
      (display_buffer result_init eng1, eng1)

/-- The local variables of the scan in `caleng_send_digit`. -/
structure digit_scan where
  minus_inserted : Bool
  exponent_mode : Bool
  dpoint_inserted : Bool
  digits_detected : Int
  exponent_index : Nat
  deriving DecidableEq

/-- The branch of the scan in `caleng_send_digit` taken at the end of the buffer text, at
index `i`. -/
def send_digit_at_end (eng : engine_t) (digit : Char) (i : Nat) (s : digit_scan) : List Char :=
  let j := (if s.minus_inserted then 1 else 0) + s.exponent_index
  if char_at eng.input_buffer j = '0' ∧ ¬ s.dpoint_inserted then
    eng.input_buffer.set j digit
  else if s.exponent_mode then
    if s.digits_detected < eng.exponent_length_limit then
      (eng.input_buffer.set i digit).set (i + 1) NUL
    else eng.input_buffer
  else
    if s.digits_detected < eng.mantissa_length_limit then
      (eng.input_buffer.set i digit).set (i + 1) NUL
    else eng.input_buffer

/-- The scan of `caleng_send_digit`: `k` iterations remain and `i` is the loop variable. The
result is the buffer after the loop. -/
def send_digit_loop (eng : engine_t) (digit : Char) : Nat → Nat → digit_scan → List Char
  | 0, _, _ => eng.input_buffer
  | k + 1, i, s =>
    if char_at eng.input_buffer i = '-' then
      send_digit_loop eng digit k (i + 1) { s with minus_inserted := true }
    else if char_at eng.input_buffer i = eng.dp_sep then
      send_digit_loop eng digit k (i + 1) { s with dpoint_inserted := true }
    else if '0' ≤ char_at eng.input_buffer i ∧ char_at eng.input_buffer i ≤ '9' then
      send_digit_loop eng digit k (i + 1) { s with digits_detected := s.digits_detected + 1 }
    else if char_at eng.input_buffer i = 'e' then
      send_digit_loop eng digit k (i + 1)
        { minus_inserted := false, exponent_mode := true, dpoint_inserted := false,
          digits_detected := 0, exponent_index := i }
    else if char_at eng.input_buffer i = NUL then
      send_digit_at_end eng digit i s
    else
      send_digit_loop eng digit k (i + 1) s

/-- The initial values of the local variables of the scan in `caleng_send_digit`. -/
def digit_scan_init : digit_scan :=
  { minus_inserted := false, exponent_mode := false, dpoint_inserted := false,
    digits_detected := 0, exponent_index := 0 }

/-- The statement that follows the edit in the inserting functions: a just-evaluated marker is
cleared. -/
def clear_eval (eng : engine_t) : engine_t :=
  if eng.sel_op = EVAL then { eng with sel_op := NONE } else eng

/-- Embedding of `caleng_send_digit`. -/
def caleng_send_digit (eng : engine_t) (digit : Char) : result_t × engine_t :=
  if eng.status ≠ OK then
    ({ result_init with rtn_code := eng.status }, eng)
  else
    let eng1 := { eng with input_buffer := send_digit_loop eng digit BUFFER_SIZE 0 digit_scan_init }
    let eng2 := clear_eval eng1
    (display_buffer result_init eng2, eng2)

/-- The first loop of `caleng_insert_exp`, which looks for a decimal point that no digit
follows: `k` iterations remain and `i` is the loop variable. The loop condition is
`i < BUFFER_SIZE || eng->input_buffer[i] != '\0'`. -/
def insert_exp_point_loop (eng : engine_t) : Nat → Nat → engine_t
  | 0, _ => eng
  | k + 1, i =>
    if i < BUFFER_SIZE ∨ char_at eng.input_buffer i ≠ NUL then
      if char_at eng.input_buffer i = eng.dp_sep then
        if char_at eng.input_buffer (i + 1) = NUL then (caleng_backspace eng).2 else eng
      else
        insert_exp_point_loop eng k (i + 1)
    else eng

/-- The second loop of `caleng_insert_exp`: `k` iterations remain, `i` is the loop variable and
`nz` is `non_zero_digits_detected`. -/
def insert_exp_loop (eng : engine_t) : Nat → Nat → Int → engine_t
  | 0, _, _ => eng
  | k + 1, i, nz =>
    if char_at eng.input_buffer i = 'e' then eng
    else if '0' < char_at eng.input_buffer i ∧ char_at eng.input_buffer i ≤ '9' then
      insert_exp_loop eng k (i + 1) (nz + 1)
    else if char_at eng.input_buffer i = NUL then
      let eng1 := if nz = 0 then (caleng_send_digit eng '1').2 else eng
      let i1 := if nz = 0 then strlen eng1.input_buffer else i
      { eng1 with input_buffer := (eng1.input_buffer.set i1 'e').set (i1 + 1) NUL }
    else
      insert_exp_loop eng k (i + 1) nz

/-- Embedding of `caleng_insert_exp`. -/
def caleng_insert_exp (eng : engine_t) : result_t × engine_t :=
  if eng.status ≠ OK then
    ({ result_init with rtn_code := eng.status }, eng)
  else
    let eng1 := insert_exp_point_loop eng (BUFFER_SIZE + eng.input_buffer.length + 1) 0
    let eng2 := insert_exp_loop eng1 BUFFER_SIZE 0 0
    let eng3 := clear_eval eng2
    (display_buffer result_init eng3, eng3)

/-- The loop of `caleng_insert_decimal_point`: `k` iterations remain, `i` is the loop variable
and `nz` is `non_zero_digits_detected`. -/
def insert_decimal_point_loop (eng : engine_t) : Nat → Nat → Int → engine_t
  | 0, _, _ => eng
  | k + 1, i, nz =>
    if char_at eng.input_buffer i = eng.dp_sep ∨ char_at eng.input_buffer i = 'e' then eng
    else if '0' < char_at eng.input_buffer i ∧ char_at eng.input_buffer i ≤ '9' then
      insert_decimal_point_loop eng k (i + 1) (nz + 1)
    else if char_at eng.input_buffer i = NUL then
      let eng1 := if nz = 0 then (caleng_send_digit eng '0').2 else eng
      let i1 := strlen eng1.input_buffer
      { eng1 with input_buffer := (eng1.input_buffer.set i1 eng1.dp_sep).set (i1 + 1) NUL }
    else
      insert_decimal_point_loop eng k (i + 1) nz

/-- Embedding of `caleng_insert_decimal_point`. -/
def caleng_insert_decimal_point (eng : engine_t) : result_t × engine_t :=
  if eng.status ≠ OK then
    ({ result_init with rtn_code := eng.status }, eng)
  else
    let eng1 := insert_decimal_point_loop eng BUFFER_SIZE 0 0
    let eng2 := clear_eval eng1
    (display_buffer result_init eng2, eng2)

/-- The loop of `caleng_negate` that looks for the exponent marker: `k` iterations remain and
`i` is the loop variable. The result is `exponent_mode` and the final value of `i`. -/
def negate_loop (buf : List Char) : Nat → Nat → Bool × Nat
  | 0, i => (false, i)
  | k + 1, i =>
    if char_at buf i ≠ NUL then
      if char_at buf i = 'e' then (true, i) else negate_loop buf k (i + 1)
    else (false, i)

/-- Embedding of `caleng_negate`. -/
def caleng_negate (eng : engine_t) : result_t × engine_t :=
  if eng.status ≠ OK then
    ({ result_init with rtn_code := eng.status }, eng)
  else
    let found := negate_loop eng.input_buffer BUFFER_SIZE 0
    let buf1 :=
      if found.1 then
        if char_at eng.input_buffer (found.2 + 1) = '-' then
          remove_char_in_string eng.input_buffer (found.2 + 1)
        else
          append_char_in_string eng.input_buffer '-' (found.2 + 1)
      else
        if char_at eng.input_buffer 0 = '-' then
          remove_char_in_string eng.input_buffer 0
        else
          append_char_in_string eng.input_buffer '-' 0
    let eng2 := clear_eval { eng with input_buffer := buf1 }
    (display_buffer result_init eng2, eng2)

/-- Embedding of `caleng_evaluate`. -/
def caleng_evaluate (fuel : Nat) (eng : engine_t) : Except fault (result_t × engine_t) :=
  if eng.status ≠ OK then
    Except.ok ({ result_init with rtn_code := eng.status }, eng)
  else if eng.sel_op = NONE ∨ eng.sel_op = EVAL then
    if eng.sel_op = NONE then
      match caleng_process_input_buffer eng with
      | Except.ok (num, eng1) =>
        let eng2 := { eng1 with memory := num }
        Except.ok ({ result_init with
                      to_display := caleng_get_memory_string eng2 result_init.to_display },
                   { eng2 with sel_op := EVAL })
      | Except.error f => Except.error f
    else
      Except.ok ({ result_init with
                    to_display := caleng_get_memory_string eng result_init.to_display },
                 { eng with sel_op := EVAL })
  else if char_at eng.input_buffer 0 = NUL then
    match caleng_eval_bi_op fuel eng eng.memory with
    | Except.ok (rtn, eng1) =>
      if rtn ≠ OK then
        Except.ok ({ result_init with rtn_code := rtn }, { eng1 with status := rtn })
      else
        Except.ok ({ rtn_code := rtn,
                     to_display := caleng_get_memory_string eng1 result_init.to_display },
                   { eng1 with sel_op := EVAL })
    | Except.error f => Except.error f
  else
    match caleng_process_input_buffer eng with
    | Except.ok (num, eng0) =>
      match caleng_eval_bi_op fuel eng0 num with
      | Except.ok (rtn, eng1) =>
        if rtn ≠ OK then
          Except.ok ({ result_init with rtn_code := rtn }, { eng1 with status := rtn })
        else
          Except.ok ({ rtn_code := rtn,
                       to_display := caleng_get_memory_string eng1 result_init.to_display },
                     { eng1 with sel_op := EVAL })
      | Except.error f => Except.error f
    | Except.error f => Except.error f

/-- The `switch` of `caleng_eval_un_op`, entered when the return code so far is `OK`: the new
return code and the engine. -/
def un_op_switch (eng : engine_t) (op : Int) : Int × engine_t :=
  if op = FACT then
    if to_long eng.memory < 0 then (MATH_ERR, eng)
    else if to_long eng.memory > 20 then (OVERFLOW_ERR, eng)
    else (OK, { eng with memory := ((factorial (to_long eng.memory).toNat : Nat) : ℚ) })
  else (OK, eng)

/-- The end of `caleng_eval_un_op`, after the operand is resolved with the result `r` so far. -/
def un_op_finish (r : result_t) (eng : engine_t) (op : Int) : result_t × engine_t :=
  let sw := if r.rtn_code = OK then un_op_switch eng op else (r.rtn_code, eng)
  if sw.1 ≠ OK then
    ({ r with rtn_code := sw.1 }, { sw.2 with status := sw.1 })
  else
    ({ rtn_code := sw.1, to_display := caleng_get_memory_string sw.2 r.to_display },
     { sw.2 with sel_op := EVAL })

/-- Embedding of `caleng_eval_un_op`. -/
def caleng_eval_un_op (fuel : Nat) (eng : engine_t) (op : Int) :
    Except fault (result_t × engine_t) :=
  if eng.status ≠ OK then
    Except.ok ({ result_init with rtn_code := eng.status }, eng)
  else if eng.sel_op = NONE then
    match caleng_process_input_buffer eng with
    | Except.ok (num, eng1) => Except.ok (un_op_finish result_init { eng1 with memory := num } op)
    | Except.error f => Except.error f
  else if eng.sel_op = EVAL ∧ char_at eng.input_buffer 0 = NUL then
    Except.ok (un_op_finish result_init eng op)
  else
    match caleng_evaluate fuel eng with
    | Except.ok (r, eng1) => Except.ok (un_op_finish r eng1 op)
    | Except.error f => Except.error f

/-- Embedding of `caleng_select_bi_op`. -/
def caleng_select_bi_op (fuel : Nat) (eng : engine_t) (op : Int) :
    Except fault (result_t × engine_t) :=
  if eng.status ≠ OK then
    Except.ok ({ result_init with rtn_code := eng.status }, eng)
  else if eng.sel_op = NONE then
    match caleng_process_input_buffer { eng with sel_op := op } with
    | Except.ok (num, eng1) =>
      let eng2 := { eng1 with memory := num }
      Except.ok ({ result_init with
                    to_display := caleng_get_memory_string eng2 result_init.to_display }, eng2)
    | Except.error f => Except.error f
  else if eng.sel_op = EVAL then
    let eng2 := { eng with sel_op := op }
    Except.ok ({ result_init with
                  to_display := caleng_get_memory_string eng2 result_init.to_display }, eng2)
  else if char_at eng.input_buffer 0 = NUL then
    let eng2 := { eng with sel_op := op }
    Except.ok ({ result_init with
                  to_display := caleng_get_memory_string eng2 result_init.to_display }, eng2)
  else
    match caleng_process_input_buffer eng with
    | Except.ok (num, eng0) =>
      match caleng_eval_bi_op fuel eng0 num with
      | Except.ok (rtn, eng1) =>
        let eng2 := { eng1 with sel_op := op }
        Except.ok ({ rtn_code := rtn,
                     to_display := caleng_get_memory_string eng2 result_init.to_display }, eng2)
      | Except.error f => Except.error f
    | Except.error f => Except.error f

/-! ## Gestures of the user interface -/

/-- The editing keys: each is one call of an editing function of the engine. -/
inductive edit_key where
  | digit (d : Char)
  | decimal_point
  | exponent
  | negate
  | backspace
  deriving DecidableEq

/-- The call made for an editing key. -/
def edit (eng : engine_t) : edit_key → result_t × engine_t
  | edit_key.digit d => caleng_send_digit eng d
  | edit_key.decimal_point => caleng_insert_decimal_point eng
  | edit_key.exponent => caleng_insert_exp eng
  | edit_key.negate => caleng_negate eng
  | edit_key.backspace => caleng_backspace eng

/-- The gestures: one per public operation of the engine that acts on an existing engine. -/
inductive gesture where
  | key (k : edit_key)
  | cancel
  | evaluate
  | un_op (op : Int)
  | bi_op (op : Int)
  deriving DecidableEq

/-- The call made for a gesture. -/
def perform (fuel : Nat) (eng : engine_t) : gesture → Except fault (result_t × engine_t)
  | gesture.key k => Except.ok (edit eng k)
  | gesture.cancel => Except.ok (caleng_cancel eng)
  | gesture.evaluate => caleng_evaluate fuel eng
  | gesture.un_op op => caleng_eval_un_op fuel eng op
  | gesture.bi_op op => caleng_select_bi_op fuel eng op

/-- The results and the final engine of a sequence of gestures; a fault ends the run. -/
def run (fuel : Nat) (eng : engine_t) : List gesture → Except fault (List result_t × engine_t)
  | [] => Except.ok ([], eng)
  | g :: gs =>
    match perform fuel eng g with
    | Except.ok (r, eng1) =>
      match run fuel eng1 gs with
      | Except.ok (rs, eng2) => Except.ok (r :: rs, eng2)
      | Except.error f => Except.error f
    | Except.error f => Except.error f

/-- What is observed of a run: the return code and displayed text of every gesture, and the
buffer text, memory, pending operation and status of the final engine. -/
structure view where
  shown : List (Int × String)
  buffer : String
  memory : ℚ
  sel_op : Int
  status : Int
  deriving DecidableEq

/-- The observation of a run, `none` when the run faults. -/
def run_view (fuel : Nat) (eng : engine_t) (gs : List gesture) : Option view :=
  match run fuel eng gs with
  | Except.ok (rs, eng1) =>
    some { shown := rs.map (fun r => (r.rtn_code, String.mk r.text))
           buffer := String.mk eng1.text
           memory := eng1.memory
           sel_op := eng1.sel_op
           status := eng1.status }
  | Except.error _ => none

/-- The digit key for a character. -/
def dg (d : Char) : gesture := gesture.key (edit_key.digit d)

/-- A zeroed heap block, as a fresh process gets it. -/
def zero_heap : List Char := List.replicate (BUFFER_SIZE + 1) NUL

/-- The engine right after `caleng_init` in a locale whose decimal point is `.`, on a zeroed
block. -/
def fresh : engine_t := caleng_init zero_heap '.'

/-- The separators that a locale's decimal point can be: any character that is not a digit, a
sign, the exponent marker or NUL. -/
def valid_sep (dp : Char) : Prop :=
  dp ≠ NUL ∧ dp ≠ '-' ∧ dp ≠ 'e' ∧ is_digit dp = false

instance (dp : Char) : Decidable (valid_sep dp) := by unfold valid_sep; infer_instance

/-- The engine a run from the fresh engine ends in (the fresh engine itself if the run
faults). -/
def state_after (gs : List gesture) : engine_t :=
  match run 0 fresh gs with
  | Except.ok (_, eng) => eng
  | Except.error _ => fresh

/-- The engine after `caleng_process_input_buffer` (the engine itself if the assertion fails). -/
def consumed (eng : engine_t) : engine_t :=
  match caleng_process_input_buffer eng with
  | Except.ok (_, p) => p
  | Except.error _ => eng

/-- The result and engine of `caleng_evaluate` without fuel (the engine itself on a fault). -/
def evaluated (eng : engine_t) : result_t × engine_t :=
  match caleng_evaluate 0 eng with
  | Except.ok x => x
  | Except.error _ => (result_init, eng)

/-- The engine after `7 / 0 =`: its status is math-error. -/
def stuck : engine_t := state_after [dg '7', gesture.bi_op DIV, dg '0', gesture.evaluate]

/-- The engine after `7 / 0`, before evaluate. -/
def seven_by_zero : engine_t := state_after [dg '7', gesture.bi_op DIV, dg '0']

/-- The engine after `4 + 6`, before evaluate. -/
def four_plus_six : engine_t := state_after [dg '4', gesture.bi_op ADD, dg '6']

/-- The engine after the digit `5` is typed. -/
def five_typed : engine_t := state_after [dg '5']

/-! ## Notions used in the statements -/

/-- A text without NUL. -/
def no_nul (t : List Char) : Prop := ∀ c ∈ t, c ≠ NUL

/-- The text that `caleng_format_display_input` leaves in an array holding the text `t`. -/
def formatted (t : List Char) : List Char :=
  if t = [] then ['0']
  else
    match strchr t 0 'e' with
    | some pos =>
      if pos + 1 = t.length then t ++ ['0']
      else
        match strchr t pos '-' with
        | some p => if p + 1 = t.length then t ++ ['0'] else t
        | none => t
    | none =>
      match strchr t 0 '-' with
      | some p => if p + 1 = t.length then t ++ ['0'] else t
      | none => t

/-- The value of `x op y` for the four arithmetic operations, as the library functions compute
it. -/
def bin_arith (op : Int) (x y : ℚ) : ℚ :=
  if op = ADD then add x y else if op = SUB then sub x y else if op = MUL then mul x y
  else divide x y

/-- The bound of the overflow test: the `double` nearest to `9.999999999e99`. -/
def overflow_bound : ℚ := round_double (9999999999 * 10 ^ 90)

/-! ## Texts left by the editing functions -/

/-- One step of the scan of `caleng_send_digit` over a character of the buffer text. -/
def scan_step (dp : Char) (s : digit_scan) (i : Nat) (c : Char) : digit_scan :=
  if c = '-' then { s with minus_inserted := true }
  else if c = dp then { s with dpoint_inserted := true }
  else if '0' ≤ c ∧ c ≤ '9' then { s with digits_detected := s.digits_detected + 1 }
  else if c = 'e' then
    { minus_inserted := false, exponent_mode := true, dpoint_inserted := false,
      digits_detected := 0, exponent_index := i }
  else s

/-- The scan of `caleng_send_digit` over a text that starts at index `i` of the buffer. -/
def scan_text (dp : Char) : List Char → Nat → digit_scan → digit_scan
  | [], _, s => s
  | c :: r, i, s => scan_text dp r (i + 1) (scan_step dp s i c)

/-- The text that `caleng_send_digit` leaves in a buffer holding the text `t`. -/
def digit_text (mlim elim : Int) (dp d : Char) (t : List Char) : List Char :=
  let s := scan_text dp t 0 digit_scan_init
  let j := (if s.minus_inserted then 1 else 0) + s.exponent_index
  if char_at t j = '0' ∧ ¬ s.dpoint_inserted then t.set j d
  else if s.exponent_mode then
    if s.digits_detected < elim then t ++ [d] else t
  else
    if s.digits_detected < mlim then t ++ [d] else t

/-- The number of non-zero digits of a text. -/
def nonzero_digits (t : List Char) : Nat := t.countP (fun c => decide ('0' < c ∧ c ≤ '9'))

/-- The text that `caleng_insert_decimal_point` leaves in a buffer holding the text `t`. -/
def point_text (mlim elim : Int) (dp : Char) (t : List Char) : List Char :=
  if t.any (fun c => decide (c = dp ∨ c = 'e')) then t
  else (if nonzero_digits t = 0 then digit_text mlim elim dp '0' t else t) ++ [dp]

/-- The branch of the loop of `caleng_insert_decimal_point` taken at the end of the text. -/
def insert_decimal_point_at_end (eng : engine_t) (nz : Int) : engine_t :=
  let eng1 := if nz = 0 then (caleng_send_digit eng '0').2 else eng
  let i1 := strlen eng1.input_buffer
  { eng1 with input_buffer := (eng1.input_buffer.set i1 eng1.dp_sep).set (i1 + 1) NUL }

/-- The text that the second loop of `caleng_insert_exp` leaves in a buffer holding the text
`t`. -/
def exp_text (mlim elim : Int) (dp : Char) (t : List Char) : List Char :=
  if t.any (fun c => decide (c = 'e')) then t
  else (if nonzero_digits t = 0 then digit_text mlim elim dp '1' t else t) ++ ['e']

/-- The branch of the second loop of `caleng_insert_exp` taken at the end of the text, at index
`i`. -/
def insert_exp_at_end (eng : engine_t) (i : Nat) (nz : Int) : engine_t :=
  let eng1 := if nz = 0 then (caleng_send_digit eng '1').2 else eng
  let i1 := if nz = 0 then strlen eng1.input_buffer else i
  { eng1 with input_buffer := (eng1.input_buffer.set i1 'e').set (i1 + 1) NUL }

/-- Removal of a `-` at index `k` of a text if there is one, insertion of a `-` at index `k`
otherwise. -/
def toggle_minus (t : List Char) (k : Nat) : List Char :=
  if char_at t k = '-' then t.eraseIdx k else t.take k ++ '-' :: t.drop k

/-- The text that `caleng_negate` leaves in a buffer holding the text `t`. -/
def negate_text (t : List Char) : List Char :=
  match strchr t 0 'e' with
  | some k => toggle_minus t (k + 1)
  | none => toggle_minus t 0

/-- The form of a number being typed: sign, integer digits, fraction digits after a separator,
and exponent part (sign and digits) after an exponent marker. -/
structure shape where
  neg : Bool
  ip : List Char
  fp : Option (List Char)
  ex : Option (Bool × List Char)
  deriving DecidableEq

/-- The sign of a text. -/
def sign_text (neg : Bool) : List Char := if neg then ['-'] else []

/-- The separator and the fraction digits of a text. -/
def frac_text (dp : Char) : Option (List Char) → List Char
  | none => []
  | some f => dp :: f

/-- The exponent part of a text. -/
def expo_text : Option (Bool × List Char) → List Char
  | none => []
  | some (sg, ds) => 'e' :: (sign_text sg ++ ds)

/-- The mantissa of the text of a shape. -/
def mant_text (dp : Char) (sh : shape) : List Char :=
  sign_text sh.neg ++ sh.ip ++ frac_text dp sh.fp

/-- The text of a shape: `[-]digits[.digits][e[-]digits]`. -/
def render (dp : Char) (sh : shape) : List Char := mant_text dp sh ++ expo_text sh.ex

/-- A text of decimal digits. -/
def all_digits (l : List Char) : Prop := ∀ c ∈ l, is_digit c = true

instance (l : List Char) : Decidable (all_digits l) := by unfold all_digits; infer_instance

/-- The number of fraction digits of a shape. -/
def frac_len : Option (List Char) → Nat
  | none => 0
  | some f => f.length

/-- The shapes of the data model, within the default limits: digits only, at most 9 mantissa
digits and 2 exponent digits, a digit before the separator and before the exponent marker, and
no digit after a leading zero of the integer part. -/
def shape.ok (sh : shape) : Prop :=
  all_digits sh.ip ∧
  (∀ f, sh.fp = some f → all_digits f) ∧
  (∀ sg ds, sh.ex = some (sg, ds) → all_digits ds ∧ ds.length ≤ 2) ∧
  sh.ip.length + frac_len sh.fp ≤ 9 ∧
  ((sh.fp ≠ none ∨ sh.ex ≠ none) → sh.ip ≠ []) ∧
  (∀ r, sh.ip = '0' :: r → r = [])

/-- The values of the local variables of `caleng_send_digit` after the scan of the text of a
shape. -/
def shape_scan (dp : Char) (sh : shape) : digit_scan :=
  match sh.ex with
  | none =>
    { minus_inserted := sh.neg, exponent_mode := false, dpoint_inserted := sh.fp.isSome,
      digits_detected := ((sh.ip.length + frac_len sh.fp : Nat) : Int), exponent_index := 0 }
  | some (sg, ds) =>
    { minus_inserted := sg, exponent_mode := true, dpoint_inserted := false,
      digits_detected := (ds.length : Int), exponent_index := (mant_text dp sh).length }

/-- Insert-digit on shapes, within the default limits. -/
def shape.send_digit (d : Char) (sh : shape) : shape :=
  match sh.ex with
  | some (sg, ds) => if ds.length < 2 then { sh with ex := some (sg, ds ++ [d]) } else sh
  | none =>
    match sh.fp with
    | some f => if sh.ip.length + f.length < 9 then { sh with fp := some (f ++ [d]) } else sh
    | none =>
      match sh.ip with
      | c :: r =>
        if c = '0' then { sh with ip := d :: r }
        else if (c :: r).length < 9 then { sh with ip := c :: r ++ [d] } else sh
      | [] => { sh with ip := [d] }

/-- Backspace on shapes. -/
def shape.backspace (sh : shape) : shape :=
  match sh.ex with
  | some (sg, ds) =>
    if ds ≠ [] then { sh with ex := some (sg, ds.dropLast) }
    else if sg then { sh with ex := some (false, []) }
    else { sh with ex := none }
  | none =>
    match sh.fp with
    | some f => if f ≠ [] then { sh with fp := some f.dropLast } else { sh with fp := none }
    | none => if sh.ip ≠ [] then { sh with ip := sh.ip.dropLast } else { sh with neg := false }

/-- Negate on shapes. -/
def shape.negate (sh : shape) : shape :=
  match sh.ex with
  | some (sg, ds) => { sh with ex := some (!sg, ds) }
  | none => { sh with neg := !sh.neg }

/-- The shape whose text is displayed for a shape: a zero is shown where the digits of the
current segment are still missing. -/
def shape.shown (sh : shape) : shape :=
  match sh.ex with
  | some (sg, ds) => if ds = [] then { sh with ex := some (sg, ['0']) } else sh
  | none => if sh.ip = [] ∧ sh.fp = none then { sh with ip := ['0'] } else sh

/-- The empty shape. -/
def shape.empty : shape := ⟨false, [], none, none⟩

/-- The number of non-zero digits of the mantissa of a shape. -/
def shape.nonzero (sh : shape) : Nat := nonzero_digits sh.ip + nonzero_digits (sh.fp.getD [])

/-- Insert-decimal-point on shapes. -/
def shape.point (sh : shape) : shape :=
  match sh.fp, sh.ex with
  | none, none => { sh with ip := if sh.ip = [] then ['0'] else sh.ip, fp := some [] }
  | _, _ => sh

/-- The second loop of insert-exponent on shapes. -/
def shape.exp (sh : shape) : shape :=
  match sh.ex with
  | some _ => sh
  | none =>
    if sh.nonzero = 0 then { sh.send_digit '1' with ex := some (false, []) }
    else { sh with ex := some (false, []) }

/-- The gestures that respect the precondition of the call they make: a digit key carries a
decimal digit (the assertion of `caleng_send_digit`). -/
def gesture.legal : gesture → Prop
  | gesture.key (edit_key.digit d) => is_digit d = true
  | _ => True

/-- The engines reachable from `caleng_init` on a block `heap`, in a locale with the decimal
point `dp`, by calls of the public operations that return. -/
inductive reachable (heap : List Char) (dp : Char) : engine_t → Prop where
  | init : reachable heap dp (caleng_init heap dp)
  | step {eng eng1 : engine_t} (fuel : Nat) (g : gesture) (r : result_t) :
      reachable heap dp eng → g.legal → perform fuel eng g = Except.ok (r, eng1) →
      reachable heap dp eng1

/-- The invariant of the buffer: the array has its size, the limits are the default ones, the
separator is one of a locale and the text is that of a shape of the data model. -/
def buffer_inv (eng : engine_t) : Prop :=
  eng.input_buffer.length = BUFFER_SIZE + 1 ∧
  eng.mantissa_length_limit = 9 ∧
  eng.exponent_length_limit = 2 ∧
  valid_sep eng.dp_sep ∧
  ∃ sh : shape, sh.ok ∧ eng.text = render eng.dp_sep sh

/-- The second engine has the buffer size, limits and separator of the first one, and its text
is the same or empty. -/
def buffer_kept (eng e1 : engine_t) : Prop :=
  e1.input_buffer.length = eng.input_buffer.length ∧
  e1.mantissa_length_limit = eng.mantissa_length_limit ∧
  e1.exponent_length_limit = eng.exponent_length_limit ∧
  e1.dp_sep = eng.dp_sep ∧
  (e1.text = eng.text ∨ e1.text = [])

/-- The mantissa segment of a text: the part before the exponent marker. -/
def mantissa_segment (t : List Char) : List Char := t.takeWhile (fun c => c != 'e')

/-- The exponent segment of a text: the part after the exponent marker. -/
def exponent_segment (t : List Char) : List Char := (t.dropWhile (fun c => c != 'e')).drop 1

/-- The number of digit characters of a text. -/
def digit_count (t : List Char) : Nat := t.countP is_digit

instance (g : gesture) : Decidable g.legal := by
  cases g with
  | key k => cases k <;> (unfold gesture.legal; infer_instance)
  | cancel => exact isTrue trivial
  | evaluate => exact isTrue trivial
  | un_op op => exact isTrue trivial
  | bi_op op => exact isTrue trivial

/-- The engine after the digits `1 0 0 0 0 0 0 9 9`: the mantissa is full. -/
def nine_digits : engine_t :=
  state_after [dg '1', dg '0', dg '0', dg '0', dg '0', dg '0', dg '0', dg '9', dg '9']

/-- The engine after `1 2 . 5 e - 7`: a separator and an exponent marker are in the buffer. -/
def point_and_exponent : engine_t :=
  state_after [dg '1', dg '2', gesture.key edit_key.decimal_point, dg '5',
    gesture.key edit_key.exponent, gesture.key edit_key.negate, dg '7']

/-- The engine after the digit `0` is typed: the buffer is `0`. -/
def zero_typed : engine_t := state_after [dg '0']

/-- The engine after negate and the digit `0`: the buffer is `-0`. -/
def minus_zero_typed : engine_t := state_after [gesture.key edit_key.negate, dg '0']

instance decForallSome {α : Type} (o : Option α) (P : α → Prop) [∀ a, Decidable (P a)] :
    Decidable (∀ a, o = some a → P a) :=
  match o with
  | none => isTrue (fun _ h => nomatch h)
  | some x => decidable_of_iff (P x) ⟨fun h _ e => by cases e; exact h, fun h => h x rfl⟩

instance decForallSomePair {α β : Type} (o : Option (α × β)) (P : α → β → Prop)
    [∀ a b, Decidable (P a b)] : Decidable (∀ a b, o = some (a, b) → P a b) :=
  match o with
  | none => isTrue (fun _ _ h => nomatch h)
  | some (x, y) =>
    decidable_of_iff (P x y) ⟨fun h _ _ e => by cases e; exact h, fun h => h x y rfl⟩

instance decForallCons (l : List Char) (c : Char) (P : List Char → Prop)
    [∀ r, Decidable (P r)] : Decidable (∀ r, l = c :: r → P r) :=
  match l with
  | [] => isTrue (fun _ h => nomatch h)
  | x :: r =>
    if hx : x = c then
      decidable_of_iff (P r) ⟨fun h _ e => by cases e; exact h, fun h => h r (by rw [hx])⟩
    else isTrue (fun _ e => absurd (List.cons.inj e).1 hx)

instance (sh : shape) : Decidable sh.ok := by
  unfold shape.ok; infer_instance

/-- The current segment of a text: the mantissa if the text has no exponent marker, the
exponent otherwise. -/
def current_segment (t : List Char) : List Char :=
  if 'e' ∈ t then exponent_segment t else mantissa_segment t

/-- The limit of the current segment of the buffer. -/
def current_limit (eng : engine_t) : Int :=
  if 'e' ∈ eng.text then eng.exponent_length_limit else eng.mantissa_length_limit

/-- The engine after `1 e 2 8`: the exponent is full. -/
def full_exponent : engine_t :=
  state_after [dg '1', gesture.key edit_key.exponent, dg '2', dg '8']

/-- The engine after `7 7 5`. -/
def three_digits : engine_t := state_after [dg '7', dg '7', dg '5']

/-- No `-` of the text is directly followed by another `-`. -/
def no_double_minus (t : List Char) : Prop :=
  ∀ i, i < t.length → char_at t i = '-' → char_at t (i + 1) ≠ '-'

instance (t : List Char) : Decidable (no_double_minus t) := by
  unfold no_double_minus; infer_instance

/-- The engine after `7 7 5 . 1`, negate, insert-exponent, negate, `4 0`: the buffer is
`-775.1e-40`. -/
def signed_exponent : engine_t :=
  state_after [dg '7', dg '7', dg '5', gesture.key edit_key.decimal_point, dg '1',
    gesture.key edit_key.negate, gesture.key edit_key.exponent, gesture.key edit_key.negate,
    dg '4', dg '0']

/-- The engine after `7`, negate: the buffer is `-7`. -/
def minus_seven : engine_t := state_after [dg '7', gesture.key edit_key.negate]

/-- The second engine has the memory and status of the first one, and its pending operation
unless that was just-evaluated. -/
def same_frame (eng e1 : engine_t) : Prop :=
  e1.memory = eng.memory ∧ e1.status = eng.status ∧ (eng.sel_op ≠ EVAL → e1.sel_op = eng.sel_op)

/-- The engine after `2 ^ -1`, before evaluate. -/
def two_pow_minus_one : engine_t :=
  state_after [dg '2', gesture.bi_op POW, gesture.key edit_key.negate, dg '1']

/-- The engine after `-8 root 2`, before evaluate. -/
def minus_eight_root_two : engine_t :=
  state_after [dg '8', gesture.key edit_key.negate, gesture.bi_op ROOT, dg '2']

/-- The engine after `5 C -1`, before evaluate. -/
def five_comb_minus_one : engine_t :=
  state_after [dg '5', gesture.bi_op COMBINATIONAL, gesture.key edit_key.negate, dg '1']

/-- The engine after `9e99 * 9e99`, before evaluate. -/
def big_product : engine_t :=
  state_after [dg '9', gesture.key edit_key.exponent, dg '9', dg '9', gesture.bi_op MUL,
    dg '9', gesture.key edit_key.exponent, dg '9', dg '9']

/-- The second operand `v` of an evaluation and the engine `p` on which the pending operation
is applied: the memory and the engine itself if the buffer is empty, the number read in the
buffer and the engine with the buffer consumed otherwise. -/
def operand_of (eng p : engine_t) (v : ℚ) : Prop :=
  (eng.text = [] ∧ v = eng.memory ∧ p = eng) ∨
  (eng.text ≠ [] ∧ caleng_process_input_buffer eng = Except.ok (v, p))

/-- The first part of `caleng_eval_un_op`, entered with status ok: the operand is resolved into
the memory. The result so far and the engine. -/
def un_op_resolve (fuel : Nat) (eng : engine_t) : Except fault (result_t × engine_t) :=
  if eng.sel_op = NONE then
    match caleng_process_input_buffer eng with
    | Except.ok (num, eng1) => Except.ok (result_init, { eng1 with memory := num })
    | Except.error f => Except.error f
  else if eng.sel_op = EVAL ∧ char_at eng.input_buffer 0 = NUL then
    Except.ok (result_init, eng)
  else
    caleng_evaluate fuel eng

/-- The engine after `20`, before the factorial. -/
def twenty_typed : engine_t := state_after [dg '2', dg '0']

/-- The engine after `3 !`: the memory is 6 and the pending operation just-evaluated. -/
def three_factorial : engine_t := state_after [dg '3', gesture.un_op FACT]

/-- The codes that the engine uses: ok, overflow-error and math-error. -/
def code_ok (c : Int) : Prop := c = OK ∨ c = OVERFLOW_ERR ∨ c = MATH_ERR

/-- The display of a buffer text by the formatting rule: `0` for the empty text, the text with
a `0` appended if it ends in `-` or in `e`, and the text itself otherwise. -/
def display_rule (t : List Char) : List Char :=
  if t = [] then ['0']
  else if t.getLast? = some '-' ∨ t.getLast? = some 'e' then t ++ ['0']
  else t

/-- Removal of a decimal separator that ends a text, as `caleng_process_input_buffer` does it:
the first separator of the text is removed if it is the last character. -/
def trim_point (dp : Char) (t : List Char) : List Char :=
  match strchr t 0 dp with
  | some point => if point + 1 = t.length then t.take point else t
  | none => t

/-- Removal of a separator that ends the text of a shape. -/
def shape.trim (sh : shape) : shape :=
  match sh.fp, sh.ex with
  | some [], none => { sh with fp := none }
  | _, _ => sh

/-- A shape that has a digit before the separator, and a digit in the exponent if there is
one. -/
def shape.numeral (sh : shape) : Prop :=
  all_digits sh.ip ∧ (∀ f, sh.fp = some f → all_digits f) ∧
  (∀ sg ds, sh.ex = some (sg, ds) → all_digits ds ∧ ds ≠ []) ∧ sh.ip ≠ []

/-- The engine after `1 2 .`: the buffer ends in the separator. -/
def dangling_point : engine_t :=
  state_after [dg '1', dg '2', gesture.key edit_key.decimal_point]

/-- What the editing functions do to the fields other than the buffer: the memory, the status,
both digit limits and the separator are those of the first engine, and the pending operation is
the same or went from just-evaluated to none. -/
def edit_frame (eng e1 : engine_t) : Prop :=
  e1.memory = eng.memory ∧ e1.status = eng.status ∧
  e1.mantissa_length_limit = eng.mantissa_length_limit ∧
  e1.exponent_length_limit = eng.exponent_length_limit ∧ e1.dp_sep = eng.dp_sep ∧
  (e1.sel_op = eng.sel_op ∨ (eng.sel_op = EVAL ∧ e1.sel_op = NONE))

/-- The invariant of the just-evaluated marker: it comes with an empty buffer. -/
def eval_inv (eng : engine_t) : Prop := eng.sel_op = EVAL → eng.text = []

/-- The engine after `5 =`: the pending operation is just-evaluated. -/
def five_evaluated : engine_t := state_after [dg '5', gesture.evaluate]

/-- The engine after `3 . 7`, before the factorial. -/
def three_point_seven : engine_t :=
  state_after [dg '3', gesture.key edit_key.decimal_point, dg '7']

/-- Two engines that agree on every field but the bytes of the buffer array, and on the buffer
text. -/
def same_text (e1 e2 : engine_t) : Prop :=
  e1.memory = e2.memory ∧ e1.sel_op = e2.sel_op ∧
  e1.mantissa_length_limit = e2.mantissa_length_limit ∧
  e1.exponent_length_limit = e2.exponent_length_limit ∧ e1.status = e2.status ∧
  e1.dp_sep = e2.dp_sep ∧ e1.text = e2.text

/-- The engine after `1 2 3`, cancel and `5`: the text is `5` and the byte `3` of the cancelled
text is still in the array. -/
def five_over_stale : engine_t :=
  state_after [dg '1', dg '2', dg '3', gesture.cancel, dg '5']

/-- The engine after `2 + 3`, before evaluate. -/
def two_plus_three : engine_t := state_after [dg '2', gesture.bi_op ADD, dg '3']

/-- The engine after `1 2 3 4 5 6 7` is typed, before evaluate. -/
def seven_digits : engine_t :=
  state_after [dg '1', dg '2', dg '3', dg '4', dg '5', dg '6', dg '7']

/-- The values of `num` and `var` after one iteration of the loop of `root` from the values
`s`. -/
def root_next (x : ℚ) (y : Nat) (s : ℚ × ℚ) : ℚ × ℚ :=
  let new_num :=
    round_ld (round_ld (round_ld (round_ld ((y : ℚ) - 1) * s.1)
      + round_ld (x / power s.1 ((y + 2 ^ 64 - 1) % 2 ^ 64))) / (y : ℚ))
  let var1 := round_ld (s.1 - new_num)
  (new_num, if var1 < 0 then round_ld (var1 * (-1)) else var1)

/-- The values of `num` and `var` after `n` iterations of the loop of `root` from the values
`s`, when the loop condition holds before each of them; `none` when the loop ends earlier. -/
def root_run (x : ℚ) (y : Nat) : Nat → ℚ × ℚ → Option (ℚ × ℚ)
  | 0, s => some s
  | n + 1, s =>
    if s.2 > round_double (1 / 10 ^ 8) then root_run x y n (root_next x y s) else none

/-- The `long double` that `sscanf` reads from `8e32`. -/
def eight_e32 : ℚ := round_ld (8 * 10 ^ 32)

/-- The engine after `8e32 root 3`, before evaluate. -/
def eight_e32_root_three : engine_t :=
  state_after [dg '8', gesture.key edit_key.exponent, dg '3', dg '2', gesture.bi_op ROOT, dg '3']

/-- The number `q` rounded to six significant decimal digits, ties to even. -/
def round_sig6 (q : ℚ) : ℚ :=
  if q = 0 then 0
  else
    let r := (round_half_even (|q| / pow10 (ilog10 |q| - 5)) : ℚ) * pow10 (ilog10 |q| - 5)
    if q < 0 then -r else r

/-! ## Theorems -/

/-! ### Characters -/

theorem NUL_ne_minus : NUL ≠ '-' := by decide
theorem NUL_ne_e : NUL ≠ 'e' := by decide
theorem NUL_ne_zero : NUL ≠ '0' := by decide
theorem NUL_not_digit : ¬ ('0' ≤ NUL ∧ NUL ≤ '9') := by decide
theorem NUL_not_nonzero_digit : ¬ ('0' < NUL ∧ NUL ≤ '9') := by decide

theorem is_digit_iff (c : Char) : is_digit c = true ↔ ('0' ≤ c ∧ c ≤ '9') := by
  simp [is_digit]

theorem is_digit_ne_NUL {d : Char} (h : is_digit d = true) : d ≠ NUL := by
  intro hd; subst hd; revert h; decide

theorem is_digit_ne_e {d : Char} (h : is_digit d = true) : d ≠ 'e' := by
  intro hd; subst hd; revert h; decide

theorem is_digit_ne_minus {d : Char} (h : is_digit d = true) : d ≠ '-' := by
  intro hd; subst hd; revert h; decide

/-! ### Character arrays and the strings they hold -/

theorem no_nul_cstr (b : List Char) : no_nul (cstr b) := by
  intro c hc
  have := List.mem_takeWhile_imp hc
  simpa using this

theorem cstr_append_NUL {t : List Char} (h : no_nul t) (s : List Char) :
    cstr (t ++ NUL :: s) = t := by
  unfold cstr
  rw [List.takeWhile_append_of_pos]
  · simp
  · intro c hc; simpa using h c hc

theorem cstr_of_no_nul {t : List Char} (h : no_nul t) : cstr t = t := by
  unfold cstr
  rw [List.takeWhile_eq_self_iff]
  intro c hc; simpa using h c hc

theorem buffer_split (b : List Char) (h : strlen b < b.length) :
    b = cstr b ++ NUL :: b.drop (strlen b + 1) := by
  have h1 := List.takeWhile_append_dropWhile (fun c => c != NUL) b
  have hlen : (List.dropWhile (fun c => c != NUL) b).length + strlen b = b.length := by
    have := congrArg List.length h1
    simp only [List.length_append] at this
    unfold strlen cstr; omega
  match hd : List.dropWhile (fun c => c != NUL) b with
  | [] => rw [hd] at hlen; simp at hlen; omega
  | x :: r =>
    have hx : x = NUL := by
      have := List.head_dropWhile_not (fun c => c != NUL) b (by rw [hd]; simp)
      simp [hd] at this
      exact this
    have h2 : b.drop (strlen b + 1) = r := by
      have e : b.drop (strlen b + 1)
          = (List.takeWhile (fun c => c != NUL) b ++ x :: r).drop
              ((List.takeWhile (fun c => c != NUL) b).length + 1) := by
        rw [← hd, h1]; rfl
      rw [e, List.drop_append]; rfl
    rw [h2, ← hx]
    show b = List.takeWhile (fun c => c != NUL) b ++ x :: r
    rw [← hd, h1]

theorem char_at_append_left {t : List Char} {i : Nat} (h : i < t.length) (r : List Char) :
    char_at (t ++ r) i = char_at t i := by
  unfold char_at; exact List.getD_append _ _ _ _ h

theorem char_at_append_length (t : List Char) (c : Char) (r : List Char) :
    char_at (t ++ c :: r) t.length = c := by
  unfold char_at; rw [List.getD_append_right _ _ _ _ (le_refl _)]; simp

theorem char_at_append_right (t r : List Char) (k : Nat) :
    char_at (t ++ r) (t.length + k) = char_at r k := by
  unfold char_at; rw [List.getD_append_right _ _ _ _ (by omega)]; simp

theorem char_at_ne_NUL {t : List Char} (h : no_nul t) {i : Nat} (hi : i < t.length) :
    char_at t i ≠ NUL := by
  unfold char_at; rw [List.getD_eq_getElem _ _ hi]; exact h _ (List.getElem_mem hi)

theorem strlen_append_NUL {t : List Char} (h : no_nul t) (s : List Char) :
    strlen (t ++ NUL :: s) = t.length := by
  unfold strlen; rw [cstr_append_NUL h]

theorem strchr_from_append_NUL {c : Char} (hc : c ≠ NUL) {t : List Char} (h : no_nul t)
    (s : List Char) (i : Nat) : strchr_from c (t ++ NUL :: s) i = strchr_from c t i := by
  induction t generalizing i with
  | nil => simp [strchr_from, Ne.symm hc]
  | cons x r ih =>
    have hr : no_nul r := fun y hy => h y (List.mem_cons_of_mem _ hy)
    have := ih hr (i + 1)
    simp only [List.cons_append, strchr_from, List.append_eq, this]

theorem strchr_from_lt {c : Char} {t : List Char} {i p : Nat}
    (h : strchr_from c t i = some p) : i ≤ p ∧ p < i + t.length := by
  induction t generalizing i with
  | nil => simp [strchr_from] at h
  | cons x r ih =>
    simp only [strchr_from] at h
    split at h
    · cases h; simp
    · split at h
      · cases h
      · have := ih h; simp; omega

theorem no_nul_drop {t : List Char} (h : no_nul t) (k : Nat) : no_nul (t.drop k) :=
  fun c hc => h c (List.mem_of_mem_drop hc)

theorem strchr_append_NUL {c : Char} (hc : c ≠ NUL) {t : List Char} (h : no_nul t)
    (s : List Char) {k : Nat} (hk : k ≤ t.length) :
    strchr (t ++ NUL :: s) k c = strchr t k c := by
  unfold strchr
  rw [List.drop_append_of_le_length hk, strchr_from_append_NUL hc (no_nul_drop h k)]

theorem strchr_lt {c : Char} {t : List Char} {k p : Nat} (hk : k ≤ t.length)
    (h : strchr t k c = some p) : k ≤ p ∧ p < t.length := by
  unfold strchr at h
  have := strchr_from_lt h
  simp at this; omega

theorem set_two_at_end (t : List Char) (x y : Char) (s : List Char) (a b : Char) :
    ((t ++ x :: y :: s).set t.length a).set (t.length + 1) b = t ++ a :: b :: s := by
  rw [List.set_append_right _ _ (le_refl _)]
  simp

theorem format_display_input_text {t : List Char} (h : no_nul t) (x : Char) (s : List Char) :
    cstr (caleng_format_display_input (t ++ NUL :: x :: s)) = formatted t := by
  have h0 : ('0' : Char) ≠ NUL := by decide
  have key : ∀ p, p < t.length →
      (if char_at (t ++ NUL :: x :: s) (p + 1) = NUL
        then cstr (((t ++ NUL :: x :: s).set (p + 1) '0').set (p + 2) NUL)
        else cstr (t ++ NUL :: x :: s)) = if p + 1 = t.length then t ++ ['0'] else t := by
    intro p hp
    by_cases hpl : p + 1 = t.length
    · have hp2 : p + 2 = t.length + 1 := by omega
      rw [hp2, hpl, char_at_append_length, if_pos rfl, if_pos rfl, set_two_at_end]
      have : t ++ '0' :: NUL :: s = (t ++ ['0']) ++ NUL :: s := by simp
      rw [this, cstr_append_NUL]
      intro c hc
      rcases List.mem_append.1 hc with hc | hc
      · exact h c hc
      · simp at hc; rw [hc]; exact h0
    · have hlt : p + 1 < t.length := by omega
      rw [char_at_append_left hlt, if_neg (char_at_ne_NUL h hlt), if_neg hpl, cstr_append_NUL h]
  unfold caleng_format_display_input formatted
  rw [strlen_append_NUL h]
  by_cases ht : t = []
  · subst ht; simp [strcpy, cstr, NUL_ne_zero, Ne.symm NUL_ne_zero]
  · have hl : t.length ≠ 0 := by simpa using ht
    rw [if_neg hl, if_neg ht, strchr_append_NUL (Ne.symm NUL_ne_e) h _ (Nat.zero_le _),
      strchr_append_NUL (Ne.symm NUL_ne_minus) h _ (Nat.zero_le _)]
    cases he : strchr t 0 'e' with
    | some pos =>
      have hpos := strchr_lt (Nat.zero_le _) he
      simp only
      rw [strchr_append_NUL (Ne.symm NUL_ne_minus) h _ (le_of_lt hpos.2)]
      by_cases hpl : pos + 1 = t.length
      · have := key pos hpos.2
        rw [if_pos hpl] at this
        rw [if_pos hpl]
        rw [hpl, char_at_append_length] at this ⊢
        simpa using this
      · have hlt : pos + 1 < t.length := by omega
        rw [char_at_append_left hlt, if_neg (char_at_ne_NUL h hlt), if_neg hpl]
        cases hm : strchr t pos '-' with
        | some p =>
          have hp := strchr_lt (le_of_lt hpos.2) hm
          simp only
          have := key p hp.2
          split <;> simp_all
        | none => simp [cstr_append_NUL h]
    | none =>
      simp only
      cases hm : strchr t 0 '-' with
      | some p =>
        have hp := strchr_lt (Nat.zero_le _) hm
        simp only
        have := key p hp.2
        split <;> simp_all
      | none => simp [cstr_append_NUL h]

theorem strcpy_zero_block {t : List Char} (h : t.length + 2 ≤ BUFFER_SIZE + 1) :
    strcpy result_init.to_display t
      = t ++ NUL :: NUL :: List.replicate (BUFFER_SIZE - 1 - t.length) NUL := by
  unfold strcpy result_init
  simp only [List.drop_replicate, List.append_assoc, List.singleton_append]
  have : BUFFER_SIZE + 1 - (t.length + 1) = (BUFFER_SIZE - 1 - t.length) + 1 := by omega
  rw [this, List.replicate_succ]

theorem display_buffer_text (eng : engine_t) (h : eng.text.length + 2 ≤ BUFFER_SIZE + 1) :
    (display_buffer result_init eng).text = formatted eng.text := by
  unfold display_buffer result_t.text
  simp only
  have h2 : (cstr eng.input_buffer).length + 2 ≤ BUFFER_SIZE + 1 := h
  rw [strcpy_zero_block h2, format_display_input_text (no_nul_cstr _)]
  rfl

theorem display_buffer_rtn_code (r : result_t) (eng : engine_t) :
    (display_buffer r eng).rtn_code = r.rtn_code := rfl

theorem cstr_set_zero_NUL (b : List Char) : cstr (b.set 0 NUL) = [] := by
  cases b with
  | nil => simp [cstr]
  | cons c r => simp [cstr, List.takeWhile_cons]

theorem strchr_none_of_not_mem {c : Char} {t : List Char} (h : c ∉ t) (k : Nat) :
    strchr t k c = none := by
  unfold strchr
  have h' : c ∉ t.drop k := fun hc => h (List.mem_of_mem_drop hc)
  generalize t.drop k = l at h'
  generalize k = i
  induction l generalizing i with
  | nil => rfl
  | cons x r ih =>
    simp only [List.mem_cons, not_or] at h'
    simp only [strchr_from]
    rw [if_neg (Ne.symm h'.1)]
    split
    · rfl
    · exact ih h'.2 _

theorem formatted_of_plain {t : List Char} (ht : t ≠ []) (he : 'e' ∉ t) (hm : '-' ∉ t) :
    formatted t = t := by
  unfold formatted
  rw [if_neg ht, strchr_none_of_not_mem he, strchr_none_of_not_mem hm]

theorem char_at_zero_eq_NUL_iff (b : List Char) : char_at b 0 = NUL ↔ cstr b = [] := by
  cases b with
  | nil => simp [char_at, cstr]
  | cons c r => simp [char_at, cstr, List.takeWhile_cons]

theorem process_input_buffer_frame {eng p : engine_t} {v : ℚ}
    (h : caleng_process_input_buffer eng = Except.ok (v, p)) :
    p.memory = eng.memory ∧ p.sel_op = eng.sel_op ∧ p.status = eng.status ∧
    p.mantissa_length_limit = eng.mantissa_length_limit ∧
    p.exponent_length_limit = eng.exponent_length_limit ∧ p.dp_sep = eng.dp_sep ∧
    p.text = [] := by
  unfold caleng_process_input_buffer at h
  simp only at h
  split at h
  · cases h; simp [engine_t.text, cstr_set_zero_NUL]
  · cases h

theorem scan_decimal_zero (dp : Char) : scan_decimal dp ['0'] = some 0 := by
  simp [scan_decimal, scan_sign, scan_exponent, is_digit, digits_val, digit_val, pow10]

theorem round_bin_zero (p : Nat) (emin : Int) : round_bin p emin 0 = 0 := by
  unfold round_bin
  rw [if_pos rfl]

theorem round_ld_zero : round_ld 0 = 0 := round_bin_zero _ _

theorem round_double_zero : round_double 0 = 0 := round_bin_zero _ _

theorem scan_Lf_zero (dp : Char) : scan_Lf dp ['0'] = some 0 := by
  unfold scan_Lf
  rw [scan_decimal_zero]
  show some (round_ld 0) = some 0
  rw [round_ld_zero]

theorem scan_Lf_eq_none {dp : Char} {t : List Char} :
    scan_Lf dp t = none ↔ scan_decimal dp t = none := by
  unfold scan_Lf
  cases scan_decimal dp t with
  | none => simp
  | some v => simp

theorem process_empty_buffer (eng : engine_t) (hsep : valid_sep eng.dp_sep)
    (h : eng.text = []) :
    ∃ p, caleng_process_input_buffer eng = Except.ok (0, p) := by
  obtain ⟨hs1, hs2, hs3, hs4⟩ := hsep
  have hd0 : eng.dp_sep ≠ '0' := by
    intro h0; rw [h0] at hs4; revert hs4; decide
  have hlen : strlen eng.input_buffer = 0 := by
    unfold strlen; unfold engine_t.text at h; rw [h]; rfl
  unfold caleng_process_input_buffer
  simp only [caleng_format_display_input, hlen, if_true]
  have hs : strchr (strcpy eng.input_buffer ['0']) 0 eng.dp_sep = none := by
    simp [strchr, strcpy, strchr_from, Ne.symm hd0, Ne.symm hs1, Ne.symm NUL_ne_zero]
  rw [hs]
  have hc : cstr (strcpy eng.input_buffer ['0']) = ['0'] := by
    simp [strcpy, cstr, List.takeWhile_cons, Ne.symm NUL_ne_zero]
  simp only [hc, scan_Lf_zero]
  exact ⟨_, rfl⟩

theorem overflow_check_snd (eng : engine_t) : (overflow_check eng).2 = eng := by
  unfold overflow_check; split <;> rfl

theorem eval_bi_op_frame {fuel : Nat} {eng e1 : engine_t} {num : ℚ} {rtn : Int}
    (h : caleng_eval_bi_op fuel eng num = Except.ok (rtn, e1)) :
    e1 = { eng with memory := e1.memory } := by
  have key : ∀ m : ℚ, (Except.ok (overflow_check { eng with memory := m }) : Except fault (Int × engine_t))
        = Except.ok (rtn, e1) →
      e1 = { eng with memory := e1.memory } := by
    intro m hm
    injection hm with hm
    have := overflow_check_snd { eng with memory := m }
    rw [hm] at this
    simp only at this
    rw [this]
  have key0 : (Except.ok (overflow_check eng) : Except fault (Int × engine_t))
        = Except.ok (rtn, e1) →
      e1 = { eng with memory := e1.memory } := key eng.memory
  have keyE : (Except.ok (MATH_ERR, eng) : Except fault (Int × engine_t))
        = Except.ok (rtn, e1) →
      e1 = { eng with memory := e1.memory } := by
    intro hm; injection hm with hm; injection hm with _ hm; rw [← hm]
  unfold caleng_eval_bi_op at h
  split_ifs at h
  all_goals first
    | exact key _ h
    | exact keyE h
    | exact key0 h
    | (split at h
       · exact key _ h
       · cases h)

theorem eval_bi_op_arith (fuel : Nat) (eng : engine_t) (num : ℚ)
    (hop : eng.sel_op = ADD ∨ eng.sel_op = SUB ∨ eng.sel_op = MUL ∨ eng.sel_op = DIV)
    (hdiv : eng.sel_op = DIV → num ≠ 0) :
    caleng_eval_bi_op fuel eng num
      = Except.ok (overflow_check { eng with memory := bin_arith eng.sel_op eng.memory num }) := by
  unfold caleng_eval_bi_op bin_arith
  rcases hop with h | h | h | h
  · simp [h, add]
  · simp [h, sub, ADD, SUB]
  · simp [h, mul, ADD, SUB, MUL]
  · have := hdiv h
    simp [h, divide, ADD, SUB, MUL, DIV, this]

theorem overflow_check_ok {eng : engine_t} (h : |eng.memory| ≤ overflow_bound) :
    overflow_check eng = (OK, eng) := by
  unfold overflow_check
  rw [abs_le] at h
  unfold overflow_bound at h
  rw [if_neg]
  intro hc
  rcases hc with hc | hc
  · exact absurd h.2 (not_le.2 hc)
  · exact absurd h.1 (not_le.2 hc)

theorem overflow_check_err {eng : engine_t} (h : overflow_bound < |eng.memory|) :
    overflow_check eng = (OVERFLOW_ERR, eng) := by
  unfold overflow_check
  unfold overflow_bound at h
  rw [if_pos]
  rcases lt_abs.1 h with hc | hc
  · left; exact hc
  · right; linarith

theorem process_input_buffer_sel_op (eng : engine_t) (op : Int) {v : ℚ} {p : engine_t}
    (h : caleng_process_input_buffer eng = Except.ok (v, p)) :
    caleng_process_input_buffer { eng with sel_op := op } = Except.ok (v, { p with sel_op := op }) := by
  unfold caleng_process_input_buffer at h ⊢
  simp only at h ⊢
  split at h
  · rename_i num hnum
    cases h
    simp only [hnum]
  · cases h

theorem fmt_g_zero (dp : Char) : fmt_g dp 0 = ['0'] := by
  simp [fmt_g]

/-- The text of a memory whose `double` is not beyond the largest `double`. -/
theorem fmt_double_of_le (dp : Char) {x : ℚ} (h : |round_double x| ≤ DBL_MAX) :
    fmt_double dp x = fmt_g dp (round_double x) := by
  unfold fmt_double
  rw [if_neg (not_lt.2 h)]

theorem fmt_double_zero (dp : Char) : fmt_double dp 0 = ['0'] := by
  rw [fmt_double_of_le dp (by rw [round_double_zero, abs_zero]; unfold DBL_MAX; norm_num),
    round_double_zero, fmt_g_zero]

theorem get_memory_string_zero (eng : engine_t) (h : eng.memory = 0) :
    cstr (caleng_get_memory_string eng result_init.to_display) = ['0'] := by
  unfold caleng_get_memory_string
  rw [h, fmt_double_zero, strcpy_zero_block (by simp [BUFFER_SIZE])]
  exact cstr_append_NUL (by intro c hc; simp at hc; rw [hc]; exact Ne.symm NUL_ne_zero) _

/-! ### The editing functions on the text of the buffer -/

theorem buffer_form (b : List Char) (h : strlen b + 2 ≤ b.length) :
    ∃ x s, b = cstr b ++ NUL :: x :: s := by
  have h1 := buffer_split b (by omega)
  have h2 : (b.drop (strlen b + 1)).length = b.length - (strlen b + 1) := List.length_drop _ _
  match hd : b.drop (strlen b + 1) with
  | [] => rw [hd] at h2; simp at h2; omega
  | x :: s => exact ⟨x, s, by rw [← hd]; exact h1⟩

theorem no_nul_append {t u : List Char} (ht : no_nul t) (hu : no_nul u) : no_nul (t ++ u) := by
  intro c hc
  rcases List.mem_append.1 hc with h | h
  · exact ht c h
  · exact hu c h

theorem no_nul_singleton {c : Char} (h : c ≠ NUL) : no_nul [c] := by
  intro x hx; simp at hx; rw [hx]; exact h

theorem no_nul_dropLast {t : List Char} (h : no_nul t) : no_nul t.dropLast :=
  fun c hc => h c (List.mem_of_mem_dropLast hc)

/-- The loop of `caleng_backspace` ends at the terminator of the text. -/
theorem backspace_loop_eq (t : List Char) (ht : no_nul t) (s : List Char) :
    ∀ (k i : Nat), i ≤ t.length → t.length - i < k →
      backspace_loop (t ++ NUL :: s) k i = (t ++ NUL :: s).set (t.length - 1) NUL := by
  intro k
  induction k with
  | zero => intro i _ h; omega
  | succ k ih =>
    intro i hi hk
    unfold backspace_loop
    by_cases hlt : i < t.length
    · rw [char_at_append_left hlt, if_neg (char_at_ne_NUL ht hlt)]
      exact ih (i + 1) (by omega) (by omega)
    · have : i = t.length := by omega
      subst this
      rw [char_at_append_length, if_pos rfl]

theorem set_last_NUL (t : List Char) (ht : t ≠ []) (s : List Char) :
    (t ++ NUL :: s).set (t.length - 1) NUL = t.dropLast ++ NUL :: NUL :: s := by
  rcases List.eq_nil_or_concat t with h | ⟨u, c, h⟩
  · exact absurd h ht
  · subst h
    rw [List.concat_eq_append] at *
    have e1 : (u ++ [c]).length - 1 = u.length := by simp
    have e2 : (u ++ [c]).dropLast = u := List.dropLast_concat
    rw [e1, e2, List.append_assoc, List.set_append_right _ _ (le_refl _)]
    simp

theorem display_zero_text :
    result_t.text { result_init with to_display := strcpy result_init.to_display ['0'] } = ['0'] := by
  decide

/-- Backspace on the text of the buffer: the last character is removed. -/
theorem backspace_text (eng : engine_t) (hst : eng.status = OK)
    (hlen : eng.text.length + 2 ≤ eng.input_buffer.length) (hsz : eng.text.length < BUFFER_SIZE) :
    (caleng_backspace eng).2 = { eng with input_buffer := (caleng_backspace eng).2.input_buffer } ∧
    (caleng_backspace eng).2.text = eng.text.dropLast ∧
    (caleng_backspace eng).2.input_buffer.length = eng.input_buffer.length ∧
    (caleng_backspace eng).1.rtn_code = OK ∧
    (eng.text.length ≤ BUFFER_SIZE - 1 →
      (caleng_backspace eng).1.text = formatted (caleng_backspace eng).2.text) := by
  obtain ⟨x, s, hb⟩ := buffer_form eng.input_buffer hlen
  have hnn := no_nul_cstr eng.input_buffer
  have htx : eng.text = cstr eng.input_buffer := rfl
  unfold caleng_backspace
  rw [if_neg (by simpa using hst)]
  by_cases h0 : char_at eng.input_buffer 0 = NUL
  · rw [if_pos h0]
    have ht : eng.text = [] := (char_at_zero_eq_NUL_iff _).1 h0
    refine ⟨rfl, by rw [ht]; rfl, rfl, rfl, ?_⟩
    intro _
    rw [ht]
    exact display_zero_text
  · rw [if_neg h0]
    have ht : cstr eng.input_buffer ≠ [] := fun h => h0 ((char_at_zero_eq_NUL_iff _).2 h)
    have hloop : backspace_loop eng.input_buffer BUFFER_SIZE 0
        = (cstr eng.input_buffer).dropLast ++ NUL :: NUL :: x :: s := by
      conv_lhs => rw [hb]
      rw [backspace_loop_eq _ hnn _ _ _ (Nat.zero_le _) (by rw [htx] at hsz; omega),
        set_last_NUL _ ht]
    simp only [hloop]
    have hc : cstr ((cstr eng.input_buffer).dropLast ++ NUL :: NUL :: x :: s)
        = (cstr eng.input_buffer).dropLast := cstr_append_NUL (no_nul_dropLast hnn) _
    have hl : ((cstr eng.input_buffer).dropLast ++ NUL :: NUL :: x :: s).length
        = eng.input_buffer.length := by
      conv_rhs => rw [hb]
      simp
      have : (cstr eng.input_buffer).length ≠ 0 := by simpa using ht
      omega
    by_cases h1 : char_at ((cstr eng.input_buffer).dropLast ++ NUL :: NUL :: x :: s) 0 = NUL
    · rw [if_pos h1]
      have h2 := (char_at_zero_eq_NUL_iff _).1 h1
      rw [hc] at h2
      refine ⟨rfl, ?_, hl, rfl, ?_⟩
      · show cstr _ = _
        rw [hc]; rfl
      · intro _
        show _ = formatted (cstr _)
        rw [hc, h2]
        exact display_zero_text
    · rw [if_neg h1]
      refine ⟨rfl, ?_, hl, rfl, ?_⟩
      · show cstr _ = _
        rw [hc]; rfl
      · intro hsz2
        apply display_buffer_text
        show (cstr _).length + 2 ≤ _
        rw [hc]
        simp
        rw [htx] at hsz2
        omega

theorem send_digit_loop_eq (eng : engine_t) (d : Char) (t s : List Char)
    (hb : eng.input_buffer = t ++ NUL :: s) (ht : no_nul t) (hdp : eng.dp_sep ≠ NUL) :
    ∀ (k i : Nat) (st : digit_scan), i ≤ t.length → t.length - i < k →
      send_digit_loop eng d k i st
        = send_digit_at_end eng d t.length (scan_text eng.dp_sep (t.drop i) i st) := by
  intro k
  induction k with
  | zero => intro i _ _ h; omega
  | succ k ih =>
    intro i st hi hk
    unfold send_digit_loop
    by_cases hlt : i < t.length
    · have hc : char_at eng.input_buffer i = t[i] := by
        rw [hb, char_at_append_left hlt]
        unfold char_at; exact List.getD_eq_getElem _ _ hlt
      have hne : t[i] ≠ NUL := ht _ (List.getElem_mem hlt)
      have hd : t.drop i = t[i] :: t.drop (i + 1) := List.drop_eq_getElem_cons hlt
      rw [hd, hc]
      simp only [scan_text, scan_step]
      split_ifs <;> exact ih (i + 1) _ (by omega) (by omega)
    · have : i = t.length := by omega
      subst this
      have hc : char_at eng.input_buffer t.length = NUL := by rw [hb, char_at_append_length]
      rw [hc, if_neg NUL_ne_minus, if_neg (Ne.symm hdp), if_neg NUL_not_digit, if_neg NUL_ne_e,
        if_pos rfl]
      simp [scan_text]

theorem scan_text_index_le (dp : Char) (t : List Char) :
    ∀ (i : Nat) (st : digit_scan),
      st.exponent_index + (if st.minus_inserted then 1 else 0) ≤ i →
      (scan_text dp t i st).exponent_index
        + (if (scan_text dp t i st).minus_inserted then 1 else 0) ≤ i + t.length := by
  induction t with
  | nil => intro i st h; simpa [scan_text] using h
  | cons c r ih =>
    intro i st h
    have := ih (i + 1) (scan_step dp st i c) (by
      unfold scan_step
      split_ifs <;> simp_all <;> omega)
    simp only [scan_text, List.length_cons]
    omega

theorem char_at_length (t : List Char) : char_at t t.length = NUL := by
  unfold char_at; exact List.getD_eq_default _ _ (le_refl _)

theorem char_at_buffer_le {t : List Char} (s : List Char) {j : Nat} (h : j ≤ t.length) :
    char_at (t ++ NUL :: s) j = char_at t j := by
  rcases Nat.lt_or_ge j t.length with h1 | h1
  · exact char_at_append_left h1 _
  · have : j = t.length := by omega
    subst this
    rw [char_at_append_length, char_at_length]

theorem no_nul_set {t : List Char} (h : no_nul t) (j : Nat) {d : Char} (hd : d ≠ NUL) :
    no_nul (t.set j d) := by
  intro c hc
  rcases List.mem_or_eq_of_mem_set hc with h1 | h1
  · exact h c h1
  · rw [h1]; exact hd

theorem send_digit_at_end_eq (eng : engine_t) (d : Char) (t : List Char) (x : Char)
    (s : List Char) (hb : eng.input_buffer = t ++ NUL :: x :: s) :
    ∃ s2, send_digit_at_end eng d t.length (scan_text eng.dp_sep t 0 digit_scan_init)
      = digit_text eng.mantissa_length_limit eng.exponent_length_limit eng.dp_sep d t
          ++ NUL :: s2 ∧
      (digit_text eng.mantissa_length_limit eng.exponent_length_limit eng.dp_sep d t
          ++ NUL :: s2).length = eng.input_buffer.length := by
  have hj := scan_text_index_le eng.dp_sep t 0 digit_scan_init (by simp [digit_scan_init])
  simp only [Nat.zero_add] at hj
  unfold send_digit_at_end digit_text
  simp only
  generalize scan_text eng.dp_sep t 0 digit_scan_init = sc at hj ⊢
  have hj' : (if sc.minus_inserted = true then 1 else 0) + sc.exponent_index ≤ t.length := by
    omega
  rw [hb, char_at_buffer_le _ hj']
  have happ : ((t ++ NUL :: x :: s).set t.length d).set (t.length + 1) NUL
      = (t ++ [d]) ++ NUL :: s := by
    rw [set_two_at_end]; simp
  by_cases h1 : char_at t ((if sc.minus_inserted = true then 1 else 0) + sc.exponent_index) = '0'
      ∧ ¬ sc.dpoint_inserted = true
  · rw [if_pos h1, if_pos h1]
    have hlt : (if sc.minus_inserted = true then 1 else 0) + sc.exponent_index < t.length := by
      rcases Nat.lt_or_ge ((if sc.minus_inserted = true then 1 else 0) + sc.exponent_index)
        t.length with h2 | h2
      · exact h2
      · have : (if sc.minus_inserted = true then 1 else 0) + sc.exponent_index = t.length := by
          omega
        rw [this, char_at_length] at h1
        exact absurd h1.1 NUL_ne_zero
    exact ⟨x :: s, List.set_append_left _ _ hlt, by simp⟩
  · rw [if_neg h1, if_neg h1]
    by_cases h2 : sc.exponent_mode = true
    · rw [if_pos h2, if_pos h2]
      by_cases h3 : sc.digits_detected < eng.exponent_length_limit
      · rw [if_pos h3, if_pos h3]
        exact ⟨s, happ, by simp⟩
      · rw [if_neg h3, if_neg h3]
        exact ⟨x :: s, rfl, by simp⟩
    · rw [if_neg h2, if_neg h2]
      by_cases h3 : sc.digits_detected < eng.mantissa_length_limit
      · rw [if_pos h3, if_pos h3]
        exact ⟨s, happ, by simp⟩
      · rw [if_neg h3, if_neg h3]
        exact ⟨x :: s, rfl, by simp⟩

theorem no_nul_digit_text (mlim elim : Int) (dp : Char) {d : Char} (hd : d ≠ NUL)
    {t : List Char} (ht : no_nul t) : no_nul (digit_text mlim elim dp d t) := by
  unfold digit_text
  simp only
  split_ifs <;> first
    | exact no_nul_set ht _ hd
    | exact no_nul_append ht (no_nul_singleton hd)
    | exact ht

theorem clear_eval_buffer (eng : engine_t) : (clear_eval eng).input_buffer = eng.input_buffer := by
  unfold clear_eval; split <;> rfl

/-- Insert-digit on the text of the buffer. -/
theorem send_digit_text (eng : engine_t) (d : Char) (hst : eng.status = OK)
    (hlen : eng.text.length + 2 ≤ eng.input_buffer.length) (hsz : eng.text.length < BUFFER_SIZE)
    (hdp : eng.dp_sep ≠ NUL) (hd : d ≠ NUL) :
    (caleng_send_digit eng d).2
      = clear_eval { eng with input_buffer := (caleng_send_digit eng d).2.input_buffer } ∧
    (caleng_send_digit eng d).2.text
      = digit_text eng.mantissa_length_limit eng.exponent_length_limit eng.dp_sep d eng.text ∧
    (caleng_send_digit eng d).2.input_buffer.length = eng.input_buffer.length ∧
    (caleng_send_digit eng d).1 = display_buffer result_init (caleng_send_digit eng d).2 := by
  obtain ⟨x, s, hb⟩ := buffer_form eng.input_buffer hlen
  have hnn := no_nul_cstr eng.input_buffer
  have hloop := send_digit_loop_eq eng d _ _ hb hnn hdp BUFFER_SIZE 0 digit_scan_init
    (Nat.zero_le _) (by show eng.text.length - 0 < _; omega)
  rw [List.drop_zero] at hloop
  obtain ⟨s2, h2, h3⟩ := send_digit_at_end_eq eng d _ x s hb
  rw [h2] at hloop
  unfold caleng_send_digit
  rw [if_neg (by simpa using hst)]
  simp only [hloop, clear_eval_buffer]
  refine ⟨trivial, ?_, h3, trivial⟩
  show cstr (clear_eval _).input_buffer = _
  rw [clear_eval_buffer]
  exact cstr_append_NUL (no_nul_digit_text _ _ _ hd hnn) _

theorem nonzero_digits_cons (c : Char) (r : List Char) :
    nonzero_digits (c :: r) = nonzero_digits r + (if '0' < c ∧ c ≤ '9' then 1 else 0) := by
  unfold nonzero_digits
  rw [List.countP_cons]
  by_cases h : '0' < c ∧ c ≤ '9'
  · simp [h]
  · rw [if_neg h]; simp only [h, decide_False]; simp

theorem insert_decimal_point_loop_eq (eng : engine_t) (t s : List Char)
    (hb : eng.input_buffer = t ++ NUL :: s) (ht : no_nul t) (hdp : eng.dp_sep ≠ NUL) :
    ∀ (k i : Nat) (nz : Int), i ≤ t.length → t.length - i < k →
      insert_decimal_point_loop eng k i nz
        = if (t.drop i).any (fun c => decide (c = eng.dp_sep ∨ c = 'e')) then eng
          else insert_decimal_point_at_end eng (nz + (nonzero_digits (t.drop i) : Int)) := by
  intro k
  induction k with
  | zero => intro i _ _ h; omega
  | succ k ih =>
    intro i nz hi hk
    unfold insert_decimal_point_loop
    by_cases hlt : i < t.length
    · have hc : char_at eng.input_buffer i = t[i] := by
        rw [hb, char_at_append_left hlt]
        unfold char_at; exact List.getD_eq_getElem _ _ hlt
      have hne : t[i] ≠ NUL := ht _ (List.getElem_mem hlt)
      have hd : t.drop i = t[i] :: t.drop (i + 1) := List.drop_eq_getElem_cons hlt
      have hany : (t.drop i).any (fun c => decide (c = eng.dp_sep ∨ c = 'e'))
          = (decide (t[i] = eng.dp_sep ∨ t[i] = 'e')
              || (t.drop (i + 1)).any (fun c => decide (c = eng.dp_sep ∨ c = 'e'))) := by
        rw [hd]; rfl
      have hcnt : nonzero_digits (t.drop i)
          = nonzero_digits (t.drop (i + 1)) + (if '0' < t[i] ∧ t[i] ≤ '9' then 1 else 0) := by
        rw [hd, nonzero_digits_cons]
      rw [hc, hany, hcnt]
      by_cases h1 : t[i] = eng.dp_sep ∨ t[i] = 'e'
      · rw [if_pos h1]
        simp [h1]
      · rw [if_neg h1]
        simp only [h1, decide_False, Bool.false_or]
        by_cases h2 : '0' < t[i] ∧ t[i] ≤ '9'
        · rw [if_pos h2, ih (i + 1) _ (by omega) (by omega), if_pos h2]
          push_cast
          rw [add_assoc, add_comm 1]
        · rw [if_neg h2, if_neg hne, ih (i + 1) _ (by omega) (by omega), if_neg h2]
          simp
    · have : i = t.length := by omega
      subst this
      have hc : char_at eng.input_buffer t.length = NUL := by rw [hb, char_at_append_length]
      rw [hc, if_neg (by
        intro h; rcases h with h | h
        · exact hdp h.symm
        · exact NUL_ne_e h), if_neg NUL_not_nonzero_digit, if_pos rfl]
      simp [nonzero_digits, insert_decimal_point_at_end]

theorem digit_text_length_le (mlim elim : Int) (dp d : Char) (t : List Char) :
    (digit_text mlim elim dp d t).length ≤ t.length + 1 := by
  unfold digit_text
  simp only
  split_ifs <;> simp

theorem clear_eval_fields (eng : engine_t) :
    (clear_eval eng).memory = eng.memory ∧ (clear_eval eng).status = eng.status ∧
    (clear_eval eng).mantissa_length_limit = eng.mantissa_length_limit ∧
    (clear_eval eng).exponent_length_limit = eng.exponent_length_limit ∧
    (clear_eval eng).dp_sep = eng.dp_sep ∧ (clear_eval eng).input_buffer = eng.input_buffer := by
  unfold clear_eval; split <;> simp

theorem clear_eval_set_buffer (eng : engine_t) (b1 b2 : List Char) :
    clear_eval { clear_eval { eng with input_buffer := b1 } with input_buffer := b2 }
      = clear_eval { eng with input_buffer := b2 } := by
  unfold clear_eval
  by_cases h : eng.sel_op = EVAL
  · simp [h, NONE, EVAL]
  · simp [h]

/-- Appending a character at the end of the text of a buffer. -/
theorem append_at_strlen (b : List Char) (c : Char) (hc : c ≠ NUL)
    (hlen : strlen b + 2 ≤ b.length) :
    cstr ((b.set (strlen b) c).set (strlen b + 1) NUL) = cstr b ++ [c] ∧
    ((b.set (strlen b) c).set (strlen b + 1) NUL).length = b.length := by
  obtain ⟨x, s, hb⟩ := buffer_form b hlen
  have hnn := no_nul_cstr b
  refine ⟨?_, by simp⟩
  have hs : strlen b = (cstr b).length := rfl
  rw [hs]
  generalize cstr b = t at hb hnn ⊢
  subst hb
  rw [set_two_at_end]
  have : t ++ c :: NUL :: s = (t ++ [c]) ++ NUL :: s := by simp
  rw [this]
  exact cstr_append_NUL (no_nul_append hnn (no_nul_singleton hc)) _

theorem clear_eval_after (eng eng1 : engine_t) (b2 : List Char)
    (h : eng1 = eng ∨ ∃ b1, eng1 = clear_eval { eng with input_buffer := b1 }) :
    clear_eval { eng1 with input_buffer := b2 } = clear_eval { eng with input_buffer := b2 } := by
  rcases h with h | ⟨b1, h⟩
  · rw [h]
  · rw [h]; exact clear_eval_set_buffer _ _ _

theorem clear_eval_text (eng : engine_t) : (clear_eval eng).text = eng.text := by
  unfold engine_t.text; rw [(clear_eval_fields eng).2.2.2.2.2]

/-- The end branch of insert-decimal-point on the text of the buffer. -/
theorem insert_decimal_point_at_end_text (eng : engine_t) (nz : Int) (hst : eng.status = OK)
    (hlen : eng.text.length + 3 ≤ eng.input_buffer.length) (hsz : eng.text.length < BUFFER_SIZE)
    (hdp : eng.dp_sep ≠ NUL) :
    clear_eval (insert_decimal_point_at_end eng nz)
      = clear_eval { eng with input_buffer := (insert_decimal_point_at_end eng nz).input_buffer } ∧
    (insert_decimal_point_at_end eng nz).text
      = (if nz = 0 then
          digit_text eng.mantissa_length_limit eng.exponent_length_limit eng.dp_sep '0' eng.text
         else eng.text) ++ [eng.dp_sep] ∧
    (insert_decimal_point_at_end eng nz).input_buffer.length = eng.input_buffer.length := by
  have h0 : ('0' : Char) ≠ NUL := by decide
  by_cases hz : nz = 0
  · obtain ⟨s1, s2, s3, _⟩ := send_digit_text eng '0' hst (by omega) hsz hdp h0
    have hl1 : strlen (caleng_send_digit eng '0').2.input_buffer + 2
        ≤ (caleng_send_digit eng '0').2.input_buffer.length := by
      show (caleng_send_digit eng '0').2.text.length + 2 ≤ _
      rw [s2, s3]
      have := digit_text_length_le eng.mantissa_length_limit eng.exponent_length_limit
        eng.dp_sep '0' eng.text
      omega
    have hdp1 : (caleng_send_digit eng '0').2.dp_sep = eng.dp_sep := by
      rw [s1]; exact (clear_eval_fields _).2.2.2.2.1
    obtain ⟨a1, a2⟩ := append_at_strlen (caleng_send_digit eng '0').2.input_buffer eng.dp_sep
      hdp hl1
    have e : insert_decimal_point_at_end eng nz
        = { (caleng_send_digit eng '0').2 with
            input_buffer := ((caleng_send_digit eng '0').2.input_buffer.set
              (strlen (caleng_send_digit eng '0').2.input_buffer) eng.dp_sep).set
              (strlen (caleng_send_digit eng '0').2.input_buffer + 1) NUL } := by
      unfold insert_decimal_point_at_end
      simp only [hz, if_true, hdp1]
    rw [e, if_pos hz]
    refine ⟨clear_eval_after eng _ _ (Or.inr ⟨_, s1⟩), ?_, ?_⟩
    · show cstr _ = _
      rw [a1]
      show (caleng_send_digit eng '0').2.text ++ _ = _
      rw [s2]
    · show (_ : List Char).length = _
      rw [a2, s3]
  · obtain ⟨a1, a2⟩ := append_at_strlen eng.input_buffer eng.dp_sep hdp
      (by show eng.text.length + 2 ≤ _; omega)
    have e : insert_decimal_point_at_end eng nz
        = { eng with
            input_buffer := (eng.input_buffer.set (strlen eng.input_buffer) eng.dp_sep).set
              (strlen eng.input_buffer + 1) NUL } := by
      unfold insert_decimal_point_at_end
      simp only [hz, if_false]
    rw [e, if_neg hz]
    exact ⟨rfl, a1, a2⟩

/-- Insert-decimal-point on the text of the buffer. -/
theorem insert_decimal_point_text (eng : engine_t) (hst : eng.status = OK)
    (hlen : eng.text.length + 3 ≤ eng.input_buffer.length) (hsz : eng.text.length < BUFFER_SIZE)
    (hdp : eng.dp_sep ≠ NUL) :
    (caleng_insert_decimal_point eng).2
      = clear_eval { eng with input_buffer := (caleng_insert_decimal_point eng).2.input_buffer } ∧
    (caleng_insert_decimal_point eng).2.text
      = point_text eng.mantissa_length_limit eng.exponent_length_limit eng.dp_sep eng.text ∧
    (caleng_insert_decimal_point eng).2.input_buffer.length = eng.input_buffer.length ∧
    (caleng_insert_decimal_point eng).1
      = display_buffer result_init (caleng_insert_decimal_point eng).2 := by
  obtain ⟨x, s, hb⟩ := buffer_form eng.input_buffer (by show eng.text.length + 2 ≤ _; omega)
  have hnn := no_nul_cstr eng.input_buffer
  have hloop := insert_decimal_point_loop_eq eng _ _ hb hnn hdp BUFFER_SIZE 0 0
    (Nat.zero_le _) (by show eng.text.length - 0 < _; omega)
  rw [List.drop_zero, zero_add] at hloop
  have hdisp : (caleng_insert_decimal_point eng).1
        = display_buffer result_init (caleng_insert_decimal_point eng).2 := by
    unfold caleng_insert_decimal_point
    rw [if_neg (by simpa using hst)]
  have hres : (caleng_insert_decimal_point eng).2
      = clear_eval (insert_decimal_point_loop eng BUFFER_SIZE 0 0) := by
    unfold caleng_insert_decimal_point
    rw [if_neg (by simpa using hst)]
  refine ⟨?_, ?_, ?_, hdisp⟩
  all_goals rw [hres]
  all_goals clear hres hdisp
  all_goals by_cases hany : eng.text.any (fun c => decide (c = eng.dp_sep ∨ c = 'e')) = true
  · have hl : insert_decimal_point_loop eng BUFFER_SIZE 0 0 = eng := by
      rw [hloop]; exact if_pos hany
    rw [hl, (clear_eval_fields eng).2.2.2.2.2]
  · have hl : insert_decimal_point_loop eng BUFFER_SIZE 0 0
        = insert_decimal_point_at_end eng (nonzero_digits eng.text : Int) := by
      rw [hloop]; exact if_neg hany
    rw [hl, (clear_eval_fields _).2.2.2.2.2]
    exact (insert_decimal_point_at_end_text eng _ hst hlen hsz hdp).1
  · have hl : insert_decimal_point_loop eng BUFFER_SIZE 0 0 = eng := by
      rw [hloop]; exact if_pos hany
    rw [hl, clear_eval_text]
    unfold point_text
    rw [if_pos hany]
  · have hl : insert_decimal_point_loop eng BUFFER_SIZE 0 0
        = insert_decimal_point_at_end eng (nonzero_digits eng.text : Int) := by
      rw [hloop]; exact if_neg hany
    rw [hl, clear_eval_text, (insert_decimal_point_at_end_text eng _ hst hlen hsz hdp).2.1]
    unfold point_text
    rw [if_neg hany]
    simp only [Nat.cast_eq_zero]
  · have hl : insert_decimal_point_loop eng BUFFER_SIZE 0 0 = eng := by
      rw [hloop]; exact if_pos hany
    rw [hl, (clear_eval_fields eng).2.2.2.2.2]
  · have hl : insert_decimal_point_loop eng BUFFER_SIZE 0 0
        = insert_decimal_point_at_end eng (nonzero_digits eng.text : Int) := by
      rw [hloop]; exact if_neg hany
    rw [hl, (clear_eval_fields _).2.2.2.2.2]
    exact (insert_decimal_point_at_end_text eng _ hst hlen hsz hdp).2.2

theorem insert_exp_point_loop_cases (eng : engine_t) :
    ∀ (k i : Nat), insert_exp_point_loop eng k i = eng ∨
      insert_exp_point_loop eng k i = (caleng_backspace eng).2 := by
  intro k
  induction k with
  | zero => intro i; left; rfl
  | succ k ih =>
    intro i
    unfold insert_exp_point_loop
    split_ifs
    · right; rfl
    · left; rfl
    · exact ih (i + 1)
    · left; rfl

theorem insert_exp_loop_eq (eng : engine_t) (t s : List Char)
    (hb : eng.input_buffer = t ++ NUL :: s) (ht : no_nul t) :
    ∀ (k i : Nat) (nz : Int), i ≤ t.length → t.length - i < k →
      insert_exp_loop eng k i nz
        = if (t.drop i).any (fun c => decide (c = 'e')) then eng
          else insert_exp_at_end eng t.length (nz + (nonzero_digits (t.drop i) : Int)) := by
  intro k
  induction k with
  | zero => intro i _ _ h; omega
  | succ k ih =>
    intro i nz hi hk
    unfold insert_exp_loop
    by_cases hlt : i < t.length
    · have hc : char_at eng.input_buffer i = t[i] := by
        rw [hb, char_at_append_left hlt]
        unfold char_at; exact List.getD_eq_getElem _ _ hlt
      have hne : t[i] ≠ NUL := ht _ (List.getElem_mem hlt)
      have hd : t.drop i = t[i] :: t.drop (i + 1) := List.drop_eq_getElem_cons hlt
      have hany : (t.drop i).any (fun c => decide (c = 'e'))
          = (decide (t[i] = 'e') || (t.drop (i + 1)).any (fun c => decide (c = 'e'))) := by
        rw [hd]; rfl
      have hcnt : nonzero_digits (t.drop i)
          = nonzero_digits (t.drop (i + 1)) + (if '0' < t[i] ∧ t[i] ≤ '9' then 1 else 0) := by
        rw [hd, nonzero_digits_cons]
      rw [hc, hany, hcnt]
      by_cases h1 : t[i] = 'e'
      · rw [if_pos h1]
        simp [h1]
      · rw [if_neg h1]
        simp only [h1, decide_False, Bool.false_or]
        by_cases h2 : '0' < t[i] ∧ t[i] ≤ '9'
        · rw [if_pos h2, ih (i + 1) _ (by omega) (by omega), if_pos h2]
          push_cast
          rw [add_assoc, add_comm 1]
        · rw [if_neg h2, if_neg hne, ih (i + 1) _ (by omega) (by omega), if_neg h2]
          simp
    · have : i = t.length := by omega
      subst this
      have hc : char_at eng.input_buffer t.length = NUL := by rw [hb, char_at_append_length]
      rw [hc, if_neg NUL_ne_e, if_neg NUL_not_nonzero_digit, if_pos rfl]
      simp [nonzero_digits, insert_exp_at_end]

/-- The end branch of the second loop of insert-exponent on the text of the buffer. -/
theorem insert_exp_at_end_text (eng : engine_t) (nz : Int) (hst : eng.status = OK)
    (hlen : eng.text.length + 3 ≤ eng.input_buffer.length) (hsz : eng.text.length < BUFFER_SIZE)
    (hdp : eng.dp_sep ≠ NUL) :
    clear_eval (insert_exp_at_end eng eng.text.length nz)
      = clear_eval { eng with
          input_buffer := (insert_exp_at_end eng eng.text.length nz).input_buffer } ∧
    (insert_exp_at_end eng eng.text.length nz).text
      = (if nz = 0 then
          digit_text eng.mantissa_length_limit eng.exponent_length_limit eng.dp_sep '1' eng.text
         else eng.text) ++ ['e'] ∧
    (insert_exp_at_end eng eng.text.length nz).input_buffer.length = eng.input_buffer.length := by
  have h1 : ('1' : Char) ≠ NUL := by decide
  have he : ('e' : Char) ≠ NUL := by decide
  by_cases hz : nz = 0
  · obtain ⟨s1, s2, s3, _⟩ := send_digit_text eng '1' hst (by omega) hsz hdp h1
    have hl1 : strlen (caleng_send_digit eng '1').2.input_buffer + 2
        ≤ (caleng_send_digit eng '1').2.input_buffer.length := by
      show (caleng_send_digit eng '1').2.text.length + 2 ≤ _
      rw [s2, s3]
      have := digit_text_length_le eng.mantissa_length_limit eng.exponent_length_limit
        eng.dp_sep '1' eng.text
      omega
    obtain ⟨a1, a2⟩ := append_at_strlen (caleng_send_digit eng '1').2.input_buffer 'e' he hl1
    have e : insert_exp_at_end eng eng.text.length nz
        = { (caleng_send_digit eng '1').2 with
            input_buffer := ((caleng_send_digit eng '1').2.input_buffer.set
              (strlen (caleng_send_digit eng '1').2.input_buffer) 'e').set
              (strlen (caleng_send_digit eng '1').2.input_buffer + 1) NUL } := by
      unfold insert_exp_at_end
      simp only [hz, if_true]
    rw [e, if_pos hz]
    refine ⟨clear_eval_after eng _ _ (Or.inr ⟨_, s1⟩), ?_, ?_⟩
    · show cstr _ = _
      rw [a1]
      show (caleng_send_digit eng '1').2.text ++ _ = _
      rw [s2]
    · show (_ : List Char).length = _
      rw [a2, s3]
  · obtain ⟨a1, a2⟩ := append_at_strlen eng.input_buffer 'e' he
      (by show eng.text.length + 2 ≤ _; omega)
    have e : insert_exp_at_end eng eng.text.length nz
        = { eng with
            input_buffer := (eng.input_buffer.set (strlen eng.input_buffer) 'e').set
              (strlen eng.input_buffer + 1) NUL } := by
      unfold insert_exp_at_end
      simp only [hz, if_false]
      rfl
    rw [e, if_neg hz]
    exact ⟨rfl, a1, a2⟩

/-- The second loop of insert-exponent on the text of the buffer. -/
theorem insert_exp_loop_text (eng : engine_t) (hst : eng.status = OK)
    (hlen : eng.text.length + 3 ≤ eng.input_buffer.length) (hsz : eng.text.length < BUFFER_SIZE)
    (hdp : eng.dp_sep ≠ NUL) :
    clear_eval (insert_exp_loop eng BUFFER_SIZE 0 0)
      = clear_eval { eng with input_buffer := (insert_exp_loop eng BUFFER_SIZE 0 0).input_buffer } ∧
    (insert_exp_loop eng BUFFER_SIZE 0 0).text
      = exp_text eng.mantissa_length_limit eng.exponent_length_limit eng.dp_sep eng.text ∧
    (insert_exp_loop eng BUFFER_SIZE 0 0).input_buffer.length = eng.input_buffer.length := by
  obtain ⟨x, s, hb⟩ := buffer_form eng.input_buffer (by show eng.text.length + 2 ≤ _; omega)
  have hnn := no_nul_cstr eng.input_buffer
  have hloop := insert_exp_loop_eq eng _ _ hb hnn BUFFER_SIZE 0 0
    (Nat.zero_le _) (by show eng.text.length - 0 < _; omega)
  rw [List.drop_zero, zero_add] at hloop
  by_cases hany : eng.text.any (fun c => decide (c = 'e')) = true
  · have hl : insert_exp_loop eng BUFFER_SIZE 0 0 = eng := by
      rw [hloop]; exact if_pos hany
    rw [hl]
    refine ⟨rfl, ?_, rfl⟩
    unfold exp_text; rw [if_pos hany]
  · have hl : insert_exp_loop eng BUFFER_SIZE 0 0
        = insert_exp_at_end eng eng.text.length (nonzero_digits eng.text : Int) := by
      rw [hloop]; exact if_neg hany
    rw [hl]
    obtain ⟨a, b, c⟩ := insert_exp_at_end_text eng (nonzero_digits eng.text : Int) hst hlen hsz hdp
    refine ⟨a, ?_, c⟩
    rw [b]
    unfold exp_text
    rw [if_neg hany]
    simp only [Nat.cast_eq_zero]

/-- The first loop of insert-exponent leaves the engine as it is or calls backspace. -/
theorem insert_exp_point_loop_text (eng : engine_t) (k i : Nat) (hst : eng.status = OK)
    (hlen : eng.text.length + 2 ≤ eng.input_buffer.length) (hsz : eng.text.length < BUFFER_SIZE) :
    insert_exp_point_loop eng k i
      = { eng with input_buffer := (insert_exp_point_loop eng k i).input_buffer } ∧
    ((insert_exp_point_loop eng k i).text = eng.text ∨
      (insert_exp_point_loop eng k i).text = eng.text.dropLast) ∧
    (insert_exp_point_loop eng k i).input_buffer.length = eng.input_buffer.length := by
  rcases insert_exp_point_loop_cases eng k i with h | h
  · rw [h]; exact ⟨rfl, Or.inl rfl, rfl⟩
  · rw [h]
    obtain ⟨b1, b2, b3, _⟩ := backspace_text eng hst hlen hsz
    exact ⟨b1, Or.inr b2, b3⟩

/-- Insert-exponent on the text of the buffer: the second loop runs on the text that the first
loop leaves, which is the text of the buffer with or without its last character. -/
theorem insert_exp_text (eng : engine_t) (hst : eng.status = OK)
    (hlen : eng.text.length + 3 ≤ eng.input_buffer.length) (hsz : eng.text.length < BUFFER_SIZE)
    (hdp : eng.dp_sep ≠ NUL) :
    (caleng_insert_exp eng).2
      = clear_eval { eng with input_buffer := (caleng_insert_exp eng).2.input_buffer } ∧
    (caleng_insert_exp eng).2.text
      = exp_text eng.mantissa_length_limit eng.exponent_length_limit eng.dp_sep
          (insert_exp_point_loop eng (BUFFER_SIZE + eng.input_buffer.length + 1) 0).text ∧
    ((insert_exp_point_loop eng (BUFFER_SIZE + eng.input_buffer.length + 1) 0).text = eng.text ∨
      (insert_exp_point_loop eng (BUFFER_SIZE + eng.input_buffer.length + 1) 0).text
        = eng.text.dropLast) ∧
    (caleng_insert_exp eng).2.input_buffer.length = eng.input_buffer.length ∧
    (caleng_insert_exp eng).1 = display_buffer result_init (caleng_insert_exp eng).2 := by
  have hres : (caleng_insert_exp eng).2
      = clear_eval (insert_exp_loop
          (insert_exp_point_loop eng (BUFFER_SIZE + eng.input_buffer.length + 1) 0)
          BUFFER_SIZE 0 0) := by
    unfold caleng_insert_exp
    rw [if_neg (by simpa using hst)]
  have hdisp : (caleng_insert_exp eng).1 = display_buffer result_init (caleng_insert_exp eng).2 := by
    unfold caleng_insert_exp
    rw [if_neg (by simpa using hst)]
  obtain ⟨p1, p2, p3⟩ := insert_exp_point_loop_text eng
    (BUFFER_SIZE + eng.input_buffer.length + 1) 0 hst (by omega) hsz
  rw [hres]
  generalize insert_exp_point_loop eng (BUFFER_SIZE + eng.input_buffer.length + 1) 0 = e1
    at p1 p2 p3 hres ⊢
  have hst1 : e1.status = OK := by rw [p1]; exact hst
  have hdp1 : e1.dp_sep = eng.dp_sep := by rw [p1]
  have hm1 : e1.mantissa_length_limit = eng.mantissa_length_limit := by rw [p1]
  have hx1 : e1.exponent_length_limit = eng.exponent_length_limit := by rw [p1]
  have hl1 : e1.text.length ≤ eng.text.length := by
    rcases p2 with h | h
    · rw [h]
    · rw [h]; simp
  obtain ⟨a, b, c⟩ := insert_exp_loop_text e1 hst1 (by omega) (by omega) (by rw [hdp1]; exact hdp)
  refine ⟨?_, ?_, p2, ?_, ?_⟩
  · rw [a, (clear_eval_fields _).2.2.2.2.2]
    congr 1
    rw [p1]
  · rw [clear_eval_text, b, hm1, hx1, hdp1]
  · rw [(clear_eval_fields _).2.2.2.2.2, c, p3]
  · rw [← hres]; exact hdisp

theorem negate_loop_eq (t s : List Char) (ht : no_nul t) :
    ∀ (k i : Nat), i ≤ t.length → t.length - i < k →
      negate_loop (t ++ NUL :: s) k i
        = match strchr_from 'e' (t.drop i) i with
          | some p => (true, p)
          | none => (false, t.length) := by
  intro k
  induction k with
  | zero => intro i _ h; omega
  | succ k ih =>
    intro i hi hk
    unfold negate_loop
    by_cases hlt : i < t.length
    · have hc : char_at (t ++ NUL :: s) i = t[i] := by
        rw [char_at_append_left hlt]
        unfold char_at; exact List.getD_eq_getElem _ _ hlt
      have hne : t[i] ≠ NUL := ht _ (List.getElem_mem hlt)
      have hd : t.drop i = t[i] :: t.drop (i + 1) := List.drop_eq_getElem_cons hlt
      rw [hc, if_pos hne, hd]
      simp only [strchr_from]
      by_cases h1 : t[i] = 'e'
      · rw [if_pos h1, if_pos h1]
      · rw [if_neg h1, if_neg h1, if_neg hne]
        exact ih (i + 1) (by omega) (by omega)
    · have : i = t.length := by omega
      subst this
      rw [char_at_append_length]
      simp [strchr_from]

theorem append_char_loop_eq (u : List Char) (hu : no_nul u) (y : Char) (rest : List Char) :
    ∀ (k : Nat) (pre : List Char) (tmp : Char), u.length < k →
      append_char_loop k (pre ++ u ++ NUL :: y :: rest) pre.length tmp
        = pre ++ tmp :: u ++ NUL :: rest := by
  induction u with
  | nil =>
    intro k pre tmp hk
    match k, hk with
    | k + 1, _ =>
      unfold append_char_loop
      simp only [List.append_nil]
      rw [char_at_append_length]
      simp only [bne_self_eq_false, Bool.false_eq_true, if_false]
      rw [set_two_at_end]
      simp
  | cons c r ih =>
    intro k pre tmp hk
    match k, hk with
    | k + 1, hk =>
      unfold append_char_loop
      have hc : char_at (pre ++ c :: r ++ NUL :: y :: rest) pre.length = c := by
        rw [List.append_assoc]; exact char_at_append_length _ _ _
      have hne : c ≠ NUL := hu c (List.mem_cons_self _ _)
      rw [hc]
      simp only [bne_iff_ne, ne_eq, hne, not_false_eq_true, if_true]
      have hs : (pre ++ c :: r ++ NUL :: y :: rest).set pre.length tmp
          = (pre ++ [tmp]) ++ r ++ NUL :: y :: rest := by
        rw [List.append_assoc, List.set_append_right _ _ (le_refl _)]
        simp
      have hl : pre.length + 1 = (pre ++ [tmp]).length := by simp
      rw [hs, hl, ih (fun x hx => hu x (List.mem_cons_of_mem _ hx)) k (pre ++ [tmp]) c
        (by simp at hk; omega)]
      simp

theorem remove_char_loop_eq (u : List Char) (hu : no_nul u) (rest : List Char) :
    ∀ (k : Nat) (pre : List Char), u.length < k →
      remove_char_loop k (pre ++ u ++ NUL :: rest) pre.length
        = pre ++ u.tail ++ NUL :: (if u = [] then rest else NUL :: rest) := by
  induction u with
  | nil =>
    intro k pre hk
    match k, hk with
    | k + 1, _ =>
      unfold remove_char_loop
      simp only [List.append_nil]
      rw [char_at_append_length]
      simp
  | cons c r ih =>
    intro k pre hk
    match k, hk with
    | k + 1, hk =>
      unfold remove_char_loop
      have hc : char_at (pre ++ c :: r ++ NUL :: rest) pre.length = c := by
        rw [List.append_assoc]; exact char_at_append_length _ _ _
      have hne : c ≠ NUL := hu c (List.mem_cons_self _ _)
      have hr : no_nul r := fun x hx => hu x (List.mem_cons_of_mem _ hx)
      rw [hc]
      simp only [bne_iff_ne, ne_eq, hne, not_false_eq_true, if_true]
      have hnext : char_at (pre ++ c :: r ++ NUL :: rest) (pre.length + 1)
          = char_at (r ++ NUL :: rest) 0 := by
        have : pre ++ c :: r ++ NUL :: rest = (pre ++ [c]) ++ (r ++ NUL :: rest) := by simp
        rw [this]
        have hl : pre.length + 1 = (pre ++ [c]).length + 0 := by simp
        rw [hl, char_at_append_right]
      have hs : (pre ++ c :: r ++ NUL :: rest).set pre.length (char_at (r ++ NUL :: rest) 0)
          = (pre ++ [char_at (r ++ NUL :: rest) 0]) ++ r ++ NUL :: rest := by
        rw [List.append_assoc, List.set_append_right _ _ (le_refl _)]
        simp
      have hl : pre.length + 1 = (pre ++ [char_at (r ++ NUL :: rest) 0]).length := by simp
      rw [hnext, hs, hl, ih hr k _ (by simp at hk; omega)]
      cases r with
      | nil => simp [char_at]
      | cons c2 r2 => simp [char_at]

theorem append_char_loop_length :
    ∀ (k : Nat) (str : List Char) (i : Nat) (tmp : Char),
      (append_char_loop k str i tmp).length = str.length := by
  intro k
  induction k with
  | zero => intro str i tmp; rfl
  | succ k ih =>
    intro str i tmp
    unfold append_char_loop
    split_ifs
    · rw [ih]; simp
    · simp

theorem take_set_ge {l : List Char} {n m : Nat} (h : n ≤ m) (a : Char) :
    (l.set m a).take n = l.take n := by
  rw [List.set_take]
  apply List.set_eq_of_length_le
  simp; omega

theorem append_char_loop_take :
    ∀ (k : Nat) (str : List Char) (i : Nat) (tmp : Char),
      (append_char_loop k str i tmp).take i = str.take i := by
  intro k
  induction k with
  | zero => intro str i tmp; rfl
  | succ k ih =>
    intro str i tmp
    unfold append_char_loop
    split_ifs
    · have h := ih (str.set i tmp) (i + 1) (char_at str i)
      have h2 := congrArg (List.take i) h
      rw [List.take_take, List.take_take] at h2
      simp only [Nat.min_def, Nat.le_succ, if_true] at h2
      rw [h2, take_set_ge (le_refl _)]
    · rw [take_set_ge (Nat.le_succ i), take_set_ge (le_refl _)]

theorem append_char_loop_take_succ (k : Nat) (str : List Char) (i : Nat) (tmp : Char) :
    (append_char_loop (k + 1) str i tmp).take (i + 1) = (str.set i tmp).take (i + 1) := by
  unfold append_char_loop
  split_ifs
  · exact append_char_loop_take _ _ _ _
  · exact take_set_ge (le_refl _) _

theorem cstr_of_take {b u : List Char} (hu : no_nul u) (h : b.take (u.length + 1) = u ++ [NUL]) :
    cstr b = u := by
  have hb := List.take_append_drop (u.length + 1) b
  rw [h] at hb
  rw [← hb, List.append_assoc]
  exact cstr_append_NUL hu _

theorem append_char_in_string_split (a b : List Char) (ha : no_nul a) (hb : no_nul b)
    (x : Char) (s : List Char) (c : Char) (hc : c ≠ NUL) :
    cstr (append_char_in_string (a ++ b ++ NUL :: x :: s) c a.length) = a ++ c :: b ∧
    (append_char_in_string (a ++ b ++ NUL :: x :: s) c a.length).length
      = (a ++ b ++ NUL :: x :: s).length := by
  constructor
  · unfold append_char_in_string
    cases b with
    | nil =>
      simp only [List.append_nil]
      rw [char_at_append_length]
      have hset : (a ++ NUL :: x :: s).set a.length c = a ++ c :: x :: s := by
        rw [List.set_append_right _ _ (le_refl _)]; simp
      rw [hset]
      apply cstr_of_take (no_nul_append ha (no_nul_singleton hc))
      have hl : (a ++ [c]).length = a.length + 1 := by simp
      rw [hl, append_char_loop_take_succ]
      have : (a ++ c :: x :: s).set (a.length + 1) NUL = (a ++ [c]) ++ NUL :: s := by
        have e : a ++ c :: x :: s = (a ++ [c]) ++ x :: s := by simp
        rw [e, ← hl, List.set_append_right _ _ (le_refl _)]; simp
      rw [this, ← hl, List.take_append_eq_append_take]
      simp
      rw [List.take_of_length_le (by simp)]
      simp
    | cons y r =>
      have hr : no_nul r := fun z hz => hb z (List.mem_cons_of_mem _ hz)
      have hy : y ≠ NUL := hb y (List.mem_cons_self _ _)
      have htmp : char_at (a ++ y :: r ++ NUL :: x :: s) a.length = y := by
        rw [List.append_assoc]; exact char_at_append_length _ _ _
      have hset : (a ++ y :: r ++ NUL :: x :: s).set a.length c
          = (a ++ [c]) ++ r ++ NUL :: x :: s := by
        rw [List.append_assoc, List.set_append_right _ _ (le_refl _)]; simp
      have hidx : a.length + 1 = (a ++ [c]).length := by simp
      rw [htmp, hset, hidx, append_char_loop_eq r hr x s _ _ _ (by simp; omega)]
      have : a ++ [c] ++ y :: r ++ NUL :: s = (a ++ c :: y :: r) ++ NUL :: s := by simp
      rw [this]
      apply cstr_append_NUL
      intro z hz
      rcases List.mem_append.1 hz with h | h
      · exact ha z h
      · rcases List.mem_cons.1 h with h | h
        · rw [h]; exact hc
        · exact hb z h
  · unfold append_char_in_string
    rw [append_char_loop_length]; simp

/-- Insertion of a character in the text of a buffer by `append_char_in_string`. -/
theorem append_char_in_string_text (t : List Char) (ht : no_nul t) (x : Char) (s : List Char)
    (c : Char) (hc : c ≠ NUL) (k : Nat) (hk : k ≤ t.length) :
    cstr (append_char_in_string (t ++ NUL :: x :: s) c k) = t.take k ++ c :: t.drop k ∧
    (append_char_in_string (t ++ NUL :: x :: s) c k).length = (t ++ NUL :: x :: s).length := by
  have h := append_char_in_string_split (t.take k) (t.drop k)
    (fun z hz => ht z (List.mem_of_mem_take hz)) (no_nul_drop ht k) x s c hc
  have hl : (t.take k).length = k := by simp; omega
  rw [List.take_append_drop, hl] at h
  exact h

/-- Removal of a character of the text of a buffer by `remove_char_in_string`. -/
theorem remove_char_in_string_text (t : List Char) (ht : no_nul t) (s : List Char)
    (k : Nat) (hk : k < t.length) :
    cstr (remove_char_in_string (t ++ NUL :: s) k) = t.eraseIdx k ∧
    (remove_char_in_string (t ++ NUL :: s) k).length = (t ++ NUL :: s).length := by
  have hl : (t.take k).length = k := by simp; omega
  have hd : t.drop k ≠ [] := by
    intro h
    have := congrArg List.length h
    simp at this; omega
  have e : remove_char_in_string (t ++ NUL :: s) k
      = t.take k ++ (t.drop k).tail ++ NUL :: NUL :: s := by
    unfold remove_char_in_string
    have h := remove_char_loop_eq (t.drop k) (no_nul_drop ht k) s
      ((t ++ NUL :: s).length + 1) (t.take k) (by simp; omega)
    rw [List.take_append_drop, hl, if_neg hd] at h
    exact h
  rw [e]
  constructor
  · rw [List.eraseIdx_eq_take_drop_succ, List.tail_drop]
    apply cstr_append_NUL
    intro z hz
    rcases List.mem_append.1 hz with h | h
    · exact ht z (List.mem_of_mem_take h)
    · exact ht z (List.mem_of_mem_drop h)
  · simp [List.length_take, List.length_drop]
    omega

/-- Toggling the sign at an index of the text of a buffer, as `caleng_negate` does it. -/
theorem toggle_minus_buffer (t : List Char) (ht : no_nul t) (x : Char) (s : List Char)
    (k : Nat) (hk : k ≤ t.length) :
    cstr (if char_at (t ++ NUL :: x :: s) k = '-' then remove_char_in_string (t ++ NUL :: x :: s) k
          else append_char_in_string (t ++ NUL :: x :: s) '-' k) = toggle_minus t k ∧
    (if char_at (t ++ NUL :: x :: s) k = '-' then remove_char_in_string (t ++ NUL :: x :: s) k
          else append_char_in_string (t ++ NUL :: x :: s) '-' k).length
      = (t ++ NUL :: x :: s).length := by
  unfold toggle_minus
  rw [char_at_buffer_le _ hk]
  by_cases h : char_at t k = '-'
  · rw [if_pos h, if_pos h]
    have hlt : k < t.length := by
      rcases Nat.lt_or_ge k t.length with h1 | h1
      · exact h1
      · have : k = t.length := by omega
        rw [this, char_at_length] at h
        exact absurd h NUL_ne_minus
    exact remove_char_in_string_text t ht _ k hlt
  · rw [if_neg h, if_neg h]
    exact append_char_in_string_text t ht x s '-' (Ne.symm NUL_ne_minus) k hk

/-- Negate on the text of the buffer. -/
theorem negate_text_eq (eng : engine_t) (hst : eng.status = OK)
    (hlen : eng.text.length + 2 ≤ eng.input_buffer.length) (hsz : eng.text.length < BUFFER_SIZE) :
    (caleng_negate eng).2
      = clear_eval { eng with input_buffer := (caleng_negate eng).2.input_buffer } ∧
    (caleng_negate eng).2.text = negate_text eng.text ∧
    (caleng_negate eng).2.input_buffer.length = eng.input_buffer.length ∧
    (caleng_negate eng).1 = display_buffer result_init (caleng_negate eng).2 := by
  obtain ⟨x, s, hb⟩ := buffer_form eng.input_buffer hlen
  have hnn := no_nul_cstr eng.input_buffer
  have htx : eng.text = cstr eng.input_buffer := rfl
  have hloop : negate_loop eng.input_buffer BUFFER_SIZE 0
      = match strchr eng.text 0 'e' with
        | some p => (true, p)
        | none => (false, eng.text.length) := by
    conv_lhs => rw [hb]
    rw [negate_loop_eq _ _ hnn BUFFER_SIZE 0 (Nat.zero_le _) (by rw [htx] at hsz; omega)]
    rfl
  unfold caleng_negate
  rw [if_neg (by simpa using hst)]
  simp only [hloop]
  refine ⟨?_, ?_, ?_, trivial⟩
  · rw [(clear_eval_fields _).2.2.2.2.2]
  · rw [clear_eval_text]
    show cstr _ = _
    unfold negate_text
    cases he : strchr eng.text 0 'e' with
    | some p =>
      have hp := strchr_lt (Nat.zero_le _) he
      simp only [if_true]
      have := (toggle_minus_buffer _ hnn x s (p + 1) (by rw [← htx]; omega)).1
      rw [← hb] at this
      exact this
    | none =>
      simp only [Bool.false_eq_true, if_false]
      have := (toggle_minus_buffer _ hnn x s 0 (Nat.zero_le _)).1
      rw [← hb] at this
      exact this
  · rw [(clear_eval_fields _).2.2.2.2.2]
    show (_ : List Char).length = _
    cases he : strchr eng.text 0 'e' with
    | some p =>
      have hp := strchr_lt (Nat.zero_le _) he
      simp only [if_true]
      have := (toggle_minus_buffer _ hnn x s (p + 1) (by rw [← htx]; omega)).2
      rw [← hb] at this
      exact this
    | none =>
      simp only [Bool.false_eq_true, if_false]
      have := (toggle_minus_buffer _ hnn x s 0 (Nat.zero_le _)).2
      rw [← hb] at this
      exact this

theorem MATH_ERR_ne_OK : MATH_ERR ≠ OK := by decide

/-- Every operation except cancel returns at once in an error state. -/
theorem calls_in_error_state (eng : engine_t) (fuel : Nat) (digit : Char) (un op : Int)
    (h : eng.status ≠ OK) :
    (caleng_backspace eng = ({ result_init with rtn_code := eng.status }, eng)) ∧
    (caleng_send_digit eng digit = ({ result_init with rtn_code := eng.status }, eng)) ∧
    (caleng_insert_decimal_point eng = ({ result_init with rtn_code := eng.status }, eng)) ∧
    (caleng_insert_exp eng = ({ result_init with rtn_code := eng.status }, eng)) ∧
    (caleng_negate eng = ({ result_init with rtn_code := eng.status }, eng)) ∧
    (caleng_evaluate fuel eng = Except.ok ({ result_init with rtn_code := eng.status }, eng)) ∧
    (caleng_eval_un_op fuel eng un
      = Except.ok ({ result_init with rtn_code := eng.status }, eng)) ∧
    (caleng_select_bi_op fuel eng op
      = Except.ok ({ result_init with rtn_code := eng.status }, eng)) := by
  refine ⟨?_, ?_, ?_, ?_, ?_, ?_, ?_, ?_⟩
  · simp [caleng_backspace, h]
  · simp [caleng_send_digit, h]
  · simp [caleng_insert_decimal_point, h]
  · simp [caleng_insert_exp, h]
  · simp [caleng_negate, h]
  · simp [caleng_evaluate, h]
  · simp [caleng_eval_un_op, h]
  · simp [caleng_select_bi_op, h]

theorem scan_text_append (dp : Char) (a b : List Char) :
    ∀ (i : Nat) (s : digit_scan),
      scan_text dp (a ++ b) i s = scan_text dp b (i + a.length) (scan_text dp a i s) := by
  induction a with
  | nil => intro i s; rfl
  | cons c r ih =>
    intro i s
    simp only [List.cons_append, scan_text, List.length_cons, List.append_eq]
    rw [ih]
    congr 1
    omega

theorem is_digit_ne_sep {dp c : Char} (hdp : is_digit dp = false) (hc : is_digit c = true) :
    c ≠ dp := by
  intro h; rw [h, hdp] at hc; cases hc

theorem scan_text_digits (dp : Char) (hdp : is_digit dp = false) (ds : List Char)
    (h : all_digits ds) :
    ∀ (i : Nat) (s : digit_scan),
      scan_text dp ds i s = { s with digits_detected := s.digits_detected + (ds.length : Int) } := by
  induction ds with
  | nil => intro i s; simp [scan_text]
  | cons c r ih =>
    intro i s
    have hc : is_digit c = true := h c (List.mem_cons_self _ _)
    have hr : all_digits r := fun x hx => h x (List.mem_cons_of_mem _ hx)
    have h1 : c ≠ '-' := is_digit_ne_minus hc
    have h2 : c ≠ dp := is_digit_ne_sep hdp hc
    have h3 : '0' ≤ c ∧ c ≤ '9' := (is_digit_iff c).1 hc
    simp only [scan_text, scan_step, h1, h2, h3, if_false, if_true, and_self]
    rw [ih hr]
    simp only [List.length_cons]
    push_cast
    congr 1
    ring

theorem scan_text_sign (dp : Char) (neg : Bool) (i : Nat) (s : digit_scan) :
    scan_text dp (sign_text neg) i s
      = { s with minus_inserted := s.minus_inserted || neg } := by
  cases neg <;> simp [sign_text, scan_text, scan_step]

theorem scan_text_frac (dp : Char) (hsep : valid_sep dp) (fp : Option (List Char))
    (h : ∀ f, fp = some f → all_digits f) (i : Nat) (s : digit_scan) :
    scan_text dp (frac_text dp fp) i s
      = { s with dpoint_inserted := s.dpoint_inserted || fp.isSome,
                 digits_detected := s.digits_detected + (frac_len fp : Int) } := by
  cases fp with
  | none => simp [frac_text, scan_text, frac_len]
  | some f =>
    have h1 : dp ≠ '-' := hsep.2.1
    simp only [frac_text, scan_text, scan_step, h1, if_false, if_true]
    rw [scan_text_digits dp hsep.2.2.2 f (h f rfl)]
    simp [frac_len]

theorem scan_text_mant (dp : Char) (hsep : valid_sep dp) (sh : shape) (hok : sh.ok) :
    scan_text dp (mant_text dp sh) 0 digit_scan_init
      = { minus_inserted := sh.neg, exponent_mode := false, dpoint_inserted := sh.fp.isSome,
          digits_detected := ((sh.ip.length + frac_len sh.fp : Nat) : Int),
          exponent_index := 0 } := by
  unfold mant_text
  rw [scan_text_append, scan_text_append, scan_text_sign,
    scan_text_digits dp hsep.2.2.2 sh.ip hok.1, scan_text_frac dp hsep sh.fp hok.2.1]
  simp [digit_scan_init]

theorem scan_text_render (dp : Char) (hsep : valid_sep dp) (sh : shape) (hok : sh.ok) :
    scan_text dp (render dp sh) 0 digit_scan_init = shape_scan dp sh := by
  unfold render
  rw [scan_text_append, scan_text_mant dp hsep sh hok]
  unfold shape_scan
  cases hex : sh.ex with
  | none => simp [expo_text, scan_text]
  | some p =>
    obtain ⟨sg, ds⟩ := p
    have hds := (hok.2.2.1 sg ds hex).1
    have h1 : ('e' : Char) ≠ dp := Ne.symm hsep.2.2.1
    simp only [expo_text, scan_text, scan_step, h1, if_false]
    simp only [show ¬ ('e' : Char) = '-' by decide, show ¬ ('0' ≤ 'e' ∧ 'e' ≤ '9') by decide,
      if_false, if_true]
    rw [scan_text_append, scan_text_sign, scan_text_digits dp hsep.2.2.2 ds hds]
    simp

theorem all_digits_append {a b : List Char} (ha : all_digits a) (hb : all_digits b) :
    all_digits (a ++ b) := by
  intro c hc
  rcases List.mem_append.1 hc with h | h
  · exact ha c h
  · exact hb c h

theorem all_digits_singleton {d : Char} (hd : is_digit d = true) : all_digits [d] := by
  intro c hc; simp at hc; rw [hc]; exact hd

theorem shape_send_digit_ok (d : Char) (hd : is_digit d = true) (sh : shape) (hok : sh.ok) :
    (sh.send_digit d).ok := by
  obtain ⟨h1, h2, h3, h4, h5, h6⟩ := hok
  obtain ⟨neg, ip, fp, ex⟩ := sh
  simp only at h1 h2 h3 h4 h5 h6
  unfold shape.send_digit
  cases ex with
  | some p =>
    obtain ⟨sg, ds⟩ := p
    simp only
    split_ifs with hl
    · refine ⟨h1, h2, ?_, h4, fun _ => h5 (Or.inr (by simp)), h6⟩
      intro sg2 ds2 he
      simp only [Option.some.injEq, Prod.mk.injEq] at he
      obtain ⟨_, he⟩ := he
      subst he
      exact ⟨all_digits_append (h3 sg ds rfl).1 (all_digits_singleton hd), by simp; omega⟩
    · exact ⟨h1, h2, h3, h4, h5, h6⟩
  | none =>
    cases fp with
    | some f =>
      simp only
      split_ifs with hl
      · refine ⟨h1, ?_, h3, ?_, fun _ => h5 (Or.inl (by simp)), h6⟩
        · intro f2 hf
          simp only [Option.some.injEq] at hf
          subst hf
          exact all_digits_append (h2 f rfl) (all_digits_singleton hd)
        · simp [frac_len]; omega
      · exact ⟨h1, h2, h3, h4, h5, h6⟩
    | none =>
      cases ip with
      | nil =>
        simp only
        refine ⟨all_digits_singleton hd, h2, h3, by simp [frac_len], by simp, ?_⟩
        intro r hr
        simp only [List.cons.injEq] at hr
        exact hr.2.symm
      | cons c r =>
        simp only
        split_ifs with hc hl
        · have hr : r = [] := h6 r (by rw [hc])
          subst hr
          refine ⟨all_digits_singleton hd, h2, h3, by simp [frac_len], by simp, ?_⟩
          intro r hr
          simp only [List.cons.injEq] at hr
          exact hr.2.symm
        · refine ⟨all_digits_append h1 (all_digits_singleton hd), h2, h3, ?_, by simp, ?_⟩
          · simp [frac_len] at hl ⊢; omega
          · intro r2 hr2
            simp only [List.cons_append, List.cons.injEq] at hr2
            exact absurd hr2.1 hc
        · exact ⟨h1, h2, h3, h4, h5, h6⟩

theorem render_no_exp (dp : Char) (sh : shape) (h : sh.ex = none) :
    render dp sh = sign_text sh.neg ++ (sh.ip ++ frac_text dp sh.fp) := by
  unfold render mant_text
  rw [h]
  simp [expo_text]

theorem char_at_sign (neg : Bool) (r : List Char) :
    char_at (sign_text neg ++ r) ((if neg = true then 1 else 0) + 0) = char_at r 0 := by
  cases neg <;> simp [sign_text, char_at]

theorem set_sign (neg : Bool) (r : List Char) (d : Char) :
    (sign_text neg ++ r).set ((if neg = true then 1 else 0) + 0) d = sign_text neg ++ r.set 0 d := by
  cases neg <;> simp [sign_text]

theorem char_at_exp_start (m : List Char) (sg : Bool) (ds : List Char) :
    char_at (m ++ 'e' :: (sign_text sg ++ ds)) ((if sg = true then 1 else 0) + m.length) ≠ '0' := by
  rw [Nat.add_comm, char_at_append_right]
  cases sg <;> simp [sign_text, char_at]

/-- Insert-digit on the text of a shape is insert-digit on the shape. -/
theorem digit_text_render (dp d : Char) (hsep : valid_sep dp) (sh : shape) (hok : sh.ok) :
    digit_text 9 2 dp d (render dp sh) = render dp (sh.send_digit d) := by
  unfold digit_text
  simp only
  rw [scan_text_render dp hsep sh hok]
  obtain ⟨h1, h2, h3, h4, h5, h6⟩ := hok
  obtain ⟨neg, ip, fp, ex⟩ := sh
  simp only at h1 h2 h3 h4 h5 h6
  unfold shape_scan shape.send_digit
  cases ex with
  | some p =>
    obtain ⟨sg, ds⟩ := p
    simp only
    have hne := char_at_exp_start (mant_text dp ⟨neg, ip, fp, some (sg, ds)⟩) sg ds
    have hr : render dp ⟨neg, ip, fp, some (sg, ds)⟩
        = mant_text dp ⟨neg, ip, fp, some (sg, ds)⟩ ++ 'e' :: (sign_text sg ++ ds) := rfl
    rw [hr, if_neg (fun h => hne h.1)]
    simp only [if_true]
    by_cases hl : ds.length < 2
    · have hl' : (ds.length : Int) < 2 := by exact_mod_cast hl
      rw [if_pos hl', if_pos hl]
      simp [render, mant_text, expo_text]
    · have hl' : ¬ (ds.length : Int) < 2 := by
        intro h; exact hl (by exact_mod_cast h)
      rw [if_neg hl', if_neg hl]
      rfl
  | none =>
    rw [render_no_exp dp _ rfl]
    simp only
    rw [char_at_sign, set_sign]
    cases fp with
    | some f =>
      simp only [Option.isSome_some, not_true_eq_false, and_false, if_false, Bool.false_eq_true]
      by_cases hl : ip.length + f.length < 9
      · have hl' : ((ip.length + frac_len (some f) : Nat) : Int) < 9 := by
          simp only [frac_len]; exact_mod_cast hl
        rw [if_pos hl', if_pos hl]
        simp [render, mant_text, expo_text, frac_text]
      · have hl' : ¬ ((ip.length + frac_len (some f) : Nat) : Int) < 9 := by
          simp only [frac_len]; intro h; exact hl (by exact_mod_cast h)
        rw [if_neg hl', if_neg hl]
        simp [render, mant_text, expo_text, frac_text]
    | none =>
      cases ip with
      | nil =>
        simp [frac_text, char_at, NUL_ne_zero, render, mant_text, expo_text, frac_len]
      | cons c r =>
        simp only [frac_text, List.append_nil, char_at, List.getD_cons_zero, Option.isSome_none,
          Bool.false_eq_true, not_false_eq_true, and_true, frac_len, Nat.add_zero]
        by_cases hc : c = '0'
        · rw [if_pos hc, if_pos hc]
          simp [render, mant_text, expo_text, frac_text]
        · rw [if_neg hc, if_neg hc]
          by_cases hl : (c :: r).length < 9
          · have hl' : (((c :: r).length : Nat) : Int) < 9 := by exact_mod_cast hl
            rw [if_pos hl', if_pos hl]
            simp [render, mant_text, expo_text, frac_text]
          · have hl' : ¬ (((c :: r).length : Nat) : Int) < 9 := by
              intro h; exact hl (by exact_mod_cast h)
            rw [if_neg hl', if_neg hl]
            simp [render, mant_text, expo_text, frac_text]

theorem all_digits_no_nul {l : List Char} (h : all_digits l) : no_nul l :=
  fun c hc => is_digit_ne_NUL (h c hc)

theorem all_digits_not_mem {l : List Char} (h : all_digits l) {c : Char}
    (hc : is_digit c = false) : c ∉ l := by
  intro hm; rw [h c hm] at hc; cases hc

theorem all_digits_dropLast {l : List Char} (h : all_digits l) : all_digits l.dropLast :=
  fun c hc => h c (List.mem_of_mem_dropLast hc)

theorem all_digits_nil : all_digits [] := by
  intro c hc; cases hc

theorem sign_text_no_nul (neg : Bool) : no_nul (sign_text neg) := by
  cases neg <;> simp [sign_text, no_nul, Ne.symm NUL_ne_minus]

theorem e_not_mem_sign (neg : Bool) : 'e' ∉ sign_text neg := by
  cases neg <;> simp [sign_text]

theorem frac_text_no_nul {dp : Char} (hsep : valid_sep dp) {fp : Option (List Char)}
    (h : ∀ f, fp = some f → all_digits f) : no_nul (frac_text dp fp) := by
  cases fp with
  | none => intro c hc; cases hc
  | some f =>
    intro c hc
    simp only [frac_text, List.mem_cons] at hc
    rcases hc with hc | hc
    · rw [hc]; exact hsep.1
    · exact all_digits_no_nul (h f rfl) c hc

theorem e_not_mem_frac {dp : Char} (hsep : valid_sep dp) {fp : Option (List Char)}
    (h : ∀ f, fp = some f → all_digits f) : 'e' ∉ frac_text dp fp := by
  cases fp with
  | none => simp [frac_text]
  | some f =>
    simp only [frac_text, List.mem_cons, not_or]
    exact ⟨Ne.symm hsep.2.2.1, all_digits_not_mem (h f rfl) (by decide)⟩

theorem mant_text_no_nul {dp : Char} (hsep : valid_sep dp) {sh : shape} (hok : sh.ok) :
    no_nul (mant_text dp sh) :=
  no_nul_append (no_nul_append (sign_text_no_nul _) (all_digits_no_nul hok.1))
    (frac_text_no_nul hsep hok.2.1)

theorem e_not_mem_mant {dp : Char} (hsep : valid_sep dp) {sh : shape} (hok : sh.ok) :
    'e' ∉ mant_text dp sh := by
  unfold mant_text
  simp only [List.mem_append, not_or]
  exact ⟨⟨e_not_mem_sign _, all_digits_not_mem hok.1 (by decide)⟩, e_not_mem_frac hsep hok.2.1⟩

theorem expo_text_no_nul {ex : Option (Bool × List Char)}
    (h : ∀ sg ds, ex = some (sg, ds) → all_digits ds ∧ ds.length ≤ 2) : no_nul (expo_text ex) := by
  cases ex with
  | none => intro c hc; cases hc
  | some p =>
    obtain ⟨sg, ds⟩ := p
    intro c hc
    simp only [expo_text, List.mem_cons, List.mem_append] at hc
    rcases hc with hc | hc | hc
    · rw [hc]; exact Ne.symm NUL_ne_e
    · exact sign_text_no_nul _ c hc
    · exact all_digits_no_nul (h sg ds rfl).1 c hc

theorem render_no_nul {dp : Char} (hsep : valid_sep dp) {sh : shape} (hok : sh.ok) :
    no_nul (render dp sh) :=
  no_nul_append (mant_text_no_nul hsep hok) (expo_text_no_nul hok.2.2.1)

theorem sign_text_length (neg : Bool) : (sign_text neg).length ≤ 1 := by
  cases neg <;> simp [sign_text]

/-- The text of a shape of the data model has at most 15 characters. -/
theorem render_length_le (dp : Char) {sh : shape} (hok : sh.ok) : (render dp sh).length ≤ 15 := by
  obtain ⟨h1, h2, h3, h4, h5, h6⟩ := hok
  obtain ⟨neg, ip, fp, ex⟩ := sh
  simp only at h1 h2 h3 h4 h5 h6
  have hs := sign_text_length neg
  have hf : (frac_text dp fp).length ≤ frac_len fp + 1 := by
    cases fp <;> simp [frac_text, frac_len]
  have he : (expo_text ex).length ≤ 4 := by
    cases ex with
    | none => simp [expo_text]
    | some p =>
      obtain ⟨sg, ds⟩ := p
      have := (h3 sg ds rfl).2
      have := sign_text_length sg
      simp only [expo_text, List.length_cons, List.length_append]
      omega
  simp only [render, mant_text, List.length_append]
  omega

theorem strchr_from_found {c : Char} {a : List Char} (hc : c ∉ a) (ha : no_nul a)
    (b : List Char) (i : Nat) :
    strchr_from c (a ++ c :: b) i = some (i + a.length) := by
  induction a generalizing i with
  | nil => simp [strchr_from]
  | cons x r ih =>
    simp only [List.mem_cons, not_or] at hc
    have hx : x ≠ NUL := ha x (List.mem_cons_self _ _)
    simp only [List.cons_append, strchr_from, if_neg (Ne.symm hc.1), if_neg hx, List.append_eq]
    rw [ih hc.2 (fun y hy => ha y (List.mem_cons_of_mem _ hy))]
    simp only [List.length_cons]
    congr 1
    omega

theorem strchr_found {c : Char} {a : List Char} (hc : c ∉ a) (ha : no_nul a)
    (b : List Char) {k : Nat} (hk : k ≤ a.length) :
    strchr (a ++ c :: b) k c = some a.length := by
  unfold strchr
  rw [List.drop_append_of_le_length hk,
    strchr_from_found (fun h => hc (List.mem_of_mem_drop h)) (no_nul_drop ha k)]
  simp only [List.length_drop]
  congr 1
  omega

theorem render_empty (dp : Char) : render dp shape.empty = [] := rfl

theorem shape_empty_ok : shape.empty.ok := by
  refine ⟨all_digits_nil, ?_, ?_, ?_, ?_, ?_⟩ <;> simp [shape.empty, frac_len]

theorem strchr_e_render {dp : Char} (hsep : valid_sep dp) {sh : shape} (hok : sh.ok) :
    strchr (render dp sh) 0 'e'
      = match sh.ex with
        | some _ => some (mant_text dp sh).length
        | none => none := by
  have hm := e_not_mem_mant hsep hok
  cases hex : sh.ex with
  | none =>
    simp only
    apply strchr_none_of_not_mem
    unfold render
    rw [hex]
    simpa [expo_text] using hm
  | some p =>
    obtain ⟨sg, ds⟩ := p
    simp only
    unfold render
    rw [hex]
    exact strchr_found hm (mant_text_no_nul hsep hok) _ (Nat.zero_le _)

theorem toggle_minus_after (a b : List Char) :
    toggle_minus (a ++ b) a.length = a ++ toggle_minus b 0 := by
  unfold toggle_minus
  have h := char_at_append_right a b 0
  rw [Nat.add_zero] at h
  rw [h]
  split
  · rw [List.eraseIdx_append_of_length_le (le_refl _)]
    simp
  · simp

theorem toggle_minus_sign (sg : Bool) (ds : List Char) (h : char_at ds 0 ≠ '-') :
    toggle_minus (sign_text sg ++ ds) 0 = sign_text (!sg) ++ ds := by
  unfold toggle_minus
  cases sg with
  | true => simp [sign_text, char_at]
  | false =>
    simp only [sign_text, List.nil_append, Bool.not_false, if_true, Bool.false_eq_true, if_false]
    rw [if_neg h]
    simp

theorem char_at_digits_ne_minus {ds : List Char} (h : all_digits ds) (r : List Char)
    (hr : ds = [] → char_at r 0 ≠ '-') : char_at (ds ++ r) 0 ≠ '-' := by
  cases ds with
  | nil => simpa using hr rfl
  | cons c t =>
    simp only [List.cons_append, char_at, List.getD_cons_zero]
    exact is_digit_ne_minus (h c (List.mem_cons_self _ _))

theorem char_at_nil (i : Nat) : char_at [] i = NUL := rfl

/-- Negate on the text of a shape is negate on the shape. -/
theorem negate_text_render {dp : Char} (hsep : valid_sep dp) {sh : shape} (hok : sh.ok) :
    negate_text (render dp sh) = render dp sh.negate := by
  unfold negate_text
  rw [strchr_e_render hsep hok]
  obtain ⟨h1, h2, h3, h4, h5, h6⟩ := hok
  obtain ⟨neg, ip, fp, ex⟩ := sh
  simp only at h1 h2 h3 h4 h5 h6
  cases ex with
  | none =>
    simp only [shape.negate, render, mant_text, expo_text, List.append_nil]
    rw [List.append_assoc, List.append_assoc]
    apply toggle_minus_sign
    apply char_at_digits_ne_minus h1
    intro hip
    cases fp with
    | none => simp [frac_text, char_at, NUL_ne_minus]
    | some f => exact absurd hip (h5 (Or.inl (by simp)))
  | some p =>
    obtain ⟨sg, ds⟩ := p
    simp only [shape.negate, render, expo_text]
    have e1 : mant_text dp ⟨neg, ip, fp, some (sg, ds)⟩ ++ 'e' :: (sign_text sg ++ ds)
        = (mant_text dp ⟨neg, ip, fp, some (sg, ds)⟩ ++ ['e']) ++ (sign_text sg ++ ds) := by simp
    have e2 : (mant_text dp ⟨neg, ip, fp, some (sg, ds)⟩).length + 1
        = (mant_text dp ⟨neg, ip, fp, some (sg, ds)⟩ ++ ['e']).length := by simp
    rw [e1, e2, toggle_minus_after, toggle_minus_sign]
    · simp [mant_text]
    · have := char_at_digits_ne_minus (h3 sg ds rfl).1 [] (fun _ => by simp [char_at, NUL_ne_minus])
      simpa using this

theorem shape_negate_ok {sh : shape} (hok : sh.ok) : sh.negate.ok := by
  obtain ⟨h1, h2, h3, h4, h5, h6⟩ := hok
  obtain ⟨neg, ip, fp, ex⟩ := sh
  simp only at h1 h2 h3 h4 h5 h6
  cases ex with
  | none => exact ⟨h1, h2, h3, h4, h5, h6⟩
  | some p =>
    obtain ⟨sg, ds⟩ := p
    refine ⟨h1, h2, ?_, h4, ?_, h6⟩
    · intro sg1 ds1 h
      simp only [shape.negate, Option.some.injEq, Prod.mk.injEq] at h
      rw [← h.2]
      exact h3 sg ds rfl
    · intro _
      exact h5 (Or.inr (by simp))

theorem dropLast_snoc (a : List Char) (c : Char) : (a ++ [c]).dropLast = a := by
  simp

theorem dropLast_append_snoc (a u : List Char) (c : Char) :
    (a ++ (u ++ [c])).dropLast = a ++ u := by
  rw [← List.append_assoc, dropLast_snoc]

/-- Backspace on the text of a shape is backspace on the shape. -/
theorem dropLast_render (dp : Char) (sh : shape) :
    (render dp sh).dropLast = render dp sh.backspace := by
  obtain ⟨neg, ip, fp, ex⟩ := sh
  cases ex with
  | some p =>
    obtain ⟨sg, ds⟩ := p
    rcases List.eq_nil_or_concat ds with h | ⟨u, c, h⟩
    · subst h
      cases sg with
      | true =>
        have : render dp ⟨neg, ip, fp, some (true, [])⟩
            = mant_text dp ⟨neg, ip, fp, none⟩ ++ (['e'] ++ ['-']) := rfl
        rw [this, dropLast_append_snoc]
        rfl
      | false =>
        have : render dp ⟨neg, ip, fp, some (false, [])⟩
            = mant_text dp ⟨neg, ip, fp, none⟩ ++ ['e'] := rfl
        rw [this, dropLast_snoc]
        simp [shape.backspace, render, mant_text, expo_text]
    · rw [List.concat_eq_append] at h
      subst h
      have : render dp ⟨neg, ip, fp, some (sg, u ++ [c])⟩
          = mant_text dp ⟨neg, ip, fp, none⟩ ++ (('e' :: (sign_text sg ++ u)) ++ [c]) := by
        simp [render, mant_text, expo_text]
      rw [this, dropLast_append_snoc]
      simp [shape.backspace, render, mant_text, expo_text]
  | none =>
    cases fp with
    | some f =>
      rcases List.eq_nil_or_concat f with h | ⟨u, c, h⟩
      · subst h
        have : render dp ⟨neg, ip, some [], none⟩ = (sign_text neg ++ ip) ++ [dp] := by
          simp [render, mant_text, expo_text, frac_text]
        rw [this, dropLast_snoc]
        simp [shape.backspace, render, mant_text, expo_text, frac_text]
      · rw [List.concat_eq_append] at h
        subst h
        have : render dp ⟨neg, ip, some (u ++ [c]), none⟩
            = (sign_text neg ++ ip) ++ ((dp :: u) ++ [c]) := by
          simp [render, mant_text, expo_text, frac_text]
        rw [this, dropLast_append_snoc]
        simp [shape.backspace, render, mant_text, expo_text, frac_text]
    | none =>
      rcases List.eq_nil_or_concat ip with h | ⟨u, c, h⟩
      · subst h
        cases neg <;> simp [shape.backspace, render, mant_text, expo_text, frac_text, sign_text]
      · rw [List.concat_eq_append] at h
        subst h
        have : render dp ⟨neg, u ++ [c], none, none⟩ = sign_text neg ++ (u ++ [c]) := by
          simp [render, mant_text, expo_text, frac_text]
        rw [this, dropLast_append_snoc]
        simp [shape.backspace, render, mant_text, expo_text, frac_text]

theorem shape_backspace_ok {sh : shape} (hok : sh.ok) : sh.backspace.ok := by
  obtain ⟨h1, h2, h3, h4, h5, h6⟩ := hok
  obtain ⟨neg, ip, fp, ex⟩ := sh
  simp only at h1 h2 h3 h4 h5 h6
  cases ex with
  | some p =>
    obtain ⟨sg, ds⟩ := p
    have hip : ip ≠ [] := h5 (Or.inr (by simp))
    have hds := h3 sg ds rfl
    unfold shape.backspace
    simp only
    split_ifs with hd hs
    · refine ⟨h1, h2, ?_, h4, fun _ => hip, h6⟩
      intro sg1 ds1 h
      simp only [Option.some.injEq, Prod.mk.injEq] at h
      rw [← h.2]
      refine ⟨all_digits_dropLast hds.1, ?_⟩
      simp only [List.length_dropLast]
      omega
    · refine ⟨h1, h2, ?_, h4, fun _ => hip, h6⟩
      intro sg1 ds1 h
      simp only [Option.some.injEq, Prod.mk.injEq] at h
      rw [← h.2]
      exact ⟨all_digits_nil, by simp⟩
    · refine ⟨h1, h2, ?_, h4, ?_, h6⟩
      · intro sg1 ds1 h; cases h
      · intro _; exact hip
  | none =>
    cases fp with
    | some f =>
      have hip : ip ≠ [] := h5 (Or.inl (by simp))
      unfold shape.backspace
      simp only
      split_ifs with hf
      · refine ⟨h1, ?_, h3, ?_, fun _ => hip, h6⟩
        · intro f1 h
          simp only [Option.some.injEq] at h
          rw [← h]
          exact all_digits_dropLast (h2 f rfl)
        · simp only [frac_len, List.length_dropLast] at h4 ⊢
          omega
      · refine ⟨h1, ?_, h3, ?_, fun _ => hip, h6⟩
        · intro f1 h; cases h
        · simp only [frac_len] at h4 ⊢
          omega
    | none =>
      unfold shape.backspace
      simp only
      split_ifs with hi
      · refine ⟨all_digits_dropLast h1, h2, h3, ?_, ?_, ?_⟩
        · simp only [frac_len, List.length_dropLast] at h4 ⊢
          omega
        · intro h; simp at h
        · intro r hr
          rcases List.eq_nil_or_concat ip with h | ⟨u, c, h⟩
          · exact absurd h hi
          · rw [List.concat_eq_append] at h
            subst h
            rw [dropLast_snoc] at hr
            subst hr
            have := h6 (r ++ [c]) rfl
            simp at this
      · exact ⟨h1, h2, h3, h4, h5, h6⟩

theorem strchr_from_none_of_not_mem {c : Char} {l : List Char} (h : c ∉ l) (i : Nat) :
    strchr_from c l i = none := by
  induction l generalizing i with
  | nil => rfl
  | cons x r ih =>
    simp only [List.mem_cons, not_or] at h
    simp only [strchr_from]
    rw [if_neg (Ne.symm h.1)]
    split
    · rfl
    · exact ih h.2 _

theorem strchr_at_length (a b : List Char) (c : Char) :
    strchr (a ++ b) a.length c = strchr_from c b a.length := by
  unfold strchr
  rw [List.drop_left]

theorem minus_not_mem_frac {dp : Char} (hsep : valid_sep dp) {fp : Option (List Char)}
    (h : ∀ f, fp = some f → all_digits f) : '-' ∉ frac_text dp fp := by
  cases fp with
  | none => simp [frac_text]
  | some f =>
    simp only [frac_text, List.mem_cons, not_or]
    exact ⟨Ne.symm hsep.2.1, all_digits_not_mem (h f rfl) (by decide)⟩

theorem formatted_exp (m : List Char) (hm : 'e' ∉ m) (hnn : no_nul m) (sg : Bool)
    (ds : List Char) (hds : all_digits ds) :
    formatted (m ++ 'e' :: (sign_text sg ++ ds))
      = m ++ 'e' :: (sign_text sg ++ (if ds = [] then ['0'] else ds)) := by
  unfold formatted
  rw [if_neg (by simp), strchr_found hm hnn _ (Nat.zero_le _)]
  simp only
  have hst : strchr (m ++ 'e' :: (sign_text sg ++ ds)) m.length '-'
      = strchr_from '-' (sign_text sg ++ ds) (m.length + 1) := by
    rw [strchr_at_length]
    simp [strchr_from, Ne.symm NUL_ne_e]
  rw [hst]
  cases sg with
  | false =>
    have hnone : strchr_from '-' (sign_text false ++ ds) (m.length + 1) = none :=
      strchr_from_none_of_not_mem (by
        simpa [sign_text] using all_digits_not_mem hds (by decide)) _
    rw [hnone]
    cases ds with
    | nil => simp [sign_text]
    | cons c r => simp [sign_text]
  | true =>
    have hsome : strchr_from '-' (sign_text true ++ ds) (m.length + 1) = some (m.length + 1) := by
      simp [sign_text, strchr_from]
    rw [hsome]
    cases ds with
    | nil => simp [sign_text]
    | cons c r =>
      simp [sign_text]
      omega

/-- The display of the text of a shape is the text of the shape shown. -/
theorem formatted_render {dp : Char} (hsep : valid_sep dp) {sh : shape} (hok : sh.ok) :
    formatted (render dp sh) = render dp sh.shown := by
  have hem := e_not_mem_mant hsep hok
  have hnn := mant_text_no_nul hsep hok
  obtain ⟨h1, h2, h3, h4, h5, h6⟩ := hok
  obtain ⟨neg, ip, fp, ex⟩ := sh
  simp only at h1 h2 h3 h4 h5 h6
  cases ex with
  | none =>
    by_cases hc : ip = [] ∧ fp = none
    · obtain ⟨hi, hf⟩ := hc
      subst hi; subst hf
      cases neg <;> rfl
    · have hsh : shape.shown ⟨neg, ip, fp, none⟩ = ⟨neg, ip, fp, none⟩ := by
        simp only [shape.shown]
        rw [if_neg hc]
      rw [hsh]
      have hip : ip ≠ [] := by
        intro hi
        cases fp with
        | none => exact hc ⟨hi, rfl⟩
        | some f => exact h5 (Or.inl (by simp)) hi
      have hr : render dp ⟨neg, ip, fp, none⟩ = sign_text neg ++ (ip ++ frac_text dp fp) := by
        simp [render, mant_text, expo_text]
      have hrest : ip ++ frac_text dp fp ≠ [] := by simp [hip]
      have hmr : '-' ∉ ip ++ frac_text dp fp := by
        simp only [List.mem_append, not_or]
        exact ⟨all_digits_not_mem h1 (by decide), minus_not_mem_frac hsep h2⟩
      have her : 'e' ∉ render dp ⟨neg, ip, fp, none⟩ := by
        simpa [render, expo_text] using hem
      cases neg with
      | false =>
        apply formatted_of_plain
        · rw [hr]; simpa [sign_text] using hrest
        · exact her
        · rw [hr]; simpa [sign_text] using hmr
      | true =>
        unfold formatted
        rw [strchr_none_of_not_mem her, hr]
        have hs : strchr (sign_text true ++ (ip ++ frac_text dp fp)) 0 '-' = some 0 := by
          simp [sign_text, strchr, strchr_from]
        rw [hs]
        have hl : ¬ (0 + 1 = (sign_text true ++ (ip ++ frac_text dp fp)).length) := by
          have : 0 < (ip ++ frac_text dp fp).length := List.length_pos.2 hrest
          simp only [sign_text, if_true, List.length_append, List.length_cons, List.length_nil]
          simp only [List.length_append] at this
          omega
        simp only [if_neg hl]
        rw [if_neg]
        simp [sign_text]
  | some p =>
    obtain ⟨sg, ds⟩ := p
    have hr : ∀ ds1, render dp ⟨neg, ip, fp, some (sg, ds1)⟩
        = mant_text dp ⟨neg, ip, fp, some (sg, ds)⟩ ++ 'e' :: (sign_text sg ++ ds1) := fun _ => rfl
    rw [hr, formatted_exp _ hem hnn sg ds (h3 sg ds rfl).1]
    unfold shape.shown
    simp only
    split_ifs with hd
    · rw [hr]
    · rw [hr]

theorem shape_shown_ok {sh : shape} (hok : sh.ok) : sh.shown.ok := by
  obtain ⟨h1, h2, h3, h4, h5, h6⟩ := hok
  obtain ⟨neg, ip, fp, ex⟩ := sh
  simp only at h1 h2 h3 h4 h5 h6
  cases ex with
  | some p =>
    obtain ⟨sg, ds⟩ := p
    unfold shape.shown
    simp only
    split_ifs with hd
    · refine ⟨h1, h2, ?_, h4, fun _ => h5 (Or.inr (by simp)), h6⟩
      intro sg1 ds1 h
      simp only [Option.some.injEq, Prod.mk.injEq] at h
      rw [← h.2]
      exact ⟨all_digits_singleton (by decide), by simp⟩
    · exact ⟨h1, h2, h3, h4, h5, h6⟩
  | none =>
    unfold shape.shown
    simp only
    split_ifs with hc
    · obtain ⟨hi, hf⟩ := hc
      subst hf
      refine ⟨all_digits_singleton (by decide), h2, h3, by simp [frac_len], by simp, ?_⟩
      intro r hr
      simp only [List.cons.injEq, true_and] at hr
      exact hr.symm
    · exact ⟨h1, h2, h3, h4, h5, h6⟩

theorem digit_zero_of_not_nonzero {c : Char} (hc : is_digit c = true)
    (h : ¬ ('0' < c ∧ c ≤ '9')) : c = '0' := by
  have h2 := (is_digit_iff c).1 hc
  by_contra hne
  exact h ⟨lt_of_le_of_ne h2.1 (Ne.symm hne), h2.2⟩

theorem nonzero_digits_append (a b : List Char) :
    nonzero_digits (a ++ b) = nonzero_digits a + nonzero_digits b := by
  unfold nonzero_digits
  exact List.countP_append _ _ _

theorem nonzero_digits_sign (neg : Bool) : nonzero_digits (sign_text neg) = 0 := by
  cases neg <;> decide

theorem nonzero_digits_frac {dp : Char} (hsep : valid_sep dp) (fp : Option (List Char)) :
    nonzero_digits (frac_text dp fp) = nonzero_digits (fp.getD []) := by
  cases fp with
  | none => rfl
  | some f =>
    have hd : ¬ ('0' < dp ∧ dp ≤ '9') := by
      intro h
      have := (is_digit_iff dp).2 ⟨le_of_lt h.1, h.2⟩
      rw [hsep.2.2.2] at this
      cases this
    simp only [frac_text, Option.getD_some, nonzero_digits_cons, if_neg hd, Nat.add_zero]

theorem nonzero_digits_mant {dp : Char} (hsep : valid_sep dp) (sh : shape) :
    nonzero_digits (mant_text dp sh) = sh.nonzero := by
  unfold mant_text shape.nonzero
  rw [nonzero_digits_append, nonzero_digits_append, nonzero_digits_sign, nonzero_digits_frac hsep]
  omega

theorem render_of_no_exp (dp : Char) (sh : shape) (h : sh.ex = none) :
    render dp sh = mant_text dp sh := by
  unfold render
  rw [h]
  simp [expo_text]

theorem shape_send_digit_ex (d : Char) (sh : shape) (h : sh.ex = none) :
    (sh.send_digit d).ex = none := by
  obtain ⟨neg, ip, fp, ex⟩ := sh
  simp only at h
  subst h
  unfold shape.send_digit
  cases fp with
  | some f => simp only; split_ifs <;> rfl
  | none =>
    cases ip with
    | nil => rfl
    | cons c r => simp only; split_ifs <;> rfl

theorem shape_send_digit_ip (d : Char) {sh : shape} (hok : sh.ok) (h : sh.ex = none) :
    (sh.send_digit d).ip ≠ [] := by
  obtain ⟨h1, h2, h3, h4, h5, h6⟩ := hok
  obtain ⟨neg, ip, fp, ex⟩ := sh
  simp only at h h1 h2 h3 h4 h5 h6
  subst h
  unfold shape.send_digit
  cases fp with
  | some f =>
    have := h5 (Or.inl (by simp))
    simp only
    split_ifs <;> exact this
  | none =>
    cases ip with
    | nil => simp
    | cons c r => simp only; split_ifs <;> simp

theorem any_exp_mant {dp : Char} (hsep : valid_sep dp) {sh : shape} (hok : sh.ok) :
    (mant_text dp sh).any (fun c => decide (c = 'e')) = false := by
  have := e_not_mem_mant hsep hok
  rw [Bool.eq_false_iff]
  intro h
  rw [List.any_eq_true] at h
  obtain ⟨c, hc, he⟩ := h
  simp only [decide_eq_true_eq] at he
  exact this (he ▸ hc)

/-- The second loop of insert-exponent on the text of a shape. -/
theorem exp_text_render {dp : Char} (hsep : valid_sep dp) {sh : shape} (hok : sh.ok) :
    exp_text 9 2 dp (render dp sh) = render dp sh.exp := by
  unfold exp_text
  cases hex : sh.ex with
  | some p =>
    have hr : render dp sh = mant_text dp sh ++ 'e' :: (sign_text p.1 ++ p.2) := by
      unfold render; rw [hex]; rfl
    have ha : (render dp sh).any (fun c => decide (c = 'e')) = true := by
      rw [hr]; simp
    rw [if_pos ha]
    unfold shape.exp
    rw [hex]
  | none =>
    have ha : (render dp sh).any (fun c => decide (c = 'e')) = false := by
      rw [render_of_no_exp dp sh hex]; exact any_exp_mant hsep hok
    rw [ha]
    simp only [Bool.false_eq_true, if_false]
    rw [digit_text_render dp '1' hsep sh hok]
    have hnz : nonzero_digits (render dp sh) = sh.nonzero := by
      rw [render_of_no_exp dp sh hex]; exact nonzero_digits_mant hsep sh
    rw [hnz]
    unfold shape.exp
    rw [hex]
    simp only
    split_ifs with h0
    · rw [render_of_no_exp dp _ (shape_send_digit_ex '1' sh hex)]
      simp [render, mant_text, expo_text, sign_text]
    · rw [render_of_no_exp dp sh hex]
      simp [render, mant_text, expo_text, sign_text]

theorem nonzero_digits_nil : nonzero_digits [] = 0 := rfl

theorem shape_exp_ok {sh : shape} (hok : sh.ok) : sh.exp.ok := by
  unfold shape.exp
  cases hex : sh.ex with
  | some p => exact hok
  | none =>
    simp only
    split_ifs with h0
    · have hs := shape_send_digit_ok '1' (by decide) sh hok
      have hi := shape_send_digit_ip '1' hok hex
      obtain ⟨h1, h2, h3, h4, h5, h6⟩ := hs
      refine ⟨h1, h2, ?_, h4, fun _ => hi, h6⟩
      intro sg ds h
      simp only [Option.some.injEq, Prod.mk.injEq] at h
      rw [← h.2]
      exact ⟨all_digits_nil, by simp⟩
    · obtain ⟨h1, h2, h3, h4, h5, h6⟩ := hok
      refine ⟨h1, h2, ?_, h4, ?_, h6⟩
      · intro sg ds h
        simp only [Option.some.injEq, Prod.mk.injEq] at h
        rw [← h.2]
        exact ⟨all_digits_nil, by simp⟩
      · intro _ hip
        apply h0
        have hfp : sh.fp = none := by
          by_contra hf
          exact h5 (Or.inl hf) hip
        unfold shape.nonzero
        rw [hip, hfp]
        rfl

theorem any_point_mant {dp : Char} (hsep : valid_sep dp) (neg : Bool) {ip : List Char}
    (h : all_digits ip) :
    (sign_text neg ++ ip).any (fun c => decide (c = dp ∨ c = 'e')) = false := by
  rw [Bool.eq_false_iff]
  intro ha
  rw [List.any_eq_true] at ha
  obtain ⟨c, hc, he⟩ := ha
  simp only [decide_eq_true_eq] at he
  rw [List.mem_append] at hc
  rcases hc with hc | hc
  · have hm : c = '-' := by
      cases neg with
      | true => simpa [sign_text] using hc
      | false => simp [sign_text] at hc
    subst hm
    rcases he with he | he
    · exact hsep.2.1 he.symm
    · revert he; decide
  · have hd := h c hc
    rcases he with he | he
    · exact is_digit_ne_sep hsep.2.2.2 hd he
    · exact is_digit_ne_e hd he

/-- Insert-decimal-point on the text of a shape. -/
theorem point_text_render {dp : Char} (hsep : valid_sep dp) {sh : shape} (hok : sh.ok) :
    point_text 9 2 dp (render dp sh) = render dp sh.point := by
  have hdt := digit_text_render dp '0' hsep sh hok
  obtain ⟨h1, h2, h3, h4, h5, h6⟩ := hok
  obtain ⟨neg, ip, fp, ex⟩ := sh
  simp only at h1 h2 h3 h4 h5 h6
  unfold point_text
  cases ex with
  | some p =>
    have ha : (render dp ⟨neg, ip, fp, some p⟩).any (fun c => decide (c = dp ∨ c = 'e')) = true := by
      simp [render, expo_text]
    rw [if_pos ha]
    cases fp <;> rfl
  | none =>
    cases fp with
    | some f =>
      have ha : (render dp ⟨neg, ip, some f, none⟩).any (fun c => decide (c = dp ∨ c = 'e'))
          = true := by
        simp [render, mant_text, frac_text]
      rw [if_pos ha]
      rfl
    | none =>
      have hr : render dp ⟨neg, ip, none, none⟩ = sign_text neg ++ ip := by
        simp [render, mant_text, frac_text, expo_text]
      rw [hdt, hr, any_point_mant hsep neg h1]
      simp only [Bool.false_eq_true, if_false]
      rw [nonzero_digits_append, nonzero_digits_sign, Nat.zero_add]
      cases ip with
      | nil =>
        simp [nonzero_digits_nil, shape.send_digit, shape.point, render, mant_text, frac_text,
          expo_text]
      | cons c r =>
        rw [nonzero_digits_cons]
        by_cases hc : '0' < c ∧ c ≤ '9'
        · rw [if_pos hc, if_neg (by omega)]
          simp [shape.point, render, mant_text, frac_text, expo_text]
        · have hc0 := digit_zero_of_not_nonzero (h1 c (List.mem_cons_self _ _)) hc
          subst hc0
          have hr0 := h6 r rfl
          subst hr0
          simp [nonzero_digits_nil, shape.send_digit, shape.point, render, mant_text, frac_text,
            expo_text]

theorem shape_point_ok {sh : shape} (hok : sh.ok) : sh.point.ok := by
  obtain ⟨h1, h2, h3, h4, h5, h6⟩ := hok
  obtain ⟨neg, ip, fp, ex⟩ := sh
  simp only at h1 h2 h3 h4 h5 h6
  cases ex with
  | some p => cases fp <;> exact ⟨h1, h2, h3, h4, h5, h6⟩
  | none =>
    cases fp with
    | some f => exact ⟨h1, h2, h3, h4, h5, h6⟩
    | none =>
      unfold shape.point
      simp only
      by_cases hi : ip = []
      · subst hi
        refine ⟨all_digits_singleton (by decide), ?_, h3, by simp [frac_len], by simp, ?_⟩
        · intro f hf
          simp only [Option.some.injEq] at hf
          rw [← hf]; exact all_digits_nil
        · intro r hr
          simp only [if_true, List.cons.injEq, true_and] at hr
          exact hr.symm
      · rw [if_neg hi]
        refine ⟨h1, ?_, h3, ?_, fun _ => hi, h6⟩
        · intro f hf
          simp only [Option.some.injEq] at hf
          rw [← hf]; exact all_digits_nil
        · simpa [frac_len] using h4

theorem buffer_kept_refl (eng : engine_t) : buffer_kept eng eng :=
  ⟨rfl, rfl, rfl, rfl, Or.inl rfl⟩

theorem buffer_kept_trans {a b c : engine_t} (h1 : buffer_kept a b) (h2 : buffer_kept b c) :
    buffer_kept a c := by
  obtain ⟨a1, a2, a3, a4, a5⟩ := h1
  obtain ⟨b1, b2, b3, b4, b5⟩ := h2
  refine ⟨b1.trans a1, b2.trans a2, b3.trans a3, b4.trans a4, ?_⟩
  rcases b5 with h | h
  · rcases a5 with h' | h'
    · exact Or.inl (h.trans h')
    · exact Or.inr (h.trans h')
  · exact Or.inr h

theorem buffer_kept_same {a b c : engine_t} (h : buffer_kept a b)
    (h1 : c.input_buffer = b.input_buffer)
    (h2 : c.mantissa_length_limit = b.mantissa_length_limit)
    (h3 : c.exponent_length_limit = b.exponent_length_limit) (h4 : c.dp_sep = b.dp_sep) :
    buffer_kept a c := by
  obtain ⟨a1, a2, a3, a4, a5⟩ := h
  have ht : c.text = b.text := by unfold engine_t.text; rw [h1]
  exact ⟨by rw [h1]; exact a1, h2.trans a2, h3.trans a3, h4.trans a4, by rw [ht]; exact a5⟩

theorem buffer_kept_left {a a1 b : engine_t} (h : buffer_kept a1 b)
    (h1 : a1.input_buffer = a.input_buffer)
    (h2 : a1.mantissa_length_limit = a.mantissa_length_limit)
    (h3 : a1.exponent_length_limit = a.exponent_length_limit) (h4 : a1.dp_sep = a.dp_sep) :
    buffer_kept a b := by
  obtain ⟨b1, b2, b3, b4, b5⟩ := h
  have ht : a1.text = a.text := by unfold engine_t.text; rw [h1]
  exact ⟨by rw [← h1]; exact b1, b2.trans h2, b3.trans h3, b4.trans h4, by rw [← ht]; exact b5⟩

theorem format_display_input_length (str : List Char) (h : 2 ≤ str.length) :
    (caleng_format_display_input str).length = str.length := by
  unfold caleng_format_display_input
  split_ifs
  · simp only [strcpy, List.length_append, List.length_drop, List.length_cons, List.length_nil]
    omega
  · split
    · split_ifs
      · simp
      · split
        · split_ifs <;> simp
        · rfl
    · split
      · split_ifs <;> simp
      · rfl

theorem process_input_buffer_kept {eng p : engine_t} {v : ℚ} (h2 : 2 ≤ eng.input_buffer.length)
    (h : caleng_process_input_buffer eng = Except.ok (v, p)) : buffer_kept eng p := by
  obtain ⟨_, _, _, f4, f5, f6, f7⟩ := process_input_buffer_frame h
  refine ⟨?_, f4, f5, f6, Or.inr f7⟩
  unfold caleng_process_input_buffer at h
  simp only at h
  split at h
  · cases h
    simp only [List.length_set]
    split
    · split_ifs
      · simp only [List.length_set]; exact format_display_input_length _ h2
      · exact format_display_input_length _ h2
    · exact format_display_input_length _ h2
  · cases h

theorem eval_bi_op_kept {fuel : Nat} {eng e1 : engine_t} {num : ℚ} {rtn : Int}
    (h : caleng_eval_bi_op fuel eng num = Except.ok (rtn, e1)) : buffer_kept eng e1 := by
  have := eval_bi_op_frame h
  rw [this]
  exact ⟨rfl, rfl, rfl, rfl, Or.inl rfl⟩

theorem evaluate_kept {fuel : Nat} {eng e1 : engine_t} {r : result_t}
    (h2 : 2 ≤ eng.input_buffer.length)
    (h : caleng_evaluate fuel eng = Except.ok (r, e1)) : buffer_kept eng e1 := by
  unfold caleng_evaluate at h
  split_ifs at h with c1 c2 c3 c4
  · cases h; exact buffer_kept_refl _
  · split at h
    · rename_i num q hp
      cases h
      exact buffer_kept_same (process_input_buffer_kept h2 hp) rfl rfl rfl rfl
    · cases h
  · cases h
    exact buffer_kept_same (buffer_kept_refl eng) rfl rfl rfl rfl
  · split at h
    · rename_i rtn q he
      split_ifs at h
      · cases h
        exact buffer_kept_same (eval_bi_op_kept he) rfl rfl rfl rfl
      · cases h
        exact buffer_kept_same (eval_bi_op_kept he) rfl rfl rfl rfl
    · cases h
  · split at h
    · rename_i num q hp
      have hk := process_input_buffer_kept h2 hp
      split at h
      · rename_i rtn q1 he
        have hk2 := buffer_kept_trans hk (eval_bi_op_kept he)
        split_ifs at h
        · cases h
          exact buffer_kept_same hk2 rfl rfl rfl rfl
        · cases h
          exact buffer_kept_same hk2 rfl rfl rfl rfl
      · cases h
    · cases h

theorem un_op_finish_kept (r : result_t) (eng : engine_t) (op : Int) :
    buffer_kept eng (un_op_finish r eng op).2 := by
  have hsw : ∀ x : Int × engine_t,
      x = (if r.rtn_code = OK then un_op_switch eng op else (r.rtn_code, eng)) →
      buffer_kept eng x.2 := by
    intro x hx
    split_ifs at hx
    · unfold un_op_switch at hx
      split_ifs at hx <;> (rw [hx]; exact ⟨rfl, rfl, rfl, rfl, Or.inl rfl⟩)
    · rw [hx]; exact buffer_kept_refl _
  unfold un_op_finish
  simp only
  generalize hx : (if r.rtn_code = OK then un_op_switch eng op else (r.rtn_code, eng)) = x
  have hk := hsw x hx.symm
  split_ifs
  · exact buffer_kept_same hk rfl rfl rfl rfl
  · exact buffer_kept_same hk rfl rfl rfl rfl

theorem eval_un_op_kept {fuel : Nat} {eng e1 : engine_t} {r : result_t} {op : Int}
    (h2 : 2 ≤ eng.input_buffer.length)
    (h : caleng_eval_un_op fuel eng op = Except.ok (r, e1)) : buffer_kept eng e1 := by
  unfold caleng_eval_un_op at h
  split_ifs at h
  · cases h; exact buffer_kept_refl _
  · split at h
    · rename_i num q hp
      have hk := process_input_buffer_kept h2 hp
      injection h with h
      have h' := congrArg Prod.snd h
      simp only at h'
      rw [← h']
      exact buffer_kept_trans
        (@buffer_kept_same _ _ { q with memory := num } hk rfl rfl rfl rfl)
        (un_op_finish_kept _ _ _)
    · cases h
  · injection h with h
    have h' := congrArg Prod.snd h
    simp only at h'
    rw [← h']
    exact un_op_finish_kept _ _ _
  · split at h
    · rename_i r0 q he
      have hk := evaluate_kept h2 he
      injection h with h
      have h' := congrArg Prod.snd h
      simp only at h'
      rw [← h']
      exact buffer_kept_trans hk (un_op_finish_kept _ _ _)
    · cases h

theorem select_bi_op_kept {fuel : Nat} {eng e1 : engine_t} {r : result_t} {op : Int}
    (h2 : 2 ≤ eng.input_buffer.length)
    (h : caleng_select_bi_op fuel eng op = Except.ok (r, e1)) : buffer_kept eng e1 := by
  unfold caleng_select_bi_op at h
  split_ifs at h
  · cases h; exact buffer_kept_refl _
  · split at h
    · rename_i num q hp
      have hk := @process_input_buffer_kept { eng with sel_op := op } _ _ h2 hp
      cases h
      exact buffer_kept_same (buffer_kept_left hk rfl rfl rfl rfl) rfl rfl rfl rfl
    · cases h
  · cases h
    exact buffer_kept_same (buffer_kept_refl eng) rfl rfl rfl rfl
  · cases h
    exact buffer_kept_same (buffer_kept_refl eng) rfl rfl rfl rfl
  · split at h
    · rename_i num q hp
      have hk := process_input_buffer_kept h2 hp
      split at h
      · rename_i rtn q1 he
        have hk2 := buffer_kept_trans hk (eval_bi_op_kept he)
        cases h
        exact buffer_kept_same hk2 rfl rfl rfl rfl
      · cases h
    · cases h

theorem buffer_inv_of_kept {eng e1 : engine_t} (hinv : buffer_inv eng) (hk : buffer_kept eng e1) :
    buffer_inv e1 := by
  obtain ⟨i1, i2, i3, i4, sh, hok, ht⟩ := hinv
  obtain ⟨k1, k2, k3, k4, k5⟩ := hk
  refine ⟨k1.trans i1, k2.trans i2, k3.trans i3, by rw [k4]; exact i4, ?_⟩
  rcases k5 with h | h
  · exact ⟨sh, hok, by rw [h, k4]; exact ht⟩
  · exact ⟨shape.empty, shape_empty_ok, by rw [h]; rfl⟩

theorem buffer_inv_init (heap : List Char) (dp : Char) (hheap : heap.length = BUFFER_SIZE + 1)
    (hsep : valid_sep dp) : buffer_inv (caleng_init heap dp) := by
  refine ⟨by simp [caleng_init, hheap], rfl, rfl, hsep, shape.empty, shape_empty_ok, ?_⟩
  show cstr (heap.set 0 NUL) = _
  rw [cstr_set_zero_NUL]
  rfl

theorem buffer_inv_cancel {eng : engine_t} (hinv : buffer_inv eng) :
    buffer_inv (caleng_cancel eng).2 := by
  obtain ⟨i1, i2, i3, i4, _⟩ := hinv
  refine ⟨by simp [caleng_cancel, i1], i2, i3, i4, shape.empty, shape_empty_ok, ?_⟩
  show cstr (eng.input_buffer.set 0 NUL) = _
  rw [cstr_set_zero_NUL]
  rfl

theorem buffer_inv_of_edit {eng e1 : engine_t} (hinv : buffer_inv eng) (b : List Char)
    (hfr : e1 = clear_eval { eng with input_buffer := b } ∨ e1 = { eng with input_buffer := b })
    (hlen : e1.input_buffer.length = eng.input_buffer.length)
    (sh : shape) (hok : sh.ok) (ht : e1.text = render eng.dp_sep sh) : buffer_inv e1 := by
  obtain ⟨i1, i2, i3, i4, _⟩ := hinv
  have hf : e1.mantissa_length_limit = eng.mantissa_length_limit ∧
      e1.exponent_length_limit = eng.exponent_length_limit ∧ e1.dp_sep = eng.dp_sep := by
    rcases hfr with h | h
    · have := clear_eval_fields { eng with input_buffer := b }
      rw [h]
      exact ⟨this.2.2.1, this.2.2.2.1, this.2.2.2.2.1⟩
    · rw [h]; exact ⟨rfl, rfl, rfl⟩
  exact ⟨hlen.trans i1, hf.1.trans i2, hf.2.1.trans i3, by rw [hf.2.2]; exact i4,
    sh, hok, by rw [hf.2.2]; exact ht⟩

/-- Every editing key keeps the invariant of the buffer. -/
theorem buffer_inv_edit {eng : engine_t} (hinv : buffer_inv eng) (k : edit_key)
    (hk : (gesture.key k).legal) : buffer_inv (edit eng k).2 := by
  by_cases hst : eng.status = OK
  · obtain ⟨i1, i2, i3, i4, sh, hok, ht⟩ := hinv
    have hinv : buffer_inv eng := ⟨i1, i2, i3, i4, sh, hok, ht⟩
    have hl := render_length_le eng.dp_sep hok
    rw [← ht] at hl
    have hlen3 : eng.text.length + 3 ≤ eng.input_buffer.length := by
      rw [i1]; unfold BUFFER_SIZE; omega
    have hlen2 : eng.text.length + 2 ≤ eng.input_buffer.length := by omega
    have hsz : eng.text.length < BUFFER_SIZE := by unfold BUFFER_SIZE; omega
    cases k with
    | digit d =>
      have hd : is_digit d = true := hk
      obtain ⟨e1, e2, e3, _⟩ := send_digit_text eng d hst hlen2 hsz i4.1 (is_digit_ne_NUL hd)
      refine buffer_inv_of_edit hinv _ (Or.inl e1) e3 (sh.send_digit d)
        (shape_send_digit_ok d hd sh hok) ?_
      show (caleng_send_digit eng d).2.text = _
      rw [e2, i2, i3, ht, digit_text_render _ _ i4 _ hok]
    | decimal_point =>
      obtain ⟨e1, e2, e3, _⟩ := insert_decimal_point_text eng hst hlen3 hsz i4.1
      refine buffer_inv_of_edit hinv _ (Or.inl e1) e3 sh.point (shape_point_ok hok) ?_
      show (caleng_insert_decimal_point eng).2.text = _
      rw [e2, i2, i3, ht, point_text_render i4 hok]
    | exponent =>
      obtain ⟨e1, e2, e3, e4, _⟩ := insert_exp_text eng hst hlen3 hsz i4.1
      rcases e3 with h | h
      · refine buffer_inv_of_edit hinv _ (Or.inl e1) e4 sh.exp (shape_exp_ok hok) ?_
        show (caleng_insert_exp eng).2.text = _
        rw [e2, h, i2, i3, ht, exp_text_render i4 hok]
      · refine buffer_inv_of_edit hinv _ (Or.inl e1) e4 sh.backspace.exp
          (shape_exp_ok (shape_backspace_ok hok)) ?_
        show (caleng_insert_exp eng).2.text = _
        rw [e2, h, i2, i3, ht, dropLast_render, exp_text_render i4 (shape_backspace_ok hok)]
    | negate =>
      obtain ⟨e1, e2, e3, _⟩ := negate_text_eq eng hst hlen2 hsz
      refine buffer_inv_of_edit hinv _ (Or.inl e1) e3 sh.negate (shape_negate_ok hok) ?_
      show (caleng_negate eng).2.text = _
      rw [e2, ht, negate_text_render i4 hok]
    | backspace =>
      obtain ⟨e1, e2, e3, _⟩ := backspace_text eng hst hlen2 hsz
      refine buffer_inv_of_edit hinv _ (Or.inr e1) e3 sh.backspace (shape_backspace_ok hok) ?_
      show (caleng_backspace eng).2.text = _
      rw [e2, ht, dropLast_render]
  · obtain ⟨c1, c2, c3, c4, c5, _⟩ := calls_in_error_state eng 0 '0' 0 0 hst
    cases k with
    | digit d =>
      have := (calls_in_error_state eng 0 d 0 0 hst).2.1
      show buffer_inv (caleng_send_digit eng d).2
      rw [this]; exact hinv
    | decimal_point => show buffer_inv (caleng_insert_decimal_point eng).2; rw [c3]; exact hinv
    | exponent => show buffer_inv (caleng_insert_exp eng).2; rw [c4]; exact hinv
    | negate => show buffer_inv (caleng_negate eng).2; rw [c5]; exact hinv
    | backspace => show buffer_inv (caleng_backspace eng).2; rw [c1]; exact hinv

/-- Every public operation keeps the invariant of the buffer. -/
theorem buffer_inv_perform {fuel : Nat} {eng eng1 : engine_t} {g : gesture} {r : result_t}
    (hinv : buffer_inv eng) (hg : g.legal) (h : perform fuel eng g = Except.ok (r, eng1)) :
    buffer_inv eng1 := by
  have h2 : 2 ≤ eng.input_buffer.length := by rw [hinv.1]; unfold BUFFER_SIZE; omega
  cases g with
  | key k =>
    simp only [perform] at h
    injection h with h
    have := buffer_inv_edit hinv k hg
    rw [h] at this
    exact this
  | cancel =>
    simp only [perform] at h
    injection h with h
    have := buffer_inv_cancel hinv
    rw [h] at this
    exact this
  | evaluate => exact buffer_inv_of_kept hinv (evaluate_kept h2 h)
  | un_op op => exact buffer_inv_of_kept hinv (eval_un_op_kept h2 h)
  | bi_op op => exact buffer_inv_of_kept hinv (select_bi_op_kept h2 h)

/-- The invariant of the buffer holds in every reachable engine. -/
theorem reachable_buffer_inv {heap : List Char} {dp : Char} {eng : engine_t}
    (hheap : heap.length = BUFFER_SIZE + 1) (hsep : valid_sep dp) (h : reachable heap dp eng) :
    buffer_inv eng := by
  induction h with
  | init => exact buffer_inv_init heap dp hheap hsep
  | step fuel g r _ hg hp ih => exact buffer_inv_perform ih hg hp

theorem takeWhile_ne_of_not_mem {c : Char} {a : List Char} (h : c ∉ a) (b : List Char) :
    (a ++ c :: b).takeWhile (fun x => x != c) = a := by
  induction a with
  | nil => simp
  | cons x r ih =>
    simp only [List.mem_cons, not_or] at h
    have hx : (x != c) = true := by simpa using Ne.symm h.1
    simp only [List.cons_append, List.takeWhile_cons, hx, if_true]
    rw [ih h.2]

theorem takeWhile_ne_all {c : Char} {a : List Char} (h : c ∉ a) :
    a.takeWhile (fun x => x != c) = a := by
  induction a with
  | nil => rfl
  | cons x r ih =>
    simp only [List.mem_cons, not_or] at h
    have hx : (x != c) = true := by simpa using Ne.symm h.1
    simp only [List.takeWhile_cons, hx, if_true]
    rw [ih h.2]

theorem dropWhile_ne_of_not_mem {c : Char} {a : List Char} (h : c ∉ a) (b : List Char) :
    (a ++ c :: b).dropWhile (fun x => x != c) = c :: b := by
  induction a with
  | nil => simp
  | cons x r ih =>
    simp only [List.mem_cons, not_or] at h
    have hx : (x != c) = true := by simpa using Ne.symm h.1
    simp only [List.cons_append, List.dropWhile_cons, hx, if_true]
    exact ih h.2

theorem dropWhile_ne_all {c : Char} {a : List Char} (h : c ∉ a) :
    a.dropWhile (fun x => x != c) = [] := by
  induction a with
  | nil => rfl
  | cons x r ih =>
    simp only [List.mem_cons, not_or] at h
    have hx : (x != c) = true := by simpa using Ne.symm h.1
    simp only [List.dropWhile_cons, hx, if_true]
    exact ih h.2

theorem mantissa_segment_render {dp : Char} (hsep : valid_sep dp) {sh : shape} (hok : sh.ok) :
    mantissa_segment (render dp sh) = mant_text dp sh := by
  have hm := e_not_mem_mant hsep hok
  unfold mantissa_segment render
  cases hex : sh.ex with
  | none => simp only [expo_text, List.append_nil]; exact takeWhile_ne_all hm
  | some p => exact takeWhile_ne_of_not_mem hm _

theorem exponent_segment_render {dp : Char} (hsep : valid_sep dp) {sh : shape} (hok : sh.ok) :
    exponent_segment (render dp sh)
      = match sh.ex with
        | some (sg, ds) => sign_text sg ++ ds
        | none => [] := by
  have hm := e_not_mem_mant hsep hok
  unfold exponent_segment render
  cases hex : sh.ex with
  | none => simp only [expo_text, List.append_nil]; rw [dropWhile_ne_all hm]; rfl
  | some p =>
    obtain ⟨sg, ds⟩ := p
    simp only [expo_text]
    rw [dropWhile_ne_of_not_mem hm]
    rfl

theorem digit_count_append (a b : List Char) :
    digit_count (a ++ b) = digit_count a + digit_count b := by
  unfold digit_count
  exact List.countP_append _ _ _

theorem digit_count_sign (neg : Bool) : digit_count (sign_text neg) = 0 := by
  cases neg <;> decide

theorem digit_count_digits {l : List Char} (h : all_digits l) : digit_count l = l.length := by
  unfold digit_count
  rw [List.countP_eq_length]
  exact h

theorem digit_count_frac {dp : Char} (hsep : valid_sep dp) {fp : Option (List Char)}
    (h : ∀ f, fp = some f → all_digits f) : digit_count (frac_text dp fp) = frac_len fp := by
  cases fp with
  | none => rfl
  | some f =>
    have := digit_count_digits (h f rfl)
    unfold digit_count at this ⊢
    simp only [frac_text, frac_len, List.countP_cons, hsep.2.2.2, this]
    simp

/-- The digits of the text of a shape of the data model are within the default limits. -/
theorem digit_count_render {dp : Char} (hsep : valid_sep dp) {sh : shape} (hok : sh.ok) :
    digit_count (mantissa_segment (render dp sh)) ≤ 9 ∧
    digit_count (exponent_segment (render dp sh)) ≤ 2 := by
  rw [mantissa_segment_render hsep hok, exponent_segment_render hsep hok]
  obtain ⟨h1, h2, h3, h4, h5, h6⟩ := hok
  constructor
  · unfold mant_text
    rw [digit_count_append, digit_count_append, digit_count_sign, digit_count_digits h1,
      digit_count_frac hsep h2]
    omega
  · cases hex : sh.ex with
    | none => simp [digit_count]
    | some p =>
      obtain ⟨sg, ds⟩ := p
      have := h3 sg ds hex
      simp only
      rw [digit_count_append, digit_count_sign, digit_count_digits this.1]
      omega

theorem count_sign (neg : Bool) {c : Char} (h : c ≠ '-') : (sign_text neg).count c = 0 := by
  cases neg with
  | true => simp [sign_text, List.count_cons, Ne.symm h]
  | false => rfl

theorem count_digits {l : List Char} (h : all_digits l) {c : Char} (hc : is_digit c = false) :
    l.count c = 0 :=
  List.count_eq_zero.2 (all_digits_not_mem h hc)

/-- The text of a shape of the data model has at most one separator and one exponent marker,
and no separator after the exponent marker. -/
theorem separators_render {dp : Char} (hsep : valid_sep dp) {sh : shape} (hok : sh.ok) :
    (render dp sh).count dp ≤ 1 ∧ (render dp sh).count 'e' ≤ 1 ∧
    dp ∉ exponent_segment (render dp sh) := by
  have hseg := exponent_segment_render hsep hok
  obtain ⟨h1, h2, h3, h4, h5, h6⟩ := hok
  obtain ⟨neg, ip, fp, ex⟩ := sh
  simp only at h1 h2 h3 h4 h5 h6 hseg
  obtain ⟨s1, s2, s3, s4⟩ := hsep
  have he : is_digit 'e' = false := by decide
  have hfd : (frac_text dp fp).count dp ≤ 1 := by
    cases fp with
    | none => simp [frac_text]
    | some f => simp [frac_text, List.count_cons, count_digits (h2 f rfl) s4]
  have hfe : (frac_text dp fp).count 'e' = 0 := by
    cases fp with
    | none => simp [frac_text]
    | some f => simp [frac_text, List.count_cons, count_digits (h2 f rfl) he, s3]
  have hed : (expo_text ex).count dp = 0 := by
    cases ex with
    | none => simp [expo_text]
    | some p =>
      obtain ⟨sg, ds⟩ := p
      simp [expo_text, List.count_cons, List.count_append, count_sign sg s2,
        count_digits (h3 sg ds rfl).1 s4, Ne.symm s3]
  have hee : (expo_text ex).count 'e' ≤ 1 := by
    cases ex with
    | none => simp [expo_text]
    | some p =>
      obtain ⟨sg, ds⟩ := p
      simp [expo_text, List.count_cons, List.count_append, count_sign sg (by decide : 'e' ≠ '-'),
        count_digits (h3 sg ds rfl).1 he]
  refine ⟨?_, ?_, ?_⟩
  · simp only [render, mant_text, List.count_append, count_sign neg s2, count_digits h1 s4]
    omega
  · simp only [render, mant_text, List.count_append, count_sign neg (by decide : 'e' ≠ '-'),
      count_digits h1 he]
    omega
  · rw [hseg]
    cases ex with
    | none => simp
    | some p =>
      obtain ⟨sg, ds⟩ := p
      simp only [List.mem_append, not_or]
      refine ⟨?_, all_digits_not_mem (h3 sg ds rfl).1 s4⟩
      cases sg with
      | true => simpa [sign_text] using s2
      | false => simp [sign_text]

theorem reachable_run {heap : List Char} {dp : Char} (fuel : Nat) (gs : List gesture) :
    ∀ (eng0 eng : engine_t) (rs : List result_t), reachable heap dp eng0 →
      (∀ g ∈ gs, g.legal) → run fuel eng0 gs = Except.ok (rs, eng) → reachable heap dp eng := by
  induction gs with
  | nil =>
    intro eng0 eng rs h0 _ h
    simp only [run] at h
    injection h with h
    injection h with _ h
    rw [← h]; exact h0
  | cons g gs ih =>
    intro eng0 eng rs h0 hl h
    simp only [run] at h
    split at h
    · rename_i r eng1 hp
      split at h
      · rename_i rs1 eng2 hr
        injection h with h
        injection h with _ h
        rw [← h]
        exact ih eng1 eng2 rs1
          (reachable.step fuel g r h0 (hl g (List.mem_cons_self _ _)) hp)
          (fun x hx => hl x (List.mem_cons_of_mem _ hx)) hr
      · cases h
    · cases h

/-- The engine that a run of legal gestures from the fresh engine ends in is reachable. -/
theorem reachable_state_after (gs : List gesture) (hl : ∀ g ∈ gs, g.legal) :
    reachable zero_heap '.' (state_after gs) := by
  unfold state_after
  split
  · rename_i rs eng h
    exact reachable_run 0 gs fresh eng rs reachable.init hl h
  · exact reachable.init

theorem result_init_text (code : Int) :
    result_t.text { result_init with rtn_code := code } = [] := by
  rfl

theorem scan_text_zero {dp : Char} (hsep : valid_sep dp) :
    scan_text dp ['0'] 0 digit_scan_init = { digit_scan_init with digits_detected := 1 } := by
  have h0 : ('0' : Char) ≠ dp := by
    intro h; have := hsep.2.2.2; rw [← h] at this; revert this; decide
  simp [scan_text, scan_step, h0, digit_scan_init]

theorem scan_text_minus_zero {dp : Char} (hsep : valid_sep dp) :
    scan_text dp ['-', '0'] 0 digit_scan_init
      = { digit_scan_init with digits_detected := 1, minus_inserted := true } := by
  have h0 : ('0' : Char) ≠ dp := by
    intro h; have := hsep.2.2.2; rw [← h] at this; revert this; decide
  simp [scan_text, scan_step, h0, digit_scan_init]

theorem digit_text_zero (mlim elim : Int) {dp : Char} (hsep : valid_sep dp) (d : Char) :
    digit_text mlim elim dp d ['0'] = [d] ∧ digit_text mlim elim dp d ['-', '0'] = ['-', d] := by
  unfold digit_text
  simp only [scan_text_zero hsep, scan_text_minus_zero hsep]
  simp [digit_scan_init, char_at]

theorem formatted_digit {d : Char} (hd : is_digit d = true) :
    formatted [d] = [d] ∧ formatted ['-', d] = ['-', d] := by
  have h1 := is_digit_ne_e hd
  have h2 := is_digit_ne_minus hd
  have h3 := is_digit_ne_NUL hd
  constructor
  · apply formatted_of_plain <;> simp [Ne.symm h1, Ne.symm h2]
  · unfold formatted
    simp [strchr, strchr_from, Ne.symm h1, h1, h2, h3, Ne.symm NUL_ne_minus]

theorem exp_text_nil {mlim : Int} (elim : Int) (dp : Char) (hm : 0 < mlim) :
    exp_text mlim elim dp [] = ['1', 'e'] := by
  simp [exp_text, digit_text, scan_text, digit_scan_init, nonzero_digits, char_at, NUL_ne_zero, hm]

theorem exp_text_one_e (mlim elim : Int) (dp : Char) :
    exp_text mlim elim dp ['1', 'e'] = ['1', 'e'] ∧ exp_text mlim elim dp ['1'] = ['1', 'e'] := by
  constructor
  · simp [exp_text]
  · have : nonzero_digits ['1'] = 1 := by decide
    simp [exp_text, this]

theorem formatted_one_e : formatted ['1', 'e'] = ['1', 'e', '0'] := by decide

theorem e_mem_render {dp : Char} (hsep : valid_sep dp) {sh : shape} (hok : sh.ok) :
    'e' ∈ render dp sh ↔ sh.ex ≠ none := by
  have hm := e_not_mem_mant hsep hok
  unfold render
  cases hex : sh.ex with
  | none => simpa [expo_text] using hm
  | some p => obtain ⟨sg, ds⟩ := p; simp [expo_text]

theorem dp_mem_render {dp : Char} (hsep : valid_sep dp) {sh : shape} (hok : sh.ok) :
    dp ∈ render dp sh ↔ sh.fp ≠ none := by
  obtain ⟨h1, h2, h3, h4, h5, h6⟩ := hok
  obtain ⟨neg, ip, fp, ex⟩ := sh
  simp only at h1 h2 h3 h4 h5 h6
  obtain ⟨s1, s2, s3, s4⟩ := hsep
  have hs : ∀ b : Bool, dp ∉ sign_text b := by
    intro b; cases b <;> simp [sign_text, s2]
  have hex : dp ∉ expo_text ex := by
    cases ex with
    | none => simp [expo_text]
    | some p =>
      obtain ⟨sg, ds⟩ := p
      simp only [expo_text, List.mem_cons, List.mem_append, not_or]
      exact ⟨s3, hs sg, all_digits_not_mem (h3 sg ds rfl).1 s4⟩
  have hip := all_digits_not_mem h1 s4
  cases fp with
  | none => simp [render, mant_text, frac_text, hs neg, hip, hex]
  | some f => simp [render, mant_text, frac_text]

theorem current_segment_render {dp : Char} (hsep : valid_sep dp) {sh : shape} (hok : sh.ok) :
    current_segment (render dp sh)
      = match sh.ex with
        | some (sg, ds) => sign_text sg ++ ds
        | none => mant_text dp sh := by
  unfold current_segment
  have hm := e_mem_render hsep hok
  have h1 := mantissa_segment_render hsep hok
  have h2 := exponent_segment_render hsep hok
  cases hex : sh.ex with
  | none =>
    rw [hex] at hm
    rw [if_neg (by simpa using hm), h1]
  | some p =>
    obtain ⟨sg, ds⟩ := p
    rw [hex] at hm h2
    rw [if_pos (by simpa using hm), h2]

/-- Insert-digit on a shape whose current segment is not a lone zero: the digit is appended if
the segment is below its limit. -/
theorem send_digit_render_append {dp : Char} (hsep : valid_sep dp) {sh : shape} (hok : sh.ok)
    (d : Char)
    (hseg : current_segment (render dp sh) ≠ ['0'] ∧ current_segment (render dp sh) ≠ ['-', '0']) :
    render dp (sh.send_digit d)
      = if (digit_count (current_segment (render dp sh)) : Int)
            < (if 'e' ∈ render dp sh then 2 else 9)
        then render dp sh ++ [d] else render dp sh := by
  have hm := e_mem_render hsep hok
  rw [current_segment_render hsep hok] at hseg ⊢
  obtain ⟨h1, h2, h3, h4, h5, h6⟩ := hok
  obtain ⟨neg, ip, fp, ex⟩ := sh
  simp only at h1 h2 h3 h4 h5 h6 hseg hm ⊢
  cases ex with
  | some p =>
    obtain ⟨sg, ds⟩ := p
    simp only
    have hin : (if 'e' ∈ render dp ⟨neg, ip, fp, some (sg, ds)⟩ then (2 : Int) else 9) = 2 :=
      if_pos (by simpa using hm)
    rw [hin, digit_count_append, digit_count_sign,
      digit_count_digits (h3 sg ds rfl).1, Nat.zero_add]
    unfold shape.send_digit
    simp only
    by_cases hl : ds.length < 2
    · rw [if_pos hl, if_pos (by exact_mod_cast hl)]
      simp [render, expo_text, mant_text]
    · rw [if_neg hl, if_neg (by intro h; exact hl (by exact_mod_cast h))]
  | none =>
    simp only at hseg ⊢
    have hin : (if 'e' ∈ render dp ⟨neg, ip, fp, none⟩ then (2 : Int) else 9) = 9 :=
      if_neg (by simpa using hm)
    have hdc : digit_count (mant_text dp ⟨neg, ip, fp, none⟩) = ip.length + frac_len fp := by
      unfold mant_text
      rw [digit_count_append, digit_count_append, digit_count_sign, digit_count_digits h1,
        digit_count_frac hsep h2, Nat.zero_add]
    rw [hin, hdc]
    cases fp with
    | some f =>
      unfold shape.send_digit
      simp only [frac_len]
      by_cases hl : ip.length + f.length < 9
      · rw [if_pos hl, if_pos (by exact_mod_cast hl)]
        simp [render, mant_text, expo_text, frac_text]
      · rw [if_neg hl, if_neg (by intro h; exact hl (by exact_mod_cast h))]
    | none =>
      simp only [frac_len, Nat.add_zero]
      cases ip with
      | nil =>
        simp [shape.send_digit, render, mant_text, expo_text, frac_text]
      | cons c r =>
        unfold shape.send_digit
        simp only
        by_cases hc : c = '0'
        · exfalso
          subst hc
          have hr := h6 r rfl
          subst hr
          cases neg with
          | true => exact hseg.2 (by simp [mant_text, sign_text, frac_text])
          | false => exact hseg.1 (by simp [mant_text, sign_text, frac_text])
        · rw [if_neg hc]
          by_cases hl : (c :: r).length < 9
          · rw [if_pos hl, if_pos (by exact_mod_cast hl)]
            simp [render, mant_text, expo_text, frac_text]
          · rw [if_neg hl, if_neg (by intro h; exact hl (by exact_mod_cast h))]

theorem digit_count_sign_digits (neg : Bool) {ip : List Char} (h : all_digits ip) :
    digit_count (sign_text neg ++ ip) = ip.length := by
  rw [digit_count_append, digit_count_sign, digit_count_digits h, Nat.zero_add]

/-- Insert-decimal-point on a shape without separator and exponent marker. -/
theorem point_render_append {dp : Char} (hsep : valid_sep dp) {sh : shape} (hok : sh.ok)
    (h1 : dp ∉ render dp sh) (h2 : 'e' ∉ render dp sh) :
    render dp sh.point
      = (if digit_count (render dp sh) = 0 then render dp sh ++ ['0'] else render dp sh)
          ++ [dp] := by
  have hfp : sh.fp = none := by
    by_contra h; exact h1 ((dp_mem_render hsep hok).2 h)
  have hex : sh.ex = none := by
    by_contra h; exact h2 ((e_mem_render hsep hok).2 h)
  obtain ⟨k1, _⟩ := hok
  obtain ⟨neg, ip, fp, ex⟩ := sh
  simp only at hfp hex k1
  subst hfp; subst hex
  have hr : render dp ⟨neg, ip, none, none⟩ = sign_text neg ++ ip := by
    simp [render, mant_text, frac_text, expo_text]
  rw [hr, digit_count_sign_digits neg k1]
  cases ip with
  | nil => simp [shape.point, render, mant_text, frac_text, expo_text]
  | cons c r => simp [shape.point, render, mant_text, frac_text, expo_text]

theorem point_text_of_mem (mlim elim : Int) {dp : Char} {t : List Char}
    (h : dp ∈ t ∨ 'e' ∈ t) : point_text mlim elim dp t = t := by
  unfold point_text
  rw [if_pos]
  rw [List.any_eq_true]
  rcases h with h | h
  · exact ⟨dp, h, by simp⟩
  · exact ⟨'e', h, by simp⟩

theorem split_at_first {c : Char} {t : List Char} (h : c ∈ t) :
    ∃ a b, t = a ++ c :: b ∧ c ∉ a := by
  induction t with
  | nil => cases h
  | cons x r ih =>
    by_cases hx : x = c
    · exact ⟨[], r, by rw [hx]; rfl, by simp⟩
    · have hr : c ∈ r := by
        rcases List.mem_cons.1 h with h | h
        · exact absurd h.symm hx
        · exact h
      obtain ⟨a, b, hab, hca⟩ := ih hr
      refine ⟨x :: a, b, by rw [hab]; rfl, ?_⟩
      simp only [List.mem_cons, not_or]
      exact ⟨fun h => hx h.symm, hca⟩

theorem no_nul_of_append_left {a b : List Char} (h : no_nul (a ++ b)) : no_nul a :=
  fun c hc => h c (List.mem_append_left _ hc)

/-- The index at which negate toggles the sign. -/
theorem negate_text_index (t : List Char) (ht : no_nul t) :
    ('e' ∈ t → negate_text t = toggle_minus t ((mantissa_segment t).length + 1)) ∧
    ('e' ∉ t → negate_text t = toggle_minus t 0) := by
  constructor
  · intro h
    obtain ⟨a, b, hab, hca⟩ := split_at_first h
    subst hab
    unfold negate_text mantissa_segment
    rw [strchr_found hca (no_nul_of_append_left ht) _ (Nat.zero_le _),
      takeWhile_ne_of_not_mem hca]
  · intro h
    unfold negate_text
    rw [strchr_none_of_not_mem h]

theorem toggle_minus_length (t : List Char) (k : Nat) :
    (toggle_minus t k).length ≤ t.length + 1 := by
  unfold toggle_minus
  split
  · have := List.length_eraseIdx_le t k
    omega
  · have : (t.take k ++ '-' :: t.drop k).length = (t.take k ++ t.drop k).length + 1 := by
      simp only [List.length_append, List.length_cons]; omega
    rw [this, List.take_append_drop]

theorem negate_text_length (t : List Char) : (negate_text t).length ≤ t.length + 1 := by
  unfold negate_text
  split <;> exact toggle_minus_length _ _

theorem toggle_minus_twice (b : List Char)
    (h : char_at b 0 = '-' → char_at b 1 ≠ '-') :
    toggle_minus (toggle_minus b 0) 0 = b := by
  cases b with
  | nil => simp [toggle_minus, char_at, NUL_ne_minus]
  | cons c r =>
    by_cases hc : c = '-'
    · subst hc
      have hr : char_at r 0 ≠ '-' := by
        have := h (by simp [char_at])
        simpa [char_at] using this
      have e1 : toggle_minus ('-' :: r) 0 = r := by simp [toggle_minus, char_at]
      rw [e1]
      unfold toggle_minus
      rw [if_neg hr]
      simp
    · have e1 : toggle_minus (c :: r) 0 = '-' :: c :: r := by
        simp [toggle_minus, char_at, hc]
      rw [e1]
      simp [toggle_minus, char_at]

theorem mem_toggle_minus {t : List Char} {k : Nat} {c : Char} (h : c ∈ toggle_minus t k) :
    c ∈ t ∨ c = '-' := by
  unfold toggle_minus at h
  split at h
  · exact Or.inl (List.mem_of_mem_eraseIdx h)
  · simp only [List.mem_append, List.mem_cons] at h
    rcases h with h | h | h
    · exact Or.inl (List.mem_of_mem_take h)
    · exact Or.inr h
    · exact Or.inl (List.mem_of_mem_drop h)

/-- Negate twice on a text without a doubled minus gives the text back. -/
theorem negate_text_twice (t : List Char) (ht : no_nul t) (h : no_double_minus t) :
    negate_text (negate_text t) = t := by
  by_cases he : 'e' ∈ t
  · obtain ⟨a, b, hab, hca⟩ := split_at_first he
    subst hab
    have hna := no_nul_of_append_left ht
    have hb : char_at b 0 = '-' → char_at b 1 ≠ '-' := by
      intro h0
      have h1 := char_at_append_right (a ++ ['e']) b 0
      have h2 := char_at_append_right (a ++ ['e']) b 1
      simp only [List.append_assoc, List.singleton_append, List.length_append,
        List.length_singleton, Nat.add_zero] at h1 h2
      have hlt : a.length + 1 < (a ++ 'e' :: b).length := by
        cases b with
        | nil => simp [char_at, NUL_ne_minus] at h0
        | cons x r => simp
      have := h (a.length + 1) hlt (by rw [h1]; exact h0)
      rw [h2] at this
      exact this
    have e1 : ∀ b1 : List Char, negate_text (a ++ 'e' :: b1) = a ++ 'e' :: toggle_minus b1 0 := by
      intro b1
      unfold negate_text
      rw [strchr_found hca hna _ (Nat.zero_le _)]
      simp only
      have := toggle_minus_after (a ++ ['e']) b1
      simpa using this
    rw [e1, e1, toggle_minus_twice b hb]
  · have e1 : negate_text t = toggle_minus t 0 := (negate_text_index t ht).2 he
    have he2 : 'e' ∉ toggle_minus t 0 := by
      intro hm
      rcases mem_toggle_minus hm with h1 | h1
      · exact he h1
      · revert h1; decide
    rw [e1]
    unfold negate_text
    rw [strchr_none_of_not_mem he2]
    simp only
    apply toggle_minus_twice
    intro h0
    have hlt : 0 < t.length := by
      cases t with
      | nil => simp [char_at, NUL_ne_minus] at h0
      | cons x r => simp
    exact h 0 hlt h0

theorem clear_eval_status_of_eq {eng e1 : engine_t} {b : List Char}
    (h : e1 = clear_eval { eng with input_buffer := b }) : e1.status = eng.status := by
  rw [h]; exact (clear_eval_fields _).2.1

theorem same_frame_refl (eng : engine_t) : same_frame eng eng := ⟨rfl, rfl, fun _ => rfl⟩

theorem same_frame_trans {a b c : engine_t} (h1 : same_frame a b) (h2 : same_frame b c) :
    same_frame a c := by
  obtain ⟨a1, a2, a3⟩ := h1
  obtain ⟨b1, b2, b3⟩ := h2
  refine ⟨b1.trans a1, b2.trans a2, fun h => ?_⟩
  have := a3 h
  exact (b3 (by rw [this]; exact h)).trans this

theorem same_frame_buffer (eng : engine_t) (b : List Char) :
    same_frame eng { eng with input_buffer := b } := ⟨rfl, rfl, fun _ => rfl⟩

theorem same_frame_clear_eval (eng : engine_t) : same_frame eng (clear_eval eng) := by
  unfold clear_eval
  split
  · exact ⟨rfl, rfl, fun h => absurd ‹eng.sel_op = EVAL› h⟩
  · exact same_frame_refl _

theorem same_frame_backspace (eng : engine_t) : same_frame eng (caleng_backspace eng).2 := by
  unfold caleng_backspace
  simp only
  split_ifs
  · exact same_frame_refl _
  · exact same_frame_refl _
  · exact same_frame_buffer _ _
  · exact same_frame_buffer _ _

theorem same_frame_send_digit (eng : engine_t) (d : Char) :
    same_frame eng (caleng_send_digit eng d).2 := by
  unfold caleng_send_digit
  split_ifs
  · exact same_frame_refl _
  · exact same_frame_trans (same_frame_buffer _ _) (same_frame_clear_eval _)

theorem same_frame_negate (eng : engine_t) : same_frame eng (caleng_negate eng).2 := by
  unfold caleng_negate
  by_cases h : eng.status ≠ OK
  · rw [if_pos h]; exact same_frame_refl _
  · rw [if_neg h]
    exact same_frame_trans (same_frame_buffer _ _) (same_frame_clear_eval _)

theorem same_frame_decimal_point_loop (eng : engine_t) :
    ∀ (k i : Nat) (nz : Int), same_frame eng (insert_decimal_point_loop eng k i nz) := by
  intro k
  induction k with
  | zero => intro i nz; exact same_frame_refl _
  | succ k ih =>
    intro i nz
    unfold insert_decimal_point_loop
    split_ifs
    · exact same_frame_refl _
    · exact ih _ _
    · exact same_frame_trans (same_frame_send_digit eng '0') (same_frame_buffer _ _)
    · exact same_frame_buffer _ _
    · exact ih _ _

theorem same_frame_decimal_point (eng : engine_t) :
    same_frame eng (caleng_insert_decimal_point eng).2 := by
  unfold caleng_insert_decimal_point
  split_ifs
  · exact same_frame_refl _
  · exact same_frame_trans (same_frame_decimal_point_loop eng _ _ _) (same_frame_clear_eval _)

theorem same_frame_exp_point_loop (eng : engine_t) :
    ∀ (k i : Nat), same_frame eng (insert_exp_point_loop eng k i) := by
  intro k
  induction k with
  | zero => intro i; exact same_frame_refl _
  | succ k ih =>
    intro i
    unfold insert_exp_point_loop
    split_ifs
    · exact same_frame_backspace _
    · exact same_frame_refl _
    · exact ih _
    · exact same_frame_refl _

theorem same_frame_exp_loop (eng : engine_t) :
    ∀ (k i : Nat) (nz : Int), same_frame eng (insert_exp_loop eng k i nz) := by
  intro k
  induction k with
  | zero => intro i nz; exact same_frame_refl _
  | succ k ih =>
    intro i nz
    unfold insert_exp_loop
    split_ifs
    · exact same_frame_refl _
    · exact ih _ _
    · exact same_frame_trans (same_frame_send_digit eng '1') (same_frame_buffer _ _)
    · exact same_frame_buffer _ _
    · exact ih _ _

theorem same_frame_exp (eng : engine_t) : same_frame eng (caleng_insert_exp eng).2 := by
  unfold caleng_insert_exp
  split_ifs
  · exact same_frame_refl _
  · exact same_frame_trans
      (same_frame_trans (same_frame_exp_point_loop eng _ _) (same_frame_exp_loop _ _ _ _))
      (same_frame_clear_eval _)

theorem same_frame_edit (eng : engine_t) (k : edit_key) : same_frame eng (edit eng k).2 := by
  cases k with
  | digit d => exact same_frame_send_digit eng d
  | decimal_point => exact same_frame_decimal_point eng
  | exponent => exact same_frame_exp eng
  | negate => exact same_frame_negate eng
  | backspace => exact same_frame_backspace eng

theorem arith_op_ne {op : Int} (h : op = ADD ∨ op = SUB ∨ op = MUL) :
    op ≠ NONE ∧ op ≠ EVAL ∧ op ≠ DIV := by
  rcases h with h | h | h <;> rw [h] <;> decide

/-- Select-binary with a pending arithmetic operation and a typed operand applies the pending
operation and stores the new one; the status is not changed. -/
theorem select_bi_op_applies (fuel : Nat) (eng p : engine_t) (op op2 : Int) (v : ℚ)
    (hst : eng.status = OK) (hsel : eng.sel_op = op) (hop : op = ADD ∨ op = SUB ∨ op = MUL)
    (hne : eng.text ≠ []) (hp : caleng_process_input_buffer eng = Except.ok (v, p)) :
    ∃ r, caleng_select_bi_op fuel eng op2
      = Except.ok (r, { p with memory := bin_arith op eng.memory v, sel_op := op2 }) := by
  have hf := process_input_buffer_frame hp
  have hn := arith_op_ne hop
  have h0 : char_at eng.input_buffer 0 ≠ NUL := by
    rw [Ne, char_at_zero_eq_NUL_iff]; exact hne
  have hop2 : p.sel_op = ADD ∨ p.sel_op = SUB ∨ p.sel_op = MUL ∨ p.sel_op = DIV := by
    rw [hf.2.1, hsel]
    rcases hop with h | h | h
    · exact Or.inl h
    · exact Or.inr (Or.inl h)
    · exact Or.inr (Or.inr (Or.inl h))
  have hb := eval_bi_op_arith fuel p v hop2
    (by rw [hf.2.1, hsel]; intro h; exact absurd h hn.2.2)
  rw [hf.2.1, hf.1, hsel] at hb
  have hoc : overflow_check { p with memory := bin_arith op eng.memory v, sel_op := op }
      = ((overflow_check { p with memory := bin_arith op eng.memory v, sel_op := op }).1,
          { p with memory := bin_arith op eng.memory v, sel_op := op }) :=
    Prod.ext rfl (overflow_check_snd _)
  rw [hoc] at hb
  refine ⟨⟨(overflow_check { p with memory := bin_arith op eng.memory v, sel_op := op }).1,
    caleng_get_memory_string { p with memory := bin_arith op eng.memory v, sel_op := op2 }
      result_init.to_display⟩, ?_⟩
  unfold caleng_select_bi_op
  rw [← hsel] at hn
  simp only [hst, hn.1, hn.2.1, h0, hp, hb, ne_eq, not_true_eq_false, if_false]

theorem tdiv_neg_iff (v : ℚ) : v.num.tdiv (v.den : Int) < 0 ↔ v ≤ -1 := by
  have hd : (0 : Int) < (v.den : Int) := by exact_mod_cast v.den_pos
  have hle : v ≤ -1 ↔ v.num ≤ -(v.den : Int) := by
    rw [Rat.le_def]
    simp
  rw [hle]
  by_cases hn : 0 ≤ v.num
  · have := Int.tdiv_nonneg hn (le_of_lt hd)
    constructor
    · intro h; omega
    · intro h; omega
  · have hneg : 0 ≤ -v.num := by omega
    have e : v.num.tdiv v.den = -((-v.num) / (v.den : Int)) := by
      have := Int.neg_tdiv (-v.num) v.den
      rw [neg_neg] at this
      rw [this, Int.tdiv_eq_ediv hneg (le_of_lt hd)]
    rw [e]
    have key : 1 ≤ (-v.num) / (v.den : Int) ↔ 1 * (v.den : Int) ≤ -v.num :=
      Int.le_ediv_iff_mul_le hd
    constructor
    · intro h
      have : 1 ≤ (-v.num) / (v.den : Int) := by omega
      have := key.1 this
      omega
    · intro h
      have := key.2 (by omega)
      omega

theorem tdiv_nonpos {v : ℚ} (h : v ≤ 0) : v.num.tdiv (v.den : Int) ≤ 0 := by
  have hd : (0 : Int) < (v.den : Int) := by exact_mod_cast v.den_pos
  have hn : v.num ≤ 0 := Rat.num_nonpos.2 h
  have hneg : 0 ≤ -v.num := by omega
  have e : v.num.tdiv v.den = -((-v.num) / (v.den : Int)) := by
    have := Int.neg_tdiv (-v.num) v.den
    rw [neg_neg] at this
    rw [this, Int.tdiv_eq_ediv hneg (le_of_lt hd)]
  rw [e]
  have := Int.ediv_nonneg hneg (le_of_lt hd)
  omega

theorem tdiv_ge_iff (v : ℚ) {k : Int} (hk : 0 < k) :
    k ≤ v.num.tdiv (v.den : Int) ↔ (k : ℚ) ≤ v := by
  have hd : (0 : Int) < (v.den : Int) := by exact_mod_cast v.den_pos
  by_cases hn : 0 ≤ v.num
  · rw [Int.tdiv_eq_ediv hn (le_of_lt hd), ← Rat.floor_def, Int.le_floor]
  · have hneg : 0 ≤ -v.num := by omega
    have e : v.num.tdiv v.den = -((-v.num) / (v.den : Int)) := by
      have := Int.neg_tdiv (-v.num) v.den
      rw [neg_neg] at this
      rw [this, Int.tdiv_eq_ediv hneg (le_of_lt hd)]
    have h1 := Int.ediv_nonneg hneg (le_of_lt hd)
    have hv : v < 0 := Rat.num_neg.1 (by omega)
    have hkq : (0 : ℚ) < (k : ℚ) := by exact_mod_cast hk
    rw [e]
    constructor
    · intro h; omega
    · intro h; linarith

theorem tdiv_le_neg_iff (v : ℚ) {k : Int} (hk : 0 < k) :
    v.num.tdiv (v.den : Int) ≤ -k ↔ v ≤ -(k : ℚ) := by
  have h := tdiv_ge_iff (-v) hk
  rw [Rat.neg_num, Rat.neg_den, Int.neg_tdiv] at h
  constructor
  · intro h1
    have := h.1 (by omega)
    linarith
  · intro h1
    have := h.2 (by linarith)
    omega

/-- The conversion to `long` of a value in the range of `long` is the truncation. -/
theorem to_long_eq {v : ℚ} (h1 : -(2 ^ 63 : ℚ) - 1 < v) (h2 : v < 2 ^ 63) :
    to_long v = v.num.tdiv (v.den : Int) := by
  unfold to_long
  have a1 : -(2 ^ 63 : Int) ≤ v.num.tdiv (v.den : Int) := by
    by_contra hc
    have hle : v.num.tdiv (v.den : Int) ≤ -(2 ^ 63 + 1 : Int) := by omega
    have := (@tdiv_le_neg_iff v (2 ^ 63 + 1) (by norm_num)).1 hle
    push_cast at this
    linarith
  have a2 : v.num.tdiv (v.den : Int) < 2 ^ 63 := by
    by_contra hc
    have := (@tdiv_ge_iff v (2 ^ 63) (by norm_num)).1 (not_lt.1 hc)
    push_cast at this
    linarith
  rw [if_pos ⟨a1, a2⟩]

/-- The conversion to `long` of a value outside the range of `long` is the most negative
`long`. -/
theorem to_long_out {v : ℚ} (h : v ≤ -(2 ^ 63 : ℚ) - 1 ∨ 2 ^ 63 ≤ v) :
    to_long v = -(2 ^ 63) := by
  unfold to_long
  rw [if_neg]
  intro hc
  rcases h with h | h
  · have := (@tdiv_le_neg_iff v (2 ^ 63 + 1) (by norm_num)).2 (by push_cast; linarith)
    omega
  · have := (@tdiv_ge_iff v (2 ^ 63) (by norm_num)).2 (by push_cast; linarith)
    omega

theorem to_long_cases (v : ℚ) :
    (-(2 ^ 63 : ℚ) - 1 < v ∧ v < 2 ^ 63 ∧ to_long v = v.num.tdiv (v.den : Int)) ∨
    ((v ≤ -(2 ^ 63 : ℚ) - 1 ∨ 2 ^ 63 ≤ v) ∧ to_long v = -(2 ^ 63)) := by
  by_cases h1 : -(2 ^ 63 : ℚ) - 1 < v
  · by_cases h2 : v < 2 ^ 63
    · exact Or.inl ⟨h1, h2, to_long_eq h1 h2⟩
    · exact Or.inr ⟨Or.inr (not_lt.1 h2), to_long_out (Or.inr (not_lt.1 h2))⟩
  · exact Or.inr ⟨Or.inl (not_lt.1 h1), to_long_out (Or.inl (not_lt.1 h1))⟩

/-- The converted operand is negative for an operand of at most -1, and for an operand of
`2 ^ 63` or more, which is outside the range of `long`. -/
theorem to_long_neg_iff (v : ℚ) : to_long v < 0 ↔ v ≤ -1 ∨ 2 ^ 63 ≤ v := by
  rcases to_long_cases v with ⟨h1, h2, e⟩ | ⟨h, e⟩
  · rw [e, tdiv_neg_iff]
    constructor
    · intro h; exact Or.inl h
    · intro h
      rcases h with h | h
      · exact h
      · linarith
  · rw [e]
    constructor
    · intro _
      rcases h with h | h
      · left; linarith
      · right; exact h
    · intro _; norm_num

theorem to_long_nonpos {v : ℚ} (h : v ≤ 0) : to_long v ≤ 0 := by
  rcases to_long_cases v with ⟨_, _, e⟩ | ⟨_, e⟩
  · rw [e]; exact tdiv_nonpos h
  · rw [e]; norm_num

theorem to_long_ge_iff (v : ℚ) {k : Int} (hk : 0 < k) :
    k ≤ to_long v ↔ (k : ℚ) ≤ v ∧ v < 2 ^ 63 := by
  rcases to_long_cases v with ⟨h1, h2, e⟩ | ⟨h, e⟩
  · rw [e, tdiv_ge_iff v hk]
    constructor
    · intro h; exact ⟨h, h2⟩
    · intro h; exact h.1
  · rw [e]
    have hkq : (0 : ℚ) < (k : ℚ) := by exact_mod_cast hk
    constructor
    · intro h0; omega
    · intro h0
      rcases h with h | h
      · linarith
      · linarith

theorem to_long_int (k : Int) (h1 : -(2 ^ 63) ≤ k) (h2 : k < 2 ^ 63) : to_long (k : ℚ) = k := by
  unfold to_long
  simp only [Rat.intCast_num, Rat.intCast_den, Nat.cast_one, Int.tdiv_one]
  rw [if_pos ⟨h1, h2⟩]

theorem to_long_even {v : ℚ} (h : ∃ k : Int, v = 2 * (k : ℚ)) : to_long v % 2 = 0 := by
  obtain ⟨k, hk⟩ := h
  have hv : v = ((2 * k : Int) : ℚ) := by rw [hk]; push_cast; ring
  unfold to_long
  rw [hv]
  simp only [Rat.intCast_num, Rat.intCast_den, Nat.cast_one, Int.tdiv_one]
  split_ifs
  · omega
  · norm_num

theorem operand_frame {eng p : engine_t} {v : ℚ} (h : operand_of eng p v) :
    p.memory = eng.memory ∧ p.sel_op = eng.sel_op ∧ p.status = eng.status := by
  rcases h with ⟨_, _, hp⟩ | ⟨_, hp⟩
  · rw [hp]; exact ⟨rfl, rfl, rfl⟩
  · have := process_input_buffer_frame hp
    exact ⟨this.1, this.2.1, this.2.2.1⟩

/-- Evaluate with a pending binary operation returns what `caleng_eval_bi_op` returns on the
operand: an error code becomes the status, and otherwise the pending operation becomes
just-evaluated. -/
theorem evaluate_of_eval_bi_op (fuel : Nat) (eng p e1 : engine_t) (v : ℚ) (rtn : Int)
    (hst : eng.status = OK) (hop1 : eng.sel_op ≠ NONE) (hop2 : eng.sel_op ≠ EVAL)
    (hv : operand_of eng p v)
    (he : caleng_eval_bi_op fuel p v = Except.ok (rtn, e1)) :
    caleng_evaluate fuel eng = Except.ok
      (if rtn ≠ OK then ({ result_init with rtn_code := rtn }, { e1 with status := rtn })
       else (⟨rtn, caleng_get_memory_string e1 result_init.to_display⟩,
             { e1 with sel_op := EVAL })) := by
  rcases hv with ⟨ht, hv, hp⟩ | ⟨ht, hp⟩
  · subst hv hp
    have h0 : char_at p.input_buffer 0 = NUL := (char_at_zero_eq_NUL_iff _).2 ht
    unfold caleng_evaluate
    simp only [hst, hop1, hop2, h0, he, ne_eq, not_true_eq_false, if_false, or_self, if_true]
    split_ifs <;> rfl
  · have h0 : char_at eng.input_buffer 0 ≠ NUL := by
      rw [Ne, char_at_zero_eq_NUL_iff]; exact ht
    unfold caleng_evaluate
    simp only [hst, hop1, hop2, h0, hp, he, ne_eq, not_true_eq_false, if_false, or_self]
    split_ifs <;> rfl

/-- Evaluate when the pending operation rejects its operands: math-error, memory unchanged. -/
theorem evaluate_math_err (fuel : Nat) (eng p : engine_t) (v : ℚ)
    (hst : eng.status = OK) (hop1 : eng.sel_op ≠ NONE) (hop2 : eng.sel_op ≠ EVAL)
    (hv : operand_of eng p v)
    (he : caleng_eval_bi_op fuel p v = Except.ok (MATH_ERR, p)) :
    ∃ r e, caleng_evaluate fuel eng = Except.ok (r, e) ∧ r.rtn_code = MATH_ERR ∧
      e.status = MATH_ERR ∧ e.memory = eng.memory := by
  have h := evaluate_of_eval_bi_op fuel eng p p v MATH_ERR hst hop1 hop2 hv he
  rw [if_pos MATH_ERR_ne_OK] at h
  exact ⟨_, _, h, rfl, rfl, (operand_frame hv).1⟩

/-- Evaluate when the pending operation computes the value `m`: memory becomes `m`, and the
result is ok or overflow-error according to the overflow bound. -/
theorem evaluate_computed (fuel : Nat) (eng p : engine_t) (v m : ℚ)
    (hst : eng.status = OK) (hop1 : eng.sel_op ≠ NONE) (hop2 : eng.sel_op ≠ EVAL)
    (hv : operand_of eng p v)
    (he : caleng_eval_bi_op fuel p v = Except.ok (overflow_check { p with memory := m })) :
    ∃ r e, caleng_evaluate fuel eng = Except.ok (r, e) ∧ e.memory = m ∧
      (|m| ≤ overflow_bound → r.rtn_code = OK ∧ e.status = OK ∧ e.sel_op = EVAL) ∧
      (overflow_bound < |m| → r.rtn_code = OVERFLOW_ERR ∧ e.status = OVERFLOW_ERR) := by
  have hps : p.status = OK := (operand_frame hv).2.2.trans hst
  by_cases hb : |m| ≤ overflow_bound
  · rw [overflow_check_ok (by simpa using hb)] at he
    have h := evaluate_of_eval_bi_op fuel eng p _ v OK hst hop1 hop2 hv he
    rw [if_neg (by simp)] at h
    exact ⟨_, _, h, rfl, fun _ => ⟨rfl, hps, rfl⟩, fun h' => absurd hb (not_le.2 h')⟩
  · have hgt : overflow_bound < |m| := not_le.1 hb
    rw [overflow_check_err (by simpa using hgt)] at he
    have h := evaluate_of_eval_bi_op fuel eng p _ v OVERFLOW_ERR hst hop1 hop2 hv he
    rw [if_pos (by decide)] at h
    exact ⟨_, _, h, rfl, fun h' => absurd h' hb, fun _ => ⟨rfl, rfl⟩⟩

theorem eval_bi_op_pow (fuel : Nat) (p : engine_t) (v : ℚ) (hop : p.sel_op = POW) :
    (to_long v < 0 → caleng_eval_bi_op fuel p v = Except.ok (MATH_ERR, p)) ∧
    (¬ to_long v < 0 → caleng_eval_bi_op fuel p v
      = Except.ok (overflow_check { p with memory := power p.memory (to_long v).toNat })) := by
  unfold caleng_eval_bi_op
  constructor
  · intro h; simp [hop, ADD, SUB, MUL, DIV, POW, h]
  · intro h; simp [hop, ADD, SUB, MUL, DIV, POW, h]

theorem eval_bi_op_root (fuel : Nat) (p : engine_t) (v : ℚ) (hop : p.sel_op = ROOT)
    (h : to_long v ≤ 0 ∨ (p.memory < 0 ∧ to_long v % 2 = 0)) :
    caleng_eval_bi_op fuel p v = Except.ok (MATH_ERR, p) := by
  unfold caleng_eval_bi_op
  by_cases h1 : to_long v ≤ 0
  · simp [hop, ADD, SUB, MUL, DIV, POW, ROOT, h1]
  · have h2 := h.resolve_left h1
    simp [hop, ADD, SUB, MUL, DIV, POW, ROOT, h1, h2]

theorem eval_bi_op_comb (fuel : Nat) (p : engine_t) (v : ℚ) (hop : p.sel_op = COMBINATIONAL) :
    (to_long p.memory < 0 ∨ to_long v < 0 →
      caleng_eval_bi_op fuel p v = Except.ok (MATH_ERR, p)) ∧
    (¬ (to_long p.memory < 0 ∨ to_long v < 0) → caleng_eval_bi_op fuel p v
      = Except.ok (overflow_check { p with memory :=
          ((comb (to_long p.memory).toNat (to_long v).toNat : Nat) : ℚ) })) := by
  unfold caleng_eval_bi_op
  constructor
  · intro h; simp [hop, ADD, SUB, MUL, DIV, POW, ROOT, COMBINATIONAL, h]
  · intro h; simp [hop, ADD, SUB, MUL, DIV, POW, ROOT, COMBINATIONAL, h]

theorem eval_bi_op_result {fuel : Nat} {eng e1 : engine_t} {num : ℚ} {rtn : Int}
    (h : caleng_eval_bi_op fuel eng num = Except.ok (rtn, e1)) :
    (rtn = MATH_ERR ∧ e1 = eng) ∨ (rtn, e1) = overflow_check e1 := by
  have key : ∀ m : ℚ, (Except.ok (overflow_check { eng with memory := m }) :
        Except fault (Int × engine_t)) = Except.ok (rtn, e1) →
      (rtn = MATH_ERR ∧ e1 = eng) ∨ (rtn, e1) = overflow_check e1 := by
    intro m hm
    injection hm with hm
    have h2 := overflow_check_snd { eng with memory := m }
    rw [hm] at h2
    simp only at h2
    right
    rw [← hm, ← h2]
  have key0 : (Except.ok (overflow_check eng) : Except fault (Int × engine_t))
        = Except.ok (rtn, e1) →
      (rtn = MATH_ERR ∧ e1 = eng) ∨ (rtn, e1) = overflow_check e1 := key eng.memory
  have keyE : (Except.ok (MATH_ERR, eng) : Except fault (Int × engine_t))
        = Except.ok (rtn, e1) →
      (rtn = MATH_ERR ∧ e1 = eng) ∨ (rtn, e1) = overflow_check e1 := by
    intro hm; injection hm with hm; injection hm with h1 h2
    exact Or.inl ⟨h1.symm, h2.symm⟩
  unfold caleng_eval_bi_op at h
  split_ifs at h
  all_goals first
    | exact key _ h
    | exact keyE h
    | exact key0 h
    | (split at h
       · exact key _ h
       · cases h)

theorem formatted_nil : formatted [] = ['0'] := rfl

theorem eval_un_op_eq (fuel : Nat) (eng : engine_t) (op : Int) (hst : eng.status = OK) :
    caleng_eval_un_op fuel eng op
      = match un_op_resolve fuel eng with
        | Except.ok (r, e) => Except.ok (un_op_finish r e op)
        | Except.error f => Except.error f := by
  unfold caleng_eval_un_op un_op_resolve
  rw [if_neg (by simpa using hst)]
  split_ifs
  · generalize caleng_process_input_buffer eng = x
    cases x with
    | ok y => obtain ⟨a, b⟩ := y; rfl
    | error f => rfl
  · rfl
  · generalize caleng_evaluate fuel eng = x
    cases x with
    | ok y => obtain ⟨a, b⟩ := y; rfl
    | error f => rfl

theorem factorial_eq : ∀ n, n ≤ 20 → factorial n = Nat.factorial n := by
  decide

theorem evaluate_status {fuel : Nat} {eng e : engine_t} {r : result_t}
    (h : caleng_evaluate fuel eng = Except.ok (r, e)) (hst : eng.status = OK) :
    e.status = r.rtn_code := by
  unfold caleng_evaluate at h
  rw [if_neg (by simpa using hst)] at h
  split_ifs at h
  · split at h
    · rename_i num q hp
      cases h
      exact (process_input_buffer_frame hp).2.2.1.trans hst
    · cases h
  · cases h; exact hst
  · split at h
    · rename_i rtn q he
      have hq : q.status = OK := by rw [eval_bi_op_frame he]; exact hst
      split_ifs at h
      · cases h; rfl
      · cases h
        rename_i hr
        simp only [ne_eq, not_not] at hr
        exact hq.trans hr.symm
    · cases h
  · split at h
    · rename_i num q hp
      split at h
      · rename_i rtn q1 he
        have hq : q1.status = OK := by
          rw [eval_bi_op_frame he]
          exact (process_input_buffer_frame hp).2.2.1.trans hst
        split_ifs at h
        · cases h; rfl
        · cases h
          rename_i hr
          simp only [ne_eq, not_not] at hr
          exact hq.trans hr.symm
      · cases h
    · cases h

theorem un_op_resolve_status {fuel : Nat} {eng e0 : engine_t} {r0 : result_t}
    (h : un_op_resolve fuel eng = Except.ok (r0, e0)) (hst : eng.status = OK) :
    e0.status = r0.rtn_code := by
  unfold un_op_resolve at h
  split_ifs at h
  · split at h
    · rename_i num q hp
      cases h
      exact (process_input_buffer_frame hp).2.2.1.trans hst
    · cases h
  · cases h; exact hst
  · exact evaluate_status h hst

/-- The end of the factorial operation, after the operand is resolved into the memory. -/
theorem un_op_finish_fact (r : result_t) (eng : engine_t) (hr : r.rtn_code = OK) :
    (eng.memory ≤ -1 ∨ 2 ^ 63 ≤ eng.memory →
      un_op_finish r eng FACT = ({ r with rtn_code := MATH_ERR }, { eng with status := MATH_ERR })) ∧
    (21 ≤ eng.memory → eng.memory < 2 ^ 63 →
      un_op_finish r eng FACT
        = ({ r with rtn_code := OVERFLOW_ERR }, { eng with status := OVERFLOW_ERR })) ∧
    (-1 < eng.memory → eng.memory < 21 →
      un_op_finish r eng FACT
        = (⟨OK, caleng_get_memory_string
              { eng with memory := ((Nat.factorial (to_long eng.memory).toNat : Nat) : ℚ) }
              r.to_display⟩,
           { eng with memory := ((Nat.factorial (to_long eng.memory).toNat : Nat) : ℚ),
                      sel_op := EVAL })) := by
  have h21 : (20 < to_long eng.memory) ↔ ((21 : ℚ) ≤ eng.memory ∧ eng.memory < 2 ^ 63) := by
    have := @to_long_ge_iff eng.memory 21 (by decide)
    rw [← Int.add_one_le_iff]
    simpa using this
  refine ⟨?_, ?_, ?_⟩
  · intro h
    have h1 := (to_long_neg_iff _).2 h
    unfold un_op_finish un_op_switch
    simp [hr, h1, MATH_ERR_ne_OK]
  · intro h h63
    have h1 := h21.2 ⟨h, h63⟩
    have h0 : ¬ to_long eng.memory < 0 := by omega
    unfold un_op_finish un_op_switch
    simp only [hr, if_true, h0, if_false, gt_iff_lt, h1]
    rw [if_pos (by decide)]
  · intro ha hb
    have h0 : ¬ to_long eng.memory < 0 := by
      rw [to_long_neg_iff]
      intro hc
      rcases hc with hc | hc
      · linarith
      · linarith
    have h1 : ¬ 20 < to_long eng.memory := by
      rw [h21]
      intro hc
      linarith [hc.1]
    have hle : (to_long eng.memory).toNat ≤ 20 := by omega
    unfold un_op_finish un_op_switch
    simp only [hr, if_true, h0, if_false, gt_iff_lt, h1, factorial_eq _ hle]
    rw [if_neg (by simp)]

theorem code_ok_OK : code_ok OK := Or.inl rfl

theorem code_ok_ne_SYNTAX_ERR {c : Int} (h : code_ok c) : c ≠ SYNTAX_ERR := by
  rcases h with h | h | h <;> rw [h] <;> decide

theorem overflow_check_code (eng : engine_t) : code_ok (overflow_check eng).1 := by
  unfold overflow_check
  split
  · exact Or.inr (Or.inl rfl)
  · exact Or.inl rfl

theorem eval_bi_op_code {fuel : Nat} {eng e1 : engine_t} {num : ℚ} {rtn : Int}
    (h : caleng_eval_bi_op fuel eng num = Except.ok (rtn, e1)) : code_ok rtn := by
  rcases eval_bi_op_result h with h1 | h1
  · exact Or.inr (Or.inr h1.1)
  · have := overflow_check_code e1
    rw [← h1] at this
    exact this

theorem edit_code (eng : engine_t) (k : edit_key) :
    (edit eng k).1.rtn_code = OK ∨ (edit eng k).1.rtn_code = eng.status := by
  by_cases hst : eng.status = OK
  · left
    have hn : ¬ eng.status ≠ OK := by simpa using hst
    cases k with
    | digit d =>
      show (caleng_send_digit eng d).1.rtn_code = OK
      unfold caleng_send_digit
      rw [if_neg hn]; rfl
    | decimal_point =>
      show (caleng_insert_decimal_point eng).1.rtn_code = OK
      unfold caleng_insert_decimal_point
      rw [if_neg hn]; rfl
    | exponent =>
      show (caleng_insert_exp eng).1.rtn_code = OK
      unfold caleng_insert_exp
      rw [if_neg hn]; rfl
    | negate =>
      show (caleng_negate eng).1.rtn_code = OK
      unfold caleng_negate
      rw [if_neg hn]; rfl
    | backspace =>
      show (caleng_backspace eng).1.rtn_code = OK
      unfold caleng_backspace
      rw [if_neg hn]
      simp only
      split_ifs <;> rfl
  · right
    obtain ⟨c1, _, c3, c4, c5, _⟩ := calls_in_error_state eng 0 '0' 0 0 hst
    cases k with
    | digit d =>
      have := (calls_in_error_state eng 0 d 0 0 hst).2.1
      show (caleng_send_digit eng d).1.rtn_code = eng.status
      rw [this]
    | decimal_point =>
      show (caleng_insert_decimal_point eng).1.rtn_code = eng.status
      rw [c3]
    | exponent =>
      show (caleng_insert_exp eng).1.rtn_code = eng.status
      rw [c4]
    | negate =>
      show (caleng_negate eng).1.rtn_code = eng.status
      rw [c5]
    | backspace =>
      show (caleng_backspace eng).1.rtn_code = eng.status
      rw [c1]

/-- Evaluate returns one of the three codes, and the status after the call is the code
returned. -/
theorem evaluate_code {fuel : Nat} {eng e : engine_t} {r : result_t}
    (h : caleng_evaluate fuel eng = Except.ok (r, e)) (hc : code_ok eng.status) :
    code_ok r.rtn_code ∧ e.status = r.rtn_code := by
  by_cases hst : eng.status = OK
  · refine ⟨?_, evaluate_status h hst⟩
    unfold caleng_evaluate at h
    rw [if_neg (by simpa using hst)] at h
    split_ifs at h
    · split at h
      · cases h; exact code_ok_OK
      · cases h
    · cases h; exact code_ok_OK
    · split at h
      · rename_i rtn q he
        have := eval_bi_op_code he
        split_ifs at h <;> (cases h; exact this)
      · cases h
    · split at h
      · split at h
        · rename_i rtn q he
          have := eval_bi_op_code he
          split_ifs at h <;> (cases h; exact this)
        · cases h
      · cases h
  · unfold caleng_evaluate at h
    rw [if_pos hst] at h
    cases h
    exact ⟨hc, rfl⟩

theorem un_op_switch_code (eng : engine_t) (op : Int) :
    code_ok (un_op_switch eng op).1 ∧ (un_op_switch eng op).2.status = eng.status := by
  unfold un_op_switch
  split_ifs
  · exact ⟨Or.inr (Or.inr rfl), rfl⟩
  · exact ⟨Or.inr (Or.inl rfl), rfl⟩
  · exact ⟨Or.inl rfl, rfl⟩
  · exact ⟨Or.inl rfl, rfl⟩

theorem un_op_finish_code (r : result_t) (eng : engine_t) (op : Int) (hc : code_ok r.rtn_code)
    (hs : eng.status = r.rtn_code) :
    code_ok (un_op_finish r eng op).1.rtn_code ∧
    (un_op_finish r eng op).2.status = (un_op_finish r eng op).1.rtn_code := by
  have hsw : ∀ x : Int × engine_t,
      x = (if r.rtn_code = OK then un_op_switch eng op else (r.rtn_code, eng)) →
      code_ok x.1 ∧ (x.1 = OK → x.2.status = OK) := by
    intro x hx
    split_ifs at hx with h
    · rw [hx]
      have := un_op_switch_code eng op
      exact ⟨this.1, fun _ => this.2.trans (hs.trans h)⟩
    · rw [hx]
      exact ⟨hc, fun h' => absurd h' h⟩
  unfold un_op_finish
  simp only
  generalize hx : (if r.rtn_code = OK then un_op_switch eng op else (r.rtn_code, eng)) = x
  have hk := hsw x hx.symm
  split_ifs with h
  · exact ⟨hk.1, rfl⟩
  · simp only [ne_eq, not_not] at h
    exact ⟨hk.1, (hk.2 h).trans h.symm⟩

theorem eval_un_op_code {fuel : Nat} {eng e : engine_t} {r : result_t} {op : Int}
    (h : caleng_eval_un_op fuel eng op = Except.ok (r, e)) (hc : code_ok eng.status) :
    code_ok r.rtn_code ∧ e.status = r.rtn_code := by
  by_cases hst : eng.status = OK
  · rw [eval_un_op_eq fuel eng op hst] at h
    split at h
    · rename_i r0 e0 hres
      have hs0 := un_op_resolve_status hres hst
      have hc0 : code_ok r0.rtn_code := by
        unfold un_op_resolve at hres
        split_ifs at hres
        · split at hres
          · cases hres; exact code_ok_OK
          · cases hres
        · cases hres; exact code_ok_OK
        · exact (evaluate_code hres hc).1
      have := un_op_finish_code r0 e0 op hc0 hs0
      injection h with h
      rw [h] at this
      exact this
    · cases h
  · unfold caleng_eval_un_op at h
    rw [if_pos hst] at h
    cases h
    exact ⟨hc, rfl⟩

theorem select_bi_op_code {fuel : Nat} {eng e : engine_t} {r : result_t} {op : Int}
    (h : caleng_select_bi_op fuel eng op = Except.ok (r, e)) (hc : code_ok eng.status) :
    code_ok r.rtn_code ∧ e.status = eng.status := by
  unfold caleng_select_bi_op at h
  split_ifs at h
  · cases h; exact ⟨hc, rfl⟩
  · split at h
    · rename_i num q hp
      cases h
      exact ⟨code_ok_OK, (process_input_buffer_frame hp).2.2.1⟩
    · cases h
  · cases h; exact ⟨code_ok_OK, rfl⟩
  · cases h; exact ⟨code_ok_OK, rfl⟩
  · split at h
    · rename_i num q hp
      split at h
      · rename_i rtn q1 he
        have hq : q1.status = eng.status := by
          rw [eval_bi_op_frame he]
          exact (process_input_buffer_frame hp).2.2.1
        cases h
        exact ⟨eval_bi_op_code he, hq⟩
      · cases h
    · cases h

/-- Every public operation on an engine whose status is one of the three codes returns one of
the three codes and leaves such a status. -/
theorem perform_code {fuel : Nat} {eng e1 : engine_t} {g : gesture} {r : result_t}
    (hc : code_ok eng.status) (h : perform fuel eng g = Except.ok (r, e1)) :
    code_ok r.rtn_code ∧ code_ok e1.status := by
  cases g with
  | key k =>
    simp only [perform] at h
    injection h with h
    have h1 := edit_code eng k
    have h2 := (same_frame_edit eng k).2.1
    rw [h] at h1 h2
    simp only at h1 h2
    refine ⟨?_, by rw [h2]; exact hc⟩
    rcases h1 with h1 | h1
    · rw [h1]; exact code_ok_OK
    · rw [h1]; exact hc
  | cancel =>
    simp only [perform] at h
    injection h with h
    have hr := congrArg Prod.fst h
    have he := congrArg Prod.snd h
    simp only at hr he
    rw [← hr, ← he]
    exact ⟨code_ok_OK, code_ok_OK⟩
  | evaluate =>
    have := evaluate_code h hc
    exact ⟨this.1, by rw [this.2]; exact this.1⟩
  | un_op op =>
    have := eval_un_op_code h hc
    exact ⟨this.1, by rw [this.2]; exact this.1⟩
  | bi_op op =>
    have := select_bi_op_code h hc
    exact ⟨this.1, by rw [this.2]; exact hc⟩

theorem reachable_code {heap : List Char} {dp : Char} {eng : engine_t}
    (h : reachable heap dp eng) : code_ok eng.status := by
  induction h with
  | init => exact code_ok_OK
  | step fuel g r _ _ hp ih => exact (perform_code ih hp).2

theorem getLast_snoc (a : List Char) (c : Char) : (a ++ [c]).getLast? = some c := by
  simp

theorem getLast_append_snoc (a u : List Char) (c : Char) :
    (a ++ (u ++ [c])).getLast? = some c := by
  rw [← List.append_assoc, getLast_snoc]

theorem display_rule_snoc (a : List Char) (c : Char) :
    display_rule (a ++ [c]) = if c = '-' ∨ c = 'e' then a ++ [c] ++ ['0'] else a ++ [c] := by
  unfold display_rule
  rw [if_neg (by simp), getLast_snoc]
  simp

/-- The formatting of the text of a shape follows the display rule. -/
theorem formatted_render_rule {dp : Char} (hsep : valid_sep dp) {sh : shape} (hok : sh.ok) :
    formatted (render dp sh) = display_rule (render dp sh) := by
  rw [formatted_render hsep hok]
  obtain ⟨h1, h2, h3, h4, h5, h6⟩ := hok
  obtain ⟨neg, ip, fp, ex⟩ := sh
  simp only at h1 h2 h3 h4 h5 h6
  obtain ⟨s1, s2, s3, s4⟩ := hsep
  have hdig : ∀ {l : List Char} {u : List Char} {c : Char}, all_digits l → l = u ++ [c] →
      ¬ (c = '-' ∨ c = 'e') := by
    intro l u c hl hlu
    have hc : is_digit c = true := hl c (by rw [hlu]; simp)
    intro h
    rcases h with h | h
    · exact is_digit_ne_minus hc h
    · exact is_digit_ne_e hc h
  cases ex with
  | some p =>
    obtain ⟨sg, ds⟩ := p
    rcases List.eq_nil_or_concat ds with h | ⟨u, c, h⟩
    · subst h
      cases sg with
      | true =>
        have hr : render dp ⟨neg, ip, fp, some (true, [])⟩
            = (mant_text dp ⟨neg, ip, fp, none⟩ ++ ['e']) ++ ['-'] := by
          simp [render, mant_text, expo_text, sign_text]
        rw [hr, display_rule_snoc]
        simp [shape.shown, render, mant_text, expo_text, sign_text]
      | false =>
        have hr : render dp ⟨neg, ip, fp, some (false, [])⟩
            = mant_text dp ⟨neg, ip, fp, none⟩ ++ ['e'] := by
          simp [render, mant_text, expo_text, sign_text]
        rw [hr, display_rule_snoc]
        simp [shape.shown, render, mant_text, expo_text, sign_text]
    · rw [List.concat_eq_append] at h
      have hnc := hdig (h3 sg ds rfl).1 h
      subst h
      have hr : render dp ⟨neg, ip, fp, some (sg, u ++ [c])⟩
          = (mant_text dp ⟨neg, ip, fp, none⟩ ++ 'e' :: (sign_text sg ++ u)) ++ [c] := by
        simp [render, mant_text, expo_text]
      rw [hr, display_rule_snoc, if_neg hnc, ← hr]
      simp [shape.shown]
  | none =>
    cases fp with
    | some f =>
      have hsh : shape.shown ⟨neg, ip, some f, none⟩ = ⟨neg, ip, some f, none⟩ := by
        simp [shape.shown]
      rw [hsh]
      rcases List.eq_nil_or_concat f with h | ⟨u, c, h⟩
      · subst h
        have hr : render dp ⟨neg, ip, some [], none⟩ = (sign_text neg ++ ip) ++ [dp] := by
          simp [render, mant_text, expo_text, frac_text]
        rw [hr, display_rule_snoc, if_neg (by
          intro h; rcases h with h | h
          · exact s2 h
          · exact s3 h)]
      · rw [List.concat_eq_append] at h
        have hnc := hdig (h2 f rfl) h
        subst h
        have hr : render dp ⟨neg, ip, some (u ++ [c]), none⟩
            = (sign_text neg ++ ip ++ dp :: u) ++ [c] := by
          simp [render, mant_text, expo_text, frac_text]
        rw [hr, display_rule_snoc, if_neg hnc]
    | none =>
      rcases List.eq_nil_or_concat ip with h | ⟨u, c, h⟩
      · subst h
        cases neg <;> rfl
      · rw [List.concat_eq_append] at h
        have hnc := hdig h1 h
        subst h
        have hsh : shape.shown ⟨neg, u ++ [c], none, none⟩ = ⟨neg, u ++ [c], none, none⟩ := by
          simp [shape.shown]
        have hr : render dp ⟨neg, u ++ [c], none, none⟩ = (sign_text neg ++ u) ++ [c] := by
          simp [render, mant_text, expo_text, frac_text]
        rw [hsh, hr, display_rule_snoc, if_neg hnc]

/-- The display returned by an editing operation is the formatted text of the buffer after the
call. -/
theorem edit_display {eng : engine_t} (hinv : buffer_inv eng) (hst : eng.status = OK)
    (k : edit_key) (hk : (gesture.key k).legal) :
    (edit eng k).1.rtn_code = OK ∧ (edit eng k).1.text = formatted (edit eng k).2.text := by
  have hinv2 := buffer_inv_edit hinv k hk
  obtain ⟨i1, i2, i3, i4, sh, hok, ht⟩ := hinv
  obtain ⟨j1, j2, j3, j4, sh2, hok2, ht2⟩ := hinv2
  have hl := render_length_le eng.dp_sep hok
  rw [← ht] at hl
  have hl2 := render_length_le (edit eng k).2.dp_sep hok2
  rw [← ht2] at hl2
  have hlen3 : eng.text.length + 3 ≤ eng.input_buffer.length := by
    rw [i1]; unfold BUFFER_SIZE; omega
  have hlen2 : eng.text.length + 2 ≤ eng.input_buffer.length := by omega
  have hsz : eng.text.length < BUFFER_SIZE := by unfold BUFFER_SIZE; omega
  have hd2 : (edit eng k).2.text.length + 2 ≤ BUFFER_SIZE + 1 := by unfold BUFFER_SIZE; omega
  cases k with
  | digit d =>
    have hd : is_digit d = true := hk
    obtain ⟨_, _, _, e4⟩ := send_digit_text eng d hst hlen2 hsz i4.1 (is_digit_ne_NUL hd)
    have e5 : (edit eng (edit_key.digit d)).1
        = display_buffer result_init (edit eng (edit_key.digit d)).2 := e4
    exact ⟨by rw [e5]; rfl, by rw [e5, display_buffer_text _ hd2]⟩
  | decimal_point =>
    obtain ⟨_, _, _, e4⟩ := insert_decimal_point_text eng hst hlen3 hsz i4.1
    have e5 : (edit eng edit_key.decimal_point).1
        = display_buffer result_init (edit eng edit_key.decimal_point).2 := e4
    exact ⟨by rw [e5]; rfl, by rw [e5, display_buffer_text _ hd2]⟩
  | exponent =>
    obtain ⟨_, _, _, _, e4⟩ := insert_exp_text eng hst hlen3 hsz i4.1
    have e5 : (edit eng edit_key.exponent).1
        = display_buffer result_init (edit eng edit_key.exponent).2 := e4
    exact ⟨by rw [e5]; rfl, by rw [e5, display_buffer_text _ hd2]⟩
  | negate =>
    obtain ⟨_, _, _, e4⟩ := negate_text_eq eng hst hlen2 hsz
    have e5 : (edit eng edit_key.negate).1
        = display_buffer result_init (edit eng edit_key.negate).2 := e4
    exact ⟨by rw [e5]; rfl, by rw [e5, display_buffer_text _ hd2]⟩
  | backspace =>
    obtain ⟨_, _, _, e4, e5⟩ := backspace_text eng hst hlen2 hsz
    exact ⟨e4, e5 (by unfold BUFFER_SIZE; omega)⟩

theorem formatted_length_le (t : List Char) : (formatted t).length ≤ t.length + 1 := by
  unfold formatted
  split_ifs
  · simp
  · split
    · split_ifs
      · simp
      · split
        · split_ifs <;> simp
        · simp
    · split
      · split_ifs <;> simp
      · simp

theorem format_display_input_form (b : List Char) (hlen : strlen b + 3 ≤ b.length) :
    ∃ s, caleng_format_display_input b = formatted (cstr b) ++ NUL :: s := by
  obtain ⟨x, s, hb⟩ := buffer_form b (by omega)
  have hc : cstr (caleng_format_display_input b) = formatted (cstr b) := by
    conv_lhs => rw [hb]
    exact format_display_input_text (no_nul_cstr b) x s
  have hl := format_display_input_length b (by omega)
  have hf := formatted_length_le (cstr b)
  have hs : strlen (caleng_format_display_input b) < (caleng_format_display_input b).length := by
    unfold strlen
    rw [hc, hl]
    unfold strlen at hlen
    omega
  have := buffer_split _ hs
  rw [hc] at this
  exact ⟨_, this⟩

theorem cstr_set_NUL {t : List Char} (ht : no_nul t) (r : List Char) {k : Nat}
    (hk : k < t.length) : cstr ((t ++ r).set k NUL) = t.take k := by
  rw [List.set_append_left _ _ hk, List.set_eq_take_append_cons_drop, if_pos hk,
    List.append_assoc]
  exact cstr_append_NUL (fun c hc => ht c (List.mem_of_mem_take hc)) _

/-- The text that `caleng_process_input_buffer` passes to `sscanf`: the formatted text of the
buffer without a separator at its end. -/
theorem process_input_buffer_text (eng : engine_t)
    (hroom : eng.text.length + 3 ≤ eng.input_buffer.length) (hdp : eng.dp_sep ≠ NUL) :
    ∃ b2 : List Char, cstr b2 = trim_point eng.dp_sep (formatted eng.text) ∧
      caleng_process_input_buffer eng
        = match scan_Lf eng.dp_sep (cstr b2) with
          | some num => Except.ok (num, { eng with input_buffer := b2.set 0 NUL })
          | none => Except.error fault.assert_failed := by
  obtain ⟨s, hb1⟩ := format_display_input_form eng.input_buffer hroom
  have hnn : no_nul (formatted eng.text) := by
    have := no_nul_cstr (caleng_format_display_input eng.input_buffer)
    rw [hb1, cstr_append_NUL] at this
    · exact this
    · intro c hc
      have h2 : cstr (caleng_format_display_input eng.input_buffer) = formatted (cstr eng.input_buffer) := by
        obtain ⟨x, s', hb⟩ := buffer_form eng.input_buffer (by
          show eng.text.length + 2 ≤ _; omega)
        conv_lhs => rw [hb]
        exact format_display_input_text (no_nul_cstr _) x s'
      have h3 := no_nul_cstr (caleng_format_display_input eng.input_buffer)
      rw [h2] at h3
      exact h3 c hc
  refine ⟨match strchr (caleng_format_display_input eng.input_buffer) 0 eng.dp_sep with
      | some point =>
        if char_at (caleng_format_display_input eng.input_buffer) (point + 1) = NUL
        then (caleng_format_display_input eng.input_buffer).set point NUL
        else caleng_format_display_input eng.input_buffer
      | none => caleng_format_display_input eng.input_buffer, ?_, ?_⟩
  · rw [hb1]
    have ht : formatted (cstr eng.input_buffer) = formatted eng.text := rfl
    rw [ht] at *
    rw [strchr_append_NUL hdp hnn _ (Nat.zero_le _)]
    unfold trim_point
    cases hs : strchr (formatted eng.text) 0 eng.dp_sep with
    | none => simp only; exact cstr_append_NUL hnn _
    | some point =>
      simp only
      have hlt := (strchr_lt (Nat.zero_le _) hs).2
      by_cases hp : point + 1 = (formatted eng.text).length
      · rw [hp, char_at_append_length, if_pos rfl, if_pos rfl]
        exact cstr_set_NUL hnn _ hlt
      · have hlt2 : point + 1 < (formatted eng.text).length := by omega
        rw [char_at_append_left hlt2, if_neg (char_at_ne_NUL hnn hlt2), if_neg hp]
        exact cstr_append_NUL hnn _
  · unfold caleng_process_input_buffer
    rfl

theorem dp_not_mem_sign_ip {dp : Char} (hsep : valid_sep dp) (neg : Bool) {ip : List Char}
    (h : all_digits ip) : dp ∉ sign_text neg ++ ip := by
  simp only [List.mem_append, not_or]
  refine ⟨?_, all_digits_not_mem h hsep.2.2.2⟩
  cases neg with
  | true => simpa [sign_text] using hsep.2.1
  | false => simp [sign_text]

/-- Removal of a separator at the end of the text of a shape. -/
theorem trim_point_render {dp : Char} (hsep : valid_sep dp) {sh : shape} (hok : sh.ok) :
    trim_point dp (render dp sh) = render dp sh.trim := by
  have hnd := fun neg => dp_not_mem_sign_ip hsep neg hok.1
  have hdm := dp_mem_render hsep hok
  obtain ⟨h1, h2, h3, h4, h5, h6⟩ := hok
  obtain ⟨neg, ip, fp, ex⟩ := sh
  simp only at h1 h2 h3 h4 h5 h6 hnd hdm
  unfold trim_point
  cases fp with
  | none =>
    have : dp ∉ render dp ⟨neg, ip, none, ex⟩ := by
      rw [hdm]; simp
    rw [strchr_none_of_not_mem this]
    cases ex <;> rfl
  | some f =>
    have hr : render dp ⟨neg, ip, some f, ex⟩
        = (sign_text neg ++ ip) ++ dp :: (f ++ expo_text ex) := by
      simp [render, mant_text, frac_text]
    have hnn : no_nul (sign_text neg ++ ip) :=
      no_nul_append (sign_text_no_nul _) (all_digits_no_nul h1)
    rw [hr, strchr_found (hnd neg) hnn _ (Nat.zero_le _)]
    simp only
    have hR : render dp (shape.trim ⟨neg, ip, some f, ex⟩)
        = (sign_text neg ++ ip) ++
            (if f = [] ∧ ex = none then [] else dp :: (f ++ expo_text ex)) := by
      cases f with
      | nil =>
        cases ex with
        | none => simp [shape.trim, render, mant_text, frac_text, expo_text]
        | some p => simp [shape.trim, render, mant_text, frac_text, expo_text]
      | cons c r => cases ex <;> simp [shape.trim, render, mant_text, frac_text, expo_text]
    rw [hR]
    generalize sign_text neg ++ ip = m
    by_cases hc : f = [] ∧ ex = none
    · obtain ⟨hf, he⟩ := hc
      subst hf; subst he
      simp [expo_text]
    · rw [if_neg hc]
      have hl : ¬ m.length + 1 = (m ++ dp :: (f ++ expo_text ex)).length := by
        intro hl
        simp only [List.length_append, List.length_cons] at hl
        have h0 : f.length + (expo_text ex).length = 0 := by omega
        have hf : f = [] := List.length_eq_zero.1 (by omega)
        have he : expo_text ex = [] := List.length_eq_zero.1 (by omega)
        apply hc
        refine ⟨hf, ?_⟩
        cases ex with
        | none => rfl
        | some p => obtain ⟨sg, ds⟩ := p; simp [expo_text] at he
      rw [if_neg hl]

theorem shape_numeral_of_ok {sh : shape} (hok : sh.ok) : sh.shown.trim.numeral := by
  obtain ⟨h1, h2, h3, h4, h5, h6⟩ := hok
  obtain ⟨neg, ip, fp, ex⟩ := sh
  simp only at h1 h2 h3 h4 h5 h6
  cases ex with
  | some p =>
    obtain ⟨sg, ds⟩ := p
    have hip : ip ≠ [] := h5 (Or.inr (by simp))
    have hds := (h3 sg ds rfl).1
    by_cases hd : ds = []
    · have hsh : shape.shown ⟨neg, ip, fp, some (sg, ds)⟩ = ⟨neg, ip, fp, some (sg, ['0'])⟩ := by
        simp [shape.shown, hd]
      have htr : shape.trim ⟨neg, ip, fp, some (sg, ['0'])⟩ = ⟨neg, ip, fp, some (sg, ['0'])⟩ := by
        unfold shape.trim
        cases fp with
        | none => rfl
        | some f => cases f <;> rfl
      rw [hsh, htr]
      refine ⟨h1, h2, ?_, hip⟩
      intro sg1 ds1 h
      simp only [Option.some.injEq, Prod.mk.injEq] at h
      rw [← h.2]
      exact ⟨all_digits_singleton (by decide), by simp⟩
    · have hsh : shape.shown ⟨neg, ip, fp, some (sg, ds)⟩ = ⟨neg, ip, fp, some (sg, ds)⟩ := by
        simp [shape.shown, hd]
      have htr : shape.trim ⟨neg, ip, fp, some (sg, ds)⟩ = ⟨neg, ip, fp, some (sg, ds)⟩ := by
        unfold shape.trim
        cases fp with
        | none => rfl
        | some f => cases f <;> rfl
      rw [hsh, htr]
      refine ⟨h1, h2, ?_, hip⟩
      intro sg1 ds1 h
      simp only [Option.some.injEq, Prod.mk.injEq] at h
      rw [← h.2]
      exact ⟨hds, hd⟩
  | none =>
    have hex : ∀ (sg : Bool) (ds : List Char),
        (none : Option (Bool × List Char)) = some (sg, ds) → all_digits ds ∧ ds ≠ [] := by
      intro sg ds h; cases h
    cases fp with
    | none =>
      by_cases hi : ip = []
      · subst hi
        have hsh : (shape.shown ⟨neg, [], none, none⟩).trim = ⟨neg, ['0'], none, none⟩ := by
          simp [shape.shown, shape.trim]
        rw [hsh]
        exact ⟨all_digits_singleton (by decide), h2, hex, by simp⟩
      · have hsh : shape.shown ⟨neg, ip, none, none⟩ = ⟨neg, ip, none, none⟩ := by
          simp [shape.shown, hi]
        rw [hsh]
        exact ⟨h1, h2, hex, hi⟩
    | some f =>
      have hip : ip ≠ [] := h5 (Or.inl (by simp))
      have hsh : shape.shown ⟨neg, ip, some f, none⟩ = ⟨neg, ip, some f, none⟩ := by
        simp [shape.shown]
      rw [hsh]
      cases f with
      | nil =>
        refine ⟨h1, ?_, hex, hip⟩
        intro f hf; cases hf
      | cons c r => exact ⟨h1, h2, hex, hip⟩

theorem takeWhile_digits_ne_nil {l : List Char} (h : all_digits l) (hl : l ≠ []) (r : List Char) :
    (l ++ r).takeWhile is_digit ≠ [] := by
  cases l with
  | nil => exact absurd rfl hl
  | cons c t =>
    have hc := h c (List.mem_cons_self _ _)
    simp [List.takeWhile_cons, hc]

theorem dropWhile_digits_append {l : List Char} (h : all_digits l) (r : List Char)
    (hr : ∀ c t, r = c :: t → is_digit c = false) :
    (l ++ r).dropWhile is_digit = r := by
  induction l with
  | nil =>
    cases r with
    | nil => rfl
    | cons c t => simp [List.dropWhile_cons, hr c t rfl]
  | cons c t ih =>
    have hc := h c (List.mem_cons_self _ _)
    simp only [List.cons_append, List.dropWhile_cons, hc, if_true]
    exact ih (fun x hx => h x (List.mem_cons_of_mem _ hx))

theorem scan_sign_digits {l : List Char} (h : all_digits l) (hl : l ≠ []) (r : List Char) :
    scan_sign (l ++ r) = (false, l ++ r) := by
  cases l with
  | nil => exact absurd rfl hl
  | cons c t =>
    have hc := h c (List.mem_cons_self _ _)
    have h1 : c ≠ '-' := is_digit_ne_minus hc
    have h2 : c ≠ '+' := by
      intro he; rw [he] at hc; revert hc; decide
    unfold scan_sign
    split
    · rename_i r' heq
      simp only [List.cons_append, List.cons.injEq] at heq
      exact absurd heq.1 h1
    · rename_i r' heq
      simp only [List.cons_append, List.cons.injEq] at heq
      exact absurd heq.1 h2
    · rfl

theorem scan_sign_text {l : List Char} (h : all_digits l) (hl : l ≠ []) (neg : Bool)
    (r : List Char) : scan_sign (sign_text neg ++ (l ++ r)) = (neg, l ++ r) := by
  cases neg with
  | true => rfl
  | false => exact scan_sign_digits h hl r

theorem takeWhile_digits_all {l : List Char} (h : all_digits l) : l.takeWhile is_digit = l := by
  rw [List.takeWhile_eq_self_iff]
  exact h

theorem scan_exponent_expo {ex : Option (Bool × List Char)}
    (h : ∀ sg ds, ex = some (sg, ds) → all_digits ds ∧ ds ≠ []) :
    scan_exponent (expo_text ex) ≠ none := by
  cases ex with
  | none => simp [expo_text, scan_exponent]
  | some p =>
    obtain ⟨sg, ds⟩ := p
    obtain ⟨hd, hne⟩ := h sg ds rfl
    have hs := scan_sign_text hd hne sg []
    simp only [List.append_nil] at hs
    simp only [expo_text, scan_exponent, true_or, if_true, hs, takeWhile_digits_all hd,
      if_neg hne]
    simp

/-- The text of a shape with a digit before the separator and a digit in its exponent is read
by `sscanf`. -/
theorem scan_decimal_render {dp : Char} (hsep : valid_sep dp) {sh : shape} (hn : sh.numeral) :
    scan_decimal dp (render dp sh) ≠ none := by
  obtain ⟨h1, h2, h3, h4⟩ := hn
  obtain ⟨neg, ip, fp, ex⟩ := sh
  simp only at h1 h2 h3 h4
  have hr : render dp ⟨neg, ip, fp, ex⟩ = sign_text neg ++ (ip ++ (frac_text dp fp ++ expo_text ex)) := by
    simp [render, mant_text]
  have hhead : ∀ c t, frac_text dp fp ++ expo_text ex = c :: t → is_digit c = false := by
    intro c t hct
    cases fp with
    | some f =>
      simp only [frac_text, List.cons_append, List.cons.injEq] at hct
      rw [← hct.1]; exact hsep.2.2.2
    | none =>
      cases ex with
      | none => simp [frac_text, expo_text] at hct
      | some p =>
        obtain ⟨sg, ds⟩ := p
        simp only [frac_text, expo_text, List.nil_append, List.cons.injEq] at hct
        rw [← hct.1]; decide
  have hexp := scan_exponent_expo h3
  have hip := takeWhile_digits_ne_nil h1 h4 (frac_text dp fp ++ expo_text ex)
  unfold scan_decimal
  simp only [hr, scan_sign_text h1 h4 neg]
  rw [dropWhile_digits_append h1 _ hhead, if_neg (fun h => hip h.1)]
  cases fp with
  | some f =>
    have hh2 : ∀ c t, expo_text ex = c :: t → is_digit c = false := by
      intro c t hct
      cases ex with
      | none => simp [expo_text] at hct
      | some p =>
        obtain ⟨sg, ds⟩ := p
        simp only [expo_text, List.cons.injEq] at hct
        rw [← hct.1]; decide
    simp only [frac_text, List.cons_append, if_true]
    rw [dropWhile_digits_append (h2 f rfl) _ hh2]
    cases he : scan_exponent (expo_text ex) with
    | none => exact absurd he hexp
    | some e => simp
  | none =>
    cases ex with
    | none => simp [frac_text, expo_text, scan_exponent]
    | some p =>
      obtain ⟨sg, ds⟩ := p
      simp only [frac_text, expo_text, List.nil_append, if_neg (Ne.symm hsep.2.2.1)]
      cases he : scan_exponent ('e' :: (sign_text sg ++ ds)) with
      | none => exact absurd he hexp
      | some e => simp

theorem scan_Lf_render {dp : Char} (hsep : valid_sep dp) {sh : shape} (hn : sh.numeral) :
    scan_Lf dp (render dp sh) ≠ none := by
  rw [Ne, scan_Lf_eq_none]
  exact scan_decimal_render hsep hn

theorem edit_frame_refl (eng : engine_t) : edit_frame eng eng :=
  ⟨rfl, rfl, rfl, rfl, rfl, Or.inl rfl⟩

theorem edit_frame_trans {a b c : engine_t} (h1 : edit_frame a b) (h2 : edit_frame b c) :
    edit_frame a c := by
  obtain ⟨a1, a2, a3, a4, a5, a6⟩ := h1
  obtain ⟨b1, b2, b3, b4, b5, b6⟩ := h2
  refine ⟨b1.trans a1, b2.trans a2, b3.trans a3, b4.trans a4, b5.trans a5, ?_⟩
  rcases a6 with a6 | ⟨a6, a7⟩
  · rcases b6 with b6 | ⟨b6, b7⟩
    · exact Or.inl (b6.trans a6)
    · exact Or.inr ⟨a6 ▸ b6, b7⟩
  · rcases b6 with b6 | ⟨_, b7⟩
    · exact Or.inr ⟨a6, b6.trans a7⟩
    · exact Or.inr ⟨a6, b7⟩

theorem edit_frame_buffer (eng : engine_t) (b : List Char) :
    edit_frame eng { eng with input_buffer := b } := ⟨rfl, rfl, rfl, rfl, rfl, Or.inl rfl⟩

theorem edit_frame_clear_eval (eng : engine_t) : edit_frame eng (clear_eval eng) := by
  unfold clear_eval
  split_ifs with h
  · exact ⟨rfl, rfl, rfl, rfl, rfl, Or.inr ⟨h, rfl⟩⟩
  · exact edit_frame_refl _

theorem clear_eval_ne_EVAL (eng : engine_t) : (clear_eval eng).sel_op ≠ EVAL := by
  unfold clear_eval
  split_ifs with h
  · show NONE ≠ EVAL
    decide
  · exact h

/-- The function `caleng_backspace` changes the buffer only. -/
theorem backspace_fields (eng : engine_t) :
    ∃ b, (caleng_backspace eng).2 = { eng with input_buffer := b } := by
  unfold caleng_backspace
  simp only
  split_ifs
  · exact ⟨eng.input_buffer, rfl⟩
  · exact ⟨eng.input_buffer, rfl⟩
  · exact ⟨_, rfl⟩
  · exact ⟨_, rfl⟩

theorem edit_frame_backspace (eng : engine_t) : edit_frame eng (caleng_backspace eng).2 := by
  obtain ⟨b, hb⟩ := backspace_fields eng
  rw [hb]
  exact edit_frame_buffer eng b

theorem edit_frame_send_digit (eng : engine_t) (d : Char) :
    edit_frame eng (caleng_send_digit eng d).2 := by
  unfold caleng_send_digit
  split_ifs
  · exact edit_frame_refl _
  · exact edit_frame_trans (edit_frame_buffer _ _) (edit_frame_clear_eval _)

theorem edit_frame_negate (eng : engine_t) : edit_frame eng (caleng_negate eng).2 := by
  unfold caleng_negate
  by_cases h : eng.status ≠ OK
  · rw [if_pos h]; exact edit_frame_refl _
  · rw [if_neg h]
    exact edit_frame_trans (edit_frame_buffer _ _) (edit_frame_clear_eval _)

theorem edit_frame_decimal_point_loop (eng : engine_t) :
    ∀ (k i : Nat) (nz : Int), edit_frame eng (insert_decimal_point_loop eng k i nz) := by
  intro k
  induction k with
  | zero => intro i nz; exact edit_frame_refl _
  | succ k ih =>
    intro i nz
    unfold insert_decimal_point_loop
    split_ifs
    · exact edit_frame_refl _
    · exact ih _ _
    · exact edit_frame_trans (edit_frame_send_digit eng '0') (edit_frame_buffer _ _)
    · exact edit_frame_buffer _ _
    · exact ih _ _

theorem edit_frame_decimal_point (eng : engine_t) :
    edit_frame eng (caleng_insert_decimal_point eng).2 := by
  unfold caleng_insert_decimal_point
  split_ifs
  · exact edit_frame_refl _
  · exact edit_frame_trans (edit_frame_decimal_point_loop eng _ _ _) (edit_frame_clear_eval _)

theorem edit_frame_exp_point_loop (eng : engine_t) :
    ∀ (k i : Nat), edit_frame eng (insert_exp_point_loop eng k i) := by
  intro k
  induction k with
  | zero => intro i; exact edit_frame_refl _
  | succ k ih =>
    intro i
    unfold insert_exp_point_loop
    split_ifs
    · exact edit_frame_backspace _
    · exact edit_frame_refl _
    · exact ih _
    · exact edit_frame_refl _

theorem edit_frame_exp_loop (eng : engine_t) :
    ∀ (k i : Nat) (nz : Int), edit_frame eng (insert_exp_loop eng k i nz) := by
  intro k
  induction k with
  | zero => intro i nz; exact edit_frame_refl _
  | succ k ih =>
    intro i nz
    unfold insert_exp_loop
    split_ifs
    · exact edit_frame_refl _
    · exact ih _ _
    · exact edit_frame_trans (edit_frame_send_digit eng '1') (edit_frame_buffer _ _)
    · exact edit_frame_buffer _ _
    · exact ih _ _

theorem edit_frame_exp (eng : engine_t) : edit_frame eng (caleng_insert_exp eng).2 := by
  unfold caleng_insert_exp
  split_ifs
  · exact edit_frame_refl _
  · exact edit_frame_trans
      (edit_frame_trans (edit_frame_exp_point_loop eng _ _) (edit_frame_exp_loop _ _ _ _))
      (edit_frame_clear_eval _)

theorem edit_frame_edit (eng : engine_t) (k : edit_key) : edit_frame eng (edit eng k).2 := by
  cases k with
  | digit d => exact edit_frame_send_digit eng d
  | decimal_point => exact edit_frame_decimal_point eng
  | exponent => exact edit_frame_exp eng
  | negate => exact edit_frame_negate eng
  | backspace => exact edit_frame_backspace eng

/-- With status ok, the inserting functions and negate end with the statement that clears a
just-evaluated marker. -/
theorem edit_ne_EVAL (eng : engine_t) (k : edit_key) (hst : eng.status = OK)
    (hk : k ≠ edit_key.backspace) : (edit eng k).2.sel_op ≠ EVAL := by
  have hn : ¬ eng.status ≠ OK := fun h => h hst
  cases k with
  | digit d =>
    show (caleng_send_digit eng d).2.sel_op ≠ EVAL
    unfold caleng_send_digit
    rw [if_neg hn]
    exact clear_eval_ne_EVAL _
  | decimal_point =>
    show (caleng_insert_decimal_point eng).2.sel_op ≠ EVAL
    unfold caleng_insert_decimal_point
    rw [if_neg hn]
    exact clear_eval_ne_EVAL _
  | exponent =>
    show (caleng_insert_exp eng).2.sel_op ≠ EVAL
    unfold caleng_insert_exp
    rw [if_neg hn]
    exact clear_eval_ne_EVAL _
  | negate =>
    show (caleng_negate eng).2.sel_op ≠ EVAL
    unfold caleng_negate
    rw [if_neg hn]
    exact clear_eval_ne_EVAL _
  | backspace => exact absurd rfl hk

theorem edit_in_error_state (eng : engine_t) (k : edit_key) (hst : eng.status ≠ OK) :
    (edit eng k).2 = eng := by
  obtain ⟨h1, h2, h3, h4, h5, _⟩ := calls_in_error_state eng 0 '0' 0 0 hst
  cases k with
  | digit d =>
    show (caleng_send_digit eng d).2 = eng
    unfold caleng_send_digit
    rw [if_pos hst]
  | decimal_point => show (caleng_insert_decimal_point eng).2 = eng; rw [h3]
  | exponent => show (caleng_insert_exp eng).2 = eng; rw [h4]
  | negate => show (caleng_negate eng).2 = eng; rw [h5]
  | backspace => show (caleng_backspace eng).2 = eng; rw [h1]

theorem backspace_of_empty (eng : engine_t) (ht : eng.text = []) :
    (caleng_backspace eng).2 = eng := by
  have h0 : char_at eng.input_buffer 0 = NUL := (char_at_zero_eq_NUL_iff _).2 ht
  unfold caleng_backspace
  simp only
  split_ifs <;> rfl

theorem eval_inv_edit {eng : engine_t} (hinv : eval_inv eng) (k : edit_key) :
    eval_inv (edit eng k).2 := by
  by_cases hst : eng.status = OK
  · by_cases hk : k = edit_key.backspace
    · subst hk
      intro hev
      obtain ⟨b, hb⟩ := backspace_fields eng
      have hs : (caleng_backspace eng).2.sel_op = eng.sel_op := by rw [hb]
      have ht := hinv (hs ▸ hev)
      show (caleng_backspace eng).2.text = []
      rw [backspace_of_empty eng ht]
      exact ht
    · intro hev
      exact absurd hev (edit_ne_EVAL eng k hst hk)
  · rw [edit_in_error_state eng k hst]
    exact hinv

theorem eval_bi_op_text {fuel : Nat} {eng e1 : engine_t} {num : ℚ} {rtn : Int}
    (h : caleng_eval_bi_op fuel eng num = Except.ok (rtn, e1)) : e1.text = eng.text := by
  have := eval_bi_op_frame h
  rw [this]
  rfl

/-- With status ok, `caleng_evaluate` leaves an empty buffer, but for a just-evaluated marker,
where it leaves the buffer as it is. -/
theorem evaluate_text {fuel : Nat} {eng e : engine_t} {r : result_t}
    (hst : eng.status = OK) (h : caleng_evaluate fuel eng = Except.ok (r, e)) :
    (eng.sel_op ≠ EVAL → e.text = []) ∧ (eng.sel_op = EVAL → e.text = eng.text) := by
  unfold caleng_evaluate at h
  split_ifs at h with c1 c2 c3 c4
  · exact absurd hst c1
  · split at h
    · rename_i num q hp
      cases h
      have := (process_input_buffer_frame hp).2.2.2.2.2.2
      exact ⟨fun _ => this, fun hev => absurd (c3.symm.trans hev) (by decide)⟩
    · cases h
  · cases h
    rcases c2 with c2 | c2
    · exact absurd c2 c3
    · exact ⟨fun hne => absurd c2 hne, fun _ => rfl⟩
  · have ht : eng.text = [] := (char_at_zero_eq_NUL_iff _).1 c4
    have hne : eng.sel_op ≠ EVAL := fun hev => c2 (Or.inr hev)
    split at h
    · rename_i rtn q he
      have hq := (eval_bi_op_text he).trans ht
      split_ifs at h
      · cases h
        exact ⟨fun _ => hq, fun hev => absurd hev hne⟩
      · cases h
        exact ⟨fun _ => hq, fun hev => absurd hev hne⟩
    · cases h
  · have hne : eng.sel_op ≠ EVAL := fun hev => c2 (Or.inr hev)
    split at h
    · rename_i num q hp
      have hq0 := (process_input_buffer_frame hp).2.2.2.2.2.2
      split at h
      · rename_i rtn q1 he
        have hq := (eval_bi_op_text he).trans hq0
        split_ifs at h
        · cases h
          exact ⟨fun _ => hq, fun hev => absurd hev hne⟩
        · cases h
          exact ⟨fun _ => hq, fun hev => absurd hev hne⟩
      · cases h
    · cases h

theorem eval_inv_evaluate {fuel : Nat} {eng e : engine_t} {r : result_t}
    (hinv : eval_inv eng) (hst : eng.status = OK)
    (h : caleng_evaluate fuel eng = Except.ok (r, e)) : e.text = [] := by
  obtain ⟨h1, h2⟩ := evaluate_text hst h
  by_cases hev : eng.sel_op = EVAL
  · exact (h2 hev).trans (hinv hev)
  · exact h1 hev

theorem un_op_finish_text (r : result_t) (eng : engine_t) (op : Int) :
    (un_op_finish r eng op).2.text = eng.text := by
  rcases (un_op_finish_kept r eng op).2.2.2.2 with h | h
  · exact h
  · have hsw : ∀ x : Int × engine_t,
        x = (if r.rtn_code = OK then un_op_switch eng op else (r.rtn_code, eng)) →
        x.2.text = eng.text := by
      intro x hx
      split_ifs at hx
      · unfold un_op_switch at hx
        split_ifs at hx <;> first | (rw [hx]; done) | (rw [hx]; rfl)
      · rw [hx]
    unfold un_op_finish
    simp only
    generalize hx : (if r.rtn_code = OK then un_op_switch eng op else (r.rtn_code, eng)) = x
    have hk := hsw x hx.symm
    split_ifs
    · exact hk
    · exact hk

theorem un_op_resolve_text {fuel : Nat} {eng e0 : engine_t} {r0 : result_t}
    (hinv : eval_inv eng) (hst : eng.status = OK)
    (h : un_op_resolve fuel eng = Except.ok (r0, e0)) : e0.text = [] := by
  unfold un_op_resolve at h
  split_ifs at h with c1 c2
  · split at h
    · rename_i num q hp
      cases h
      exact (process_input_buffer_frame hp).2.2.2.2.2.2
    · cases h
  · cases h
    exact (char_at_zero_eq_NUL_iff _).1 c2.2
  · exact eval_inv_evaluate hinv hst h

theorem eval_inv_eval_un_op {fuel : Nat} {eng e : engine_t} {r : result_t} {op : Int}
    (hinv : eval_inv eng) (hst : eng.status = OK)
    (h : caleng_eval_un_op fuel eng op = Except.ok (r, e)) : e.text = [] := by
  rw [eval_un_op_eq fuel eng op hst] at h
  cases hr : un_op_resolve fuel eng with
  | error f => rw [hr] at h; cases h
  | ok x =>
    obtain ⟨r0, e0⟩ := x
    rw [hr] at h
    simp only at h
    injection h with h
    have h2 := congrArg Prod.snd h
    simp only at h2
    rw [← h2, un_op_finish_text]
    exact un_op_resolve_text hinv hst hr

theorem eval_inv_select_bi_op {fuel : Nat} {eng e : engine_t} {r : result_t} {op : Int}
    (hinv : eval_inv eng) (hst : eng.status = OK)
    (h : caleng_select_bi_op fuel eng op = Except.ok (r, e)) : e.text = [] := by
  unfold caleng_select_bi_op at h
  split_ifs at h with c1 c2 c3 c4
  · exact absurd hst c1
  · split at h
    · rename_i num q hp
      cases h
      exact (process_input_buffer_frame hp).2.2.2.2.2.2
    · cases h
  · cases h
    exact hinv c3
  · cases h
    exact (char_at_zero_eq_NUL_iff _).1 c4
  · split at h
    · rename_i num q hp
      have hq0 := (process_input_buffer_frame hp).2.2.2.2.2.2
      split at h
      · rename_i rtn q1 he
        have hq := (eval_bi_op_text he).trans hq0
        cases h
        exact hq
      · cases h
    · cases h

theorem eval_inv_perform {fuel : Nat} {eng eng1 : engine_t} {g : gesture} {r : result_t}
    (hinv : eval_inv eng) (h : perform fuel eng g = Except.ok (r, eng1)) : eval_inv eng1 := by
  cases g with
  | key k =>
    simp only [perform] at h
    injection h with h
    have h2 := congrArg Prod.snd h
    simp only at h2
    rw [← h2]
    exact eval_inv_edit hinv k
  | cancel =>
    simp only [perform] at h
    injection h with h
    have h2 := congrArg Prod.snd h
    simp only at h2
    rw [← h2]
    intro hev
    have hn : NONE ≠ EVAL := by decide
    exact absurd hev hn
  | evaluate =>
    simp only [perform] at h
    by_cases hst : eng.status = OK
    · exact fun _ => eval_inv_evaluate hinv hst h
    · rw [(calls_in_error_state eng fuel '0' 0 0 hst).2.2.2.2.2.1] at h
      cases h
      exact hinv
  | un_op op =>
    simp only [perform] at h
    by_cases hst : eng.status = OK
    · exact fun _ => eval_inv_eval_un_op hinv hst h
    · rw [(calls_in_error_state eng fuel '0' op 0 hst).2.2.2.2.2.2.1] at h
      cases h
      exact hinv
  | bi_op op =>
    simp only [perform] at h
    by_cases hst : eng.status = OK
    · exact fun _ => eval_inv_select_bi_op hinv hst h
    · rw [(calls_in_error_state eng fuel '0' 0 op hst).2.2.2.2.2.2.2] at h
      cases h
      exact hinv

theorem reachable_eval_inv {heap : List Char} {dp : Char} {eng : engine_t}
    (h : reachable heap dp eng) : eval_inv eng := by
  induction h with
  | init =>
    intro hev
    have hn : NONE ≠ EVAL := by decide
    exact absurd hev hn
  | step fuel g r _ _ hp ih => exact eval_inv_perform ih hp

theorem cstr_append_NUL_cons (t s : List Char) : cstr (t ++ NUL :: s) = cstr t := by
  unfold cstr
  induction t with
  | nil => simp [List.takeWhile_cons]
  | cons c t ih =>
    simp only [List.cons_append, List.takeWhile_cons]
    split
    · rw [ih]
    · rfl

theorem cstr_strcpy (dst t : List Char) : cstr (strcpy dst t) = cstr t := by
  unfold strcpy
  rw [List.append_assoc]
  exact cstr_append_NUL_cons t _

theorem point_text_length_le (mlim elim : Int) (dp : Char) (t : List Char) :
    (point_text mlim elim dp t).length ≤ t.length + 2 := by
  unfold point_text
  have := digit_text_length_le mlim elim dp '0' t
  split_ifs
  · omega
  · simp only [List.length_append, List.length_singleton]; omega
  · simp only [List.length_append, List.length_singleton]; omega

theorem clear_eval_sel_op (eng : engine_t) :
    (clear_eval eng).sel_op = if eng.sel_op = EVAL then NONE else eng.sel_op := by
  unfold clear_eval
  split_ifs <;> rfl

/-- What an editing key other than insert-exponent returns and leaves, in terms of the fields and
the buffer text only. -/
theorem edit_by_text (eng : engine_t) (k : edit_key) (hk : k ≠ edit_key.exponent)
    (hst : eng.status = OK) (hl : eng.input_buffer.length = BUFFER_SIZE + 1)
    (ht : eng.text.length + 3 ≤ BUFFER_SIZE) (hdp : eng.dp_sep ≠ NUL)
    (hleg : (gesture.key k).legal) :
    (edit eng k).2.memory = eng.memory ∧
    (edit eng k).2.sel_op
      = (if k = edit_key.backspace then eng.sel_op
         else if eng.sel_op = EVAL then NONE else eng.sel_op) ∧
    (edit eng k).2.mantissa_length_limit = eng.mantissa_length_limit ∧
    (edit eng k).2.exponent_length_limit = eng.exponent_length_limit ∧
    (edit eng k).2.status = eng.status ∧ (edit eng k).2.dp_sep = eng.dp_sep ∧
    (edit eng k).2.text
      = (match k with
         | edit_key.digit d =>
           digit_text eng.mantissa_length_limit eng.exponent_length_limit eng.dp_sep d eng.text
         | edit_key.decimal_point =>
           point_text eng.mantissa_length_limit eng.exponent_length_limit eng.dp_sep eng.text
         | edit_key.negate => negate_text eng.text
         | _ => eng.text.dropLast) ∧
    (edit eng k).1.rtn_code = OK ∧
    (edit eng k).1.text = formatted (edit eng k).2.text := by
  have hb : BUFFER_SIZE = 100 := rfl
  rw [hb] at hl ht
  have hl2 : eng.text.length + 2 ≤ eng.input_buffer.length := by omega
  have hl3 : eng.text.length + 3 ≤ eng.input_buffer.length := by omega
  have hlt : eng.text.length < BUFFER_SIZE := by rw [hb]; omega
  cases k with
  | digit d =>
    have hd : d ≠ NUL := is_digit_ne_NUL hleg
    obtain ⟨g1, g2, _, g4⟩ := send_digit_text eng d hst hl2 hlt hdp hd
    have hlen := digit_text_length_le eng.mantissa_length_limit eng.exponent_length_limit
      eng.dp_sep d eng.text
    show (caleng_send_digit eng d).2.memory = _ ∧ (caleng_send_digit eng d).2.sel_op = _ ∧
      (caleng_send_digit eng d).2.mantissa_length_limit = _ ∧
      (caleng_send_digit eng d).2.exponent_length_limit = _ ∧
      (caleng_send_digit eng d).2.status = _ ∧ (caleng_send_digit eng d).2.dp_sep = _ ∧
      (caleng_send_digit eng d).2.text = _ ∧ (caleng_send_digit eng d).1.rtn_code = _ ∧
      (caleng_send_digit eng d).1.text = _
    have hf := clear_eval_fields
      { eng with input_buffer := (caleng_send_digit eng d).2.input_buffer }
    have hs := clear_eval_sel_op
      { eng with input_buffer := (caleng_send_digit eng d).2.input_buffer }
    rw [← g1] at hf hs
    refine ⟨hf.1, ?_, hf.2.2.1, hf.2.2.2.1, hf.2.1, hf.2.2.2.2.1, g2, ?_, ?_⟩
    · rw [if_neg (show ¬ (edit_key.digit d = edit_key.backspace) from by intro h; cases h), hs]
    · rw [g4]; rfl
    · rw [g4]
      exact display_buffer_text _ (by rw [g2, hb]; omega)
  | decimal_point =>
    obtain ⟨g1, g2, _, g4⟩ := insert_decimal_point_text eng hst hl3 hlt hdp
    have hlen := point_text_length_le eng.mantissa_length_limit eng.exponent_length_limit
      eng.dp_sep eng.text
    show (caleng_insert_decimal_point eng).2.memory = _ ∧
      (caleng_insert_decimal_point eng).2.sel_op = _ ∧
      (caleng_insert_decimal_point eng).2.mantissa_length_limit = _ ∧
      (caleng_insert_decimal_point eng).2.exponent_length_limit = _ ∧
      (caleng_insert_decimal_point eng).2.status = _ ∧
      (caleng_insert_decimal_point eng).2.dp_sep = _ ∧
      (caleng_insert_decimal_point eng).2.text = _ ∧
      (caleng_insert_decimal_point eng).1.rtn_code = _ ∧
      (caleng_insert_decimal_point eng).1.text = _
    have hf := clear_eval_fields
      { eng with input_buffer := (caleng_insert_decimal_point eng).2.input_buffer }
    have hs := clear_eval_sel_op
      { eng with input_buffer := (caleng_insert_decimal_point eng).2.input_buffer }
    rw [← g1] at hf hs
    refine ⟨hf.1, ?_, hf.2.2.1, hf.2.2.2.1, hf.2.1, hf.2.2.2.2.1, g2, ?_, ?_⟩
    · rw [if_neg (show ¬ (edit_key.decimal_point = edit_key.backspace) from by intro h; cases h), hs]
    · rw [g4]; rfl
    · rw [g4]
      exact display_buffer_text _ (by rw [g2, hb]; omega)
  | exponent => exact absurd rfl hk
  | negate =>
    obtain ⟨g1, g2, _, g4⟩ := negate_text_eq eng hst hl2 hlt
    have hlen := negate_text_length eng.text
    show (caleng_negate eng).2.memory = _ ∧ (caleng_negate eng).2.sel_op = _ ∧
      (caleng_negate eng).2.mantissa_length_limit = _ ∧
      (caleng_negate eng).2.exponent_length_limit = _ ∧
      (caleng_negate eng).2.status = _ ∧ (caleng_negate eng).2.dp_sep = _ ∧
      (caleng_negate eng).2.text = _ ∧ (caleng_negate eng).1.rtn_code = _ ∧
      (caleng_negate eng).1.text = _
    have hf := clear_eval_fields { eng with input_buffer := (caleng_negate eng).2.input_buffer }
    have hs := clear_eval_sel_op { eng with input_buffer := (caleng_negate eng).2.input_buffer }
    rw [← g1] at hf hs
    refine ⟨hf.1, ?_, hf.2.2.1, hf.2.2.2.1, hf.2.1, hf.2.2.2.2.1, g2, ?_, ?_⟩
    · rw [if_neg (show ¬ (edit_key.negate = edit_key.backspace) from by intro h; cases h), hs]
    · rw [g4]; rfl
    · rw [g4]
      exact display_buffer_text _ (by rw [g2, hb]; omega)
  | backspace =>
    obtain ⟨g1, g2, _, g4, g5⟩ := backspace_text eng hst hl2 hlt
    show (caleng_backspace eng).2.memory = _ ∧ (caleng_backspace eng).2.sel_op = _ ∧
      (caleng_backspace eng).2.mantissa_length_limit = _ ∧
      (caleng_backspace eng).2.exponent_length_limit = _ ∧
      (caleng_backspace eng).2.status = _ ∧ (caleng_backspace eng).2.dp_sep = _ ∧
      (caleng_backspace eng).2.text = _ ∧ (caleng_backspace eng).1.rtn_code = _ ∧
      (caleng_backspace eng).1.text = _
    refine ⟨by rw [g1], ?_, by rw [g1], by rw [g1], by rw [g1], by rw [g1], g2, g4,
      g5 (by rw [hb]; omega)⟩
    rw [if_pos rfl, g1]

/-- With status ok, a call of `caleng_evaluate` that returns ok leaves the just-evaluated
marker. -/
theorem evaluate_ok_sel_op {fuel : Nat} {eng e : engine_t} {r : result_t}
    (hst : eng.status = OK) (h : caleng_evaluate fuel eng = Except.ok (r, e))
    (hr : r.rtn_code = OK) : e.sel_op = EVAL := by
  unfold caleng_evaluate at h
  split_ifs at h with c1 c2 c3 c4
  · exact absurd hst c1
  · split at h
    · cases h; rfl
    · cases h
  · cases h; rfl
  · split at h
    · rename_i rtn q he
      split_ifs at h with c5
      · cases h; exact absurd hr c5
      · cases h; rfl
    · cases h
  · split at h
    · rename_i num q hp
      split at h
      · rename_i rtn q1 he
        split_ifs at h with c5
        · cases h; exact absurd hr c5
        · cases h; rfl
      · cases h
    · cases h

/-- The end of `caleng_eval_un_op` entered with two results that are both ok: the engine and
the code are the same, and so is the displayed text when the code is ok. -/
theorem un_op_finish_of_ok (r r1 : result_t) (eng : engine_t) (op : Int)
    (hr : r.rtn_code = OK) (hr1 : r1.rtn_code = OK) :
    (un_op_finish r eng op).2 = (un_op_finish r1 eng op).2 ∧
    (un_op_finish r eng op).1.rtn_code = (un_op_finish r1 eng op).1.rtn_code ∧
    ((un_op_finish r eng op).1.rtn_code = OK →
      (un_op_finish r eng op).1.text = (un_op_finish r1 eng op).1.text) := by
  unfold un_op_finish
  simp only
  rw [if_pos hr, if_pos hr1]
  generalize un_op_switch eng op = x
  by_cases hx : x.1 ≠ OK
  · rw [if_pos hx, if_pos hx]
    exact ⟨rfl, rfl, fun h => absurd h hx⟩
  · rw [if_neg hx, if_neg hx]
    refine ⟨rfl, rfl, fun _ => ?_⟩
    show cstr (caleng_get_memory_string x.2 r.to_display)
      = cstr (caleng_get_memory_string x.2 r1.to_display)
    unfold caleng_get_memory_string
    rw [cstr_strcpy, cstr_strcpy]

/-- The end of `caleng_eval_un_op` entered with a result that is not ok: the result is returned
and the code is stored in the status. -/
theorem un_op_finish_of_error (r : result_t) (eng : engine_t) (op : Int)
    (hr : r.rtn_code ≠ OK) :
    un_op_finish r eng op = (r, { eng with status := r.rtn_code }) := by
  unfold un_op_finish
  simp only
  rw [if_neg hr, if_pos hr]

theorem getD_set_nat (l : List Nat) (n i v : Nat) :
    (l.set n v).getD i 0 = if n = i ∧ i < l.length then v else l.getD i 0 := by
  simp only [List.getD_eq_getElem?_getD, List.getElem?_set]
  by_cases h : n = i
  · subst h
    by_cases hl : n < l.length
    · simp [hl]
    · simp [hl, List.getElem?_eq_none (not_lt.1 hl)]
  · simp [h]

theorem comb_row_length : ∀ (k : Nat) (l : List Nat), (comb_row k l).length = l.length := by
  intro k
  induction k with
  | zero => intro l; rfl
  | succ k ih =>
    intro l
    unfold comb_row
    rw [ih, List.length_set]

/-- One run of the inner loop of `comb` from index `k` down to 1: every entry at an index from 1
to `k` becomes the sum, modulo `2 ^ 32`, of the old entry and of its left neighbour. -/
theorem comb_row_getD : ∀ (k : Nat) (l : List Nat) (i : Nat),
    (comb_row k l).getD i 0
      = if 1 ≤ i ∧ i ≤ k ∧ i < l.length then (l.getD i 0 + l.getD (i - 1) 0) % 2 ^ 32
        else l.getD i 0 := by
  intro k
  induction k with
  | zero =>
    intro l i
    unfold comb_row
    rw [if_neg (by omega)]
  | succ k ih =>
    intro l i
    unfold comb_row
    rw [ih, List.length_set]
    by_cases h1 : 1 ≤ i ∧ i ≤ k ∧ i < l.length
    · rw [if_pos h1, if_pos ⟨h1.1, by omega, h1.2.2⟩, getD_set_nat, getD_set_nat,
        if_neg (by omega), if_neg (by omega)]
    · rw [if_neg h1, getD_set_nat]
      by_cases h2 : k + 1 = i ∧ i < l.length
      · rw [if_pos h2, if_pos ⟨by omega, by omega, h2.2⟩, ← h2.1]
        rfl
      · rw [if_neg h2, if_neg (by omega)]

theorem to_int_toNat {n : Nat} (h : n < 2 ^ 31) : (to_int n).toNat = n := by
  unfold to_int
  have h1 : n % 2 ^ 32 = n := Nat.mod_eq_of_lt (by omega)
  rw [h1, if_pos h]
  exact Int.toNat_natCast n

/-- The outer loop of `comb` on the row `r` of Pascal's triangle modulo `2 ^ 32`, cut at the
index `y`: after `n` iterations the array holds the row `r + n`. -/
theorem comb_loop_row (y : Nat) (hy : y < 2 ^ 31) : ∀ (n r : Nat) (l : List Nat),
    l.length = y + 1 → (∀ i, i ≤ y → l.getD i 0 = Nat.choose r i % 2 ^ 32) →
    ∀ i, i ≤ y → (comb_loop y n (r + 1) l).getD i 0 = Nat.choose (r + n) i % 2 ^ 32 := by
  intro n
  induction n with
  | zero => intro r l _ hrow i hi; exact hrow i hi
  | succ n ih =>
    intro r l hlen hrow i hi
    unfold comb_loop
    have hm : (if r + 1 < y then r + 1 else y) < 2 ^ 31 := by split_ifs <;> omega
    rw [to_int_toNat hm]
    have hstep : ∀ i, i ≤ y →
        (comb_row (if r + 1 < y then r + 1 else y) l).getD i 0
          = Nat.choose (r + 1) i % 2 ^ 32 := by
      intro i hi
      rw [comb_row_getD]
      by_cases hc : 1 ≤ i ∧ i ≤ (if r + 1 < y then r + 1 else y) ∧ i < l.length
      · rw [if_pos hc, hrow i hi, hrow (i - 1) (by omega), ← Nat.add_mod]
        obtain ⟨j, rfl⟩ : ∃ j, i = j + 1 := ⟨i - 1, by omega⟩
        rw [Nat.add_sub_cancel, Nat.choose_succ_succ, Nat.add_comm]
      · rw [if_neg hc, hrow i hi]
        by_cases h0 : i = 0
        · subst h0
          rw [Nat.choose_zero_right, Nat.choose_zero_right]
        · have hlt : r + 1 < i := by
            by_contra hge
            apply hc
            refine ⟨by omega, ?_, by omega⟩
            split_ifs <;> omega
          rw [Nat.choose_eq_zero_of_lt (by omega), Nat.choose_eq_zero_of_lt hlt]
    have := ih (r + 1) _ (by rw [comb_row_length]; exact hlen) hstep i hi
    rw [this]
    congr 2
    omega

/-- The function `comb` computes the binomial coefficient modulo `2 ^ 32`. -/
theorem comb_eq_choose_mod (x y : Nat) (hy : y < 2 ^ 31) :
    comb x y = Nat.choose x y % 2 ^ 32 := by
  unfold comb
  have h := comb_loop_row y hy x 0 ((List.replicate (y + 1) 0).set 0 1)
    (by rw [List.length_set, List.length_replicate])
    (by
      intro i _
      rw [getD_set_nat, List.length_replicate]
      by_cases h0 : i = 0
      · subst h0
        rw [if_pos ⟨rfl, by omega⟩]
        rfl
      · rw [if_neg (by omega)]
        obtain ⟨j, rfl⟩ : ∃ j, i = j + 1 := ⟨i - 1, by omega⟩
        rw [Nat.choose_zero_succ]
        simp only [List.getD_eq_getElem?_getD, List.getElem?_replicate]
        split_ifs <;> rfl)
    y (le_refl y)
  rw [h, Nat.zero_add]

theorem root_loop_zero (x : ℚ) (y : Nat) (s : ℚ × ℚ) :
    root_loop x y 0 s.1 s.2
      = if s.2 > round_double (1 / 10 ^ 8) then Except.error fault.out_of_fuel
        else Except.ok s.1 := by
  rw [root_loop]

theorem root_loop_succ (x : ℚ) (y fuel : Nat) (s : ℚ × ℚ) :
    root_loop x y (fuel + 1) s.1 s.2
      = if s.2 > round_double (1 / 10 ^ 8) then
          root_loop x y fuel (root_next x y s).1 (root_next x y s).2
        else Except.ok s.1 := by
  rw [root_loop]
  rfl

/-- After `n` iterations that do not end the loop, the loop goes on from the state reached. -/
theorem root_loop_run (x : ℚ) (y : Nat) : ∀ (n : Nat) (s t : ℚ × ℚ) (m : Nat),
    root_run x y n s = some t → root_loop x y (n + m) s.1 s.2 = root_loop x y m t.1 t.2 := by
  intro n
  induction n with
  | zero =>
    intro s t m h
    simp only [root_run, Option.some.injEq] at h
    rw [h, Nat.zero_add]
  | succ n ih =>
    intro s t m h
    rw [root_run] at h
    split_ifs at h with hc
    rw [show n + 1 + m = (n + m) + 1 by omega, root_loop_succ, if_pos hc]
    exact ih _ _ m h

theorem root_run_add (x : ℚ) (y : Nat) : ∀ (n : Nat) (s t u : ℚ × ℚ) (m : Nat),
    root_run x y n s = some t → root_run x y m t = some u → root_run x y (n + m) s = some u := by
  intro n
  induction n with
  | zero =>
    intro s t u m h1 h2
    simp only [root_run, Option.some.injEq] at h1
    rw [h1, Nat.zero_add]
    exact h2
  | succ n ih =>
    intro s t u m h1 h2
    rw [root_run] at h1
    split_ifs at h1 with hc
    rw [show n + 1 + m = (n + m) + 1 by omega, root_run, if_pos hc]
    exact ih _ _ _ m h1 h2

theorem root_run_le (x : ℚ) (y : Nat) : ∀ (n : Nat) (s t : ℚ × ℚ) (m : Nat), m ≤ n →
    root_run x y n s = some t → ∃ u, root_run x y m s = some u := by
  intro n
  induction n with
  | zero =>
    intro s t m hm h
    have : m = 0 := by omega
    subst this
    exact ⟨t, h⟩
  | succ n ih =>
    intro s t m hm h
    cases m with
    | zero => exact ⟨s, rfl⟩
    | succ m =>
      rw [root_run] at h
      split_ifs at h with hc
      rw [root_run, if_pos hc]
      exact ih _ _ m (by omega) h

/-- When the loop condition holds before each of `n + 1` iterations, the fuel `n` runs out. -/
theorem root_loop_out_of_fuel (x : ℚ) (y : Nat) : ∀ (n : Nat) (s t : ℚ × ℚ),
    root_run x y (n + 1) s = some t →
    root_loop x y n s.1 s.2 = Except.error fault.out_of_fuel := by
  intro n
  induction n with
  | zero =>
    intro s t h
    rw [root_run] at h
    split_ifs at h with hc
    rw [root_loop_zero, if_pos hc]
  | succ n ih =>
    intro s t h
    rw [root_run] at h
    split_ifs at h with hc
    rw [root_loop_succ, if_pos hc]
    exact ih _ _ h

/-- A state that the loop of `root` reaches again after `j` iterations, without ending, is
never left: the loop does not end for any fuel. -/
theorem root_loop_cycle (x : ℚ) (y : Nat) (t : ℚ × ℚ) (j : Nat) (hj : 0 < j)
    (hc : root_run x y j t = some t) :
    ∀ m, root_loop x y m t.1 t.2 = Except.error fault.out_of_fuel := by
  intro m
  induction m using Nat.strong_induction_on with
  | _ m ih =>
    by_cases hm : m < j
    · obtain ⟨u, hu⟩ := root_run_le x y j t t (m + 1) (by omega) hc
      exact root_loop_out_of_fuel x y m t u hu
    · have h := root_loop_run x y j t t (m - j) hc
      rw [show j + (m - j) = m by omega] at h
      rw [h]
      exact ih (m - j) (by omega)

/-- When the loop of `root` reaches a cycle, it does not end for any fuel. -/
theorem root_loop_never_ends (x : ℚ) (y : Nat) (s t : ℚ × ℚ) (k j : Nat) (hj : 0 < j)
    (hk : root_run x y k s = some t) (hc : root_run x y j t = some t) :
    ∀ m, root_loop x y m s.1 s.2 = Except.error fault.out_of_fuel := by
  intro m
  by_cases hm : m < k
  · have hkj := root_run_add x y k s t t j hk hc
    obtain ⟨u, hu⟩ := root_run_le x y (k + j) s t (m + 1) (by omega) hkj
    exact root_loop_out_of_fuel x y m s u hu
  · have h := root_loop_run x y k s t (m - k) hk
    rw [show k + (m - k) = m by omega] at h
    rw [h]
    exact root_loop_cycle x y t j hj hc (m - k)

/-- The iterations 1 to 32 of `root` for the base `8e32` and the index 3. -/
theorem root_eight_e32_run_32 :
    root_run eight_e32 3 32 (round_ld (eight_e32 / 3), 1)
      = some (618085339359592683023630336, 309042669679796341495037952) := by
  decide!

/-- The iterations 33 to 64. -/
theorem root_eight_e32_run_64 :
    root_run eight_e32 3 32 (618085339359592683023630336, 309042669679796341495037952)
      = some (1432610575242235694720, 716305287621117847424) := by
  decide!

/-- The iterations 65 to 96. -/
theorem root_eight_e32_run_96 :
    root_run eight_e32 3 32 (1432610575242235694720, 716305287621117847424)
      = some (3400226279303971623 / 2 ^ 10, 1700113139651969301 / 2 ^ 10) := by
  decide!

/-- The iterations 97 to 128. -/
theorem root_eight_e32_run_128 :
    root_run eight_e32 3 32 (3400226279303971623 / 2 ^ 10, 1700113139651969301 / 2 ^ 10)
      = some (12459670151153544293 / 2 ^ 27, 1 / 2 ^ 26) := by
  decide!

/-- The first 128 iterations of `root` for the base `8e32` and the index 3: the loop condition
holds before each of them. -/
theorem root_eight_e32_run :
    root_run eight_e32 3 128 (round_ld (eight_e32 / 3), 1)
      = some (12459670151153544293 / 2 ^ 27, 1 / 2 ^ 26) :=
  root_run_add eight_e32 3 96 _ _ _ 32
    (root_run_add eight_e32 3 64 _ _ _ 32
      (root_run_add eight_e32 3 32 _ _ _ 32 root_eight_e32_run_32 root_eight_e32_run_64)
      root_eight_e32_run_96)
    root_eight_e32_run_128

theorem ite_ne_NUL {p : Prop} [Decidable p] {a b : Char} (ha : a ≠ NUL) (hb : b ≠ NUL) :
    (if p then a else b) ≠ NUL := by
  split_ifs
  · exact ha
  · exact hb

theorem digitChar_ne_NUL (k : Nat) : Nat.digitChar k ≠ NUL := by
  unfold Nat.digitChar
  repeat' (first | apply ite_ne_NUL | decide)

theorem toDigitsCore_no_nul (b : Nat) : ∀ (f n : Nat) (acc : List Char),
    no_nul acc → no_nul (Nat.toDigitsCore b f n acc) := by
  intro f
  induction f with
  | zero => intro n acc h; exact h
  | succ f ih =>
    intro n acc h
    have hc : no_nul (Nat.digitChar (n % b) :: acc) := by
      intro c hc
      rcases List.mem_cons.1 hc with rfl | hc
      · exact digitChar_ne_NUL _
      · exact h c hc
    unfold Nat.toDigitsCore
    simp only
    split_ifs
    · exact hc
    · exact ih _ _ hc

theorem toDigits_no_nul (n : Nat) : no_nul (Nat.toDigits 10 n) :=
  toDigitsCore_no_nul 10 _ _ [] (fun _ h => absurd h (List.not_mem_nil _))

theorem no_nul_cons {c : Char} {t : List Char} (hc : c ≠ NUL) (ht : no_nul t) :
    no_nul (c :: t) := by
  intro d hd
  rcases List.mem_cons.1 hd with rfl | h
  · exact hc
  · exact ht d h

theorem no_nul_nil : no_nul [] := fun _ h => absurd h (List.not_mem_nil _)

theorem no_nul_take {t : List Char} (h : no_nul t) (k : Nat) : no_nul (t.take k) :=
  fun c hc => h c (List.mem_of_mem_take hc)

theorem no_nul_strip_zeros {t : List Char} (h : no_nul t) : no_nul (strip_zeros t) := by
  intro c hc
  unfold strip_zeros at hc
  rw [List.mem_reverse] at hc
  exact h c (List.mem_reverse.1 ((List.dropWhile_sublist _).subset hc))

theorem no_nul_replicate_zero (k : Nat) : no_nul (List.replicate k '0') := by
  intro c hc
  rw [List.eq_of_mem_replicate hc]
  decide

theorem fmt_g_body_no_nul {dp : Char} (hdp : dp ≠ NUL) (m : Nat) (x : Int) (sign : List Char)
    (hs : no_nul sign) :
    no_nul (sign ++
      (if x < -4 ∨ 6 ≤ x then
        (Nat.toDigits 10 m).take 1
          ++ (if strip_zeros ((Nat.toDigits 10 m).drop 1) = [] then []
              else dp :: strip_zeros ((Nat.toDigits 10 m).drop 1))
          ++ ['e', if x < 0 then '-' else '+']
          ++ (if (Nat.toDigits 10 x.natAbs).length < 2 then '0' :: Nat.toDigits 10 x.natAbs
              else Nat.toDigits 10 x.natAbs)
      else if 0 ≤ x then
        (Nat.toDigits 10 m).take (x.toNat + 1)
          ++ (if strip_zeros ((Nat.toDigits 10 m).drop (x.toNat + 1)) = [] then []
              else dp :: strip_zeros ((Nat.toDigits 10 m).drop (x.toNat + 1)))
      else
        ['0', dp] ++ List.replicate ((-x).toNat - 1) '0' ++ strip_zeros (Nat.toDigits 10 m))) := by
  have hds := toDigits_no_nul m
  have hex := toDigits_no_nul x.natAbs
  generalize Nat.toDigits 10 m = ds at hds ⊢
  generalize Nat.toDigits 10 x.natAbs = ex at hex ⊢
  have hz : ('0' : Char) ≠ NUL := by decide
  have he : ('e' : Char) ≠ NUL := by decide
  have hm : ('-' : Char) ≠ NUL := by decide
  have hp : ('+' : Char) ≠ NUL := by decide
  apply no_nul_append hs
  split_ifs <;>
    repeat' (first
      | exact no_nul_nil
      | exact hds
      | exact hex
      | exact no_nul_replicate_zero _
      | apply no_nul_append
      | apply no_nul_cons hz
      | apply no_nul_cons he
      | apply no_nul_cons hm
      | apply no_nul_cons hp
      | apply no_nul_cons hdp
      | apply no_nul_take
      | apply no_nul_drop
      | apply no_nul_strip_zeros)

/-- The text that `%g` writes has no NUL in it when the radix character is not NUL. -/
theorem fmt_g_no_nul {dp : Char} (hdp : dp ≠ NUL) (q : ℚ) : no_nul (fmt_g dp q) := by
  unfold fmt_g
  by_cases h0 : q = 0
  · rw [if_pos h0]
    exact no_nul_singleton (by decide)
  · rw [if_neg h0]
    refine fmt_g_body_no_nul hdp _ _ _ ?_
    by_cases hq : q < 0
    · rw [if_pos hq]
      exact no_nul_singleton (by decide)
    · rw [if_neg hq]
      exact no_nul_nil

theorem fmt_double_no_nul {dp : Char} (hdp : dp ≠ NUL) (x : ℚ) : no_nul (fmt_double dp x) := by
  unfold fmt_double
  split_ifs
  · intro c hc
    simp only [List.mem_cons, List.mem_singleton, List.not_mem_nil, or_false] at hc
    rcases hc with rfl | rfl | rfl | rfl <;> decide
  · intro c hc
    simp only [List.mem_cons, List.mem_singleton, List.not_mem_nil, or_false] at hc
    rcases hc with rfl | rfl | rfl <;> decide
  · exact fmt_g_no_nul hdp _

/-- The text of the display after `caleng_get_memory_string` is the `%g` text of the memory
converted to `double`. -/
theorem memory_string_text (eng : engine_t) (s : List Char) (hdp : eng.dp_sep ≠ NUL) :
    cstr (caleng_get_memory_string eng s) = fmt_double eng.dp_sep eng.memory := by
  unfold caleng_get_memory_string strcpy
  rw [List.append_assoc]
  exact cstr_append_NUL (fmt_double_no_nul hdp _) _

/-- In a reachable engine the text of the buffer, after the repair step and the removal of a
separator at its end, is read as a number, which `caleng_process_input_buffer` returns. -/
theorem reachable_parse {heap : List Char} {dp : Char} {eng : engine_t}
    (hheap : heap.length = BUFFER_SIZE + 1) (hsep : valid_sep dp)
    (h : reachable heap dp eng) :
    ∃ v p, caleng_process_input_buffer eng = Except.ok (v, p) ∧
      scan_Lf eng.dp_sep (trim_point eng.dp_sep (display_rule eng.text)) = some v := by
  obtain ⟨i1, i2, i3, i4, sh, hok, ht⟩ := reachable_buffer_inv hheap hsep h
  have hl := render_length_le eng.dp_sep hok
  rw [← ht] at hl
  obtain ⟨b2, hb2, heq⟩ := process_input_buffer_text eng
    (by rw [i1]; unfold BUFFER_SIZE; omega) i4.1
  have hrule : formatted eng.text = display_rule eng.text := by
    rw [ht]; exact formatted_render_rule i4 hok
  have htxt : trim_point eng.dp_sep (formatted eng.text) = render eng.dp_sep sh.shown.trim := by
    rw [ht, formatted_render i4 hok, trim_point_render i4 (shape_shown_ok hok)]
  have hsome := scan_Lf_render i4 (shape_numeral_of_ok hok)
  rw [← htxt, ← hb2] at hsome
  cases hv : scan_Lf eng.dp_sep (cstr b2) with
  | none => exact absurd hv hsome
  | some v =>
    rw [hv] at heq
    refine ⟨v, _, heq, ?_⟩
    rw [← hrule, ← hb2]; exact hv

/-- With enough fuel, `Nat.toDigitsCore` puts the decimal digits in front of the accumulator. -/
theorem toDigitsCore_eq : ∀ (f n : Nat) (acc : List Char), n < f →
    Nat.toDigitsCore 10 f n acc = Nat.toDigits 10 n ++ acc := by
  intro f
  induction f using Nat.strong_induction_on with
  | _ f ih =>
    intro n acc hn
    cases f with
    | zero => omega
    | succ f =>
      unfold Nat.toDigits
      rw [Nat.toDigitsCore, Nat.toDigitsCore]
      by_cases h0 : n / 10 = 0
      · rw [if_pos h0, if_pos h0]
        rfl
      · rw [if_neg h0, if_neg h0]
        have h1 : n / 10 < n := Nat.div_lt_self (by omega) (by decide)
        rw [ih f (by omega) (n / 10) _ (by omega), ih n (by omega) (n / 10) _ h1]
        simp

theorem toDigits_lt {n : Nat} (h : n < 10) : Nat.toDigits 10 n = [Nat.digitChar n] := by
  unfold Nat.toDigits
  rw [Nat.toDigitsCore]
  rw [if_pos (by omega), Nat.mod_eq_of_lt h]

theorem toDigits_ge {n : Nat} (h : 10 ≤ n) :
    Nat.toDigits 10 n = Nat.toDigits 10 (n / 10) ++ [Nat.digitChar (n % 10)] := by
  conv_lhs => unfold Nat.toDigits
  rw [Nat.toDigitsCore]
  rw [if_neg (by omega), toDigitsCore_eq n (n / 10) _ (by omega)]

theorem is_digit_digitChar {d : Nat} (h : d < 10) : is_digit (Nat.digitChar d) = true := by
  interval_cases d <;> decide

theorem digit_val_digitChar {d : Nat} (h : d < 10) : digit_val (Nat.digitChar d) = d := by
  interval_cases d <;> decide

theorem digits_val_append (s : List Char) (c : Char) :
    digits_val (s ++ [c]) = 10 * digits_val s + digit_val c := by
  unfold digits_val
  rw [List.foldl_append]
  rfl

theorem toDigits_is_digit : ∀ (n : Nat), ∀ c ∈ Nat.toDigits 10 n, is_digit c = true := by
  intro n
  induction n using Nat.strong_induction_on with
  | _ n ih =>
    intro c hc
    by_cases h : n < 10
    · rw [toDigits_lt h] at hc
      rw [List.mem_singleton.1 hc]
      exact is_digit_digitChar h
    · rw [toDigits_ge (by omega)] at hc
      rcases List.mem_append.1 hc with h1 | h1
      · exact ih (n / 10) (by omega) c h1
      · rw [List.mem_singleton.1 h1]
        exact is_digit_digitChar (Nat.mod_lt _ (by decide))

theorem digits_val_toDigits : ∀ (n : Nat), digits_val (Nat.toDigits 10 n) = n := by
  intro n
  induction n using Nat.strong_induction_on with
  | _ n ih =>
    by_cases h : n < 10
    · rw [toDigits_lt h]
      show 10 * 0 + digit_val (Nat.digitChar n) = n
      rw [digit_val_digitChar h]
      omega
    · rw [toDigits_ge (by omega), digits_val_append, ih (n / 10) (by omega),
        digit_val_digitChar (Nat.mod_lt _ (by decide))]
      omega

theorem toDigits_length_pos (n : Nat) : 1 ≤ (Nat.toDigits 10 n).length := by
  by_cases h : n < 10
  · rw [toDigits_lt h]; simp
  · rw [toDigits_ge (by omega)]; simp

/-- The number of decimal digits of a positive number `n`: `10 ^ (l - 1) ≤ n < 10 ^ l`. -/
theorem toDigits_length_bounds : ∀ (n : Nat), 0 < n →
    10 ^ ((Nat.toDigits 10 n).length - 1) ≤ n ∧ n < 10 ^ (Nat.toDigits 10 n).length := by
  intro n
  induction n using Nat.strong_induction_on with
  | _ n ih =>
    intro hn
    by_cases h : n < 10
    · rw [toDigits_lt h]
      simp only [List.length_singleton, Nat.sub_self, pow_zero, pow_one]
      omega
    · rw [toDigits_ge (by omega)]
      simp only [List.length_append, List.length_singleton, Nat.add_sub_cancel]
      obtain ⟨h1, h2⟩ := ih (n / 10) (by omega) (by omega)
      have hp := toDigits_length_pos (n / 10)
      obtain ⟨l, hl⟩ : ∃ l, (Nat.toDigits 10 (n / 10)).length = l + 1 :=
        ⟨(Nat.toDigits 10 (n / 10)).length - 1, by omega⟩
      rw [hl] at h1 h2 ⊢
      simp only [Nat.add_sub_cancel] at h1
      rw [pow_succ] at h2 ⊢
      rw [pow_succ]
      constructor
      · omega
      · omega

/-- The length of the decimal numeral of a number is determined by the powers of ten around
it. -/
theorem toDigits_length_eq {n l : Nat} (h1 : 10 ^ l ≤ n) (h2 : n < 10 ^ (l + 1)) :
    (Nat.toDigits 10 n).length = l + 1 := by
  have hn : 0 < n := lt_of_lt_of_le (by positivity) h1
  obtain ⟨b1, b2⟩ := toDigits_length_bounds n hn
  have hp := toDigits_length_pos n
  obtain ⟨k, hk⟩ : ∃ k, (Nat.toDigits 10 n).length = k + 1 :=
    ⟨(Nat.toDigits 10 n).length - 1, by omega⟩
  rw [hk] at b1 b2 ⊢
  simp only [Nat.add_sub_cancel] at b1
  have e1 : l < k + 1 := (Nat.pow_lt_pow_iff_right (by decide : 1 < 10)).1 (lt_of_le_of_lt h1 b2)
  have e2 : k < l + 1 := (Nat.pow_lt_pow_iff_right (by decide : 1 < 10)).1 (lt_of_le_of_lt b1 h2)
  omega

theorem pow10_eq_zpow (e : Int) : pow10 e = (10 : ℚ) ^ e := by
  unfold pow10
  by_cases h : 0 ≤ e
  · rw [if_pos h]
    obtain ⟨n, rfl⟩ := Int.eq_ofNat_of_zero_le h
    simp
  · rw [if_neg h]
    obtain ⟨n, hn⟩ := Int.eq_ofNat_of_zero_le (show 0 ≤ -e by omega)
    have he : e = -(n : Int) := by omega
    rw [hn, he]
    simp

theorem pow10_pos (e : Int) : 0 < pow10 e := by
  rw [pow10_eq_zpow]
  positivity

theorem pow10_add (a b : Int) : pow10 (a + b) = pow10 a * pow10 b := by
  rw [pow10_eq_zpow, pow10_eq_zpow, pow10_eq_zpow, zpow_add₀ (by norm_num)]

theorem pow10_natCast (n : Nat) : pow10 (n : Int) = (10 : ℚ) ^ n := by
  rw [pow10_eq_zpow, zpow_natCast]

theorem pow10_zero : pow10 0 = 1 := by
  rw [pow10_eq_zpow, zpow_zero]

theorem pow10_lt {a b : Int} (h : a < b) : pow10 a < pow10 b := by
  rw [pow10_eq_zpow, pow10_eq_zpow]
  exact zpow_lt_zpow_right₀ (by norm_num) h

theorem pow10_le {a b : Int} (h : a ≤ b) : pow10 a ≤ pow10 b := by
  rw [pow10_eq_zpow, pow10_eq_zpow]
  exact zpow_le_zpow_right₀ (by norm_num) h

/-- The decimal exponent is determined by the powers of ten around a number. -/
theorem pow10_unique {a : ℚ} {e1 e2 : Int} (h1 : pow10 e1 ≤ a) (h2 : a < pow10 (e1 + 1))
    (h3 : pow10 e2 ≤ a) (h4 : a < pow10 (e2 + 1)) : e1 = e2 := by
  have k1 : pow10 e1 < pow10 (e2 + 1) := lt_of_le_of_lt h1 h4
  have k2 : pow10 e2 < pow10 (e1 + 1) := lt_of_le_of_lt h3 h2
  rw [pow10_eq_zpow, pow10_eq_zpow, zpow_lt_zpow_iff_right₀ (by norm_num)] at k1 k2
  omega

theorem ilog10_nat_bounds {n : Nat} (hn : 0 < n) :
    10 ^ ilog10_nat n ≤ n ∧ n < 10 ^ (ilog10_nat n + 1) := by
  unfold ilog10_nat
  obtain ⟨h1, h2⟩ := toDigits_length_bounds n hn
  have hp := toDigits_length_pos n
  rw [Nat.sub_add_cancel hp]
  exact ⟨h1, h2⟩

/-- The function `ilog10` gives the decimal exponent of a positive rational. -/
theorem ilog10_spec {a : ℚ} (ha : 0 < a) :
    pow10 (ilog10 a) ≤ a ∧ a < pow10 (ilog10 a + 1) := by
  have hnum : 0 < a.num := Rat.num_pos.2 ha
  have hN : 0 < a.num.natAbs := Int.natAbs_pos.2 hnum.ne'
  have hD : 0 < a.den := a.den_pos
  obtain ⟨n1, n2⟩ := ilog10_nat_bounds hN
  obtain ⟨d1, d2⟩ := ilog10_nat_bounds hD
  have hcast : ((a.num.natAbs : Nat) : ℚ) = (a.num : ℚ) := by
    rw [← Int.cast_natCast, Int.natAbs_of_nonneg hnum.le]
  have ha_eq : a = ((a.num.natAbs : Nat) : ℚ) / ((a.den : Nat) : ℚ) := by
    rw [hcast]; exact (Rat.num_div_den a).symm
  have hDq : (0 : ℚ) < ((a.den : Nat) : ℚ) := by exact_mod_cast hD
  have n1q : (10 : ℚ) ^ ilog10_nat a.num.natAbs ≤ ((a.num.natAbs : Nat) : ℚ) := by
    exact_mod_cast n1
  have n2q : ((a.num.natAbs : Nat) : ℚ) < (10 : ℚ) ^ (ilog10_nat a.num.natAbs + 1) := by
    exact_mod_cast n2
  have d1q : (10 : ℚ) ^ ilog10_nat a.den ≤ ((a.den : Nat) : ℚ) := by exact_mod_cast d1
  have d2q : ((a.den : Nat) : ℚ) < (10 : ℚ) ^ (ilog10_nat a.den + 1) := by exact_mod_cast d2
  have hp1 : (0 : ℚ) < (10 : ℚ) ^ ilog10_nat a.den := by positivity
  have hp2 : (0 : ℚ) < (10 : ℚ) ^ (ilog10_nat a.den + 1) := by positivity
  -- the bounds around the first guess
  have hup : a < pow10 ((ilog10_nat a.num.natAbs : Int) - (ilog10_nat a.den : Int) + 1) := by
    have e : pow10 ((ilog10_nat a.num.natAbs : Int) - (ilog10_nat a.den : Int) + 1)
        = (10 : ℚ) ^ (ilog10_nat a.num.natAbs + 1) / (10 : ℚ) ^ ilog10_nat a.den := by
      rw [pow10_eq_zpow, ← zpow_natCast, ← zpow_natCast, ← zpow_sub₀ (by norm_num)]
      congr 1
      push_cast
      ring
    rw [e]
    conv_lhs => rw [ha_eq]
    rw [div_lt_div_iff₀ hDq hp1]
    calc ((a.num.natAbs : Nat) : ℚ) * (10 : ℚ) ^ ilog10_nat a.den
        ≤ ((a.num.natAbs : Nat) : ℚ) * ((a.den : Nat) : ℚ) :=
          mul_le_mul_of_nonneg_left d1q (by positivity)
      _ < (10 : ℚ) ^ (ilog10_nat a.num.natAbs + 1) * ((a.den : Nat) : ℚ) :=
          mul_lt_mul_of_pos_right n2q hDq
  have hlo : pow10 ((ilog10_nat a.num.natAbs : Int) - (ilog10_nat a.den : Int) - 1) ≤ a := by
    have e : pow10 ((ilog10_nat a.num.natAbs : Int) - (ilog10_nat a.den : Int) - 1)
        = (10 : ℚ) ^ ilog10_nat a.num.natAbs / (10 : ℚ) ^ (ilog10_nat a.den + 1) := by
      rw [pow10_eq_zpow, ← zpow_natCast, ← zpow_natCast, ← zpow_sub₀ (by norm_num)]
      congr 1
      push_cast
      ring
    rw [e]
    conv_rhs => rw [ha_eq]
    rw [div_le_div_iff₀ hp2 hDq]
    calc (10 : ℚ) ^ ilog10_nat a.num.natAbs * ((a.den : Nat) : ℚ)
        ≤ ((a.num.natAbs : Nat) : ℚ) * ((a.den : Nat) : ℚ) :=
          mul_le_mul_of_nonneg_right n1q hDq.le
      _ ≤ ((a.num.natAbs : Nat) : ℚ) * (10 : ℚ) ^ (ilog10_nat a.den + 1) :=
          mul_le_mul_of_nonneg_left d2q.le (by positivity)
  unfold ilog10
  simp only
  split_ifs with hc
  · exact ⟨hc, hup⟩
  · refine ⟨hlo, ?_⟩
    rw [sub_add_cancel]
    exact not_le.1 hc

/-- The floor that `round_half_even` starts from. -/
theorem floor_bounds {a : ℚ} (ha : 0 ≤ a) :
    ((a.num.natAbs / a.den : Nat) : ℚ) ≤ a ∧ a < ((a.num.natAbs / a.den : Nat) : ℚ) + 1 := by
  have hnum : 0 ≤ a.num := Rat.num_nonneg.2 ha
  have hD : 0 < a.den := a.den_pos
  have hcast : ((a.num.natAbs : Nat) : ℚ) = (a.num : ℚ) := by
    rw [← Int.cast_natCast, Int.natAbs_of_nonneg hnum]
  have ha_eq : a = ((a.num.natAbs : Nat) : ℚ) / ((a.den : Nat) : ℚ) := by
    rw [hcast]; exact (Rat.num_div_den a).symm
  have hDq : (0 : ℚ) < ((a.den : Nat) : ℚ) := by exact_mod_cast hD
  have h1 : a.num.natAbs / a.den * a.den ≤ a.num.natAbs := Nat.div_mul_le_self _ _
  have h2 : a.num.natAbs < (a.num.natAbs / a.den + 1) * a.den := by
    rw [Nat.mul_comm]
    exact Nat.lt_mul_div_succ _ hD
  have h1q : ((a.num.natAbs / a.den : Nat) : ℚ) * ((a.den : Nat) : ℚ)
      ≤ ((a.num.natAbs : Nat) : ℚ) := by exact_mod_cast h1
  have h2q : ((a.num.natAbs : Nat) : ℚ)
      < (((a.num.natAbs / a.den : Nat) : ℚ) + 1) * ((a.den : Nat) : ℚ) := by exact_mod_cast h2
  constructor
  · conv_rhs => rw [ha_eq]
    rw [le_div_iff₀ hDq]
    exact h1q
  · conv_lhs => rw [ha_eq]
    rw [div_lt_iff₀ hDq]
    exact h2q

/-- Rounding keeps a value between two natural numbers between them. -/
theorem round_half_even_bounds {a : ℚ} (ha : 0 ≤ a) {lo hi : Nat} (h1 : (lo : ℚ) ≤ a)
    (h2 : a < (hi : ℚ)) : lo ≤ round_half_even a ∧ round_half_even a ≤ hi := by
  obtain ⟨f1, f2⟩ := floor_bounds ha
  have hlo : lo ≤ a.num.natAbs / a.den := by
    have : (lo : ℚ) < ((a.num.natAbs / a.den : Nat) : ℚ) + 1 := lt_of_le_of_lt h1 f2
    have : lo < a.num.natAbs / a.den + 1 := by exact_mod_cast this
    omega
  have hhi : a.num.natAbs / a.den < hi := by
    have : ((a.num.natAbs / a.den : Nat) : ℚ) < (hi : ℚ) := lt_of_le_of_lt f1 h2
    exact_mod_cast this
  unfold round_half_even
  simp only
  split_ifs <;> omega

/-- A natural number is not changed by rounding. -/
theorem round_half_even_natCast (n : Nat) : round_half_even (n : ℚ) = n := by
  unfold round_half_even
  simp only [Rat.num_natCast, Rat.den_natCast, Int.natAbs_ofNat, Nat.div_one, sub_self]
  rw [if_pos (by norm_num)]

theorem takeWhile_digits_append {l : List Char} (h : all_digits l) (r : List Char)
    (hr : ∀ c t, r = c :: t → is_digit c = false) :
    (l ++ r).takeWhile is_digit = l := by
  induction l with
  | nil =>
    cases r with
    | nil => rfl
    | cons c t => simp [List.takeWhile_cons, hr c t rfl]
  | cons c t ih =>
    have hc := h c (List.mem_cons_self _ _)
    simp only [List.cons_append, List.takeWhile_cons, hc, if_true]
    rw [ih (fun x hx => h x (List.mem_cons_of_mem _ hx))]

/-- The exponent part that `%g` writes, an `e`, a sign and digits, as `sscanf` reads it. -/
theorem scan_exponent_signed {ds : List Char} (hd : all_digits ds) (hne : ds ≠ [])
    (sg : Bool) :
    scan_exponent ('e' :: (if sg then '-' else '+') :: ds)
      = some (if sg then -(digits_val ds : Int) else (digits_val ds : Int)) := by
  unfold scan_exponent
  simp only [true_or, if_true]
  cases sg with
  | true =>
    simp only [if_true, scan_sign, takeWhile_digits_all hd, if_neg hne]
  | false =>
    simp only [Bool.false_eq_true, if_false, scan_sign, takeWhile_digits_all hd, if_neg hne]

/-- The number that `sscanf` reads from a numeral: a sign, digits `ip`, a separator with the
digits `fp` when `point` is set, and an exponent part `epart` of value `e`. -/
theorem scan_decimal_numeral {dp : Char} (hsep : valid_sep dp) (neg point : Bool)
    {ip fp : List Char} (hip : all_digits ip) (hne : ip ≠ []) (hfp : all_digits fp)
    (hpoint : point = false → fp = []) (epart : List Char) (e : Int)
    (hepart : (epart = [] ∧ e = 0) ∨
      ∃ (sg : Bool) (ds : List Char), all_digits ds ∧ ds ≠ [] ∧
        epart = 'e' :: (if sg then '-' else '+') :: ds ∧
        e = (if sg then -(digits_val ds : Int) else (digits_val ds : Int))) :
    scan_decimal dp (sign_text neg ++ (ip ++ ((if point then dp :: fp else []) ++ epart)))
      = some (if neg then -((digits_val (ip ++ fp) : ℚ) * pow10 (e - (fp.length : Int)))
              else (digits_val (ip ++ fp) : ℚ) * pow10 (e - (fp.length : Int))) := by
  have hexp : scan_exponent epart = some e := by
    rcases hepart with ⟨h1, h2⟩ | ⟨sg, ds, h1, h2, h3, h4⟩
    · rw [h1, h2]; rfl
    · rw [h3, h4]; exact scan_exponent_signed h1 h2 sg
  have hehead : ∀ c t, epart = c :: t → is_digit c = false := by
    intro c t hct
    rcases hepart with ⟨h1, _⟩ | ⟨sg, ds, _, _, h3, _⟩
    · rw [h1] at hct; cases hct
    · rw [h3] at hct
      injection hct with hc _
      rw [← hc]; decide
  have hhead : ∀ c t, (if point then dp :: fp else []) ++ epart = c :: t →
      is_digit c = false := by
    intro c t hct
    cases point with
    | true =>
      simp only [if_true, List.cons_append, List.cons.injEq] at hct
      rw [← hct.1]; exact hsep.2.2.2
    | false =>
      simp only [Bool.false_eq_true, if_false, List.nil_append] at hct
      exact hehead c t hct
  unfold scan_decimal
  simp only [scan_sign_text hip hne neg]
  rw [takeWhile_digits_append hip _ hhead, dropWhile_digits_append hip _ hhead]
  cases point with
  | true =>
    simp only [if_true, List.cons_append]
    rw [takeWhile_digits_append hfp _ hehead, dropWhile_digits_append hfp _ hehead,
      if_neg (fun h => hne h.1), hexp]
  | false =>
    have hfp0 : fp = [] := hpoint rfl
    subst hfp0
    simp only [Bool.false_eq_true, if_false, List.nil_append]
    cases hep : epart with
    | nil =>
      rw [hep] at hexp
      simp only [hexp]
      rw [if_neg (fun h => hne h.1)]
    | cons c t =>
      have hc : c = 'e' := by
        rcases hepart with ⟨h1, _⟩ | ⟨sg, ds, _, _, h3, _⟩
        · rw [h1] at hep; cases hep
        · rw [h3] at hep
          injection hep with hc _
          exact hc.symm
      subst hc
      rw [hep] at hexp
      simp only [if_neg (Ne.symm hsep.2.2.1), hexp]
      rw [if_neg (fun h => hne h.1)]

theorem foldl_digits (b : List Char) : ∀ acc : Nat,
    b.foldl (fun acc c => 10 * acc + digit_val c) acc
      = acc * 10 ^ b.length + b.foldl (fun acc c => 10 * acc + digit_val c) 0 := by
  induction b with
  | nil => intro acc; simp
  | cons c t ih =>
    intro acc
    simp only [List.foldl_cons, List.length_cons]
    rw [ih (10 * acc + digit_val c), ih (10 * 0 + digit_val c)]
    ring

theorem digits_val_append_list (a b : List Char) :
    digits_val (a ++ b) = digits_val a * 10 ^ b.length + digits_val b := by
  unfold digits_val
  rw [List.foldl_append, foldl_digits]

theorem digits_val_replicate_zero (k : Nat) : digits_val (List.replicate k '0') = 0 := by
  induction k with
  | zero => rfl
  | succ k ih =>
    rw [List.replicate_succ', digits_val_append, ih]
    rfl

theorem all_digits_replicate_zero (k : Nat) : all_digits (List.replicate k '0') := by
  intro c hc
  rw [List.eq_of_mem_replicate hc]
  rfl

theorem all_digits_take {l : List Char} (h : all_digits l) (k : Nat) : all_digits (l.take k) :=
  fun c hc => h c (List.mem_of_mem_take hc)

theorem all_digits_drop {l : List Char} (h : all_digits l) (k : Nat) : all_digits (l.drop k) :=
  fun c hc => h c (List.mem_of_mem_drop hc)

/-- What `strip_zeros` removes is a run of zeros at the end. -/
theorem strip_zeros_spec (t : List Char) :
    ∃ k, t = strip_zeros t ++ List.replicate k '0' ∧ (strip_zeros t).length + k = t.length := by
  have hsplit := List.takeWhile_append_dropWhile (fun c => decide (c = '0')) t.reverse
  have hz : t.reverse.takeWhile (fun c => decide (c = '0'))
      = List.replicate (t.reverse.takeWhile (fun c => decide (c = '0'))).length '0' := by
    rw [List.eq_replicate_iff]
    refine ⟨rfl, ?_⟩
    intro c hc
    have := List.mem_takeWhile_imp hc
    simpa using this
  refine ⟨(t.reverse.takeWhile (fun c => decide (c = '0'))).length, ?_, ?_⟩
  · have h := congrArg List.reverse hsplit
    rw [List.reverse_append, List.reverse_reverse] at h
    rw [hz, List.reverse_replicate] at h
    exact h.symm
  · have h := congrArg List.length hsplit
    rw [List.length_append, List.length_reverse] at h
    unfold strip_zeros
    rw [List.length_reverse]
    omega

theorem all_digits_strip_zeros {l : List Char} (h : all_digits l) : all_digits (strip_zeros l) := by
  obtain ⟨k, hk, _⟩ := strip_zeros_spec l
  intro c hc
  apply h
  rw [hk]
  exact List.mem_append_left _ hc

/-- The digits before an index `j` and the stripped digits after it denote the whole number
without its trailing zeros. -/
theorem split_value (ds : List Char) (j : Nat) (hj : j ≤ ds.length) :
    ∃ k, (strip_zeros (ds.drop j)).length + k + j = ds.length ∧
      digits_val (ds.take j ++ strip_zeros (ds.drop j)) * 10 ^ k = digits_val ds := by
  obtain ⟨k, hk, hl⟩ := strip_zeros_spec (ds.drop j)
  refine ⟨k, ?_, ?_⟩
  · rw [List.length_drop] at hl
    omega
  · conv_rhs => rw [← List.take_append_drop j ds, hk, ← List.append_assoc]
    rw [digits_val_append_list _ (List.replicate k '0'), digits_val_replicate_zero,
      List.length_replicate, Nat.add_zero]

theorem pow10_shift (m n : Nat) (k : Nat) (e : Int) (h : n * 10 ^ k = m) :
    (n : ℚ) * pow10 e = (m : ℚ) * pow10 (e - k) := by
  rw [← h, sub_eq_add_neg, pow10_add, pow10_eq_zpow (-(k : Int)), zpow_neg, zpow_natCast]
  push_cast
  have : (10 : ℚ) ^ k ≠ 0 := by positivity
  field_simp
  ring

/-- The exponent digits that `%g` writes: at least two, with the value of the exponent. -/
theorem exponent_digits (n : Nat) :
    all_digits (if (Nat.toDigits 10 n).length < 2 then '0' :: Nat.toDigits 10 n
      else Nat.toDigits 10 n) ∧
    (if (Nat.toDigits 10 n).length < 2 then '0' :: Nat.toDigits 10 n
      else Nat.toDigits 10 n) ≠ [] ∧
    digits_val (if (Nat.toDigits 10 n).length < 2 then '0' :: Nat.toDigits 10 n
      else Nat.toDigits 10 n) = n := by
  have h1 : all_digits (Nat.toDigits 10 n) := toDigits_is_digit n
  have h2 := digits_val_toDigits n
  have h3 := toDigits_length_pos n
  split_ifs
  · refine ⟨?_, by simp, ?_⟩
    · intro c hc
      rcases List.mem_cons.1 hc with rfl | h
      · rfl
      · exact h1 c h
    · have := digits_val_append_list ['0'] (Nat.toDigits 10 n)
      rw [List.singleton_append] at this
      rw [this, h2]
      show 0 * 10 ^ _ + n = n
      omega
  · refine ⟨h1, ?_, h2⟩
    intro h
    rw [h] at h3
    simp at h3

/-- The text that `%g` writes for a six-digit mantissa `m` and a decimal exponent `x` is read
by `sscanf` as `m * 10 ^ (x - 5)`. -/
theorem scan_fmt_body {dp : Char} (hsep : valid_sep dp) (neg : Bool) (m : Nat) (x : Int)
    (hm1 : 10 ^ 5 ≤ m) (hm2 : m < 10 ^ 6) :
    scan_decimal dp (sign_text neg ++
      (if x < -4 ∨ 6 ≤ x then
        (Nat.toDigits 10 m).take 1
          ++ (if strip_zeros ((Nat.toDigits 10 m).drop 1) = [] then []
              else dp :: strip_zeros ((Nat.toDigits 10 m).drop 1))
          ++ ['e', if x < 0 then '-' else '+']
          ++ (if (Nat.toDigits 10 x.natAbs).length < 2 then '0' :: Nat.toDigits 10 x.natAbs
              else Nat.toDigits 10 x.natAbs)
      else if 0 ≤ x then
        (Nat.toDigits 10 m).take (x.toNat + 1)
          ++ (if strip_zeros ((Nat.toDigits 10 m).drop (x.toNat + 1)) = [] then []
              else dp :: strip_zeros ((Nat.toDigits 10 m).drop (x.toNat + 1)))
      else
        ['0', dp] ++ List.replicate ((-x).toNat - 1) '0' ++ strip_zeros (Nat.toDigits 10 m)))
      = some (if neg then -((m : ℚ) * pow10 (x - 5)) else (m : ℚ) * pow10 (x - 5)) := by
  have hds : all_digits (Nat.toDigits 10 m) := toDigits_is_digit m
  have hlen : (Nat.toDigits 10 m).length = 6 := toDigits_length_eq hm1 hm2
  have hval := digits_val_toDigits m
  generalize Nat.toDigits 10 m = ds at hds hlen hval ⊢
  by_cases hc : x < -4 ∨ 6 ≤ x
  · -- style e
    rw [if_pos hc]
    obtain ⟨e1, e2, e3⟩ := exponent_digits x.natAbs
    generalize (if (Nat.toDigits 10 x.natAbs).length < 2 then '0' :: Nat.toDigits 10 x.natAbs
      else Nat.toDigits 10 x.natAbs) = exd at e1 e2 e3 ⊢
    obtain ⟨k, hk1, hk2⟩ := split_value ds 1 (by omega)
    have hip : all_digits (ds.take 1) := all_digits_take hds 1
    have hne : ds.take 1 ≠ [] := by
      intro h
      have := congrArg List.length h
      rw [List.length_take, hlen, List.length_nil] at this
      omega
    have hfp : all_digits (strip_zeros (ds.drop 1)) :=
      all_digits_strip_zeros (all_digits_drop hds 1)
    have hexp : ∃ (sg : Bool) (d : List Char), all_digits d ∧ d ≠ [] ∧
        'e' :: (if x < 0 then '-' else '+') :: exd = 'e' :: (if sg then '-' else '+') :: d ∧
        x = (if sg then -(digits_val d : Int) else (digits_val d : Int)) := by
      by_cases hx : x < 0
      · refine ⟨true, exd, e1, e2, ?_, ?_⟩
        · rw [if_pos hx]; rfl
        · rw [e3]; simp only [if_true]; omega
      · refine ⟨false, exd, e1, e2, ?_, ?_⟩
        · rw [if_neg hx]; rfl
        · rw [e3]; simp only [Bool.false_eq_true, if_false]; omega
    have hvalue : (digits_val (ds.take 1 ++ strip_zeros (ds.drop 1)) : ℚ)
        * pow10 (x - ((strip_zeros (ds.drop 1)).length : Int)) = (m : ℚ) * pow10 (x - 5) := by
      rw [pow10_shift m _ k _ (hk2.trans hval)]
      have he : x - ((strip_zeros (ds.drop 1)).length : Int) - (k : Int) = x - 5 := by omega
      rw [he]
    by_cases hS : strip_zeros (ds.drop 1) = []
    · have key := scan_decimal_numeral hsep neg false hip hne hfp (fun _ => hS)
        ('e' :: (if x < 0 then '-' else '+') :: exd) x (Or.inr hexp)
      rw [hvalue] at key
      rw [if_pos hS]
      simp only [Bool.false_eq_true, if_false, List.nil_append] at key
      simp only [List.append_nil, List.append_assoc, List.cons_append, List.nil_append]
      exact key
    · have key := scan_decimal_numeral hsep neg true hip hne hfp (fun h => by cases h)
        ('e' :: (if x < 0 then '-' else '+') :: exd) x (Or.inr hexp)
      rw [hvalue] at key
      rw [if_neg hS]
      simp only [if_true, List.cons_append] at key
      simp only [List.append_assoc, List.cons_append, List.nil_append]
      exact key
  · rw [if_neg hc]
    by_cases h0 : 0 ≤ x
    · -- style f, a number of at least 1
      rw [if_pos h0]
      obtain ⟨j, hj⟩ := Int.eq_ofNat_of_zero_le h0
      have hj5 : j ≤ 5 := by omega
      have htn : x.toNat = j := by rw [hj]; rfl
      rw [htn]
      obtain ⟨k, hk1, hk2⟩ := split_value ds (j + 1) (by omega)
      have hip : all_digits (ds.take (j + 1)) := all_digits_take hds _
      have hne : ds.take (j + 1) ≠ [] := by
        intro h
        have := congrArg List.length h
        rw [List.length_take, hlen, List.length_nil] at this
        omega
      have hfp : all_digits (strip_zeros (ds.drop (j + 1))) :=
        all_digits_strip_zeros (all_digits_drop hds _)
      have hvalue : (digits_val (ds.take (j + 1) ++ strip_zeros (ds.drop (j + 1))) : ℚ)
          * pow10 (0 - ((strip_zeros (ds.drop (j + 1))).length : Int))
          = (m : ℚ) * pow10 (x - 5) := by
        rw [pow10_shift m _ k _ (hk2.trans hval)]
        have he : (0 : Int) - ((strip_zeros (ds.drop (j + 1))).length : Int) - (k : Int)
            = x - 5 := by omega
        rw [he]
      by_cases hS : strip_zeros (ds.drop (j + 1)) = []
      · have key := scan_decimal_numeral hsep neg false hip hne hfp (fun _ => hS) [] 0
          (Or.inl ⟨rfl, rfl⟩)
        rw [hvalue] at key
        rw [if_pos hS]
        simp only [Bool.false_eq_true, if_false, List.nil_append, List.append_nil] at key
        simp only [List.append_nil]
        exact key
      · have key := scan_decimal_numeral hsep neg true hip hne hfp (fun h => by cases h) [] 0
          (Or.inl ⟨rfl, rfl⟩)
        rw [hvalue] at key
        rw [if_neg hS]
        simp only [if_true, List.append_nil] at key
        exact key
    · -- style f, a number below 1
      rw [if_neg h0]
      obtain ⟨k, hk, hl⟩ := strip_zeros_spec ds
      have hS : all_digits (strip_zeros ds) := all_digits_strip_zeros hds
      have hfp : all_digits (List.replicate ((-x).toNat - 1) '0' ++ strip_zeros ds) :=
        all_digits_append (all_digits_replicate_zero _) hS
      have hmk : digits_val (strip_zeros ds) * 10 ^ k = m := by
        rw [← hval]
        conv_rhs => rw [hk]
        rw [digits_val_append_list _ (List.replicate k '0'), digits_val_replicate_zero,
          List.length_replicate, Nat.add_zero]
      have hdv : digits_val (['0'] ++ (List.replicate ((-x).toNat - 1) '0' ++ strip_zeros ds))
          = digits_val (strip_zeros ds) := by
        rw [← List.append_assoc, digits_val_append_list]
        have hz : digits_val (['0'] ++ List.replicate ((-x).toNat - 1) '0') = 0 := by
          have h00 : digits_val ['0'] = 0 := by decide
          rw [digits_val_append_list, digits_val_replicate_zero, h00]
          omega
        rw [hz]
        omega
      have key := scan_decimal_numeral hsep neg true (all_digits_singleton (by decide : is_digit '0' = true))
        (by simp) hfp (fun h => by cases h) [] 0 (Or.inl ⟨rfl, rfl⟩)
      rw [hdv, pow10_shift m _ k _ hmk] at key
      have hexpo : (0 : Int)
          - ((List.replicate ((-x).toNat - 1) '0' ++ strip_zeros ds).length : Int) - (k : Int)
          = x - 5 := by
        rw [List.length_append, List.length_replicate]
        push_cast
        omega
      rw [hexpo] at key
      simp only [if_true, List.append_nil, List.singleton_append, List.cons_append] at key
      simp only [List.cons_append, List.nil_append, List.append_assoc]
      exact key

/-- The mantissa that `%g` prints has six digits. -/
theorem mantissa_bounds {a : ℚ} (ha : 0 < a) :
    10 ^ 5 ≤ round_half_even (a / pow10 (ilog10 a - 5)) ∧
    round_half_even (a / pow10 (ilog10 a - 5)) ≤ 10 ^ 6 := by
  obtain ⟨s1, s2⟩ := ilog10_spec ha
  have hp := pow10_pos (ilog10 a - 5)
  have e1 : pow10 (ilog10 a) = (10 : ℚ) ^ 5 * pow10 (ilog10 a - 5) := by
    rw [← pow10_natCast 5, ← pow10_add]
    congr 1
    push_cast
    ring
  have e2 : pow10 (ilog10 a + 1) = (10 : ℚ) ^ 6 * pow10 (ilog10 a - 5) := by
    rw [← pow10_natCast 6, ← pow10_add]
    congr 1
    push_cast
    ring
  have b1 : ((10 ^ 5 : Nat) : ℚ) ≤ a / pow10 (ilog10 a - 5) := by
    rw [le_div_iff₀ hp]
    have : ((10 ^ 5 : Nat) : ℚ) = (10 : ℚ) ^ 5 := by norm_num
    rw [this, ← e1]
    exact s1
  have b2 : a / pow10 (ilog10 a - 5) < ((10 ^ 6 : Nat) : ℚ) := by
    rw [div_lt_iff₀ hp]
    have : ((10 ^ 6 : Nat) : ℚ) = (10 : ℚ) ^ 6 := by norm_num
    rw [this, ← e2]
    exact s2
  exact round_half_even_bounds (div_nonneg ha.le hp.le) b1 b2

/-- The text that `%g` writes for a number is read by `sscanf` as the number rounded to six
significant digits. -/
theorem scan_fmt_g {dp : Char} (hsep : valid_sep dp) (q : ℚ) :
    scan_decimal dp (fmt_g dp q) = some (round_sig6 q) := by
  unfold fmt_g round_sig6
  by_cases h0 : q = 0
  · rw [if_pos h0, if_pos h0]
    exact scan_decimal_zero dp
  · rw [if_neg h0, if_neg h0]
    have ha : 0 < |q| := abs_pos.2 h0
    obtain ⟨r1, r2⟩ := mantissa_bounds ha
    simp only
    generalize round_half_even (|q| / pow10 (ilog10 |q| - 5)) = m0 at r1 r2 ⊢
    have hbody := scan_fmt_body hsep (decide (q < 0)) (if 10 ^ 6 ≤ m0 then m0 / 10 else m0)
      (if 10 ^ 6 ≤ m0 then ilog10 |q| + 1 else ilog10 |q|)
      (by split_ifs <;> omega) (by split_ifs <;> omega)
    have hsign : sign_text (decide (q < 0)) = (if q < 0 then ['-'] else []) := by
      unfold sign_text
      by_cases hq : q < 0
      · simp [hq]
      · simp [hq]
    have hvalue : (((if 10 ^ 6 ≤ m0 then m0 / 10 else m0 : Nat)) : ℚ)
        * pow10 ((if 10 ^ 6 ≤ m0 then ilog10 |q| + 1 else ilog10 |q|) - 5)
        = (m0 : ℚ) * pow10 (ilog10 |q| - 5) := by
      by_cases hm : 10 ^ 6 ≤ m0
      · rw [if_pos hm, if_pos hm]
        have hm6 : m0 = 10 ^ 6 := le_antisymm r2 hm
        rw [hm6]
        have e : ilog10 |q| + 1 - 5 = (ilog10 |q| - 5) + ((1 : Nat) : Int) := by
          push_cast; ring
        rw [e, pow10_add, pow10_natCast]
        norm_num
        ring
      · rw [if_neg hm, if_neg hm]
    rw [hsign, hvalue] at hbody
    rw [hbody]
    by_cases hq : q < 0
    · simp [hq]
    · simp [hq]

/-- A number with at most six significant digits is not changed by the rounding to six
significant digits. -/
theorem round_sig6_exact (q : ℚ) (k : Nat) (j : Int) (hk : 0 < k) (hk6 : k < 10 ^ 6)
    (hq : |q| = (k : ℚ) * pow10 j) : round_sig6 q = q := by
  have hkq : (0 : ℚ) < (k : ℚ) := by exact_mod_cast hk
  have ha : 0 < |q| := by rw [hq]; exact mul_pos hkq (pow10_pos j)
  have h0 : q ≠ 0 := abs_pos.1 ha
  -- the same number with a mantissa of six digits
  obtain ⟨l1, l2⟩ := toDigits_length_bounds k hk
  have hp := toDigits_length_pos k
  have hl6 : (Nat.toDigits 10 k).length ≤ 6 := by
    by_contra hc
    have h7 : 10 ^ 6 ≤ 10 ^ ((Nat.toDigits 10 k).length - 1) :=
      Nat.pow_le_pow_right (by decide) (by omega)
    omega
  obtain ⟨d, hd⟩ : ∃ d, d + (Nat.toDigits 10 k).length = 6 :=
    ⟨6 - (Nat.toDigits 10 k).length, by omega⟩
  have hm1 : 10 ^ 5 ≤ k * 10 ^ d := by
    have e : 10 ^ 5 = 10 ^ ((Nat.toDigits 10 k).length - 1) * 10 ^ d := by
      rw [← pow_add]
      congr 1
      omega
    rw [e]
    exact Nat.mul_le_mul_right _ l1
  have hm2 : k * 10 ^ d < 10 ^ 6 := by
    have e : 10 ^ 6 = 10 ^ (Nat.toDigits 10 k).length * 10 ^ d := by
      rw [← pow_add]
      congr 1
      omega
    rw [e]
    exact Nat.mul_lt_mul_of_pos_right l2 (by positivity)
  have hq2 : |q| = ((k * 10 ^ d : Nat) : ℚ) * pow10 (j - d) := by
    rw [hq, ← pow10_shift (k * 10 ^ d) k d j rfl]
  generalize k * 10 ^ d = m at hm1 hm2 hq2
  generalize j - (d : Int) = i at hq2
  clear hd l1 l2 hl6 hp hq hk6 hkq hk
  have hpi := pow10_pos i
  have hm1q : ((10 : ℚ) ^ 5) ≤ (m : ℚ) := by exact_mod_cast hm1
  have hm2q : (m : ℚ) < ((10 : ℚ) ^ 6) := by exact_mod_cast hm2
  -- the decimal exponent
  have hx : ilog10 |q| = i + 5 := by
    obtain ⟨s1, s2⟩ := ilog10_spec ha
    refine pow10_unique s1 s2 ?_ ?_
    · rw [hq2, show i + 5 = ((5 : Nat) : Int) + i by push_cast; ring, pow10_add, pow10_natCast]
      exact mul_le_mul_of_nonneg_right hm1q hpi.le
    · rw [hq2, show i + 5 + 1 = ((6 : Nat) : Int) + i by push_cast; ring, pow10_add,
        pow10_natCast]
      exact mul_lt_mul_of_pos_right hm2q hpi
  unfold round_sig6
  rw [if_neg h0]
  simp only
  rw [hx, show i + 5 - 5 = i by ring]
  have hdiv : |q| / pow10 i = (m : ℚ) := by
    rw [hq2]
    field_simp
  rw [hdiv, round_half_even_natCast, ← hq2]
  by_cases hneg : q < 0
  · rw [if_pos hneg, abs_of_neg hneg, neg_neg]
  · rw [if_neg hneg, abs_of_nonneg (not_lt.1 hneg)]

theorem round_sig6_of_digits (q : ℚ) (k : Nat) (j : Int) (hk6 : k < 10 ^ 6)
    (hq : |q| = (k : ℚ) * pow10 j) : round_sig6 q = q := by
  by_cases hk : 0 < k
  · exact round_sig6_exact q k j hk hk6 hq
  · have hk0 : k = 0 := by omega
    rw [hk0, Nat.cast_zero, zero_mul] at hq
    have hq0 : q = 0 := abs_eq_zero.1 hq
    rw [hq0]
    unfold round_sig6
    rw [if_pos rfl]

/-! ### Rounding to a binary format -/

theorem pow2_eq_zpow (e : Int) : pow2 e = (2 : ℚ) ^ e := by
  unfold pow2
  by_cases h : 0 ≤ e
  · rw [if_pos h]
    obtain ⟨n, rfl⟩ := Int.eq_ofNat_of_zero_le h
    simp
  · rw [if_neg h]
    obtain ⟨n, hn⟩ := Int.eq_ofNat_of_zero_le (show 0 ≤ -e by omega)
    have he : e = -(n : Int) := by omega
    rw [hn, he]
    simp

theorem pow2_pos (e : Int) : 0 < pow2 e := by
  rw [pow2_eq_zpow]
  positivity

theorem pow2_le {a b : Int} (h : a ≤ b) : pow2 a ≤ pow2 b := by
  rw [pow2_eq_zpow, pow2_eq_zpow]
  exact zpow_le_zpow_right₀ (by norm_num) h

theorem pow2_neg_natCast (n : Nat) : pow2 (-(n : Int)) = 1 / (2 : ℚ) ^ n := by
  rw [pow2_eq_zpow, zpow_neg, zpow_natCast, one_div]

theorem ilog2_chunk (c n e : Nat) (h1 : 2 ^ e ≤ n / 2 ^ c) (h2 : n / 2 ^ c < 2 ^ (e + 1)) :
    2 ^ (c + e) ≤ n ∧ n < 2 ^ (c + e + 1) := by
  have hc : 0 < 2 ^ c := by positivity
  constructor
  · calc 2 ^ (c + e) = 2 ^ e * 2 ^ c := by rw [pow_add, Nat.mul_comm]
      _ ≤ n / 2 ^ c * 2 ^ c := Nat.mul_le_mul_right _ h1
      _ ≤ n := Nat.div_mul_le_self _ _
  · calc n < 2 ^ c * (n / 2 ^ c + 1) := Nat.lt_mul_div_succ _ hc
      _ ≤ 2 ^ c * 2 ^ (e + 1) := Nat.mul_le_mul_left _ h2
      _ = 2 ^ (c + e + 1) := by rw [← pow_add, Nat.add_assoc]

theorem ilog2_loop_spec : ∀ (f n acc : Nat), n ≤ f → 0 < n →
    ∃ e, ilog2_loop f n acc = acc + e ∧ 2 ^ e ≤ n ∧ n < 2 ^ (e + 1) := by
  intro f
  induction f with
  | zero => intro n acc h1 h2; omega
  | succ f ih =>
    intro n acc hn h0
    have step : ∀ c : Nat, 0 < c → 2 ^ c ≤ n →
        ∃ e, ilog2_loop f (n / 2 ^ c) (acc + c) = acc + e ∧ 2 ^ e ≤ n ∧ n < 2 ^ (e + 1) := by
      intro c hc hle
      have h2c : 2 ≤ 2 ^ c := by
        calc 2 = 2 ^ 1 := by norm_num
          _ ≤ 2 ^ c := Nat.pow_le_pow_right (by decide) hc
      have hlt : n / 2 ^ c < n := Nat.div_lt_self h0 h2c
      have hpos : 0 < n / 2 ^ c := Nat.div_pos hle (by positivity)
      obtain ⟨e, he, b1, b2⟩ := ih (n / 2 ^ c) (acc + c) (by omega) hpos
      obtain ⟨k1, k2⟩ := ilog2_chunk c n e b1 b2
      exact ⟨c + e, by rw [he, Nat.add_assoc], k1, k2⟩
    rw [ilog2_loop]
    split_ifs with h64 h16 h4 h2
    · exact step 64 (by decide) h64
    · exact step 16 (by decide) h16
    · exact step 4 (by decide) h4
    · have := step 1 (by decide) (by simpa using h2)
      simpa using this
    · exact ⟨0, rfl, by simpa using h0, by simpa using not_le.1 h2⟩

theorem ilog2_nat_bounds {n : Nat} (hn : 0 < n) :
    2 ^ ilog2_nat n ≤ n ∧ n < 2 ^ (ilog2_nat n + 1) := by
  unfold ilog2_nat
  obtain ⟨e, he, h1, h2⟩ := ilog2_loop_spec n n 0 (le_refl _) hn
  rw [he, Nat.zero_add]
  exact ⟨h1, h2⟩

/-- The function `ilog2` gives the binary exponent of a positive rational. -/
theorem ilog2_spec {a : ℚ} (ha : 0 < a) :
    pow2 (ilog2 a) ≤ a ∧ a < pow2 (ilog2 a + 1) := by
  have hnum : 0 < a.num := Rat.num_pos.2 ha
  have hN : 0 < a.num.natAbs := Int.natAbs_pos.2 hnum.ne'
  have hD : 0 < a.den := a.den_pos
  obtain ⟨n1, n2⟩ := ilog2_nat_bounds hN
  obtain ⟨d1, d2⟩ := ilog2_nat_bounds hD
  have hcast : ((a.num.natAbs : Nat) : ℚ) = (a.num : ℚ) := by
    rw [← Int.cast_natCast, Int.natAbs_of_nonneg hnum.le]
  have ha_eq : a = ((a.num.natAbs : Nat) : ℚ) / ((a.den : Nat) : ℚ) := by
    rw [hcast]; exact (Rat.num_div_den a).symm
  have hDq : (0 : ℚ) < ((a.den : Nat) : ℚ) := by exact_mod_cast hD
  have n1q : (2 : ℚ) ^ ilog2_nat a.num.natAbs ≤ ((a.num.natAbs : Nat) : ℚ) := by
    exact_mod_cast n1
  have n2q : ((a.num.natAbs : Nat) : ℚ) < (2 : ℚ) ^ (ilog2_nat a.num.natAbs + 1) := by
    exact_mod_cast n2
  have d1q : (2 : ℚ) ^ ilog2_nat a.den ≤ ((a.den : Nat) : ℚ) := by exact_mod_cast d1
  have d2q : ((a.den : Nat) : ℚ) < (2 : ℚ) ^ (ilog2_nat a.den + 1) := by exact_mod_cast d2
  have hp1 : (0 : ℚ) < (2 : ℚ) ^ ilog2_nat a.den := by positivity
  have hp2 : (0 : ℚ) < (2 : ℚ) ^ (ilog2_nat a.den + 1) := by positivity
  have hup : a < pow2 ((ilog2_nat a.num.natAbs : Int) - (ilog2_nat a.den : Int) + 1) := by
    have e : pow2 ((ilog2_nat a.num.natAbs : Int) - (ilog2_nat a.den : Int) + 1)
        = (2 : ℚ) ^ (ilog2_nat a.num.natAbs + 1) / (2 : ℚ) ^ ilog2_nat a.den := by
      rw [pow2_eq_zpow, ← zpow_natCast, ← zpow_natCast, ← zpow_sub₀ (by norm_num)]
      congr 1
      push_cast
      ring
    rw [e]
    conv_lhs => rw [ha_eq]
    rw [div_lt_div_iff₀ hDq hp1]
    calc ((a.num.natAbs : Nat) : ℚ) * (2 : ℚ) ^ ilog2_nat a.den
        ≤ ((a.num.natAbs : Nat) : ℚ) * ((a.den : Nat) : ℚ) :=
          mul_le_mul_of_nonneg_left d1q (by positivity)
      _ < (2 : ℚ) ^ (ilog2_nat a.num.natAbs + 1) * ((a.den : Nat) : ℚ) :=
          mul_lt_mul_of_pos_right n2q hDq
  have hlo : pow2 ((ilog2_nat a.num.natAbs : Int) - (ilog2_nat a.den : Int) - 1) ≤ a := by
    have e : pow2 ((ilog2_nat a.num.natAbs : Int) - (ilog2_nat a.den : Int) - 1)
        = (2 : ℚ) ^ ilog2_nat a.num.natAbs / (2 : ℚ) ^ (ilog2_nat a.den + 1) := by
      rw [pow2_eq_zpow, ← zpow_natCast, ← zpow_natCast, ← zpow_sub₀ (by norm_num)]
      congr 1
      push_cast
      ring
    rw [e]
    conv_rhs => rw [ha_eq]
    rw [div_le_div_iff₀ hp2 hDq]
    calc (2 : ℚ) ^ ilog2_nat a.num.natAbs * ((a.den : Nat) : ℚ)
        ≤ ((a.num.natAbs : Nat) : ℚ) * ((a.den : Nat) : ℚ) :=
          mul_le_mul_of_nonneg_right n1q hDq.le
      _ ≤ ((a.num.natAbs : Nat) : ℚ) * (2 : ℚ) ^ (ilog2_nat a.den + 1) :=
          mul_le_mul_of_nonneg_left d2q.le (by positivity)
  unfold ilog2
  simp only
  split_ifs with hc
  · exact ⟨hc, hup⟩
  · refine ⟨hlo, ?_⟩
    rw [sub_add_cancel]
    exact not_le.1 hc

/-- Rounding to the nearest natural number moves a value by at most a half. -/
theorem round_half_even_err {a : ℚ} (ha : 0 ≤ a) : |(round_half_even a : ℚ) - a| ≤ 1 / 2 := by
  obtain ⟨f1, f2⟩ := floor_bounds ha
  unfold round_half_even
  simp only
  rw [abs_le]
  split_ifs with h1 h2 h3
  · constructor <;> linarith
  · push_cast
    constructor <;> linarith
  · have := not_lt.1 h1
    constructor <;> linarith
  · have := not_lt.1 h2
    push_cast
    constructor <;> linarith

/-- A value at less than a half from a natural number is rounded to that number. -/
theorem round_half_even_near {a : ℚ} (ha : 0 ≤ a) {n : Nat} (h : |a - (n : ℚ)| < 1 / 2) :
    round_half_even a = n := by
  obtain ⟨f1, f2⟩ := floor_bounds ha
  rw [abs_lt] at h
  obtain ⟨h1, h2⟩ := h
  unfold round_half_even
  simp only
  by_cases hn : (n : ℚ) ≤ a
  · have hf : a.num.natAbs / a.den = n := by
      have e1 : ((a.num.natAbs / a.den : Nat) : ℚ) < ((n + 1 : Nat) : ℚ) := by
        push_cast; linarith
      have e2 : (n : ℚ) < ((a.num.natAbs / a.den + 1 : Nat) : ℚ) := by
        push_cast; linarith
      have e1' : a.num.natAbs / a.den < n + 1 := by exact_mod_cast e1
      have e2' : n < a.num.natAbs / a.den + 1 := by exact_mod_cast e2
      omega
    rw [hf, if_pos (by linarith)]
  · have hn' : a < n := not_le.1 hn
    have hf : a.num.natAbs / a.den + 1 = n := by
      have e1 : ((a.num.natAbs / a.den : Nat) : ℚ) < (n : ℚ) := by linarith
      have e2 : (n : ℚ) < ((a.num.natAbs / a.den + 2 : Nat) : ℚ) := by
        push_cast; linarith
      have e1' : a.num.natAbs / a.den < n := by exact_mod_cast e1
      have e2' : n < a.num.natAbs / a.den + 2 := by exact_mod_cast e2
      omega
    have hfq : ((a.num.natAbs / a.den : Nat) : ℚ) = (n : ℚ) - 1 := by
      rw [← hf]; push_cast; ring
    rw [if_neg (by rw [hfq]; linarith), if_pos (by rw [hfq]; linarith)]
    exact hf

/-- The relative error of the rounding to a binary format with `p` digits, for a value that
is not below the least normal number. -/
theorem round_bin_err (p : Nat) (emin : Int) {q : ℚ} (hq : pow2 emin ≤ |q|) :
    |round_bin p emin q - q| ≤ |q| * pow2 (-(p : Int)) := by
  have ha : 0 < |q| := lt_of_lt_of_le (pow2_pos emin) hq
  have h0 : q ≠ 0 := abs_pos.1 ha
  obtain ⟨s1, s2⟩ := ilog2_spec ha
  have he : max (ilog2 |q|) emin = ilog2 |q| := by
    apply max_eq_left
    have : pow2 emin < pow2 (ilog2 |q| + 1) := lt_of_le_of_lt hq s2
    rw [pow2_eq_zpow, pow2_eq_zpow, zpow_lt_zpow_iff_right₀ (by norm_num)] at this
    omega
  have hup : 0 < pow2 (ilog2 |q| - ((p : Int) - 1)) := pow2_pos _
  have herr := round_half_even_err (div_nonneg ha.le hup.le)
  have key : abs ((round_half_even (|q| / pow2 (ilog2 |q| - ((p : Int) - 1))) : ℚ)
      * pow2 (ilog2 |q| - ((p : Int) - 1)) - |q|) ≤ pow2 (ilog2 |q| - ((p : Int) - 1)) / 2 := by
    have e : (round_half_even (|q| / pow2 (ilog2 |q| - ((p : Int) - 1))) : ℚ)
        * pow2 (ilog2 |q| - ((p : Int) - 1)) - |q|
        = ((round_half_even (|q| / pow2 (ilog2 |q| - ((p : Int) - 1))) : ℚ)
            - |q| / pow2 (ilog2 |q| - ((p : Int) - 1))) * pow2 (ilog2 |q| - ((p : Int) - 1)) := by
      field_simp
    rw [e, abs_mul, abs_of_pos hup]
    calc _ ≤ 1 / 2 * pow2 (ilog2 |q| - ((p : Int) - 1)) :=
          mul_le_mul_of_nonneg_right herr hup.le
      _ = pow2 (ilog2 |q| - ((p : Int) - 1)) / 2 := by ring
  have hu2 : pow2 (ilog2 |q| - ((p : Int) - 1)) / 2 ≤ |q| * pow2 (-(p : Int)) := by
    have e : pow2 (ilog2 |q| - ((p : Int) - 1)) / 2 = pow2 (ilog2 |q|) * pow2 (-(p : Int)) := by
      rw [pow2_eq_zpow, pow2_eq_zpow, pow2_eq_zpow, ← zpow_add₀ (by norm_num),
        show ilog2 |q| - ((p : Int) - 1) = (ilog2 |q| + -(p : Int)) + 1 by ring,
        zpow_add_one₀ (by norm_num)]
      ring
    rw [e]
    exact mul_le_mul_of_nonneg_right s1 (pow2_pos _).le
  unfold round_bin
  rw [if_neg h0]
  simp only
  rw [he]
  by_cases hneg : q < 0
  · rw [if_pos hneg]
    have e : -((round_half_even (|q| / pow2 (ilog2 |q| - ((p : Int) - 1))) : ℚ)
        * pow2 (ilog2 |q| - ((p : Int) - 1))) - q
        = -((round_half_even (|q| / pow2 (ilog2 |q| - ((p : Int) - 1))) : ℚ)
        * pow2 (ilog2 |q| - ((p : Int) - 1)) - |q|) := by
      rw [abs_of_neg hneg]; ring
    rw [e, abs_neg]
    exact le_trans key hu2
  · rw [if_neg hneg]
    have e : ((round_half_even (|q| / pow2 (ilog2 |q| - ((p : Int) - 1))) : ℚ)
        * pow2 (ilog2 |q| - ((p : Int) - 1))) - q
        = ((round_half_even (|q| / pow2 (ilog2 |q| - ((p : Int) - 1))) : ℚ)
        * pow2 (ilog2 |q| - ((p : Int) - 1)) - |q|) := by
      rw [abs_of_nonneg (not_lt.1 hneg)]
    rw [e]
    exact le_trans key hu2

/-- The `double` of the `long double` of a number that is not too small is near to the
number: the relative error is at most `2 ^ -52`. -/
theorem round_double_ld_near {d : ℚ} (hd : pow2 (-1021) ≤ |d|) :
    |round_double (round_ld d) - d| ≤ |d| * pow2 (-52) := by
  have ha : 0 < |d| := lt_of_lt_of_le (pow2_pos _) hd
  have h1 : |round_ld d - d| ≤ |d| * pow2 (-((64 : Nat) : Int)) :=
    round_bin_err 64 (-16382) (le_trans (pow2_le (by norm_num)) hd)
  rw [pow2_neg_natCast] at h1
  have hv : |d| - |d| * (1 / 2 ^ 64) ≤ |round_ld d| := by
    have := abs_sub_abs_le_abs_sub d (round_ld d)
    rw [abs_sub_comm] at this
    linarith
  have hv2 : |round_ld d| ≤ |d| + |d| * (1 / 2 ^ 64) := by
    have := abs_sub_abs_le_abs_sub (round_ld d) d
    linarith
  have h1021 : pow2 (-1021) = 2 * pow2 (-1022) := by
    rw [pow2_eq_zpow, pow2_eq_zpow, show (-1021 : Int) = -1022 + 1 by norm_num,
      zpow_add_one₀ (by norm_num)]
    ring
  have hvn : pow2 (-1022) ≤ |round_ld d| := by
    have hp := pow2_pos (-1022)
    have : |d| * (1 / 2 ^ 64) ≤ |d| * (1 / 2) := by
      apply mul_le_mul_of_nonneg_left _ ha.le
      norm_num
    rw [h1021] at hd
    linarith
  have h2 : |round_double (round_ld d) - round_ld d|
      ≤ |round_ld d| * pow2 (-((53 : Nat) : Int)) := round_bin_err 53 (-1022) hvn
  rw [pow2_neg_natCast] at h2
  have h52 : pow2 (-52) = 1 / 2 ^ 52 := pow2_neg_natCast 52
  rw [h52]
  have h3 : |round_double (round_ld d) - d|
      ≤ |round_double (round_ld d) - round_ld d| + |round_ld d - d| := by
    have := abs_add (round_double (round_ld d) - round_ld d) (round_ld d - d)
    rw [show round_double (round_ld d) - round_ld d + (round_ld d - d)
      = round_double (round_ld d) - d by ring] at this
    exact this
  have h4 : |round_ld d| * (1 / 2 ^ 53) ≤ (|d| + |d| * (1 / 2 ^ 64)) * (1 / 2 ^ 53) :=
    mul_le_mul_of_nonneg_right hv2 (by positivity)
  have h5 : (|d| + |d| * (1 / 2 ^ 64)) * (1 / 2 ^ 53) + |d| * (1 / 2 ^ 64)
      ≤ |d| * (1 / 2 ^ 52) := by
    have : (|d| + |d| * (1 / 2 ^ 64)) * (1 / 2 ^ 53) + |d| * (1 / 2 ^ 64)
        = |d| * ((1 + 1 / 2 ^ 64) * (1 / 2 ^ 53) + 1 / 2 ^ 64) := by ring
    rw [this]
    apply mul_le_mul_of_nonneg_left _ ha.le
    norm_num
  linarith

/-- A number with at most six significant digits, written with a mantissa of six digits. -/
theorem six_digit_form (k : Nat) (j : Int) (hk : 0 < k) (hk6 : k < 10 ^ 6) :
    ∃ (m : Nat) (i : Int), 10 ^ 5 ≤ m ∧ m < 10 ^ 6 ∧ (k : ℚ) * pow10 j = (m : ℚ) * pow10 i := by
  obtain ⟨l1, l2⟩ := toDigits_length_bounds k hk
  have hp := toDigits_length_pos k
  have hl6 : (Nat.toDigits 10 k).length ≤ 6 := by
    by_contra hc
    have h7 : 10 ^ 6 ≤ 10 ^ ((Nat.toDigits 10 k).length - 1) :=
      Nat.pow_le_pow_right (by decide) (by omega)
    omega
  obtain ⟨d, hd⟩ : ∃ d, d + (Nat.toDigits 10 k).length = 6 :=
    ⟨6 - (Nat.toDigits 10 k).length, by omega⟩
  have hm1 : 10 ^ 5 ≤ k * 10 ^ d := by
    have e : 10 ^ 5 = 10 ^ ((Nat.toDigits 10 k).length - 1) * 10 ^ d := by
      rw [← pow_add]
      congr 1
      omega
    rw [e]
    exact Nat.mul_le_mul_right _ l1
  have hm2 : k * 10 ^ d < 10 ^ 6 := by
    have e : 10 ^ 6 = 10 ^ (Nat.toDigits 10 k).length * 10 ^ d := by
      rw [← pow_add]
      congr 1
      omega
    rw [e]
    exact Nat.mul_lt_mul_of_pos_right l2 (by positivity)
  exact ⟨k * 10 ^ d, j - d, hm1, hm2, pow10_shift (k * 10 ^ d) k d j rfl⟩

/-- The six-digit mantissa of a value near to a number with six digits: the rounding gives
the number back. -/
theorem round_mantissa_near (a : ℚ) (m : Nat) (i : Int) (hm1 : 10 ^ 5 ≤ m) (hm2 : m < 10 ^ 6)
    (ha : |a - (m : ℚ) * pow10 i| < pow10 i / 20) :
    (round_half_even (a / pow10 (ilog10 a - 5)) : ℚ) * pow10 (ilog10 a - 5)
      = (m : ℚ) * pow10 i := by
  have hpi := pow10_pos i
  have hm1q : ((10 : ℚ) ^ 5) ≤ (m : ℚ) := by exact_mod_cast hm1
  have hm2q : (m : ℚ) ≤ ((10 : ℚ) ^ 6) - 1 := by
    have : m + 1 ≤ 10 ^ 6 := hm2
    have : ((m + 1 : Nat) : ℚ) ≤ ((10 ^ 6 : Nat) : ℚ) := by exact_mod_cast this
    push_cast at this
    linarith
  rw [abs_lt] at ha
  obtain ⟨a1, a2⟩ := ha
  -- the value in units of the last digit
  have hb : a = (a / pow10 i) * pow10 i := by field_simp
  have b1 : (m : ℚ) - 1 / 20 < a / pow10 i := by
    rw [lt_div_iff₀ hpi]
    linarith
  have b2 : a / pow10 i < (m : ℚ) + 1 / 20 := by
    rw [div_lt_iff₀ hpi]
    linarith
  have hapos : 0 < a := by
    rw [hb]
    exact mul_pos (by linarith) hpi
  obtain ⟨s1, s2⟩ := ilog10_spec hapos
  have e5 : pow10 (i + 5) = (10 : ℚ) ^ 5 * pow10 i := by
    rw [show i + 5 = ((5 : Nat) : Int) + i by push_cast; ring, pow10_add, pow10_natCast]
  have e6 : pow10 (i + 5 + 1) = (10 : ℚ) ^ 6 * pow10 i := by
    rw [show i + 5 + 1 = ((6 : Nat) : Int) + i by push_cast; ring, pow10_add, pow10_natCast]
  have e4 : pow10 (i + 4) = (10 : ℚ) ^ 4 * pow10 i := by
    rw [show i + 4 = ((4 : Nat) : Int) + i by push_cast; ring, pow10_add, pow10_natCast]
  have e1 : pow10 i = 10 * pow10 (i - 1) := by
    rw [show i = ((1 : Nat) : Int) + (i - 1) by push_cast; ring, pow10_add, pow10_natCast]
    simp
  by_cases hc : (10 : ℚ) ^ 5 ≤ a / pow10 i
  · have hx : ilog10 a = i + 5 := by
      refine pow10_unique s1 s2 ?_ ?_
      · rw [e5, hb]
        exact mul_le_mul_of_nonneg_right hc hpi.le
      · rw [e6]
        conv_lhs => rw [hb]
        exact mul_lt_mul_of_pos_right (by linarith) hpi
    rw [hx, show i + 5 - 5 = i by ring]
    rw [round_half_even_near (div_nonneg hapos.le hpi.le) (n := m)
      (by rw [abs_lt]; constructor <;> linarith)]
  · have hc' : a / pow10 i < (10 : ℚ) ^ 5 := not_le.1 hc
    have hm : m = 10 ^ 5 := by
      have : (m : ℚ) < ((10 ^ 5 + 1 : Nat) : ℚ) := by push_cast; linarith
      have : m < 10 ^ 5 + 1 := by exact_mod_cast this
      omega
    have hmq : (m : ℚ) = (10 : ℚ) ^ 5 := by rw [hm]; norm_num
    have hx : ilog10 a = i + 4 := by
      refine pow10_unique s1 s2 ?_ ?_
      · rw [e4, hb]
        exact mul_le_mul_of_nonneg_right (by rw [hmq] at b1; linarith) hpi.le
      · rw [show i + 4 + 1 = i + 5 by ring, e5]
        conv_lhs => rw [hb]
        exact mul_lt_mul_of_pos_right hc' hpi
    rw [hx, show i + 4 - 5 = i - 1 by ring]
    have hp1 := pow10_pos (i - 1)
    have hdiv : a / pow10 (i - 1) = 10 * (a / pow10 i) := by
      rw [e1]
      field_simp
      ring
    rw [round_half_even_near (div_nonneg hapos.le hp1.le) (n := 10 ^ 6)
      (by rw [hdiv, abs_lt]; rw [hmq] at b1; push_cast; constructor <;> linarith)]
    rw [hmq, e1]
    push_cast
    ring

/-- The rounding to six significant digits of a value near to a number with at most six
significant digits gives the number. -/
theorem round_sig6_near (w d : ℚ) (k : Nat) (j : Int) (hk : 0 < k) (hk6 : k < 10 ^ 6)
    (hd : |d| = (k : ℚ) * pow10 j) (hw : |w - d| ≤ |d| * pow2 (-52)) : round_sig6 w = d := by
  obtain ⟨m, i, hm1, hm2, hform⟩ := six_digit_form k j hk hk6
  rw [hform] at hd
  have hpi := pow10_pos i
  have hm1q : ((10 : ℚ) ^ 5) ≤ (m : ℚ) := by exact_mod_cast hm1
  have hm2q : (m : ℚ) < ((10 : ℚ) ^ 6) := by exact_mod_cast hm2
  have hdpos : 0 < |d| := by rw [hd]; exact mul_pos (by linarith) hpi
  have h52 : pow2 (-52) = 1 / 2 ^ 52 := pow2_neg_natCast 52
  -- the distance is below a twentieth of the unit of the last digit
  have heps : |d| * pow2 (-52) < pow10 i / 20 := by
    rw [hd, h52]
    have : (m : ℚ) * pow10 i * (1 / 2 ^ 52) = pow10 i * ((m : ℚ) * (1 / 2 ^ 52)) := by ring
    rw [this, show pow10 i / 20 = pow10 i * (1 / 20) by ring]
    apply mul_lt_mul_of_pos_left _ hpi
    have : (m : ℚ) * (1 / 2 ^ 52) < 10 ^ 6 * (1 / 2 ^ 52) :=
      mul_lt_mul_of_pos_right hm2q (by positivity)
    refine lt_trans this ?_
    norm_num
  have hlt : |w - d| < pow10 i / 20 := lt_of_le_of_lt hw heps
  have hsmall : pow10 i / 20 < |d| := by
    rw [hd]
    have : pow10 i / 20 = (1 / 20) * pow10 i := by ring
    rw [this]
    exact mul_lt_mul_of_pos_right (by linarith) hpi
  have habs : |(|w| - (m : ℚ) * pow10 i)| < pow10 i / 20 := by
    rw [← hd]
    exact lt_of_le_of_lt (abs_abs_sub_abs_le_abs_sub w d) hlt
  have hval := round_mantissa_near |w| m i hm1 hm2 habs
  rw [abs_lt] at hlt
  have hsign : w < 0 ↔ d < 0 := by
    constructor
    · intro h
      by_contra hc
      rw [abs_of_nonneg (not_lt.1 hc)] at hsmall
      linarith
    · intro h
      rw [abs_of_neg h] at hsmall
      linarith
  have hw0 : w ≠ 0 := by
    intro h
    rw [h] at hlt
    by_cases hneg : d < 0
    · rw [abs_of_neg hneg] at hsmall; linarith
    · rw [abs_of_nonneg (not_lt.1 hneg)] at hsmall; linarith
  unfold round_sig6
  rw [if_neg hw0]
  simp only
  rw [hval, ← hd]
  by_cases hneg : d < 0
  · rw [if_pos (hsign.2 hneg), abs_of_neg hneg, neg_neg]
  · rw [if_neg (fun h => hneg (hsign.1 h)), abs_of_nonneg (not_lt.1 hneg)]

/-- The `double` of the `long double` of a number of magnitude between `1e-300` and `1e300`
is not beyond the largest `double`. -/
theorem round_double_ld_le {d : ℚ} (hmin : pow10 (-300) ≤ |d|) (hmax : |d| ≤ pow10 300) :
    |round_double (round_ld d)| ≤ DBL_MAX := by
  have hp : pow2 (-1021) ≤ pow10 (-300) := by
    rw [show (-1021 : Int) = -((1021 : Nat) : Int) by norm_num, pow2_neg_natCast,
      pow10_eq_zpow, show (-300 : Int) = -((300 : Nat) : Int) by norm_num, zpow_neg,
      zpow_natCast, one_div]
    rw [inv_le_inv₀ (by positivity) (by positivity)]
    norm_num
  have hnear := round_double_ld_near (le_trans hp hmin)
  have h52 : pow2 (-52) = 1 / 2 ^ 52 := pow2_neg_natCast 52
  rw [h52] at hnear
  have hd0 : 0 ≤ |d| := abs_nonneg d
  have h1 : |round_double (round_ld d)| ≤ |d| + |d| * (1 / 2 ^ 52) := by
    have := abs_sub_abs_le_abs_sub (round_double (round_ld d)) d
    linarith
  have h300 : pow10 300 = (10 : ℚ) ^ 300 := by
    rw [show (300 : Int) = ((300 : Nat) : Int) by norm_num, pow10_natCast]
  rw [h300] at hmax
  have h2 : |d| + |d| * (1 / 2 ^ 52) ≤ (10 : ℚ) ^ 300 * 2 := by
    have : |d| * (1 / 2 ^ 52) ≤ |d| * 1 :=
      mul_le_mul_of_nonneg_left (by norm_num) hd0
    linarith
  have h3 : (10 : ℚ) ^ 300 * 2 ≤ DBL_MAX := by
    unfold DBL_MAX
    norm_num
  linarith

/-- A decimal number with at most six significant digits that is not too small is shown by
`%g` after the conversions to `long double` and to `double`. -/
theorem round_sig6_typed (d : ℚ) (k : Nat) (j : Int) (hk6 : k < 10 ^ 6)
    (hd : |d| = (k : ℚ) * pow10 j) (hmin : pow10 (-300) ≤ |d|) :
    round_sig6 (round_double (round_ld d)) = d := by
  have hdpos : 0 < |d| := lt_of_lt_of_le (pow10_pos _) hmin
  have hk : 0 < k := by
    rcases Nat.eq_zero_or_pos k with h | h
    · rw [h, Nat.cast_zero, zero_mul] at hd
      rw [hd] at hdpos
      exact absurd hdpos (lt_irrefl _)
    · exact h
  have hp : pow2 (-1021) ≤ pow10 (-300) := by
    rw [show (-1021 : Int) = -((1021 : Nat) : Int) by norm_num, pow2_neg_natCast,
      pow10_eq_zpow, show (-300 : Int) = -((300 : Nat) : Int) by norm_num, zpow_neg,
      zpow_natCast, one_div]
    rw [inv_le_inv₀ (by positivity) (by positivity)]
    norm_num
  exact round_sig6_near _ d k j hk hk6 hd (round_double_ld_near (le_trans hp hmin))

/-! ## The claims -/

/-- C1: in a state whose status is not ok, each of backspace, insert-digit,
insert-decimal-point, insert-exponent, negate, evaluate, apply-unary and select-binary returns
a result whose code is the engine's status and leaves the whole engine state, hence buffer,
memory, pending operation, status and both limits, unchanged. -/
theorem C1_error_state_is_sticky (eng : engine_t) (fuel : Nat) (digit : Char) (un op : Int)
    (h : eng.status ≠ OK) :
    ((caleng_backspace eng).1.rtn_code = eng.status ∧ (caleng_backspace eng).2 = eng) ∧
    ((caleng_send_digit eng digit).1.rtn_code = eng.status ∧
      (caleng_send_digit eng digit).2 = eng) ∧
    ((caleng_insert_decimal_point eng).1.rtn_code = eng.status ∧
      (caleng_insert_decimal_point eng).2 = eng) ∧
    ((caleng_insert_exp eng).1.rtn_code = eng.status ∧ (caleng_insert_exp eng).2 = eng) ∧
    ((caleng_negate eng).1.rtn_code = eng.status ∧ (caleng_negate eng).2 = eng) ∧
    (∃ r, caleng_evaluate fuel eng = Except.ok (r, eng) ∧ r.rtn_code = eng.status) ∧
    (∃ r, caleng_eval_un_op fuel eng un = Except.ok (r, eng) ∧ r.rtn_code = eng.status) ∧
    (∃ r, caleng_select_bi_op fuel eng op = Except.ok (r, eng) ∧ r.rtn_code = eng.status) := by
  obtain ⟨h1, h2, h3, h4, h5, h6, h7, h8⟩ := calls_in_error_state eng fuel digit un op h
  rw [h1, h2, h3, h4, h5]
  exact ⟨⟨rfl, rfl⟩, ⟨rfl, rfl⟩, ⟨rfl, rfl⟩, ⟨rfl, rfl⟩, ⟨rfl, rfl⟩, ⟨_, h6, rfl⟩, ⟨_, h7, rfl⟩,
    ⟨_, h8, rfl⟩⟩

/-- Witness of C1 at the engine after `7 / 0 =`, whose status is math-error. -/
theorem C1_error_state_is_sticky_witness :
    stuck.status ≠ OK ∧
    (((caleng_backspace stuck).1.rtn_code = stuck.status ∧ (caleng_backspace stuck).2 = stuck) ∧
    ((caleng_send_digit stuck '5').1.rtn_code = stuck.status ∧
      (caleng_send_digit stuck '5').2 = stuck) ∧
    ((caleng_insert_decimal_point stuck).1.rtn_code = stuck.status ∧
      (caleng_insert_decimal_point stuck).2 = stuck) ∧
    ((caleng_insert_exp stuck).1.rtn_code = stuck.status ∧ (caleng_insert_exp stuck).2 = stuck) ∧
    ((caleng_negate stuck).1.rtn_code = stuck.status ∧ (caleng_negate stuck).2 = stuck) ∧
    (∃ r, caleng_evaluate 0 stuck = Except.ok (r, stuck) ∧ r.rtn_code = stuck.status) ∧
    (∃ r, caleng_eval_un_op 0 stuck FACT = Except.ok (r, stuck) ∧ r.rtn_code = stuck.status) ∧
    (∃ r, caleng_select_bi_op 0 stuck ADD = Except.ok (r, stuck) ∧ r.rtn_code = stuck.status)) :=
  ⟨by decide!, C1_error_state_is_sticky stuck 0 '5' FACT ADD (by decide!)⟩

/-- C2 (the code at the failing input): after `5 * -22 / 2 / 0`, selecting subtraction returns
math-error with the memory text `-55`, but the status of the engine stays ok, and the digit `7`
typed next is accepted and shown. -/
theorem C2_select_bi_op_error_is_not_sticky :
    run_view 0 fresh [dg '5', gesture.bi_op MUL, dg '2', gesture.key edit_key.negate, dg '2',
        gesture.bi_op DIV, dg '2', gesture.bi_op DIV, dg '0', gesture.bi_op SUB, dg '7']
      = some { shown := [(OK, "5"), (OK, "5"), (OK, "2"), (OK, "-2"), (OK, "-22"), (OK, "-110"),
                         (OK, "2"), (OK, "-55"), (OK, "0"), (MATH_ERR, "-55"), (OK, "7")]
               buffer := "7", memory := -55, sel_op := SUB, status := OK } := by
  decide!

/-- C3: cancel returns (ok, "0") from every state and leaves an empty buffer, memory 0, no
pending operation and status ok, with both limits and the separator unchanged; a digit typed
right after it is displayed alone. -/
theorem C3_cancel_resets (eng : engine_t) (d : Char)
    (hlen : eng.input_buffer.length = BUFFER_SIZE + 1)
    (hlim : 0 < eng.mantissa_length_limit) (hsep : valid_sep eng.dp_sep)
    (hd : is_digit d = true) :
    (caleng_cancel eng).1.rtn_code = OK ∧ (caleng_cancel eng).1.text = ['0'] ∧
    (caleng_cancel eng).2.text = [] ∧ (caleng_cancel eng).2.memory = 0 ∧
    (caleng_cancel eng).2.sel_op = NONE ∧ (caleng_cancel eng).2.status = OK ∧
    (caleng_cancel eng).2.mantissa_length_limit = eng.mantissa_length_limit ∧
    (caleng_cancel eng).2.exponent_length_limit = eng.exponent_length_limit ∧
    (caleng_cancel eng).2.dp_sep = eng.dp_sep ∧
    (caleng_send_digit (caleng_cancel eng).2 d).1.rtn_code = OK ∧
    (caleng_send_digit (caleng_cancel eng).2 d).1.text = [d] ∧
    (caleng_send_digit (caleng_cancel eng).2 d).2.text = [d] := by
  obtain ⟨hs1, hs2, hs3, hs4⟩ := hsep
  have hdn := is_digit_ne_NUL hd
  have hde := is_digit_ne_e hd
  have hdm := is_digit_ne_minus hd
  refine ⟨rfl, ?_, ?_, rfl, rfl, rfl, rfl, rfl, rfl, ?_⟩
  · show result_t.text { result_init with to_display := strcpy result_init.to_display ['0'] } = ['0']
    decide
  · simp [caleng_cancel, engine_t.text, cstr_set_zero_NUL]
  · match hb : eng.input_buffer, hlen with
    | c :: c2 :: rest, _ =>
      have e1 : send_digit_loop (caleng_cancel eng).2 d BUFFER_SIZE 0 digit_scan_init
          = d :: NUL :: rest := by
        have : BUFFER_SIZE = 99 + 1 := rfl
        rw [this, send_digit_loop]
        simp [caleng_cancel, hb, char_at, send_digit_at_end, digit_scan_init, Ne.symm hs1,
          hlim, NUL_ne_zero, Ne.symm NUL_ne_zero, NUL_ne_minus, NUL_ne_e, NUL_not_digit]
      have e2 : (caleng_send_digit (caleng_cancel eng).2 d).2.input_buffer = d :: NUL :: rest := by
        simp [caleng_send_digit, e1, clear_eval]
        simp [caleng_cancel, OK, NONE, EVAL, e1]
      have e3 : (caleng_send_digit (caleng_cancel eng).2 d).2.text = [d] := by
        simp [engine_t.text, e2, cstr, List.takeWhile_cons, hdn]
      have e4 : (caleng_send_digit (caleng_cancel eng).2 d).1
          = display_buffer result_init (caleng_send_digit (caleng_cancel eng).2 d).2 := by
        simp [caleng_send_digit, caleng_cancel, OK]
      refine ⟨?_, ?_, e3⟩
      · rw [e4]; rfl
      · rw [e4, display_buffer_text _ (by rw [e3]; simp [BUFFER_SIZE]), e3]
        apply formatted_of_plain <;> simp [Ne.symm hde, Ne.symm hdm]
    | [_], h => simp [BUFFER_SIZE] at h
    | [], h => simp [BUFFER_SIZE] at h

/-- Witness of C3 at the engine after `7 / 0 =` (status math-error) and the digit `3`. -/
theorem C3_cancel_resets_witness :
    (stuck.input_buffer.length = BUFFER_SIZE + 1 ∧ 0 < stuck.mantissa_length_limit ∧
      valid_sep stuck.dp_sep ∧ is_digit '3' = true) ∧
    ((caleng_cancel stuck).1.rtn_code = OK ∧ (caleng_cancel stuck).1.text = ['0'] ∧
    (caleng_cancel stuck).2.text = [] ∧ (caleng_cancel stuck).2.memory = 0 ∧
    (caleng_cancel stuck).2.sel_op = NONE ∧ (caleng_cancel stuck).2.status = OK ∧
    (caleng_cancel stuck).2.mantissa_length_limit = stuck.mantissa_length_limit ∧
    (caleng_cancel stuck).2.exponent_length_limit = stuck.exponent_length_limit ∧
    (caleng_cancel stuck).2.dp_sep = stuck.dp_sep ∧
    (caleng_send_digit (caleng_cancel stuck).2 '3').1.rtn_code = OK ∧
    (caleng_send_digit (caleng_cancel stuck).2 '3').1.text = ['3'] ∧
    (caleng_send_digit (caleng_cancel stuck).2 '3').2.text = ['3']) :=
  ⟨⟨by decide!, by decide!, by decide!, by decide⟩,
    C3_cancel_resets stuck '3' (by decide!) (by decide!) (by decide!) (by decide)⟩

/-- C4: with status ok, pending division and a non-empty buffer that parses to zero, evaluate
returns math-error, sets the status to math-error and leaves memory unchanged; every editing
operation then returns math-error without changing the engine, and cancel restores status
ok. -/
theorem C4_divide_by_typed_zero (fuel : Nat) (eng p : engine_t) (d : Char)
    (hst : eng.status = OK) (hop : eng.sel_op = DIV) (hne : eng.text ≠ [])
    (hz : caleng_process_input_buffer eng = Except.ok (0, p)) :
    ∃ r e, caleng_evaluate fuel eng = Except.ok (r, e) ∧ r.rtn_code = MATH_ERR ∧
      e.status = MATH_ERR ∧ e.memory = eng.memory ∧
      (caleng_send_digit e d).1.rtn_code = MATH_ERR ∧ (caleng_send_digit e d).2 = e ∧
      (caleng_insert_decimal_point e).1.rtn_code = MATH_ERR ∧
      (caleng_insert_decimal_point e).2 = e ∧
      (caleng_insert_exp e).1.rtn_code = MATH_ERR ∧ (caleng_insert_exp e).2 = e ∧
      (caleng_negate e).1.rtn_code = MATH_ERR ∧ (caleng_negate e).2 = e ∧
      (caleng_backspace e).1.rtn_code = MATH_ERR ∧ (caleng_backspace e).2 = e ∧
      (caleng_cancel e).2.status = OK := by
  have hf := process_input_buffer_frame hz
  have hne0 : char_at eng.input_buffer 0 ≠ NUL := by
    rw [Ne, char_at_zero_eq_NUL_iff]; exact hne
  have hev : caleng_evaluate fuel eng
      = Except.ok ({ result_init with rtn_code := MATH_ERR }, { p with status := MATH_ERR }) := by
    have hb : caleng_eval_bi_op fuel p 0 = Except.ok (MATH_ERR, p) := by
      unfold caleng_eval_bi_op
      simp [hf.2.1, hop, ADD, SUB, MUL, DIV]
    unfold caleng_evaluate
    simp [hst, hop, NONE, EVAL, DIV, hne0, hz, hb, MATH_ERR_ne_OK]
  have herr : ({ p with status := MATH_ERR } : engine_t).status ≠ OK := MATH_ERR_ne_OK
  have hs := calls_in_error_state { p with status := MATH_ERR } fuel d FACT ADD herr
  obtain ⟨h1, h2, h3, h4, h5, _⟩ := hs
  refine ⟨_, _, hev, rfl, rfl, hf.1, ?_⟩
  rw [h1, h2, h3, h4, h5]
  exact ⟨rfl, rfl, rfl, rfl, rfl, rfl, rfl, rfl, rfl, rfl, rfl⟩

/-- Witness of C4 at the engine after `7 / 0`. -/
theorem C4_divide_by_typed_zero_witness :
    (seven_by_zero.status = OK ∧ seven_by_zero.sel_op = DIV ∧ seven_by_zero.text ≠ [] ∧
      caleng_process_input_buffer seven_by_zero = Except.ok (0, consumed seven_by_zero)) ∧
    ∃ r e, caleng_evaluate 0 seven_by_zero = Except.ok (r, e) ∧ r.rtn_code = MATH_ERR ∧
      e.status = MATH_ERR ∧ e.memory = seven_by_zero.memory ∧
      (caleng_send_digit e '1').1.rtn_code = MATH_ERR ∧ (caleng_send_digit e '1').2 = e ∧
      (caleng_insert_decimal_point e).1.rtn_code = MATH_ERR ∧
      (caleng_insert_decimal_point e).2 = e ∧
      (caleng_insert_exp e).1.rtn_code = MATH_ERR ∧ (caleng_insert_exp e).2 = e ∧
      (caleng_negate e).1.rtn_code = MATH_ERR ∧ (caleng_negate e).2 = e ∧
      (caleng_backspace e).1.rtn_code = MATH_ERR ∧ (caleng_backspace e).2 = e ∧
      (caleng_cancel e).2.status = OK :=
  ⟨⟨by decide!, by decide!, by decide!, by decide!⟩,
    C4_divide_by_typed_zero 0 seven_by_zero (consumed seven_by_zero) '1'
      (by decide!) (by decide!) (by decide!) (by decide!)⟩

/-- C7: with status ok, select-binary with pending none sets memory to the parsed value of the
buffer (0 for an empty buffer) and empties the buffer; with pending just-evaluated, or with a
pending binary operation and an empty buffer, memory and buffer are unchanged; in all three
cases the pending operation becomes `op` and the result code is ok. -/
theorem C7_select_bi_op_stores_operator (fuel : Nat) (eng : engine_t) (op : Int)
    (hst : eng.status = OK) (hsep : valid_sep eng.dp_sep) :
    (eng.sel_op = NONE → ∀ v p, caleng_process_input_buffer eng = Except.ok (v, p) →
      ∃ r e, caleng_select_bi_op fuel eng op = Except.ok (r, e) ∧ r.rtn_code = OK ∧
        e.memory = v ∧ e.text = [] ∧ e.sel_op = op ∧ e.status = OK) ∧
    (eng.sel_op = NONE → eng.text = [] →
      ∃ r e, caleng_select_bi_op fuel eng op = Except.ok (r, e) ∧ r.rtn_code = OK ∧
        e.memory = 0 ∧ e.text = [] ∧ e.sel_op = op ∧ e.status = OK) ∧
    (eng.sel_op ≠ NONE → eng.sel_op = EVAL ∨ eng.text = [] →
      ∃ r, caleng_select_bi_op fuel eng op = Except.ok (r, { eng with sel_op := op }) ∧
        r.rtn_code = OK) := by
  have first : eng.sel_op = NONE → ∀ v p, caleng_process_input_buffer eng = Except.ok (v, p) →
      ∃ r e, caleng_select_bi_op fuel eng op = Except.ok (r, e) ∧ r.rtn_code = OK ∧
        e.memory = v ∧ e.text = [] ∧ e.sel_op = op ∧ e.status = OK := by
    intro hop v p hp
    have hf := process_input_buffer_frame hp
    have hp2 := process_input_buffer_sel_op eng op hp
    have hev : caleng_select_bi_op fuel eng op = Except.ok
        ({ rtn_code := OK, to_display := caleng_get_memory_string
              ({ p with sel_op := op, memory := v }) result_init.to_display },
         { p with sel_op := op, memory := v }) := by
      unfold caleng_select_bi_op
      simp only [hst] at hp2
      simp only [hst, hop, hp2, ne_eq, not_true_eq_false, if_false, if_true]
      rfl
    refine ⟨_, _, hev, rfl, rfl, hf.2.2.2.2.2.2, rfl, ?_⟩
    show p.status = OK
    rw [hf.2.2.1]; exact hst
  refine ⟨first, ?_, ?_⟩
  · intro hop ht
    obtain ⟨p, hp⟩ := process_empty_buffer eng hsep ht
    exact first hop 0 p hp
  · intro hop h
    refine ⟨⟨OK, caleng_get_memory_string { eng with sel_op := op } result_init.to_display⟩,
      ?_, rfl⟩
    by_cases he : eng.sel_op = EVAL
    · unfold caleng_select_bi_op
      simp only [hst, hop, he, ne_eq, not_true_eq_false, if_false, if_true]
      rfl
    · have ht : eng.text = [] := h.resolve_left he
      have h0 : char_at eng.input_buffer 0 = NUL := (char_at_zero_eq_NUL_iff _).2 ht
      unfold caleng_select_bi_op
      simp only [hst, hop, he, h0, ne_eq, not_true_eq_false, if_false, if_true]
      rfl

/-- Witness of C7 at the engine after the digit `5` is typed, for the operation multiply. -/
theorem C7_select_bi_op_stores_operator_witness :
    (five_typed.status = OK ∧ valid_sep five_typed.dp_sep) ∧
    ((five_typed.sel_op = NONE → ∀ v p, caleng_process_input_buffer five_typed = Except.ok (v, p) →
      ∃ r e, caleng_select_bi_op 0 five_typed MUL = Except.ok (r, e) ∧ r.rtn_code = OK ∧
        e.memory = v ∧ e.text = [] ∧ e.sel_op = MUL ∧ e.status = OK) ∧
    (five_typed.sel_op = NONE → five_typed.text = [] →
      ∃ r e, caleng_select_bi_op 0 five_typed MUL = Except.ok (r, e) ∧ r.rtn_code = OK ∧
        e.memory = 0 ∧ e.text = [] ∧ e.sel_op = MUL ∧ e.status = OK) ∧
    (five_typed.sel_op ≠ NONE → five_typed.sel_op = EVAL ∨ five_typed.text = [] →
      ∃ r, caleng_select_bi_op 0 five_typed MUL
          = Except.ok (r, { five_typed with sel_op := MUL }) ∧ r.rtn_code = OK)) :=
  ⟨⟨by decide!, by decide!⟩,
    C7_select_bi_op_stores_operator 0 five_typed MUL (by decide!) (by decide!)⟩

/-- C8: with status ok and pending none, evaluate sets memory to the parsed value of the buffer
(0 when the buffer is empty), empties the buffer, sets the pending operation to just-evaluated
and returns ok; on the engine that `caleng_init` returns the display is "0". -/
theorem C8_evaluate_without_pending (fuel : Nat) (eng : engine_t) (heap : List Char)
    (hst : eng.status = OK) (hop : eng.sel_op = NONE) (hsep : valid_sep eng.dp_sep) :
    (∀ v p, caleng_process_input_buffer eng = Except.ok (v, p) →
      ∃ r e, caleng_evaluate fuel eng = Except.ok (r, e) ∧ r.rtn_code = OK ∧
        e.memory = v ∧ e.text = [] ∧ e.sel_op = EVAL ∧ e.status = OK) ∧
    (eng.text = [] →
      ∃ r e, caleng_evaluate fuel eng = Except.ok (r, e) ∧ r.rtn_code = OK ∧ r.text = ['0'] ∧
        e.memory = 0 ∧ e.text = [] ∧ e.sel_op = EVAL ∧ e.status = OK) ∧
    (∃ r e, caleng_evaluate fuel (caleng_init heap eng.dp_sep) = Except.ok (r, e) ∧
        r.rtn_code = OK ∧ r.text = ['0']) := by
  have first : ∀ (eng : engine_t), eng.status = OK → eng.sel_op = NONE →
      ∀ v p, caleng_process_input_buffer eng = Except.ok (v, p) →
      caleng_evaluate fuel eng = Except.ok
        ({ rtn_code := OK, to_display := caleng_get_memory_string
              ({ p with memory := v }) result_init.to_display },
         { p with memory := v, sel_op := EVAL }) := by
    intro eng hst hop v p hp
    unfold caleng_evaluate
    simp only [hst, hop, hp, ne_eq, not_true_eq_false, if_false, if_true, true_or]
    rfl
  have second : ∀ (eng : engine_t), eng.status = OK → eng.sel_op = NONE → valid_sep eng.dp_sep →
      eng.text = [] →
      ∃ r e, caleng_evaluate fuel eng = Except.ok (r, e) ∧ r.rtn_code = OK ∧ r.text = ['0'] ∧
        e.memory = 0 ∧ e.text = [] ∧ e.sel_op = EVAL ∧ e.status = OK := by
    intro eng hst hop hsep ht
    obtain ⟨p, hp⟩ := process_empty_buffer eng hsep ht
    have hf := process_input_buffer_frame hp
    refine ⟨_, _, first eng hst hop 0 p hp, rfl, ?_, rfl, hf.2.2.2.2.2.2, rfl, ?_⟩
    · exact get_memory_string_zero _ rfl
    · show p.status = OK
      rw [hf.2.2.1]; exact hst
  refine ⟨?_, second eng hst hop hsep, ?_⟩
  · intro v p hp
    have hf := process_input_buffer_frame hp
    refine ⟨_, _, first eng hst hop v p hp, rfl, rfl, hf.2.2.2.2.2.2, rfl, ?_⟩
    show p.status = OK
    rw [hf.2.2.1]; exact hst
  · obtain ⟨r, e, h1, h2, h3, _⟩ := second (caleng_init heap eng.dp_sep) rfl rfl hsep
      (by simp [caleng_init, engine_t.text, cstr_set_zero_NUL])
    exact ⟨r, e, h1, h2, h3⟩

/-- Witness of C8 at the fresh engine: evaluate shows "0". -/
theorem C8_evaluate_without_pending_witness :
    (fresh.status = OK ∧ fresh.sel_op = NONE ∧ valid_sep fresh.dp_sep) ∧
    ((∀ v p, caleng_process_input_buffer fresh = Except.ok (v, p) →
      ∃ r e, caleng_evaluate 0 fresh = Except.ok (r, e) ∧ r.rtn_code = OK ∧
        e.memory = v ∧ e.text = [] ∧ e.sel_op = EVAL ∧ e.status = OK) ∧
    (fresh.text = [] →
      ∃ r e, caleng_evaluate 0 fresh = Except.ok (r, e) ∧ r.rtn_code = OK ∧ r.text = ['0'] ∧
        e.memory = 0 ∧ e.text = [] ∧ e.sel_op = EVAL ∧ e.status = OK) ∧
    (∃ r e, caleng_evaluate 0 (caleng_init zero_heap fresh.dp_sep) = Except.ok (r, e) ∧
        r.rtn_code = OK ∧ r.text = ['0'])) :=
  ⟨⟨by decide!, by decide!, by decide!⟩,
    C8_evaluate_without_pending 0 fresh zero_heap (by decide!) (by decide!) (by decide!)⟩

/-- C9: if evaluate returns ok on a state with status ok, a second evaluate right after it
returns the same result (code ok, same display) and leaves the engine as the first one left
it. -/
theorem C9_evaluate_idempotent (fuel fuel2 : Nat) (eng e : engine_t) (r : result_t)
    (hst : eng.status = OK) (h : caleng_evaluate fuel eng = Except.ok (r, e))
    (hr : r.rtn_code = OK) :
    caleng_evaluate fuel2 e = Except.ok (r, e) := by
  have key : ∀ (e1 : engine_t) (rtn : Int), e1.status = OK → rtn = OK →
      caleng_evaluate fuel2 { e1 with sel_op := EVAL } = Except.ok
        ({ rtn_code := rtn, to_display := caleng_get_memory_string e1 result_init.to_display },
         { e1 with sel_op := EVAL }) := by
    intro e1 rtn h1 h2
    unfold caleng_evaluate
    subst h2
    simp [h1, EVAL, NONE]
    constructor <;> rfl
  unfold caleng_evaluate at h
  rw [if_neg (by simpa using hst)] at h
  split_ifs at h with h1 h2 h3
  · -- pending none
    split at h
    · rename_i num p hp
      have hf := process_input_buffer_frame hp
      cases h
      exact key _ OK (by show p.status = OK; rw [hf.2.2.1]; exact hst) rfl
    · cases h
  · cases h
    exact key _ OK hst rfl
  · split at h
    · rename_i rtn e1 hb
      split_ifs at h with h4
      · cases h; exact absurd hr h4
      · cases h
        have hfr := eval_bi_op_frame hb
        have : e1.status = OK := by rw [hfr]; exact hst
        exact key _ _ this (by simpa using h4)
    · cases h
  · split at h
    · rename_i num p hp
      have hf := process_input_buffer_frame hp
      split at h
      · rename_i rtn e1 hb
        split_ifs at h with h4
        · cases h; exact absurd hr h4
        · cases h
          have hfr := eval_bi_op_frame hb
          have : e1.status = OK := by rw [hfr]; show p.status = OK; rw [hf.2.2.1]; exact hst
          exact key _ _ this (by simpa using h4)
      · cases h
    · cases h

/-- Witness of C9 at the engine after `4 + 6`: the second evaluate shows 10 again. -/
theorem C9_evaluate_idempotent_witness :
    (four_plus_six.status = OK ∧
      caleng_evaluate 0 four_plus_six
        = Except.ok ((evaluated four_plus_six).1, (evaluated four_plus_six).2) ∧
      (evaluated four_plus_six).1.rtn_code = OK) ∧
    caleng_evaluate 0 (evaluated four_plus_six).2
      = Except.ok ((evaluated four_plus_six).1, (evaluated four_plus_six).2) :=
  ⟨⟨by decide!, by decide!, by decide!⟩,
    C9_evaluate_idempotent 0 0 four_plus_six (evaluated four_plus_six).2
      (evaluated four_plus_six).1 (by decide!) (by decide!) (by decide!)⟩

/-- C10: in every engine reachable from the initial state by public operations the limits are
the default ones (9 and 2), the stored buffer has at most as many digits before the exponent
marker as the mantissa limit and at most as many after it as the exponent limit, and the same
holds for the display returned by every insert-digit call. -/
theorem C10_digit_limits (heap : List Char) (dp : Char) (eng : engine_t)
    (hheap : heap.length = BUFFER_SIZE + 1) (hsep : valid_sep dp)
    (h : reachable heap dp eng) :
    eng.mantissa_length_limit = DEFAULT_MANTISSA_LENGTH_LIMIT ∧
    eng.exponent_length_limit = DEFAULT_EXPONENT_LENGTH_LIMIT ∧
    (digit_count (mantissa_segment eng.text) : Int) ≤ eng.mantissa_length_limit ∧
    (digit_count (exponent_segment eng.text) : Int) ≤ eng.exponent_length_limit ∧
    ∀ d, is_digit d = true →
      (digit_count (mantissa_segment (caleng_send_digit eng d).1.text) : Int)
        ≤ eng.mantissa_length_limit ∧
      (digit_count (exponent_segment (caleng_send_digit eng d).1.text) : Int)
        ≤ eng.exponent_length_limit := by
  have hinv := reachable_buffer_inv hheap hsep h
  obtain ⟨i1, i2, i3, i4, sh, hok, ht⟩ := hinv
  have hc := digit_count_render i4 hok
  rw [← ht] at hc
  refine ⟨i2, i3, ?_, ?_, ?_⟩
  · rw [i2]; exact_mod_cast hc.1
  · rw [i3]; exact_mod_cast hc.2
  · intro d hd
    rw [i2, i3]
    by_cases hst : eng.status = OK
    · have hinv2 := buffer_inv_edit ⟨i1, i2, i3, i4, sh, hok, ht⟩ (edit_key.digit d) hd
      obtain ⟨j1, j2, j3, j4, sh2, hok2, ht2⟩ := hinv2
      have hl := render_length_le eng.dp_sep hok
      rw [← ht] at hl
      obtain ⟨_, _, _, e4⟩ := send_digit_text eng d hst
        (by rw [i1]; unfold BUFFER_SIZE; omega) (by unfold BUFFER_SIZE; omega) i4.1
        (is_digit_ne_NUL hd)
      have hl2 := render_length_le (edit eng (edit_key.digit d)).2.dp_sep hok2
      rw [← ht2] at hl2
      have hdisp : (caleng_send_digit eng d).1.text
          = render (edit eng (edit_key.digit d)).2.dp_sep sh2.shown := by
        rw [e4, display_buffer_text _ (by
          show (edit eng (edit_key.digit d)).2.text.length + 2 ≤ _
          unfold BUFFER_SIZE; omega)]
        show formatted (edit eng (edit_key.digit d)).2.text = _
        rw [ht2, formatted_render j4 hok2]
      have hc2 := digit_count_render j4 (shape_shown_ok hok2)
      rw [← hdisp] at hc2
      exact ⟨by exact_mod_cast hc2.1, by exact_mod_cast hc2.2⟩
    · have := (calls_in_error_state eng 0 d 0 0 hst).2.1
      rw [this]
      simp only [result_init_text]
      decide

/-- Witness of C10 at the engine after the nine digits `100000099`, where a tenth digit is
refused. -/
theorem C10_digit_limits_witness :
    (zero_heap.length = BUFFER_SIZE + 1 ∧ valid_sep '.' ∧ reachable zero_heap '.' nine_digits) ∧
    nine_digits.text = "100000099".toList ∧
    (caleng_send_digit nine_digits '8').1.text = "100000099".toList ∧
    (nine_digits.mantissa_length_limit = DEFAULT_MANTISSA_LENGTH_LIMIT ∧
    nine_digits.exponent_length_limit = DEFAULT_EXPONENT_LENGTH_LIMIT ∧
    (digit_count (mantissa_segment nine_digits.text) : Int) ≤ nine_digits.mantissa_length_limit ∧
    (digit_count (exponent_segment nine_digits.text) : Int) ≤ nine_digits.exponent_length_limit ∧
    ∀ d, is_digit d = true →
      (digit_count (mantissa_segment (caleng_send_digit nine_digits d).1.text) : Int)
        ≤ nine_digits.mantissa_length_limit ∧
      (digit_count (exponent_segment (caleng_send_digit nine_digits d).1.text) : Int)
        ≤ nine_digits.exponent_length_limit) :=
  ⟨⟨by decide, by decide, reachable_state_after _ (by decide)⟩, by decide!, by decide!,
    C10_digit_limits zero_heap '.' nine_digits (by decide) (by decide)
      (reachable_state_after _ (by decide))⟩

/-- C11: with status ok and the stored buffer exactly `0` or `-0`, insert-digit of a digit `d`
replaces the zero in place: the buffer and the display become `d` or `-d`; typing
`0 0 0 1` after cancel displays `0`, `0`, `0`, `1` and typing `5` into the fresh engine
displays `5`. -/
theorem C11_zero_is_replaced (eng : engine_t) (d : Char) (hst : eng.status = OK)
    (hbuf : eng.input_buffer.length = BUFFER_SIZE + 1) (hsep : valid_sep eng.dp_sep)
    (hd : is_digit d = true) :
    (eng.text = ['0'] →
      (caleng_send_digit eng d).2.text = [d] ∧ (caleng_send_digit eng d).1.rtn_code = OK ∧
      (caleng_send_digit eng d).1.text = [d]) ∧
    (eng.text = ['-', '0'] →
      (caleng_send_digit eng d).2.text = ['-', d] ∧ (caleng_send_digit eng d).1.rtn_code = OK ∧
      (caleng_send_digit eng d).1.text = ['-', d]) ∧
    run_view 0 fresh [gesture.cancel, dg '0', dg '0', dg '0', dg '1']
      = some { shown := [(OK, "0"), (OK, "0"), (OK, "0"), (OK, "0"), (OK, "1")]
               buffer := "1", memory := 0, sel_op := NONE, status := OK } ∧
    run_view 0 fresh [dg '5']
      = some { shown := [(OK, "5")], buffer := "5", memory := 0, sel_op := NONE, status := OK } := by
  have hz := digit_text_zero eng.mantissa_length_limit eng.exponent_length_limit hsep d
  have hf := formatted_digit hd
  have key : ∀ t : List Char, eng.text = t → t.length ≤ 2 →
      (caleng_send_digit eng d).2.text
        = digit_text eng.mantissa_length_limit eng.exponent_length_limit eng.dp_sep d t ∧
      (caleng_send_digit eng d).1.rtn_code = OK ∧
      (caleng_send_digit eng d).1.text = formatted (caleng_send_digit eng d).2.text ∧
      (caleng_send_digit eng d).2.text.length ≤ eng.text.length + 1 := by
    intro t ht hl
    rw [← ht] at hl
    obtain ⟨_, e2, _, e4⟩ := send_digit_text eng d hst
      (by rw [hbuf]; unfold BUFFER_SIZE; omega) (by unfold BUFFER_SIZE; omega) hsep.1
      (is_digit_ne_NUL hd)
    have hlen := digit_text_length_le eng.mantissa_length_limit eng.exponent_length_limit
      eng.dp_sep d eng.text
    rw [← e2] at hlen
    refine ⟨by rw [e2, ht], by rw [e4]; rfl, ?_, hlen⟩
    rw [e4, display_buffer_text _ (by unfold BUFFER_SIZE; omega)]
  refine ⟨?_, ?_, by decide!, by decide!⟩
  · intro ht
    obtain ⟨k1, k2, k3, _⟩ := key _ ht (by simp)
    rw [hz.1] at k1
    exact ⟨k1, k2, by rw [k3, k1]; exact hf.1⟩
  · intro ht
    obtain ⟨k1, k2, k3, _⟩ := key _ ht (by simp)
    rw [hz.2] at k1
    exact ⟨k1, k2, by rw [k3, k1]; exact hf.2⟩

/-- Witness of C11 at the engine whose buffer is `0` (and, for the signed case, the one whose
buffer is `-0`) and the digit `7`. -/
theorem C11_zero_is_replaced_witness :
    (zero_typed.status = OK ∧ zero_typed.input_buffer.length = BUFFER_SIZE + 1 ∧
      valid_sep zero_typed.dp_sep ∧ is_digit '7' = true ∧ zero_typed.text = ['0'] ∧
      minus_zero_typed.text = ['-', '0']) ∧
    (caleng_send_digit zero_typed '7').2.text = ['7'] ∧
    (caleng_send_digit minus_zero_typed '7').2.text = ['-', '7'] :=
  ⟨⟨by decide!, by decide!, by decide!, by decide, by decide!, by decide!⟩,
    ((C11_zero_is_replaced zero_typed '7' (by decide!) (by decide!) (by decide!)
      (by decide)).1 (by decide!)).1,
    ((C11_zero_is_replaced minus_zero_typed '7' (by decide!) (by decide!) (by decide!)
      (by decide)).2.1 (by decide!)).1⟩

/-- C12 (the code at the failing input): after `1`, insert-exponent and `0` the stored buffer
is `1e0`; the digit `5` typed next is appended after the zero and the buffer is `1e05`, not
`1e5`; in the same way `1e-0` becomes `1e-05`. -/
theorem C12_exponent_zero_is_kept :
    run_view 0 fresh [dg '1', gesture.key edit_key.exponent, dg '0', dg '5']
      = some { shown := [(OK, "1"), (OK, "1e0"), (OK, "1e0"), (OK, "1e05")]
               buffer := "1e05", memory := 0, sel_op := NONE, status := OK } ∧
    run_view 0 fresh [dg '1', gesture.key edit_key.exponent, gesture.key edit_key.negate,
        dg '0', dg '5']
      = some { shown := [(OK, "1"), (OK, "1e0"), (OK, "1e-0"), (OK, "1e-0"), (OK, "1e-05")]
               buffer := "1e-05", memory := 0, sel_op := NONE, status := OK } := by
  constructor <;> decide!

/-- C13: with status ok, the default limits and a buffer of the data model whose current
segment (the mantissa if there is no exponent marker, the exponent otherwise) is not a lone
optionally signed zero, insert-digit appends the digit at the end of the stored buffer when the
digits of the current segment are fewer than its limit and leaves the buffer unchanged
otherwise; in both cases it returns ok and the formatted buffer. -/
theorem C13_digit_appended_within_limit (eng : engine_t) (d : Char) (sh : shape)
    (hst : eng.status = OK) (hbuf : eng.input_buffer.length = BUFFER_SIZE + 1)
    (hsep : valid_sep eng.dp_sep)
    (hml : eng.mantissa_length_limit = DEFAULT_MANTISSA_LENGTH_LIMIT)
    (hel : eng.exponent_length_limit = DEFAULT_EXPONENT_LENGTH_LIMIT)
    (hd : is_digit d = true) (hok : sh.ok) (ht : eng.text = render eng.dp_sep sh)
    (hseg : current_segment eng.text ≠ ['0'] ∧ current_segment eng.text ≠ ['-', '0']) :
    (caleng_send_digit eng d).2.text
      = (if (digit_count (current_segment eng.text) : Int) < current_limit eng
         then eng.text ++ [d] else eng.text) ∧
    (caleng_send_digit eng d).1.rtn_code = OK ∧
    (caleng_send_digit eng d).1.text = formatted (caleng_send_digit eng d).2.text := by
  have hl := render_length_le eng.dp_sep hok
  rw [← ht] at hl
  obtain ⟨_, e2, _, e4⟩ := send_digit_text eng d hst
    (by rw [hbuf]; unfold BUFFER_SIZE; omega) (by unfold BUFFER_SIZE; omega) hsep.1
    (is_digit_ne_NUL hd)
  have hlen := digit_text_length_le eng.mantissa_length_limit eng.exponent_length_limit
    eng.dp_sep d eng.text
  rw [← e2] at hlen
  refine ⟨?_, by rw [e4]; rfl, ?_⟩
  · rw [ht] at hseg
    have := send_digit_render_append hsep hok d hseg
    rw [e2, hml, hel]
    unfold current_limit
    rw [hml, hel, ht]
    exact (digit_text_render _ _ hsep _ hok).trans this
  · rw [e4, display_buffer_text _ (by unfold BUFFER_SIZE; omega)]

/-- Witness of C13 at the engine after `100000099` and the digit `8` (the mantissa is full and
the buffer stays), with the cases of the exponent `1e28` (full) and of `775` (the digit is
appended). -/
theorem C13_digit_appended_within_limit_witness :
    (nine_digits.status = OK ∧ nine_digits.input_buffer.length = BUFFER_SIZE + 1 ∧
      valid_sep nine_digits.dp_sep ∧
      nine_digits.mantissa_length_limit = DEFAULT_MANTISSA_LENGTH_LIMIT ∧
      nine_digits.exponent_length_limit = DEFAULT_EXPONENT_LENGTH_LIMIT ∧
      is_digit '8' = true ∧
      shape.ok ⟨false, "100000099".toList, none, none⟩ ∧
      nine_digits.text = render nine_digits.dp_sep ⟨false, "100000099".toList, none, none⟩ ∧
      current_segment nine_digits.text ≠ ['0'] ∧ current_segment nine_digits.text ≠ ['-', '0']) ∧
    (caleng_send_digit nine_digits '8').2.text = "100000099".toList ∧
    (caleng_send_digit (caleng_send_digit nine_digits '8').2 '0').2.text = "100000099".toList ∧
    (caleng_send_digit full_exponent '8').2.text = "1e28".toList ∧
    (caleng_send_digit three_digits '1').2.text = "7751".toList :=
  ⟨⟨by decide, by decide, by decide, by decide, by decide, by decide, by decide, by decide!,
      by decide!, by decide!⟩,
    (C13_digit_appended_within_limit nine_digits '8' ⟨false, "100000099".toList, none, none⟩
      (by decide) (by decide) (by decide) (by decide) (by decide) (by decide) (by decide)
      (by decide!) ⟨by decide!, by decide!⟩).1.trans (by decide!),
    by decide!, by decide!, by decide!⟩

/-- C14 (the code at the failing input): after `1 2 .`, cancel and `5` the stored buffer is `5`
and the bytes `.` and NUL of the cancelled entry still follow its terminator; insert-exponent
then finds that separator, removes the last character of the buffer, the `5`, and the stored
buffer becomes `1e` with the display `1e0`, not `5e` and `5e0`. -/
theorem C14_insert_exp_drops_typed_digit :
    run_view 0 fresh [dg '1', dg '2', gesture.key edit_key.decimal_point, gesture.cancel,
        dg '5', gesture.key edit_key.exponent]
      = some { shown := [(OK, "1"), (OK, "12"), (OK, "12."), (OK, "0"), (OK, "5"), (OK, "1e0")]
               buffer := "1e", memory := 0, sel_op := NONE, status := OK } := by
  decide!

/-- C15 (the code at the failing input): after `1 2 3 4 5 .`, cancel, and `1 e 2 8` the stored
buffer is `1e28` and the bytes `.` and NUL of the cancelled entry still follow its terminator;
insert-exponent then removes the last character and the stored buffer becomes `1e2`. -/
theorem C15_insert_exp_changes_exponent :
    run_view 0 fresh [dg '1', dg '2', dg '3', dg '4', dg '5',
        gesture.key edit_key.decimal_point, gesture.cancel, dg '1',
        gesture.key edit_key.exponent, dg '2', dg '8', gesture.key edit_key.exponent]
      = some { shown := [(OK, "1"), (OK, "12"), (OK, "123"), (OK, "1234"), (OK, "12345"),
                         (OK, "12345."), (OK, "0"), (OK, "1"), (OK, "1e0"), (OK, "1e2"),
                         (OK, "1e28"), (OK, "1e2")]
               buffer := "1e2", memory := 0, sel_op := NONE, status := OK } := by
  decide!

/-- C16: with status ok and an empty buffer, insert-exponent leaves the stored buffer `1e` and
returns ok with the display `1e0`; an immediately repeated insert-exponent returns the same
display and leaves the same stored buffer. -/
theorem C16_insert_exp_on_empty (eng : engine_t) (hst : eng.status = OK)
    (hbuf : eng.input_buffer.length = BUFFER_SIZE + 1) (hdp : eng.dp_sep ≠ NUL)
    (hm : 0 < eng.mantissa_length_limit) (ht : eng.text = []) :
    (caleng_insert_exp eng).2.text = ['1', 'e'] ∧
    (caleng_insert_exp eng).1.rtn_code = OK ∧
    (caleng_insert_exp eng).1.text = ['1', 'e', '0'] ∧
    (caleng_insert_exp (caleng_insert_exp eng).2).2.text = ['1', 'e'] ∧
    (caleng_insert_exp (caleng_insert_exp eng).2).1.rtn_code = OK ∧
    (caleng_insert_exp (caleng_insert_exp eng).2).1.text = ['1', 'e', '0'] := by
  obtain ⟨e1, e2, e3, e4, e5⟩ := insert_exp_text eng hst
    (by rw [hbuf, ht]; unfold BUFFER_SIZE; simp) (by rw [ht]; unfold BUFFER_SIZE; simp) hdp
  have hx : (insert_exp_point_loop eng (BUFFER_SIZE + eng.input_buffer.length + 1) 0).text = [] := by
    rcases e3 with h | h
    · rw [h, ht]
    · rw [h, ht]; rfl
  rw [hx, exp_text_nil _ _ hm] at e2
  have hf := clear_eval_fields { eng with input_buffer := (caleng_insert_exp eng).2.input_buffer }
  rw [← e1] at hf
  obtain ⟨_, f2, f3, f4, f5, _⟩ := hf
  have hst1 : (caleng_insert_exp eng).2.status = OK := f2.trans hst
  have hdp1 : (caleng_insert_exp eng).2.dp_sep ≠ NUL := by rw [f5]; exact hdp
  obtain ⟨_, g2, g3, _, g5⟩ := insert_exp_text (caleng_insert_exp eng).2 hst1
    (by rw [e4, hbuf, e2]; unfold BUFFER_SIZE; simp) (by rw [e2]; unfold BUFFER_SIZE; simp) hdp1
  have hy : (caleng_insert_exp (caleng_insert_exp eng).2).2.text = ['1', 'e'] := by
    rw [g2]
    rcases g3 with h | h
    · rw [h, e2]; exact (exp_text_one_e _ _ _).1
    · rw [h, e2]; exact (exp_text_one_e _ _ _).2
  refine ⟨e2, by rw [e5]; rfl, ?_, hy, by rw [g5]; rfl, ?_⟩
  · rw [e5, display_buffer_text _ (by rw [e2]; unfold BUFFER_SIZE; simp), e2]
    exact formatted_one_e
  · rw [g5, display_buffer_text _ (by rw [hy]; unfold BUFFER_SIZE; simp), hy]
    exact formatted_one_e

/-- Witness of C16 at the fresh engine. -/
theorem C16_insert_exp_on_empty_witness :
    (fresh.status = OK ∧ fresh.input_buffer.length = BUFFER_SIZE + 1 ∧ fresh.dp_sep ≠ NUL ∧
      0 < fresh.mantissa_length_limit ∧ fresh.text = []) ∧
    ((caleng_insert_exp fresh).2.text = ['1', 'e'] ∧
    (caleng_insert_exp fresh).1.rtn_code = OK ∧
    (caleng_insert_exp fresh).1.text = ['1', 'e', '0'] ∧
    (caleng_insert_exp (caleng_insert_exp fresh).2).2.text = ['1', 'e'] ∧
    (caleng_insert_exp (caleng_insert_exp fresh).2).1.rtn_code = OK ∧
    (caleng_insert_exp (caleng_insert_exp fresh).2).1.text = ['1', 'e', '0']) :=
  ⟨⟨by decide, by decide, by decide, by decide, by decide⟩,
    C16_insert_exp_on_empty fresh (by decide) (by decide) (by decide) (by decide) (by decide)⟩

/-- C17: with status ok, insert-decimal-point leaves the stored buffer unchanged if it already
holds the decimal separator or an exponent marker; otherwise, for a buffer of the data model
and the default limits, it appends the separator at the end, after a `0` when the buffer holds
no digit yet; so the empty buffer becomes `0.`, `-` becomes `-0.` and `775` becomes `775.`. -/
theorem C17_insert_decimal_point (eng : engine_t) (hst : eng.status = OK)
    (hbuf : eng.input_buffer.length = BUFFER_SIZE + 1) (hsep : valid_sep eng.dp_sep)
    (hroom : eng.text.length + 3 ≤ BUFFER_SIZE) :
    ((eng.dp_sep ∈ eng.text ∨ 'e' ∈ eng.text) →
      (caleng_insert_decimal_point eng).2.text = eng.text) ∧
    (∀ sh : shape, sh.ok → eng.text = render eng.dp_sep sh →
      eng.mantissa_length_limit = DEFAULT_MANTISSA_LENGTH_LIMIT →
      eng.exponent_length_limit = DEFAULT_EXPONENT_LENGTH_LIMIT →
      eng.dp_sep ∉ eng.text → 'e' ∉ eng.text →
      (caleng_insert_decimal_point eng).2.text
        = (if digit_count eng.text = 0 then eng.text ++ ['0'] else eng.text) ++ [eng.dp_sep]) ∧
    run_view 0 fresh [gesture.key edit_key.decimal_point]
      = some { shown := [(OK, "0.")], buffer := "0.", memory := 0, sel_op := NONE,
               status := OK } ∧
    run_view 0 fresh [gesture.key edit_key.negate, gesture.key edit_key.decimal_point]
      = some { shown := [(OK, "-0"), (OK, "-0.")], buffer := "-0.", memory := 0, sel_op := NONE,
               status := OK } ∧
    run_view 0 fresh [dg '7', dg '7', dg '5', gesture.key edit_key.decimal_point]
      = some { shown := [(OK, "7"), (OK, "77"), (OK, "775"), (OK, "775.")], buffer := "775.",
               memory := 0, sel_op := NONE, status := OK } := by
  obtain ⟨_, e2, _, _⟩ := insert_decimal_point_text eng hst
    (by rw [hbuf]; unfold BUFFER_SIZE at hroom ⊢; omega) (by omega) hsep.1
  refine ⟨?_, ?_, by decide!, by decide!, by decide!⟩
  · intro h
    rw [e2, point_text_of_mem _ _ h]
  · intro sh hok ht hml hel h1 h2
    rw [e2, hml, hel, ht]
    rw [ht] at h1 h2
    exact (point_text_render hsep hok).trans (point_render_append hsep hok h1 h2)

/-- Witness of C17 at the engine after `775` (the separator is appended) and at the engine
after `12.5e-7` (the buffer stays). -/
theorem C17_insert_decimal_point_witness :
    (three_digits.status = OK ∧ three_digits.input_buffer.length = BUFFER_SIZE + 1 ∧
      valid_sep three_digits.dp_sep ∧ three_digits.text.length + 3 ≤ BUFFER_SIZE ∧
      shape.ok ⟨false, ['7', '7', '5'], none, none⟩ ∧
      three_digits.text = render three_digits.dp_sep ⟨false, ['7', '7', '5'], none, none⟩) ∧
    (caleng_insert_decimal_point three_digits).2.text = "775.".toList ∧
    (caleng_insert_decimal_point point_and_exponent).2.text = point_and_exponent.text :=
  ⟨⟨by decide, by decide, by decide, by decide!, by decide, by decide!⟩,
    ((C17_insert_decimal_point three_digits (by decide) (by decide) (by decide)
      (by decide!)).2.1 ⟨false, ['7', '7', '5'], none, none⟩ (by decide) (by decide!)
      (by decide) (by decide) (by decide!) (by decide!)).trans (by decide!),
    (C17_insert_decimal_point point_and_exponent (by decide!) (by decide!) (by decide!)
      (by decide!)).1 (by decide!)⟩

/-- C18: in every engine reachable from the initial state by public operations the stored
buffer holds at most one decimal separator and at most one exponent marker, and no decimal
separator after the exponent marker. -/
theorem C18_separators_once (heap : List Char) (dp : Char) (eng : engine_t)
    (hheap : heap.length = BUFFER_SIZE + 1) (hsep : valid_sep dp)
    (h : reachable heap dp eng) :
    eng.text.count eng.dp_sep ≤ 1 ∧ eng.text.count 'e' ≤ 1 ∧
    eng.dp_sep ∉ exponent_segment eng.text := by
  obtain ⟨i1, i2, i3, i4, sh, hok, ht⟩ := reachable_buffer_inv hheap hsep h
  have := separators_render i4 hok
  rw [← ht] at this
  exact this

/-- Witness of C18 at the engine after `1 2 . 5 e - 7`, whose buffer holds one separator and
one exponent marker. -/
theorem C18_separators_once_witness :
    (zero_heap.length = BUFFER_SIZE + 1 ∧ valid_sep '.' ∧
      reachable zero_heap '.' point_and_exponent) ∧
    point_and_exponent.text = "12.5e-7".toList ∧
    (point_and_exponent.text.count point_and_exponent.dp_sep ≤ 1 ∧
      point_and_exponent.text.count 'e' ≤ 1 ∧
      point_and_exponent.dp_sep ∉ exponent_segment point_and_exponent.text) :=
  ⟨⟨by decide, by decide, reachable_state_after _ (by decide)⟩, by decide!,
    C18_separators_once zero_heap '.' point_and_exponent (by decide) (by decide)
      (reachable_state_after _ (by decide))⟩

/-- C19: with status ok and room for one more character, negate changes the stored buffer only
at one index, the index right after the exponent marker if the buffer holds one and index 0
otherwise: a `-` at that index is removed, and if there is none a `-` is inserted there; the
other characters keep their values and order. So `7` becomes `-7`, `-775.1e` becomes
`-775.1e-` and `-775.1e-40` becomes `-775.1e40`. -/
theorem C19_negate_toggles_minus (eng : engine_t) (hst : eng.status = OK)
    (hbuf : eng.input_buffer.length = BUFFER_SIZE + 1) (hroom : eng.text.length < BUFFER_SIZE) :
    (∀ k : Nat, k = (if 'e' ∈ eng.text then (mantissa_segment eng.text).length + 1 else 0) →
      (char_at eng.text k = '-' → (caleng_negate eng).2.text = eng.text.eraseIdx k) ∧
      (char_at eng.text k ≠ '-' →
        (caleng_negate eng).2.text = eng.text.take k ++ '-' :: eng.text.drop k)) ∧
    run_view 0 fresh [dg '7', gesture.key edit_key.negate]
      = some { shown := [(OK, "7"), (OK, "-7")], buffer := "-7", memory := 0, sel_op := NONE,
               status := OK } ∧
    run_view 0 fresh [dg '7', dg '7', dg '5', gesture.key edit_key.decimal_point, dg '1',
        gesture.key edit_key.negate, gesture.key edit_key.exponent, gesture.key edit_key.negate]
      = some { shown := [(OK, "7"), (OK, "77"), (OK, "775"), (OK, "775."), (OK, "775.1"),
                         (OK, "-775.1"), (OK, "-775.1e0"), (OK, "-775.1e-0")]
               buffer := "-775.1e-", memory := 0, sel_op := NONE, status := OK } ∧
    run_view 0 fresh [dg '7', dg '7', dg '5', gesture.key edit_key.decimal_point, dg '1',
        gesture.key edit_key.negate, gesture.key edit_key.exponent, gesture.key edit_key.negate,
        dg '4', dg '0', gesture.key edit_key.negate]
      = some { shown := [(OK, "7"), (OK, "77"), (OK, "775"), (OK, "775."), (OK, "775.1"),
                         (OK, "-775.1"), (OK, "-775.1e0"), (OK, "-775.1e-0"), (OK, "-775.1e-4"),
                         (OK, "-775.1e-40"), (OK, "-775.1e40")]
               buffer := "-775.1e40", memory := 0, sel_op := NONE, status := OK } := by
  obtain ⟨_, e2, _, _⟩ := negate_text_eq eng hst
    (by rw [hbuf]; unfold BUFFER_SIZE at hroom ⊢; omega) hroom
  have hidx := negate_text_index eng.text (no_nul_cstr _)
  refine ⟨?_, by decide!, by decide!, by decide!⟩
  intro k hk
  have ht : (caleng_negate eng).2.text = toggle_minus eng.text k := by
    rw [e2, hk]
    by_cases he : 'e' ∈ eng.text
    · rw [if_pos he]; exact hidx.1 he
    · rw [if_neg he]; exact hidx.2 he
  constructor
  · intro h
    rw [ht]; unfold toggle_minus; rw [if_pos h]
  · intro h
    rw [ht]; unfold toggle_minus; rw [if_neg h]

/-- Witness of C19 at the engine whose buffer is `-775.1e-40`: the index is 7, the `-` there is
removed and the buffer becomes `-775.1e40`. -/
theorem C19_negate_toggles_minus_witness :
    (signed_exponent.status = OK ∧ signed_exponent.input_buffer.length = BUFFER_SIZE + 1 ∧
      signed_exponent.text.length < BUFFER_SIZE ∧
      signed_exponent.text = "-775.1e-40".toList ∧
      7 = (if 'e' ∈ signed_exponent.text
            then (mantissa_segment signed_exponent.text).length + 1 else 0) ∧
      char_at signed_exponent.text 7 = '-') ∧
    (caleng_negate signed_exponent).2.text = signed_exponent.text.eraseIdx 7 ∧
    signed_exponent.text.eraseIdx 7 = "-775.1e40".toList :=
  ⟨⟨by decide!, by decide!, by decide!, by decide!, by decide!, by decide!⟩,
    ((C19_negate_toggles_minus signed_exponent (by decide!) (by decide!) (by decide!)).1 7
      (by decide!)).1 (by decide!),
    by decide!⟩

/-- C20: with status ok, room for two more characters and a buffer in which no `-` is directly
followed by another `-` (as in every buffer of the editor, which has at most one `-` at the
start and one after the exponent marker), negate applied twice leaves the stored buffer equal
to the original one, with and without exponent marker; from the empty buffer the first negate
stores `-` and displays `-0`. -/
theorem C20_negate_twice (eng : engine_t) (hst : eng.status = OK)
    (hbuf : eng.input_buffer.length = BUFFER_SIZE + 1)
    (hroom : eng.text.length + 1 < BUFFER_SIZE) (hminus : no_double_minus eng.text) :
    (caleng_negate (caleng_negate eng).2).2.text = eng.text ∧
    (eng.text = [] →
      (caleng_negate eng).2.text = ['-'] ∧ (caleng_negate eng).1.rtn_code = OK ∧
      (caleng_negate eng).1.text = ['-', '0']) := by
  obtain ⟨e1, e2, e3, e4⟩ := negate_text_eq eng hst
    (by rw [hbuf]; unfold BUFFER_SIZE at hroom ⊢; omega) (by omega)
  have hl := negate_text_length eng.text
  rw [← e2] at hl
  have hst1 : (caleng_negate eng).2.status = OK := (clear_eval_status_of_eq e1).trans hst
  obtain ⟨_, g2, _, _⟩ := negate_text_eq (caleng_negate eng).2 hst1
    (by rw [e3, hbuf]; unfold BUFFER_SIZE at hroom ⊢; omega) (by omega)
  refine ⟨?_, ?_⟩
  · rw [g2, e2]
    exact negate_text_twice _ (no_nul_cstr _) hminus
  · intro ht
    have hn : (caleng_negate eng).2.text = ['-'] := by rw [e2, ht]; rfl
    refine ⟨hn, by rw [e4]; rfl, ?_⟩
    rw [e4, display_buffer_text _ (by rw [hn]; unfold BUFFER_SIZE; simp), hn]
    rfl

/-- Witness of C20 at the engine whose buffer is `-775.1e-40` (with an exponent marker), with
the case of the buffer `-7` (without one). -/
theorem C20_negate_twice_witness :
    (signed_exponent.status = OK ∧ signed_exponent.input_buffer.length = BUFFER_SIZE + 1 ∧
      signed_exponent.text.length + 1 < BUFFER_SIZE ∧ no_double_minus signed_exponent.text ∧
      no_double_minus minus_seven.text ∧ minus_seven.text = ['-', '7']) ∧
    (caleng_negate (caleng_negate signed_exponent).2).2.text = signed_exponent.text ∧
    (caleng_negate (caleng_negate minus_seven).2).2.text = minus_seven.text ∧
    (caleng_negate fresh).2.text = ['-'] ∧ (caleng_negate fresh).1.text = ['-', '0'] :=
  ⟨⟨by decide!, by decide!, by decide!, by decide!, by decide!, by decide!⟩,
    (C20_negate_twice signed_exponent (by decide!) (by decide!) (by decide!) (by decide!)).1,
    (C20_negate_twice minus_seven (by decide!) (by decide!) (by decide!) (by decide!)).1,
    ((C20_negate_twice fresh (by decide) (by decide) (by decide) (by decide)).2 (by decide)).1,
    ((C20_negate_twice fresh (by decide) (by decide) (by decide) (by decide)).2
      (by decide)).2.2⟩

/-- C21: with status ok and a buffer text shorter than the buffer, backspace removes exactly the
last character of a non-empty buffer and changes nothing on an empty one; it returns ok, with
the display `0` whenever the resulting buffer is empty, and changes neither the memory nor the
pending operation (nor the status, limits and separator). On an empty buffer a repeated
backspace gives the same result. -/
theorem C21_backspace (eng : engine_t) (hst : eng.status = OK)
    (hbuf : eng.input_buffer.length = BUFFER_SIZE + 1) (hsz : eng.text.length < BUFFER_SIZE) :
    (caleng_backspace eng).2.text = eng.text.dropLast ∧
    (eng.text = [] → (caleng_backspace eng).2 = eng ∧
      caleng_backspace (caleng_backspace eng).2 = caleng_backspace eng) ∧
    (caleng_backspace eng).1.rtn_code = OK ∧
    ((caleng_backspace eng).2.text = [] → (caleng_backspace eng).1.text = ['0']) ∧
    (caleng_backspace eng).2.memory = eng.memory ∧
    (caleng_backspace eng).2.sel_op = eng.sel_op ∧
    (caleng_backspace eng).2.status = eng.status ∧
    (caleng_backspace eng).2.mantissa_length_limit = eng.mantissa_length_limit ∧
    (caleng_backspace eng).2.exponent_length_limit = eng.exponent_length_limit ∧
    (caleng_backspace eng).2.dp_sep = eng.dp_sep := by
  obtain ⟨e1, e2, _, e4, e5⟩ := backspace_text eng hst
    (by rw [hbuf]; unfold BUFFER_SIZE at hsz ⊢; omega) hsz
  have hempty : eng.text = [] → (caleng_backspace eng).2 = eng := by
    intro ht
    have h0 : char_at eng.input_buffer 0 = NUL := (char_at_zero_eq_NUL_iff _).2 ht
    unfold caleng_backspace
    rw [if_neg (by simpa using hst), if_pos h0]
  refine ⟨e2, ?_, e4, ?_, ?_, ?_, ?_, ?_, ?_, ?_⟩
  · intro ht
    have := hempty ht
    exact ⟨this, by rw [this]⟩
  · intro ht
    rw [e5 (by unfold BUFFER_SIZE at hsz ⊢; omega), ht]
    rfl
  all_goals rw [e1]

/-- Witness of C21 at the engine after `775` (the last digit is removed) and at the fresh engine
(nothing changes and the display is `0`). -/
theorem C21_backspace_witness :
    (three_digits.status = OK ∧ three_digits.input_buffer.length = BUFFER_SIZE + 1 ∧
      three_digits.text.length < BUFFER_SIZE ∧ three_digits.text = ['7', '7', '5']) ∧
    (caleng_backspace three_digits).2.text = ['7', '7'] ∧
    (caleng_backspace fresh).2 = fresh ∧
    (caleng_backspace fresh).1.text = ['0'] :=
  ⟨⟨by decide, by decide, by decide!, by decide!⟩,
    (C21_backspace three_digits (by decide) (by decide) (by decide!)).1.trans (by decide!),
    ((C21_backspace fresh (by decide) (by decide) (by decide)).2.1 (by decide)).1,
    (C21_backspace fresh (by decide) (by decide) (by decide)).2.2.2.1 (by decide)⟩

/-- C22: for every editing operation (insert-digit of a decimal digit, insert-decimal-point,
insert-exponent, negate, backspace) on an engine with status ok, the default limits and a
buffer of the data model, the call returns ok and the display is the stored buffer after the
call, except that it is `0` when that buffer is empty and has one `0` appended when that buffer
ends in `-` or in `e`; the stored buffer does not receive that character: negate on the empty
buffer stores `-` and displays `-0`, and insert-exponent stores `1e` and displays `1e0`. -/
theorem C22_display_of_edits (eng : engine_t) (k : edit_key) (sh : shape)
    (hst : eng.status = OK) (hbuf : eng.input_buffer.length = BUFFER_SIZE + 1)
    (hsep : valid_sep eng.dp_sep)
    (hml : eng.mantissa_length_limit = DEFAULT_MANTISSA_LENGTH_LIMIT)
    (hel : eng.exponent_length_limit = DEFAULT_EXPONENT_LENGTH_LIMIT)
    (hk : (gesture.key k).legal) (hok : sh.ok) (ht : eng.text = render eng.dp_sep sh) :
    (edit eng k).1.rtn_code = OK ∧
    (edit eng k).1.text = display_rule (edit eng k).2.text ∧
    run_view 0 fresh [gesture.key edit_key.negate]
      = some { shown := [(OK, "-0")], buffer := "-", memory := 0, sel_op := NONE,
               status := OK } ∧
    run_view 0 fresh [gesture.key edit_key.exponent]
      = some { shown := [(OK, "1e0")], buffer := "1e", memory := 0, sel_op := NONE,
               status := OK } := by
  have hinv : buffer_inv eng := ⟨hbuf, hml, hel, hsep, sh, hok, ht⟩
  obtain ⟨d1, d2⟩ := edit_display hinv hst k hk
  obtain ⟨_, _, _, j4, sh2, hok2, ht2⟩ := buffer_inv_edit hinv k hk
  refine ⟨d1, ?_, by decide!, by decide!⟩
  rw [d2, ht2]
  exact formatted_render_rule j4 hok2

/-- Witness of C22 at the engine after `1 2 . 5 e - 7` and backspace: the stored buffer becomes
`12.5e-` and the display `12.5e-0`. -/
theorem C22_display_of_edits_witness :
    (point_and_exponent.status = OK ∧
      point_and_exponent.input_buffer.length = BUFFER_SIZE + 1 ∧
      valid_sep point_and_exponent.dp_sep ∧
      point_and_exponent.mantissa_length_limit = DEFAULT_MANTISSA_LENGTH_LIMIT ∧
      point_and_exponent.exponent_length_limit = DEFAULT_EXPONENT_LENGTH_LIMIT ∧
      (gesture.key edit_key.backspace).legal ∧
      shape.ok ⟨false, ['1', '2'], some ['5'], some (true, ['7'])⟩ ∧
      point_and_exponent.text
        = render point_and_exponent.dp_sep ⟨false, ['1', '2'], some ['5'], some (true, ['7'])⟩) ∧
    (edit point_and_exponent edit_key.backspace).2.text = "12.5e-".toList ∧
    (edit point_and_exponent edit_key.backspace).1.text = "12.5e-0".toList :=
  ⟨⟨by decide, by decide, by decide, by decide, by decide, by decide, by decide, by decide!⟩,
    by decide!,
    (C22_display_of_edits point_and_exponent edit_key.backspace
      ⟨false, ['1', '2'], some ['5'], some (true, ['7'])⟩ (by decide) (by decide) (by decide)
      (by decide) (by decide) (by decide) (by decide) (by decide!)).2.1.trans (by decide!)⟩

/-- C23 (the claim as stated, at a failing input): `2 ^ 2.5 =` is not rejected: the operand
`2.5` has a fractional part, and evaluate returns ok with the memory `4`. -/
theorem C23_counterexample :
    run_view 0 fresh [dg '2', gesture.bi_op POW, dg '2', gesture.key edit_key.decimal_point,
        dg '5', gesture.evaluate]
      = some { shown := [(OK, "2"), (OK, "2"), (OK, "2"), (OK, "2."), (OK, "2.5"), (OK, "4")]
               buffer := "", memory := 4, sel_op := EVAL, status := OK } := by
  decide!

/-- C23 (amended): with status ok and pending power, evaluate converts the second operand `v`
to a `long`: by truncation toward zero when `v` is in the range of `long`, and to a negative
value when `v` is `2 ^ 63` or more. If `v` is at most -1 or at least `2 ^ 63`, evaluate returns
math-error, sets the status to math-error and leaves memory unmodified; for every operand
between, with or without a fractional part, evaluate does not return math-error: when the
power of the old memory to the truncated operand (`power` multiplies in `long double`) is
within the overflow bound, memory becomes that power, with status ok and the pending operation
just-evaluated, and when it is beyond the bound evaluate returns overflow-error. -/
theorem C23_power_operand (fuel : Nat) (eng p : engine_t) (v : ℚ)
    (hst : eng.status = OK) (hop : eng.sel_op = POW) (hv : operand_of eng p v) :
    (v ≤ -1 ∨ 2 ^ 63 ≤ v →
      ∃ r e, caleng_evaluate fuel eng = Except.ok (r, e) ∧ r.rtn_code = MATH_ERR ∧
        e.status = MATH_ERR ∧ e.memory = eng.memory) ∧
    (-1 < v → v < 2 ^ 63 →
      ∃ r e, caleng_evaluate fuel eng = Except.ok (r, e) ∧ r.rtn_code ≠ MATH_ERR ∧
        to_long v = Int.tdiv v.num v.den ∧
        (|power eng.memory (to_long v).toNat| ≤ overflow_bound →
          r.rtn_code = OK ∧ e.status = OK ∧ e.sel_op = EVAL ∧
          e.memory = power eng.memory (to_long v).toNat) ∧
        (overflow_bound < |power eng.memory (to_long v).toNat| →
          r.rtn_code = OVERFLOW_ERR ∧ e.status = OVERFLOW_ERR)) := by
  have hf := operand_frame hv
  have hp := eval_bi_op_pow fuel p v (hf.2.1.trans hop)
  have n1 : eng.sel_op ≠ NONE := by rw [hop]; decide
  have n2 : eng.sel_op ≠ EVAL := by rw [hop]; decide
  constructor
  · intro h
    exact evaluate_math_err fuel eng p v hst n1 n2 hv (hp.1 ((to_long_neg_iff v).2 h))
  · intro h h63
    have hn : ¬ to_long v < 0 := by
      rw [to_long_neg_iff]
      intro hc
      rcases hc with hc | hc
      · linarith
      · linarith
    have he := hp.2 hn
    rw [hf.1] at he
    obtain ⟨r, e, h1, h2, h3, h4⟩ := evaluate_computed fuel eng p v _ hst n1 n2 hv he
    refine ⟨r, e, h1, ?_, to_long_eq (by linarith) h63,
      fun hb => ⟨(h3 hb).1, (h3 hb).2.1, (h3 hb).2.2, h2⟩, h4⟩
    by_cases hb : |power eng.memory (to_long v).toNat| ≤ overflow_bound
    · rw [(h3 hb).1]; decide
    · rw [(h4 (not_le.1 hb)).1]; decide

/-- Witness of C23 at the engine after `2 ^ -1`: evaluate returns math-error and the memory
stays 2; with the run `2 ^ 1e19 =`, whose operand is beyond the range of `long`: math-error
too. -/
theorem C23_power_operand_witness :
    (two_pow_minus_one.status = OK ∧ two_pow_minus_one.sel_op = POW ∧
      operand_of two_pow_minus_one (consumed two_pow_minus_one) (-1) ∧
      two_pow_minus_one.memory = 2) ∧
    (∃ r e, caleng_evaluate 0 two_pow_minus_one = Except.ok (r, e) ∧ r.rtn_code = MATH_ERR ∧
      e.status = MATH_ERR ∧ e.memory = two_pow_minus_one.memory) ∧
    run_view 0 fresh [dg '2', gesture.bi_op POW, dg '1', gesture.key edit_key.exponent,
        dg '1', dg '9', gesture.evaluate]
      = some { shown := [(OK, "2"), (OK, "2"), (OK, "1"), (OK, "1e0"), (OK, "1e1"),
                         (OK, "1e19"), (MATH_ERR, "")]
               buffer := "", memory := 2, sel_op := POW, status := MATH_ERR } :=
  ⟨⟨by decide!, by decide!, Or.inr ⟨by decide!, by decide!⟩, by decide!⟩,
    (C23_power_operand 0 two_pow_minus_one (consumed two_pow_minus_one) (-1) (by decide!)
      (by decide!) (Or.inr ⟨by decide!, by decide!⟩)).1 (Or.inl (by decide!)),
    by decide!⟩

/-- C24: with status ok and pending root, if the index operand is at most 0, or the memory is
negative and the index operand is an even integer, evaluate returns math-error, sets the
status to math-error and leaves memory unmodified; this holds for every amount of fuel, also
none: the root function is not run. -/
theorem C24_root_operand (fuel : Nat) (eng p : engine_t) (v : ℚ)
    (hst : eng.status = OK) (hop : eng.sel_op = ROOT) (hv : operand_of eng p v)
    (h : v ≤ 0 ∨ (eng.memory < 0 ∧ ∃ k : Int, v = 2 * (k : ℚ))) :
    ∃ r e, caleng_evaluate fuel eng = Except.ok (r, e) ∧ caleng_evaluate 0 eng = Except.ok (r, e) ∧
      r.rtn_code = MATH_ERR ∧ e.status = MATH_ERR ∧ e.memory = eng.memory := by
  have hf := operand_frame hv
  have n1 : eng.sel_op ≠ NONE := by rw [hop]; decide
  have n2 : eng.sel_op ≠ EVAL := by rw [hop]; decide
  have hc : to_long v ≤ 0 ∨ (p.memory < 0 ∧ to_long v % 2 = 0) := by
    rcases h with h | ⟨h1, h2⟩
    · exact Or.inl (to_long_nonpos h)
    · exact Or.inr ⟨by rw [hf.1]; exact h1, to_long_even h2⟩
  have he := fun f => eval_bi_op_root f p v (hf.2.1.trans hop) hc
  have h1 := evaluate_of_eval_bi_op fuel eng p p v MATH_ERR hst n1 n2 hv (he fuel)
  have h2 := evaluate_of_eval_bi_op 0 eng p p v MATH_ERR hst n1 n2 hv (he 0)
  rw [if_pos MATH_ERR_ne_OK] at h1 h2
  exact ⟨_, _, h1, h2, rfl, rfl, hf.1⟩

/-- Witness of C24 at the engine after `-8 root 2`: the memory is negative and the index is
even. -/
theorem C24_root_operand_witness :
    (minus_eight_root_two.status = OK ∧ minus_eight_root_two.sel_op = ROOT ∧
      operand_of minus_eight_root_two (consumed minus_eight_root_two) 2 ∧
      minus_eight_root_two.memory = -8) ∧
    (∃ r e, caleng_evaluate 5 minus_eight_root_two = Except.ok (r, e) ∧
      caleng_evaluate 0 minus_eight_root_two = Except.ok (r, e) ∧
      r.rtn_code = MATH_ERR ∧ e.status = MATH_ERR ∧ e.memory = minus_eight_root_two.memory) :=
  ⟨⟨by decide!, by decide!, Or.inr ⟨by decide!, by decide!⟩, by decide!⟩,
    C24_root_operand 5 minus_eight_root_two (consumed minus_eight_root_two) 2 (by decide!)
      (by decide!) (Or.inr ⟨by decide!, by decide!⟩)
      (Or.inr ⟨by decide!, ⟨1, by norm_num⟩⟩)⟩

/-- C25 (the claim as stated, at a failing input): with the memory `-0.5`, `C 0 =` is not
rejected: the negative first operand is truncated to 0 and evaluate returns ok with the
memory 1. -/
theorem C25_counterexample :
    run_view 0 fresh [gesture.key edit_key.negate, dg '0', gesture.key edit_key.decimal_point,
        dg '5', gesture.bi_op COMBINATIONAL, dg '0', gesture.evaluate]
      = some { shown := [(OK, "-0"), (OK, "-0"), (OK, "-0."), (OK, "-0.5"), (OK, "-0.5"),
                         (OK, "0"), (OK, "1")]
               buffer := "", memory := 1, sel_op := EVAL, status := OK } := by
  decide!

/-- C25 (amended): with status ok and pending combination, evaluate converts both operands to
`long`: by truncation toward zero for an operand in the range of `long`, and to a negative
value for an operand of `2 ^ 63` or more. If the memory or the second operand is at most -1 or
at least `2 ^ 63`, evaluate returns math-error, sets the status to math-error and leaves memory
unmodified; if both are between, evaluate does not return math-error and memory becomes the
result of `comb` on the truncated operands. -/
theorem C25_combination_operands (fuel : Nat) (eng p : engine_t) (v : ℚ)
    (hst : eng.status = OK) (hop : eng.sel_op = COMBINATIONAL) (hv : operand_of eng p v) :
    ((eng.memory ≤ -1 ∨ 2 ^ 63 ≤ eng.memory) ∨ (v ≤ -1 ∨ 2 ^ 63 ≤ v) →
      ∃ r e, caleng_evaluate fuel eng = Except.ok (r, e) ∧ r.rtn_code = MATH_ERR ∧
        e.status = MATH_ERR ∧ e.memory = eng.memory) ∧
    (-1 < eng.memory → eng.memory < 2 ^ 63 → -1 < v → v < 2 ^ 63 →
      ∃ r e, caleng_evaluate fuel eng = Except.ok (r, e) ∧ r.rtn_code ≠ MATH_ERR ∧
        to_long eng.memory = Int.tdiv eng.memory.num eng.memory.den ∧
        to_long v = Int.tdiv v.num v.den ∧
        e.memory = ((comb (to_long eng.memory).toNat (to_long v).toNat : Nat) : ℚ)) := by
  have hf := operand_frame hv
  have hp := eval_bi_op_comb fuel p v (hf.2.1.trans hop)
  rw [hf.1] at hp
  have n1 : eng.sel_op ≠ NONE := by rw [hop]; decide
  have n2 : eng.sel_op ≠ EVAL := by rw [hop]; decide
  constructor
  · intro h
    refine evaluate_math_err fuel eng p v hst n1 n2 hv (hp.1 ?_)
    rcases h with h | h
    · exact Or.inl ((to_long_neg_iff _).2 h)
    · exact Or.inr ((to_long_neg_iff _).2 h)
  · intro h1 h1b h2 h2b
    have hn : ¬ (to_long eng.memory < 0 ∨ to_long v < 0) := by
      rw [to_long_neg_iff, to_long_neg_iff]
      intro h
      rcases h with (h | h) | (h | h) <;> linarith
    obtain ⟨r, e, k1, k2, k3, k4⟩ := evaluate_computed fuel eng p v _ hst n1 n2 hv (hp.2 hn)
    refine ⟨r, e, k1, ?_, to_long_eq (by linarith) h1b, to_long_eq (by linarith) h2b, k2⟩
    by_cases hb : |((comb (to_long eng.memory).toNat (to_long v).toNat : Nat) : ℚ)|
        ≤ overflow_bound
    · rw [(k3 hb).1]; decide
    · rw [(k4 (not_le.1 hb)).1]; decide

/-- Witness of C25 at the engine after `5 C -1`: evaluate returns math-error and the memory
stays 5; with the run `1e19 C 0 =`, whose first operand is beyond the range of `long`:
math-error too. -/
theorem C25_combination_operands_witness :
    (five_comb_minus_one.status = OK ∧ five_comb_minus_one.sel_op = COMBINATIONAL ∧
      operand_of five_comb_minus_one (consumed five_comb_minus_one) (-1) ∧
      five_comb_minus_one.memory = 5) ∧
    (∃ r e, caleng_evaluate 0 five_comb_minus_one = Except.ok (r, e) ∧ r.rtn_code = MATH_ERR ∧
      e.status = MATH_ERR ∧ e.memory = five_comb_minus_one.memory) ∧
    run_view 0 fresh [dg '1', gesture.key edit_key.exponent, dg '1', dg '9',
        gesture.bi_op COMBINATIONAL, dg '0', gesture.evaluate]
      = some { shown := [(OK, "1"), (OK, "1e0"), (OK, "1e1"), (OK, "1e19"), (OK, "1e+19"),
                         (OK, "0"), (MATH_ERR, "")]
               buffer := "", memory := 10 ^ 19, sel_op := COMBINATIONAL, status := MATH_ERR } :=
  ⟨⟨by decide!, by decide!, Or.inr ⟨by decide!, by decide!⟩, by decide!⟩,
    (C25_combination_operands 0 five_comb_minus_one (consumed five_comb_minus_one) (-1)
      (by decide!) (by decide!) (Or.inr ⟨by decide!, by decide!⟩)).1
      (Or.inr (Or.inl (by decide!))),
    by decide!⟩

/-- C26 (the claim as stated, at a failing input): the factorial of the typed operand `20.5`,
which is greater than 20, is not rejected: the call returns ok and memory becomes the
factorial of 20. -/
theorem C26_counterexample :
    run_view 0 fresh [dg '2', dg '0', gesture.key edit_key.decimal_point, dg '5',
        gesture.un_op FACT]
      = some { shown := [(OK, "2"), (OK, "20"), (OK, "20."), (OK, "20.5"), (OK, "2.4329e+18")]
               buffer := "", memory := 2432902008176640000, sel_op := EVAL, status := OK } := by
  decide!

/-- C26 (amended): with status ok, when the unary factorial operation resolves an operand `v`
(the memory after the first part of the call, which returned ok), the operand is converted to
a `long`: by truncation toward zero when `v` is in the range of `long`, and to a negative
value when `v` is `2 ^ 63` or more. If `v` is at most -1 or at least `2 ^ 63` the call returns
math-error, if `v` is at least 21 and below `2 ^ 63` it returns overflow-error, and in both
cases the status becomes that error and memory stays `v`; otherwise (`-1 < v < 21`) the call
returns ok, memory becomes the factorial of the truncated operand and the pending operation
becomes just-evaluated. So `20` succeeds, `21` returns overflow-error, `20.5` succeeds with
the factorial of 20, and `1e19` returns math-error. -/
theorem C26_factorial_operand (fuel : Nat) (eng e0 : engine_t) (r0 : result_t)
    (hst : eng.status = OK) (hres : un_op_resolve fuel eng = Except.ok (r0, e0))
    (hr0 : r0.rtn_code = OK) :
    ∃ r e, caleng_eval_un_op fuel eng FACT = Except.ok (r, e) ∧
      (e0.memory ≤ -1 ∨ 2 ^ 63 ≤ e0.memory →
        r.rtn_code = MATH_ERR ∧ e.status = MATH_ERR ∧ e.memory = e0.memory) ∧
      (21 ≤ e0.memory → e0.memory < 2 ^ 63 →
        r.rtn_code = OVERFLOW_ERR ∧ e.status = OVERFLOW_ERR ∧ e.memory = e0.memory) ∧
      (-1 < e0.memory → e0.memory < 21 →
        r.rtn_code = OK ∧ to_long e0.memory = Int.tdiv e0.memory.num e0.memory.den ∧
        e.memory = ((Nat.factorial (to_long e0.memory).toNat : Nat) : ℚ) ∧
        e.sel_op = EVAL ∧ e.status = OK) := by
  have heq := eval_un_op_eq fuel eng FACT hst
  rw [hres] at heq
  simp only at heq
  have hs0 : e0.status = OK := (un_op_resolve_status hres hst).trans hr0
  obtain ⟨f1, f2, f3⟩ := un_op_finish_fact r0 e0 hr0
  refine ⟨(un_op_finish r0 e0 FACT).1, (un_op_finish r0 e0 FACT).2, heq, ?_, ?_, ?_⟩
  · intro h; rw [f1 h]; exact ⟨rfl, rfl, rfl⟩
  · intro h h63; rw [f2 h h63]; exact ⟨rfl, rfl, rfl⟩
  · intro ha hb
    rw [f3 ha hb]
    exact ⟨rfl, to_long_eq (by linarith) (by linarith), rfl, rfl, hs0⟩

/-- Witness of C26 at the engine after `20` is typed: the factorial succeeds; with the runs
`21 !` (overflow-error), `-1 !` (math-error) and `1e19 !` (math-error). -/
theorem C26_factorial_operand_witness :
    (twenty_typed.status = OK ∧
      un_op_resolve 0 twenty_typed
        = Except.ok (result_init, { consumed twenty_typed with memory := 20 }) ∧
      result_init.rtn_code = OK) ∧
    (∃ r e, caleng_eval_un_op 0 twenty_typed FACT = Except.ok (r, e) ∧
      r.rtn_code = OK ∧ e.memory = 2432902008176640000 ∧ e.sel_op = EVAL ∧ e.status = OK) ∧
    run_view 0 fresh [dg '2', dg '1', gesture.un_op FACT]
      = some { shown := [(OK, "2"), (OK, "21"), (OVERFLOW_ERR, "")]
               buffer := "", memory := 21, sel_op := NONE, status := OVERFLOW_ERR } ∧
    run_view 0 fresh [gesture.key edit_key.negate, dg '1', gesture.un_op FACT]
      = some { shown := [(OK, "-0"), (OK, "-1"), (MATH_ERR, "")]
               buffer := "", memory := -1, sel_op := NONE, status := MATH_ERR } ∧
    run_view 0 fresh [dg '1', gesture.key edit_key.exponent, dg '1', dg '9',
        gesture.un_op FACT]
      = some { shown := [(OK, "1"), (OK, "1e0"), (OK, "1e1"), (OK, "1e19"), (MATH_ERR, "")]
               buffer := "", memory := 10 ^ 19, sel_op := NONE, status := MATH_ERR } :=
  ⟨⟨by decide!, by decide!, by decide⟩,
    (by
      obtain ⟨r, e, h, _, _, h3⟩ := C26_factorial_operand 0 twenty_typed
        { consumed twenty_typed with memory := 20 } result_init (by decide!) (by decide!)
        (by decide)
      obtain ⟨k1, _, k2, k3, k4⟩ := h3 (by norm_num) (by norm_num)
      exact ⟨r, e, h, k1, by rw [k2]; decide!, k3, k4⟩),
    by decide!, by decide!, by decide!⟩

/-- C27: with status ok, pending operation just-evaluated and an empty buffer, the factorial
operation takes the memory as its operand: for a memory between 0 and 20 (truncated) it returns
ok with the text of the new memory, memory becomes the factorial, the buffer stays empty and the
pending operation stays just-evaluated. So `3 ! !` displays `6` and then `720`, and `4 !`
displays `24`. -/
theorem C27_factorial_chains (fuel : Nat) (eng : engine_t)
    (hst : eng.status = OK) (hev : eng.sel_op = EVAL) (ht : eng.text = [])
    (hlo : -1 < eng.memory) (hhi : eng.memory < 21) :
    (∃ r e, caleng_eval_un_op fuel eng FACT = Except.ok (r, e) ∧ r.rtn_code = OK ∧
      r.to_display = caleng_get_memory_string e result_init.to_display ∧
      e.memory = ((Nat.factorial (to_long eng.memory).toNat : Nat) : ℚ) ∧
      e.text = [] ∧ e.sel_op = EVAL ∧ e.status = OK) ∧
    run_view 0 fresh [dg '3', gesture.un_op FACT, gesture.un_op FACT]
      = some { shown := [(OK, "3"), (OK, "6"), (OK, "720")]
               buffer := "", memory := 720, sel_op := EVAL, status := OK } ∧
    run_view 0 fresh [dg '4', gesture.un_op FACT]
      = some { shown := [(OK, "4"), (OK, "24")]
               buffer := "", memory := 24, sel_op := EVAL, status := OK } := by
  have h0 : char_at eng.input_buffer 0 = NUL := (char_at_zero_eq_NUL_iff _).2 ht
  have hres : un_op_resolve fuel eng = Except.ok (result_init, eng) := by
    unfold un_op_resolve
    rw [if_neg (by rw [hev]; decide), if_pos ⟨hev, h0⟩]
  have heq := eval_un_op_eq fuel eng FACT hst
  rw [hres] at heq
  simp only at heq
  have hf := (un_op_finish_fact result_init eng rfl).2.2 hlo hhi
  rw [hf] at heq
  exact ⟨⟨_, _, heq, rfl, rfl, rfl, ht, rfl, hst⟩, by decide!, by decide!⟩

/-- Witness of C27 at the engine after `3 !`, whose memory is 6: the second factorial gives
720. -/
theorem C27_factorial_chains_witness :
    (three_factorial.status = OK ∧ three_factorial.sel_op = EVAL ∧ three_factorial.text = [] ∧
      three_factorial.memory = 6) ∧
    (∃ r e, caleng_eval_un_op 0 three_factorial FACT = Except.ok (r, e) ∧ r.rtn_code = OK ∧
      r.to_display = caleng_get_memory_string e result_init.to_display ∧
      e.memory = ((Nat.factorial (to_long three_factorial.memory).toNat : Nat) : ℚ) ∧
      e.text = [] ∧ e.sel_op = EVAL ∧ e.status = OK) :=
  ⟨⟨by decide!, by decide!, by decide!, by decide!⟩,
    (C27_factorial_chains 0 three_factorial (by decide!) (by decide!) (by decide!)
      (by decide!) (by decide!)).1⟩

/-- C28 (the claim as stated, at a failing input): `9.99999999e99 + 8.99999999e90 =` returns
overflow-error and sets the status to overflow-error, although the magnitude of the computed
sum is not greater than `9.999999999e99`: the bound of the test is the `double` nearest to that
number, which is smaller. -/
theorem C28_counterexample :
    run_view 0 fresh [dg '9', gesture.key edit_key.decimal_point, dg '9', dg '9', dg '9',
        dg '9', dg '9', dg '9', dg '9', dg '9', gesture.key edit_key.exponent, dg '9', dg '9',
        gesture.bi_op ADD, dg '8', gesture.key edit_key.decimal_point, dg '9', dg '9', dg '9',
        dg '9', dg '9', dg '9', dg '9', dg '9', gesture.key edit_key.exponent, dg '9', dg '0',
        gesture.evaluate]
      = some { shown := [(OK, "9"), (OK, "9."), (OK, "9.9"), (OK, "9.99"), (OK, "9.999"),
                         (OK, "9.9999"), (OK, "9.99999"), (OK, "9.999999"), (OK, "9.9999999"),
                         (OK, "9.99999999"), (OK, "9.99999999e0"), (OK, "9.99999999e9"),
                         (OK, "9.99999999e99"), (OK, "1e+100"), (OK, "8"), (OK, "8."),
                         (OK, "8.9"), (OK, "8.99"), (OK, "8.999"), (OK, "8.9999"),
                         (OK, "8.99999"), (OK, "8.999999"), (OK, "8.9999999"),
                         (OK, "8.99999999"), (OK, "8.99999999e0"), (OK, "8.99999999e9"),
                         (OK, "8.99999999e90"), (OVERFLOW_ERR, "")]
               buffer := "", memory := 10542197942176303419 * 2 ^ 269, sel_op := ADD,
               status := OVERFLOW_ERR } ∧
    |(10542197942176303419 * 2 ^ 269 : ℚ)| ≤ 9999999999 * 10 ^ 90 ∧
    overflow_bound < |(10542197942176303419 * 2 ^ 269 : ℚ)| ∧
    overflow_bound = 5147557588953273 * 2 ^ 280 := by
  decide!

/-- C28 (amended): with status ok and a pending binary operation (not none, not
just-evaluated), when `caleng_eval_bi_op` returns on the operand without rejecting it, evaluate
returns and memory holds the computed value; if its magnitude is strictly greater than the
overflow bound, which is the `double` nearest to `9.999999999e99`, evaluate returns
overflow-error and the status becomes overflow-error, and if it is at most that bound evaluate
returns ok, the status stays ok and the pending operation becomes just-evaluated. For every
pending operation but root `caleng_eval_bi_op` does return, on every operand. For root it
returns only when the loop of `root` ends: when the loop does not end within the fuel,
evaluate produces no result. -/
theorem C28_overflow_after_evaluate (fuel : Nat) (eng p e1 : engine_t) (v : ℚ) (rtn : Int)
    (hst : eng.status = OK) (hop1 : eng.sel_op ≠ NONE) (hop2 : eng.sel_op ≠ EVAL)
    (hv : operand_of eng p v)
    (he : caleng_eval_bi_op fuel p v = Except.ok (rtn, e1)) (hval : rtn ≠ MATH_ERR) :
    (∃ r e, caleng_evaluate fuel eng = Except.ok (r, e) ∧ r.rtn_code = rtn ∧
      e.memory = e1.memory ∧
      (overflow_bound < |e1.memory| → rtn = OVERFLOW_ERR ∧ e.status = OVERFLOW_ERR) ∧
      (|e1.memory| ≤ overflow_bound → rtn = OK ∧ e.status = OK ∧ e.sel_op = EVAL)) ∧
    (eng.sel_op ≠ ROOT → ∀ (q : engine_t) (w : ℚ) (f : Nat), q.sel_op = eng.sel_op →
      ∃ c q1, caleng_eval_bi_op f q w = Except.ok (c, q1)) ∧
    (∀ (q q0 : engine_t) (w : ℚ) (f : Nat) (x : fault), q.status = OK → q.sel_op = ROOT →
      operand_of q q0 w → caleng_eval_bi_op f q0 w = Except.error x →
      caleng_evaluate f q = Except.error x) := by
  have hev := evaluate_of_eval_bi_op fuel eng p e1 v rtn hst hop1 hop2 hv he
  have hf := operand_frame hv
  have hfr := eval_bi_op_frame he
  have hs1 : e1.status = OK := by rw [hfr]; exact hf.2.2.trans hst
  have hoc : (rtn, e1) = overflow_check e1 := by
    rcases eval_bi_op_result he with h | h
    · exact absurd h.1 hval
    · exact h
  refine ⟨?_, ?_, ?_⟩
  · by_cases hb : |e1.memory| ≤ overflow_bound
    · rw [overflow_check_ok hb] at hoc
      have hr : rtn = OK := (Prod.mk.inj hoc).1
      subst hr
      rw [if_neg (by simp)] at hev
      exact ⟨_, _, hev, rfl, rfl, fun h => absurd hb (not_le.2 h), fun _ => ⟨rfl, hs1, rfl⟩⟩
    · rw [overflow_check_err (not_le.1 hb)] at hoc
      have hr : rtn = OVERFLOW_ERR := (Prod.mk.inj hoc).1
      subst hr
      rw [if_pos (by decide)] at hev
      exact ⟨_, _, hev, rfl, rfl, fun _ => ⟨rfl, rfl⟩, fun h => absurd h hb⟩
  · intro hroot q w f hq
    unfold caleng_eval_bi_op
    rw [hq]
    split_ifs <;> exact ⟨_, _, rfl⟩
  · intro q q0 w f x hqs hqo hw hx
    have n1 : q.sel_op ≠ NONE := by rw [hqo]; decide
    have n2 : q.sel_op ≠ EVAL := by rw [hqo]; decide
    unfold caleng_evaluate
    rw [if_neg (fun h => h hqs), if_neg (fun h => h.elim n1 n2)]
    rcases hw with ⟨ht, hwv, hq0⟩ | ⟨ht, hp⟩
    · rw [if_pos ((char_at_zero_eq_NUL_iff _).2 ht)]
      rw [hq0, hwv] at hx
      rw [hx]
    · rw [if_neg (by rw [char_at_zero_eq_NUL_iff]; exact ht), hp]
      simp only [hx]

/-- Witness of C28 at the engine after `9e99 * 9e99`: the product of the two `long double`
operands, about `8.1e199`, is beyond the bound, evaluate returns overflow-error and the memory
holds the product. -/
theorem C28_overflow_after_evaluate_witness :
    (big_product.status = OK ∧ big_product.sel_op ≠ NONE ∧ big_product.sel_op ≠ EVAL ∧
      operand_of big_product (consumed big_product) (round_ld (9 * 10 ^ 99)) ∧
      caleng_eval_bi_op 0 (consumed big_product) (round_ld (9 * 10 ^ 99))
        = Except.ok (OVERFLOW_ERR,
            { consumed big_product with memory := 9760175453666680677 * 2 ^ 601 }) ∧
      OVERFLOW_ERR ≠ MATH_ERR) ∧
    (∃ r e, caleng_evaluate 0 big_product = Except.ok (r, e) ∧ r.rtn_code = OVERFLOW_ERR ∧
      e.memory = 9760175453666680677 * 2 ^ 601 ∧
      (overflow_bound < |(9760175453666680677 * 2 ^ 601 : ℚ)| →
        OVERFLOW_ERR = OVERFLOW_ERR ∧ e.status = OVERFLOW_ERR) ∧
      (|(9760175453666680677 * 2 ^ 601 : ℚ)| ≤ overflow_bound →
        OVERFLOW_ERR = OK ∧ e.status = OK ∧ e.sel_op = EVAL)) :=
  ⟨⟨by decide!, by decide!, by decide!, Or.inr ⟨by decide!, by decide!⟩, by decide!, by decide⟩,
    (C28_overflow_after_evaluate 0 big_product (consumed big_product)
      { consumed big_product with memory := 9760175453666680677 * 2 ^ 601 }
      (round_ld (9 * 10 ^ 99)) OVERFLOW_ERR
      (by decide!) (by decide!) (by decide!) (Or.inr ⟨by decide!, by decide!⟩) (by decide!)
      (by decide)).1⟩

/-- C29: in every engine reachable from the initial state by public operations,
`caleng_process_input_buffer` returns: the text of the buffer after the repair step (`0` for
the empty buffer, a `0` appended after a trailing `-` or `e`) and the removal of a separator
at its end is read by `sscanf` as a number `v`, the assertion holds, `v` is returned and the
buffer is empty afterwards. -/
theorem C29_parse_succeeds (heap : List Char) (dp : Char) (eng : engine_t)
    (hheap : heap.length = BUFFER_SIZE + 1) (hsep : valid_sep dp)
    (h : reachable heap dp eng) :
    ∃ v p, caleng_process_input_buffer eng = Except.ok (v, p) ∧
      formatted eng.text = display_rule eng.text ∧
      scan_Lf eng.dp_sep (trim_point eng.dp_sep (display_rule eng.text)) = some v ∧
      p.text = [] := by
  obtain ⟨i1, i2, i3, i4, sh, hok, ht⟩ := reachable_buffer_inv hheap hsep h
  have hl := render_length_le eng.dp_sep hok
  rw [← ht] at hl
  obtain ⟨b2, hb2, heq⟩ := process_input_buffer_text eng
    (by rw [i1]; unfold BUFFER_SIZE; omega) i4.1
  have hrule : formatted eng.text = display_rule eng.text := by
    rw [ht]; exact formatted_render_rule i4 hok
  have htxt : trim_point eng.dp_sep (formatted eng.text) = render eng.dp_sep sh.shown.trim := by
    rw [ht, formatted_render i4 hok, trim_point_render i4 (shape_shown_ok hok)]
  have hsome := scan_Lf_render i4 (shape_numeral_of_ok hok)
  rw [← htxt, ← hb2] at hsome
  cases hv : scan_Lf eng.dp_sep (cstr b2) with
  | none => exact absurd hv hsome
  | some v =>
    rw [hv] at heq
    refine ⟨v, _, heq, hrule, ?_, ?_⟩
    · rw [← hrule, ← hb2]; exact hv
    · exact cstr_set_zero_NUL _

/-- Witness of C29 at the engine after `1 2 .`: the separator at the end is removed and the
number read is 12. -/
theorem C29_parse_succeeds_witness :
    (zero_heap.length = BUFFER_SIZE + 1 ∧ valid_sep '.' ∧
      reachable zero_heap '.' dangling_point) ∧
    caleng_process_input_buffer dangling_point = Except.ok (12, consumed dangling_point) ∧
    (∃ v p, caleng_process_input_buffer dangling_point = Except.ok (v, p) ∧
      formatted dangling_point.text = display_rule dangling_point.text ∧
      scan_Lf dangling_point.dp_sep
        (trim_point dangling_point.dp_sep (display_rule dangling_point.text)) = some v ∧
      p.text = []) :=
  ⟨⟨by decide, by decide, reachable_state_after _ (by decide)⟩, by decide!,
    C29_parse_succeeds zero_heap '.' dangling_point (by decide) (by decide)
      (reachable_state_after _ (by decide))⟩

/-- C30: in every engine reachable from the initial state by public operations the status is
ok, overflow-error or math-error, never syntax-error, and every public operation called on it
returns one of these three codes, never syntax-error. -/
theorem C30_no_syntax_error (heap : List Char) (dp : Char) (eng : engine_t)
    (h : reachable heap dp eng) :
    (eng.status = OK ∨ eng.status = OVERFLOW_ERR ∨ eng.status = MATH_ERR) ∧
    eng.status ≠ SYNTAX_ERR ∧
    ∀ (fuel : Nat) (g : gesture) (r : result_t) (e1 : engine_t),
      perform fuel eng g = Except.ok (r, e1) →
      (r.rtn_code = OK ∨ r.rtn_code = OVERFLOW_ERR ∨ r.rtn_code = MATH_ERR) ∧
      r.rtn_code ≠ SYNTAX_ERR := by
  have hc := reachable_code h
  refine ⟨hc, code_ok_ne_SYNTAX_ERR hc, ?_⟩
  intro fuel g r e1 hp
  have := (perform_code hc hp).1
  exact ⟨this, code_ok_ne_SYNTAX_ERR this⟩

/-- Witness of C30 at the engine after `7 / 0 =`, whose status is math-error. -/
theorem C30_no_syntax_error_witness :
    reachable zero_heap '.' stuck ∧ stuck.status = MATH_ERR ∧
    ((stuck.status = OK ∨ stuck.status = OVERFLOW_ERR ∨ stuck.status = MATH_ERR) ∧
    stuck.status ≠ SYNTAX_ERR ∧
    ∀ (fuel : Nat) (g : gesture) (r : result_t) (e1 : engine_t),
      perform fuel stuck g = Except.ok (r, e1) →
      (r.rtn_code = OK ∨ r.rtn_code = OVERFLOW_ERR ∨ r.rtn_code = MATH_ERR) ∧
      r.rtn_code ≠ SYNTAX_ERR) :=
  ⟨reachable_state_after _ (by decide), by decide!,
    C30_no_syntax_error zero_heap '.' stuck (reachable_state_after _ (by decide))⟩

/-- C31: for every `x` from 0 to 20 the function `factorial` returns the factorial of `x`, which
is below `2 ^ 64`, so the 64-bit accumulator does not wrap around; `factorial 0` and
`factorial 1` are 1 and `factorial 20` is 2432902008176640000. At 21 the accumulator wraps. -/
theorem C31_factorial_exact (x : Nat) (hx : x ≤ 20) :
    factorial x = Nat.factorial x ∧ Nat.factorial x < 2 ^ 64 ∧
    factorial 0 = 1 ∧ factorial 1 = 1 ∧ factorial 20 = 2432902008176640000 ∧
    factorial 21 ≠ Nat.factorial 21 := by
  refine ⟨factorial_eq x hx, ?_, by decide, by decide, by decide, by decide⟩
  exact lt_of_le_of_lt (Nat.factorial_le hx) (by decide)

/-- Witness of C31 at 15: the factorial of 15 is 1307674368000. -/
theorem C31_factorial_exact_witness :
    (15 : Nat) ≤ 20 ∧ factorial 15 = 1307674368000 ∧
    (factorial 15 = Nat.factorial 15 ∧ Nat.factorial 15 < 2 ^ 64 ∧
    factorial 0 = 1 ∧ factorial 1 = 1 ∧ factorial 20 = 2432902008176640000 ∧
    factorial 21 ≠ Nat.factorial 21) :=
  ⟨by decide, by decide, C31_factorial_exact 15 (by decide)⟩

/-- C32: the function `comb` returns the binomial coefficient reduced modulo `2 ^ 32` (for `y`
below `2 ^ 31`), because the row of Pascal's triangle is kept in 32-bit entries: it is the
binomial coefficient when that is below `2 ^ 32`, so `comb x 0` and `comb x x` are 1,
`comb 45 2` is 990 and `comb 77 5` is 19757815, but `comb 35 17` is 242600354 while 35 choose 17
is 4537567650. -/
theorem C32_comb_modulo (x y : Nat) (hy : y < 2 ^ 31) :
    comb x y = Nat.choose x y % 2 ^ 32 ∧
    (Nat.choose x y < 2 ^ 32 → comb x y = Nat.choose x y) ∧
    comb x 0 = 1 ∧ (x < 2 ^ 31 → comb x x = 1) ∧
    comb 45 2 = 990 ∧ comb 77 5 = 19757815 ∧
    comb 35 17 = 242600354 ∧ Nat.choose 35 17 = 4537567650 ∧
    comb 35 17 ≠ Nat.choose 35 17 := by
  have h := comb_eq_choose_mod x y hy
  have hc : Nat.choose 35 17 = 4537567650 := by
    rw [Nat.choose_eq_descFactorial_div_factorial]
    decide!
  refine ⟨h, fun hlt => by rw [h, Nat.mod_eq_of_lt hlt], ?_, ?_, by decide!, by decide!,
    by decide!, hc, ?_⟩
  · rw [comb_eq_choose_mod x 0 (by decide), Nat.choose_zero_right]
    rfl
  · intro hx
    rw [comb_eq_choose_mod x x hx, Nat.choose_self]
    rfl
  · rw [hc]
    decide!

/-- Witness of C32 at `comb 25 1`, which is 25. -/
theorem C32_comb_modulo_witness :
    (1 : Nat) < 2 ^ 31 ∧ comb 25 1 = 25 ∧
    (comb 25 1 = Nat.choose 25 1 % 2 ^ 32 ∧
    (Nat.choose 25 1 < 2 ^ 32 → comb 25 1 = Nat.choose 25 1) ∧
    comb 25 0 = 1 ∧ (25 < 2 ^ 31 → comb 25 25 = 1) ∧
    comb 45 2 = 990 ∧ comb 77 5 = 19757815 ∧
    comb 35 17 = 242600354 ∧ Nat.choose 35 17 = 4537567650 ∧
    comb 35 17 ≠ Nat.choose 35 17) :=
  ⟨by decide, by decide!, C32_comb_modulo 25 1 (by decide)⟩

/-- C33: on an engine with status ok and a pending binary operation, the unary factorial
operation does what evaluate followed by the unary factorial operation does: when evaluate
faults both fault, and when evaluate returns, both return, they leave the same engine and
return the same code, with the same displayed text when the code is ok; when evaluate returns
an error, the factorial operation returns the result of evaluate and leaves the engine of
evaluate, so no factorial is computed. -/
theorem C33_factorial_evaluates_first (fuel : Nat) (eng : engine_t)
    (hst : eng.status = OK) (h1 : eng.sel_op ≠ NONE) (h2 : eng.sel_op ≠ EVAL) :
    (∀ f, caleng_evaluate fuel eng = Except.error f →
      caleng_eval_un_op fuel eng FACT = Except.error f) ∧
    (∀ r1 e1, caleng_evaluate fuel eng = Except.ok (r1, e1) →
      ∃ r2 r3 e2, caleng_eval_un_op fuel eng FACT = Except.ok (r2, e2) ∧
        caleng_eval_un_op fuel e1 FACT = Except.ok (r3, e2) ∧
        r2.rtn_code = r3.rtn_code ∧ (r2.rtn_code = OK → r2.text = r3.text) ∧
        (r1.rtn_code ≠ OK → r2 = r1 ∧ e2 = e1)) := by
  have heq := eval_un_op_eq fuel eng FACT hst
  have hres : un_op_resolve fuel eng = caleng_evaluate fuel eng := by
    unfold un_op_resolve
    rw [if_neg h1, if_neg (fun h => h2 h.1)]
  rw [hres] at heq
  refine ⟨?_, ?_⟩
  · intro f hf
    rw [heq, hf]
  · intro r1 e1 hev
    rw [hev] at heq
    simp only at heq
    have hs1 : e1.status = r1.rtn_code := evaluate_status hev hst
    by_cases hr : r1.rtn_code = OK
    · have hsel : e1.sel_op = EVAL := evaluate_ok_sel_op hst hev hr
      have ht : e1.text = [] := (evaluate_text hst hev).1 h2
      have h0 : char_at e1.input_buffer 0 = NUL := (char_at_zero_eq_NUL_iff _).2 ht
      have hsecond : caleng_eval_un_op fuel e1 FACT
          = Except.ok (un_op_finish result_init e1 FACT) := by
        rw [eval_un_op_eq fuel e1 FACT (hs1.trans hr)]
        unfold un_op_resolve
        rw [if_neg (by rw [hsel]; decide), if_pos ⟨hsel, h0⟩]
      obtain ⟨k1, k2, k3⟩ := un_op_finish_of_ok r1 result_init e1 FACT hr rfl
      refine ⟨(un_op_finish r1 e1 FACT).1, (un_op_finish result_init e1 FACT).1,
        (un_op_finish r1 e1 FACT).2, heq, ?_, k2, k3, fun h => absurd hr h⟩
      rw [hsecond, k1]
    · have hfin := un_op_finish_of_error r1 e1 FACT hr
      have he : ({ e1 with status := r1.rtn_code } : engine_t) = e1 := by
        rw [← hs1]
      have hsecond : caleng_eval_un_op fuel e1 FACT
          = Except.ok ({ result_init with rtn_code := e1.status }, e1) :=
        (calls_in_error_state e1 fuel '0' FACT 0 (by rw [hs1]; exact hr)).2.2.2.2.2.2.1
      refine ⟨r1, { result_init with rtn_code := e1.status }, e1, ?_, hsecond, hs1.symm,
        fun h => absurd h hr, fun _ => ⟨rfl, rfl⟩⟩
      rw [heq, hfin, he]

/-- Witness of C33 at the engine after `2 + 3`: the factorial key gives 120, as evaluate and the
factorial key do; after `7 / 0` the factorial key returns math-error. -/
theorem C33_factorial_evaluates_first_witness :
    (two_plus_three.status = OK ∧ two_plus_three.sel_op ≠ NONE ∧
      two_plus_three.sel_op ≠ EVAL) ∧
    run_view 0 fresh [dg '2', gesture.bi_op ADD, dg '3', gesture.un_op FACT]
      = some { shown := [(OK, "2"), (OK, "2"), (OK, "3"), (OK, "120")]
               buffer := "", memory := 120, sel_op := EVAL, status := OK } ∧
    run_view 0 fresh [dg '2', gesture.bi_op ADD, dg '3', gesture.evaluate, gesture.un_op FACT]
      = some { shown := [(OK, "2"), (OK, "2"), (OK, "3"), (OK, "5"), (OK, "120")]
               buffer := "", memory := 120, sel_op := EVAL, status := OK } ∧
    run_view 0 fresh [dg '7', gesture.bi_op DIV, dg '0', gesture.un_op FACT]
      = some { shown := [(OK, "7"), (OK, "7"), (OK, "0"), (MATH_ERR, "")]
               buffer := "", memory := 7, sel_op := DIV, status := MATH_ERR } ∧
    ((∀ f, caleng_evaluate 0 two_plus_three = Except.error f →
      caleng_eval_un_op 0 two_plus_three FACT = Except.error f) ∧
    (∀ r1 e1, caleng_evaluate 0 two_plus_three = Except.ok (r1, e1) →
      ∃ r2 r3 e2, caleng_eval_un_op 0 two_plus_three FACT = Except.ok (r2, e2) ∧
        caleng_eval_un_op 0 e1 FACT = Except.ok (r3, e2) ∧
        r2.rtn_code = r3.rtn_code ∧ (r2.rtn_code = OK → r2.text = r3.text) ∧
        (r1.rtn_code ≠ OK → r2 = r1 ∧ e2 = e1))) :=
  ⟨⟨by decide!, by decide!, by decide!⟩, by decide!, by decide!, by decide!,
    C33_factorial_evaluates_first 0 two_plus_three (by decide!) (by decide!) (by decide!)⟩

/-- C34: on an engine with status ok, each editing key leaves the memory, the status, both
digit limits and the decimal separator as they are; insert-digit, insert-decimal-point,
insert-exponent and negate change a just-evaluated pending operation to none and keep every
other pending operation, and backspace keeps the pending operation in every case. -/
theorem C34_edit_frame (eng : engine_t) (k : edit_key) (hst : eng.status = OK) :
    (edit eng k).2.memory = eng.memory ∧ (edit eng k).2.status = eng.status ∧
    (edit eng k).2.mantissa_length_limit = eng.mantissa_length_limit ∧
    (edit eng k).2.exponent_length_limit = eng.exponent_length_limit ∧
    (edit eng k).2.dp_sep = eng.dp_sep ∧
    (k ≠ edit_key.backspace →
      (eng.sel_op = EVAL → (edit eng k).2.sel_op = NONE) ∧
      (eng.sel_op ≠ EVAL → (edit eng k).2.sel_op = eng.sel_op)) ∧
    (k = edit_key.backspace → (edit eng k).2.sel_op = eng.sel_op) := by
  obtain ⟨f1, f2, f3, f4, f5, f6⟩ := edit_frame_edit eng k
  refine ⟨f1, f2, f3, f4, f5, ?_, ?_⟩
  · intro hk
    have hne := edit_ne_EVAL eng k hst hk
    rcases f6 with f6 | ⟨f6, f7⟩
    · exact ⟨fun hev => absurd (f6.trans hev) hne, fun _ => f6⟩
    · exact ⟨fun _ => f7, fun h => absurd f6 h⟩
  · intro hk
    subst hk
    obtain ⟨b, hb⟩ := backspace_fields eng
    show (caleng_backspace eng).2.sel_op = eng.sel_op
    rw [hb]

/-- Witness of C34 at the engine after `5 =`, whose pending operation is just-evaluated: the
digit `7` sets the pending operation to none. -/
theorem C34_edit_frame_witness :
    five_evaluated.status = OK ∧ five_evaluated.sel_op = EVAL ∧
    (edit five_evaluated (edit_key.digit '7')).2.sel_op = NONE ∧
    (edit five_evaluated edit_key.backspace).2.sel_op = EVAL ∧
    ((edit five_evaluated (edit_key.digit '7')).2.memory = five_evaluated.memory ∧
    (edit five_evaluated (edit_key.digit '7')).2.status = five_evaluated.status ∧
    (edit five_evaluated (edit_key.digit '7')).2.mantissa_length_limit
      = five_evaluated.mantissa_length_limit ∧
    (edit five_evaluated (edit_key.digit '7')).2.exponent_length_limit
      = five_evaluated.exponent_length_limit ∧
    (edit five_evaluated (edit_key.digit '7')).2.dp_sep = five_evaluated.dp_sep ∧
    (edit_key.digit '7' ≠ edit_key.backspace →
      (five_evaluated.sel_op = EVAL → (edit five_evaluated (edit_key.digit '7')).2.sel_op = NONE) ∧
      (five_evaluated.sel_op ≠ EVAL →
        (edit five_evaluated (edit_key.digit '7')).2.sel_op = five_evaluated.sel_op)) ∧
    (edit_key.digit '7' = edit_key.backspace →
      (edit five_evaluated (edit_key.digit '7')).2.sel_op = five_evaluated.sel_op)) :=
  ⟨by decide!, by decide!, by decide!, by decide!,
    C34_edit_frame five_evaluated (edit_key.digit '7') (by decide!)⟩

/-- C35 (the claim as stated, at a failing input): after `1234567` is typed and evaluate is
pressed the memory is 1234567 and the display is `1.23457e+06`, which is read as 1234570. -/
theorem C35_counterexample :
    run_view 0 fresh [dg '1', dg '2', dg '3', dg '4', dg '5', dg '6', dg '7', gesture.evaluate]
      = some { shown := [(OK, "1"), (OK, "12"), (OK, "123"), (OK, "1234"), (OK, "12345"),
                         (OK, "123456"), (OK, "1234567"), (OK, "1.23457e+06")]
               buffer := "", memory := 1234567, sel_op := EVAL, status := OK } ∧
    scan_Lf '.' "1.23457e+06".toList = some 1234570 := by
  decide!

/-- C35 (amended): in an engine reachable from the initial state, with status ok and no pending
operation, evaluate returns ok and the memory becomes the `long double` `v` nearest to the
decimal number `d` that the buffer text denotes. When `v` converted to `double` is not beyond
the largest `double`, the displayed text is the `%g` text of that `double` (stated for a
`double` that is not zero, whose sign the text shows), so the decimal number that the display
denotes is the `double` rounded to six significant digits, and `sscanf` reads the display as
the `long double` nearest to it. When the typed number `d` has at most six significant digits
(it is `k * 10 ^ j` or its negation for a natural number `k` below `10 ^ 6`) and its magnitude
is between `1e-300` and `1e300`, the display denotes `d` and `sscanf` reads it as the memory:
the display round-trips. With more digits it need not: `123456` is displayed as `123456`,
which is the memory; `1234567` is displayed as `1.23457e+06`, which is read as 1234570; and
`1.000005`, whose `long double` is above that decimal number, is displayed as `1.00001`. -/
theorem C35_display_is_g_text (fuel : Nat) (heap : List Char) (dp : Char) (eng : engine_t)
    (hheap : heap.length = BUFFER_SIZE + 1) (hsep : valid_sep dp)
    (h : reachable heap dp eng) (hst : eng.status = OK) (hsel : eng.sel_op = NONE) :
    (∃ d v r e,
      scan_decimal eng.dp_sep (trim_point eng.dp_sep (display_rule eng.text)) = some d ∧
      v = round_ld d ∧
      caleng_evaluate fuel eng = Except.ok (r, e) ∧ r.rtn_code = OK ∧ e.memory = v ∧
      (|round_double v| ≤ DBL_MAX →
        (round_double v ≠ 0 → r.text = fmt_g eng.dp_sep (round_double v)) ∧
        scan_decimal eng.dp_sep r.text = some (round_sig6 (round_double e.memory)) ∧
        scan_Lf eng.dp_sep r.text = some (round_ld (round_sig6 (round_double e.memory)))) ∧
      (∀ (k : Nat) (j : Int), k < 10 ^ 6 → |d| = (k : ℚ) * pow10 j → pow10 (-300) ≤ |d| →
        |d| ≤ pow10 300 →
        scan_decimal eng.dp_sep r.text = some d ∧
        scan_Lf eng.dp_sep r.text = some e.memory)) ∧
    run_view 0 fresh [dg '1', dg '2', dg '3', dg '4', dg '5', dg '6', gesture.evaluate]
      = some { shown := [(OK, "1"), (OK, "12"), (OK, "123"), (OK, "1234"), (OK, "12345"),
                         (OK, "123456"), (OK, "123456")]
               buffer := "", memory := 123456, sel_op := EVAL, status := OK } ∧
    (fmt_g '.' (round_double 1234567) = "1.23457e+06".toList ∧
      scan_decimal '.' "1.23457e+06".toList = some 1234570 ∧
      round_sig6 (round_double 1234567) = 1234570) ∧
    run_view 0 fresh [dg '1', gesture.key edit_key.decimal_point, dg '0', dg '0', dg '0',
        dg '0', dg '0', dg '5', gesture.evaluate]
      = some { shown := [(OK, "1"), (OK, "1."), (OK, "1.0"), (OK, "1.00"), (OK, "1.000"),
                         (OK, "1.0000"), (OK, "1.00000"), (OK, "1.000005"), (OK, "1.00001")]
               buffer := "", memory := 4611709076857480041 / 2 ^ 62, sel_op := EVAL,
               status := OK } := by
  refine ⟨?_, by decide!, by decide!, by decide!⟩
  obtain ⟨v, p, hp, hv⟩ := reachable_parse hheap hsep h
  have hinv := reachable_buffer_inv hheap hsep h
  have hvs : valid_sep eng.dp_sep := hinv.2.2.2.1
  have hdp : eng.dp_sep ≠ NUL := hvs.1
  have hf := process_input_buffer_frame hp
  obtain ⟨d, hd, hvd⟩ : ∃ d,
      scan_decimal eng.dp_sep (trim_point eng.dp_sep (display_rule eng.text)) = some d ∧
      v = round_ld d := by
    unfold scan_Lf at hv
    cases hd : scan_decimal eng.dp_sep (trim_point eng.dp_sep (display_rule eng.text)) with
    | none => rw [hd] at hv; cases hv
    | some d =>
      rw [hd] at hv
      exact ⟨d, rfl, (Option.some.inj hv).symm⟩
  have htext : |round_double v| ≤ DBL_MAX →
      cstr (caleng_get_memory_string { p with memory := v } result_init.to_display)
      = fmt_g eng.dp_sep (round_double v) := by
    intro hle
    rw [memory_string_text _ _ (by rw [show ({ p with memory := v } : engine_t).dp_sep
      = p.dp_sep from rfl, hf.2.2.2.2.2.1]; exact hdp)]
    show fmt_double p.dp_sep v = _
    rw [hf.2.2.2.2.2.1, fmt_double_of_le _ hle]
  have hscan : |round_double v| ≤ DBL_MAX → scan_decimal eng.dp_sep
      (cstr (caleng_get_memory_string { p with memory := v } result_init.to_display))
      = some (round_sig6 (round_double v)) := by
    intro hle
    rw [htext hle]
    exact scan_fmt_g hvs _
  have hscanL : |round_double v| ≤ DBL_MAX → scan_Lf eng.dp_sep
      (cstr (caleng_get_memory_string { p with memory := v } result_init.to_display))
      = some (round_ld (round_sig6 (round_double v))) := by
    intro hle
    unfold scan_Lf
    rw [hscan hle]
  refine ⟨d, v,
    { result_init with
      to_display := caleng_get_memory_string { p with memory := v } result_init.to_display },
    { p with memory := v, sel_op := EVAL }, hd, hvd, ?_, rfl, rfl,
    fun hle => ⟨fun _ => htext hle, hscan hle, hscanL hle⟩, ?_⟩
  · unfold caleng_evaluate
    rw [if_neg (fun hne => hne hst), if_pos (Or.inl hsel), if_pos hsel, hp]
  · intro k j hk hq hmin hmax
    have hle : |round_double v| ≤ DBL_MAX := by
      rw [hvd]
      exact round_double_ld_le hmin hmax
    have e6 : round_sig6 (round_double v) = d := by
      rw [hvd]
      exact round_sig6_typed d k j hk hq hmin
    have h1 := hscan hle
    have h2 := hscanL hle
    rw [e6] at h1 h2
    rw [← hvd] at h2
    exact ⟨h1, h2⟩

/-- Witness of C35 at the engine after `1234567` is typed: evaluate displays `1.23457e+06`. -/
theorem C35_display_is_g_text_witness :
    (zero_heap.length = BUFFER_SIZE + 1 ∧ valid_sep '.' ∧ reachable zero_heap '.' seven_digits ∧
      seven_digits.status = OK ∧ seven_digits.sel_op = NONE) ∧
    (seven_digits.text = "1234567".toList ∧
      fmt_g '.' (round_double (round_ld 1234567)) = "1.23457e+06".toList) ∧
    (∃ d v r e,
      scan_decimal seven_digits.dp_sep
        (trim_point seven_digits.dp_sep (display_rule seven_digits.text)) = some d ∧
      v = round_ld d ∧
      caleng_evaluate 0 seven_digits = Except.ok (r, e) ∧ r.rtn_code = OK ∧ e.memory = v ∧
      (|round_double v| ≤ DBL_MAX →
        (round_double v ≠ 0 → r.text = fmt_g seven_digits.dp_sep (round_double v)) ∧
        scan_decimal seven_digits.dp_sep r.text = some (round_sig6 (round_double e.memory)) ∧
        scan_Lf seven_digits.dp_sep r.text
          = some (round_ld (round_sig6 (round_double e.memory)))) ∧
      (∀ (k : Nat) (j : Int), k < 10 ^ 6 → |d| = (k : ℚ) * pow10 j → pow10 (-300) ≤ |d| →
        |d| ≤ pow10 300 →
        scan_decimal seven_digits.dp_sep r.text = some d ∧
        scan_Lf seven_digits.dp_sep r.text = some e.memory)) :=
  ⟨⟨by decide, by decide, reachable_state_after _ (by decide), by decide!, by decide!⟩,
    ⟨by decide!, by decide!⟩,
    (C35_display_is_g_text 0 zero_heap '.' seven_digits (by decide) (by decide)
      (reachable_state_after _ (by decide)) (by decide!) (by decide!)).1⟩

/-- C36 (the defect): the Newton iteration of `root` need not end. For the base `8e32` (the
`long double` read from that text) and the index 3, which the validation of the engine
admits, the loop reaches after 128 iterations a value from which two further iterations lead
back to it, with steps of `2 ^ -26`, which is more than `1e-8`: the values of `num`
alternate between two `long double` numbers that are `2 ^ -26` apart, so `root` produces no
result for any amount of fuel, and evaluate after `8e32 root 3` produces none either. With the
base 0 the function returns 0 without an iteration. -/
theorem C36_root_does_not_terminate :
    eight_e32 = 11368683772161602974 * 2 ^ 46 ∧
    root_run eight_e32 3 128 (round_ld (eight_e32 / 3), 1)
      = some (12459670151153544293 / 2 ^ 27, 1 / 2 ^ 26) ∧
    root_run eight_e32 3 2 (12459670151153544293 / 2 ^ 27, 1 / 2 ^ 26)
      = some (12459670151153544293 / 2 ^ 27, 1 / 2 ^ 26) ∧
    (∀ fuel, root fuel eight_e32 3 = Except.error fault.out_of_fuel) ∧
    (eight_e32_root_three.status = OK ∧ eight_e32_root_three.sel_op = ROOT ∧
      eight_e32_root_three.memory = eight_e32 ∧ eight_e32_root_three.text = ['3'] ∧
      ∀ fuel, caleng_evaluate fuel eight_e32_root_three = Except.error fault.out_of_fuel) ∧
    (∀ fuel y, root fuel 0 y = Except.ok 0) := by
  have hk : root_run eight_e32 3 128 (round_ld (eight_e32 / 3), 1)
      = some (12459670151153544293 / 2 ^ 27, 1 / 2 ^ 26) := root_eight_e32_run
  have hc : root_run eight_e32 3 2 (12459670151153544293 / 2 ^ 27, 1 / 2 ^ 26)
      = some (12459670151153544293 / 2 ^ 27, 1 / 2 ^ 26) := by decide!
  have hroot : ∀ fuel, root fuel eight_e32 3 = Except.error fault.out_of_fuel := by
    intro fuel
    unfold root
    rw [if_neg (by decide!)]
    exact root_loop_never_ends eight_e32 3 (round_ld (eight_e32 / ((3 : Nat) : ℚ)), 1) _ 128 2
      (by decide) hk hc fuel
  refine ⟨by decide!, hk, hc, hroot, ⟨by decide!, by decide!, by decide!, by decide!, ?_⟩, ?_⟩
  · intro fuel
    have hp : caleng_process_input_buffer eight_e32_root_three
        = Except.ok (3, consumed eight_e32_root_three) := by decide!
    have hm : (consumed eight_e32_root_three).memory = eight_e32 := by decide!
    have hs : (consumed eight_e32_root_three).sel_op = ROOT := by decide!
    have h3 : to_long 3 = 3 := by decide!
    have hn : ¬ eight_e32 < 0 := by decide!
    have h33 : Int.toNat 3 = 3 := rfl
    have hb : caleng_eval_bi_op fuel (consumed eight_e32_root_three) 3
        = Except.error fault.out_of_fuel := by
      unfold caleng_eval_bi_op
      rw [hs, hm, h3, h33, hroot fuel]
      simp [ADD, SUB, MUL, DIV, POW, ROOT, hn]
    unfold caleng_evaluate
    rw [if_neg (by decide!), if_neg (by decide!), if_neg (by decide!), hp]
    simp only [hb]
  · intro fuel y
    unfold root
    rw [if_pos rfl]

/-- C37: in every engine reachable from the initial state by public operations, whatever the
operation identifiers passed to them, a just-evaluated pending operation comes with an empty
buffer: the first byte of the buffer is the terminator. -/
theorem C37_evaluated_means_empty (heap : List Char) (dp : Char) (eng : engine_t)
    (h : reachable heap dp eng) (hev : eng.sel_op = EVAL) :
    eng.text = [] ∧ char_at eng.input_buffer 0 = NUL := by
  have ht := reachable_eval_inv h hev
  exact ⟨ht, (char_at_zero_eq_NUL_iff _).2 ht⟩

/-- Witness of C37 at the engine after `5 =`. -/
theorem C37_evaluated_means_empty_witness :
    (reachable zero_heap '.' five_evaluated ∧ five_evaluated.sel_op = EVAL) ∧
    (five_evaluated.text = [] ∧ char_at five_evaluated.input_buffer 0 = NUL) :=
  ⟨⟨reachable_state_after _ (by decide), by decide!⟩,
    C37_evaluated_means_empty zero_heap '.' five_evaluated
      (reachable_state_after _ (by decide)) (by decide!)⟩

/-- C38: in every engine reachable from the initial state (a block of 101 bytes, the separator
of a locale, the default limits 9 and 2) by public operations, the buffer text has at most 15
characters and the array has 101 bytes, so the indices up to two places after the text (its
terminator, an appended character and the terminator after it) are below 101; the text that
display formatting makes of it has at most 16 characters. -/
theorem C38_text_within_capacity (heap : List Char) (dp : Char) (eng : engine_t)
    (hheap : heap.length = BUFFER_SIZE + 1) (hsep : valid_sep dp)
    (h : reachable heap dp eng) :
    eng.text.length ≤ 15 ∧ eng.input_buffer.length = 101 ∧
    (∀ i, i ≤ eng.text.length + 2 → i < eng.input_buffer.length) ∧
    (formatted eng.text).length ≤ 16 ∧ (formatted eng.text).length + 1 < BUFFER_SIZE + 1 := by
  obtain ⟨i1, _, _, _, sh, hok, ht⟩ := reachable_buffer_inv hheap hsep h
  have hl := render_length_le eng.dp_sep hok
  rw [← ht] at hl
  have hf := formatted_length_le eng.text
  have hb : BUFFER_SIZE = 100 := rfl
  rw [hb] at i1 ⊢
  refine ⟨hl, i1, ?_, by omega, by omega⟩
  intro i hi
  omega

/-- Witness of C38 at the engine after `-775.1e-40` is typed: the text has 10 characters. -/
theorem C38_text_within_capacity_witness :
    (zero_heap.length = BUFFER_SIZE + 1 ∧ valid_sep '.' ∧
      reachable zero_heap '.' signed_exponent) ∧
    signed_exponent.text.length = 10 ∧
    (signed_exponent.text.length ≤ 15 ∧ signed_exponent.input_buffer.length = 101 ∧
    (∀ i, i ≤ signed_exponent.text.length + 2 → i < signed_exponent.input_buffer.length) ∧
    (formatted signed_exponent.text).length ≤ 16 ∧
    (formatted signed_exponent.text).length + 1 < BUFFER_SIZE + 1) :=
  ⟨⟨by decide, by decide, reachable_state_after _ (by decide)⟩, by decide!,
    C38_text_within_capacity zero_heap '.' signed_exponent (by decide) (by decide)
      (reachable_state_after _ (by decide))⟩

/-- C39: for insert-digit, insert-decimal-point, negate and backspace, on two engines with
status ok that agree on every field and on the buffer text (the arrays have 101 bytes and may
differ after the terminator, the text leaves three bytes free, the separator is not NUL and a
digit key carries a digit): the call returns the same code and the same displayed text on both,
and the engines it leaves agree again on every field and on the buffer text. -/
theorem C39_stale_bytes_ignored (e1 e2 : engine_t) (k : edit_key)
    (hk : k ≠ edit_key.exponent) (hsame : same_text e1 e2) (hst : e1.status = OK)
    (hl1 : e1.input_buffer.length = BUFFER_SIZE + 1)
    (hl2 : e2.input_buffer.length = BUFFER_SIZE + 1)
    (ht : e1.text.length + 3 ≤ BUFFER_SIZE) (hdp : e1.dp_sep ≠ NUL)
    (hleg : (gesture.key k).legal) :
    (edit e1 k).1.rtn_code = (edit e2 k).1.rtn_code ∧
    (edit e1 k).1.text = (edit e2 k).1.text ∧
    (edit e1 k).2.text = (edit e2 k).2.text ∧
    same_text (edit e1 k).2 (edit e2 k).2 := by
  obtain ⟨s1, s2, s3, s4, s5, s6, s7⟩ := hsame
  obtain ⟨a1, a2, a3, a4, a5, a6, a7, a8, a9⟩ := edit_by_text e1 k hk hst hl1 ht hdp hleg
  obtain ⟨b1, b2, b3, b4, b5, b6, b7, b8, b9⟩ := edit_by_text e2 k hk (s5 ▸ hst) hl2
    (s7 ▸ ht) (s6 ▸ hdp) hleg
  have htext : (edit e1 k).2.text = (edit e2 k).2.text := by
    rw [a7, b7, s3, s4, s6, s7]
  refine ⟨a8.trans b8.symm, ?_, htext, ?_, ?_, ?_, ?_, ?_, ?_, htext⟩
  · rw [a9, b9, htext]
  · rw [a1, b1, s1]
  · rw [a2, b2, s2]
  · rw [a3, b3, s3]
  · rw [a4, b4, s4]
  · rw [a5, b5, s5]
  · rw [a6, b6, s6]

/-- Witness of C39 at two engines whose text is `5`, one of them with a stale byte `3` after the
terminator: the digit `7` gives the text `57` on both. -/
theorem C39_stale_bytes_ignored_witness :
    (edit_key.digit '7' ≠ edit_key.exponent ∧ same_text five_typed five_over_stale ∧
      five_typed.status = OK ∧ five_typed.input_buffer.length = BUFFER_SIZE + 1 ∧
      five_over_stale.input_buffer.length = BUFFER_SIZE + 1 ∧
      five_typed.text.length + 3 ≤ BUFFER_SIZE ∧ five_typed.dp_sep ≠ NUL ∧
      (gesture.key (edit_key.digit '7')).legal) ∧
    (char_at five_typed.input_buffer 2 = NUL ∧ char_at five_over_stale.input_buffer 2 = '3') ∧
    (edit five_over_stale (edit_key.digit '7')).2.text = ['5', '7'] ∧
    ((edit five_typed (edit_key.digit '7')).1.rtn_code
      = (edit five_over_stale (edit_key.digit '7')).1.rtn_code ∧
    (edit five_typed (edit_key.digit '7')).1.text
      = (edit five_over_stale (edit_key.digit '7')).1.text ∧
    (edit five_typed (edit_key.digit '7')).2.text
      = (edit five_over_stale (edit_key.digit '7')).2.text ∧
    same_text (edit five_typed (edit_key.digit '7')).2
      (edit five_over_stale (edit_key.digit '7')).2) :=
  ⟨⟨by decide, ⟨by decide!, by decide!, by decide!, by decide!, by decide!, by decide!,
      by decide!⟩, by decide!, by decide!, by decide!, by decide!, by decide!, by decide⟩,
    ⟨by decide!, by decide!⟩, by decide!,
    C39_stale_bytes_ignored five_typed five_over_stale (edit_key.digit '7') (by decide)
      ⟨by decide!, by decide!, by decide!, by decide!, by decide!, by decide!, by decide!⟩
      (by decide!) (by decide!) (by decide!) (by decide!) (by decide!) (by decide)⟩

/-- C40: with status ok, when the unary factorial operation resolves an operand `v` (the memory
after the first part of the call, which returned ok) whose truncation toward zero `n` is between
0 and 20, the call returns ok, the status stays ok, the pending operation becomes just-evaluated
and memory becomes the factorial of `n`. -/
theorem C40_factorial_of_truncation (fuel : Nat) (eng e0 : engine_t) (r0 : result_t) (n : Int)
    (hst : eng.status = OK) (hres : un_op_resolve fuel eng = Except.ok (r0, e0))
    (hr0 : r0.rtn_code = OK) (hn : to_long e0.memory = n) (h0 : 0 ≤ n) (h20 : n ≤ 20) :
    ∃ r e, caleng_eval_un_op fuel eng FACT = Except.ok (r, e) ∧
      r.rtn_code = OK ∧ e.status = OK ∧ e.sel_op = EVAL ∧
      e.memory = ((Nat.factorial n.toNat : Nat) : ℚ) := by
  have heq := eval_un_op_eq fuel eng FACT hst
  rw [hres] at heq
  simp only at heq
  have hs0 : e0.status = OK := (un_op_resolve_status hres hst).trans hr0
  have hlo : -1 < e0.memory := by
    by_contra hc
    have := (to_long_neg_iff e0.memory).2 (Or.inl (not_lt.1 hc))
    omega
  have h63 : e0.memory < 2 ^ 63 := by
    by_contra hc
    have := (to_long_neg_iff e0.memory).2 (Or.inr (not_lt.1 hc))
    omega
  have hhi : e0.memory < 21 := by
    by_contra hc
    have := (@to_long_ge_iff e0.memory 21 (by decide)).2
      ⟨by exact_mod_cast not_lt.1 hc, h63⟩
    omega
  have f3 := (un_op_finish_fact r0 e0 hr0).2.2 hlo hhi
  refine ⟨(un_op_finish r0 e0 FACT).1, (un_op_finish r0 e0 FACT).2, heq, ?_⟩
  rw [f3, hn]
  exact ⟨rfl, hs0, rfl, rfl⟩

/-- Witness of C40 at the engine after `3.7` is typed: the operand, which is the `long double`
nearest to 3.7, is truncated to 3 and the memory becomes 6. -/
theorem C40_factorial_of_truncation_witness :
    (three_point_seven.status = OK ∧
      un_op_resolve 0 three_point_seven
        = Except.ok (result_init,
            { consumed three_point_seven with memory := round_ld (37 / 10) }) ∧
      result_init.rtn_code = OK ∧ to_long (round_ld (37 / 10)) = 3 ∧ (0 : Int) ≤ 3 ∧
      (3 : Int) ≤ 20) ∧
    (∃ r e, caleng_eval_un_op 0 three_point_seven FACT = Except.ok (r, e) ∧
      r.rtn_code = OK ∧ e.status = OK ∧ e.sel_op = EVAL ∧ e.memory = 6) ∧
    run_view 0 fresh [dg '3', gesture.key edit_key.decimal_point, dg '7', gesture.un_op FACT]
      = some { shown := [(OK, "3"), (OK, "3."), (OK, "3.7"), (OK, "6")]
               buffer := "", memory := 6, sel_op := EVAL, status := OK } :=
  ⟨⟨by decide!, by decide!, by decide, by decide!, by decide, by decide⟩,
    (by
      obtain ⟨r, e, h, k1, k2, k3, k4⟩ := C40_factorial_of_truncation 0 three_point_seven
        { consumed three_point_seven with memory := round_ld (37 / 10) } result_init 3 (by decide!)
        (by decide!) (by decide) (by decide!) (by decide) (by decide)
      exact ⟨r, e, h, k1, k2, k3, by rw [k4]; decide!⟩),
    by decide!⟩

end STWCalc
